import Mathlib

set_option autoImplicit false

/-!
Verification of bitvoting: block store, transaction verification, miner and
threshold Paillier.

A shallow embedding of the consensus-and-cryptography engine of `bitvoting`
(`src/bitvoting`), followed by theorems about it.

Conventions of the embedding

* GMP integers (`mpz_t`) are `Int`; C `int` fields that only ever hold counts
  (`decryptServers`, `threshold`) are `Nat`.
* A GMP call that raises a division-by-zero error, and a read past the end of
  a C array, make the enclosing function return `none`.
* `uint256`/`uint160` values are `Nat`.
* SHA-256d, ECDSA and the boost archive codec are external primitives and are
  parameters of the model.
-/

namespace Bitvoting

/-! ## GMP primitives used by `paillier/paillier.cpp` -/

/-- Models `mpz_mod(r, a, n)`: the non-negative remainder of `a` modulo `|n|`; GMP
raises a division by zero for `n = 0`, which is an error. -/
def mpz_mod (a n : Int) : Option Int :=
  if n = 0 then none else some (a % n)

/-- Models `mpz_invert(r, a, n)`: the inverse of `a` modulo `n` in `[0, |n|)`, or `none`
when `a` has no inverse (the C function then returns 0). -/
def mpz_invert (a n : Int) : Option Int :=
  if Int.gcd a n = 1 then some (Int.gcdA a n % n) else none

/-- Models `mpz_powm(r, base, exp, mod)`: `base ^ exp` modulo `|mod|`; a negative
exponent uses the inverse of `base`, and is an error when there is none; GMP
raises a division by zero for `mod = 0`, which is an error too. -/
def mpz_powm (base exp mod : Int) : Option Int :=
  if mod = 0 then none
  else if 0 ≤ exp then some (base ^ exp.toNat % mod)
  else (mpz_invert base mod).map (fun inv => inv ^ (-exp).toNat % mod)

/-- Models `mpz_tdiv_q(q, a, d)`: quotient rounded towards zero; `d = 0` is an error. -/
def mpz_tdiv_q (a d : Int) : Option Int :=
  if d = 0 then none else some (Int.tdiv a d)

/-- Models `mpz_div(q, a, d)` (an alias of `mpz_fdiv_q`): quotient rounded towards
minus infinity; `d = 0` is an error. -/
def mpz_div (a d : Int) : Option Int :=
  if d = 0 then none else some (Int.fdiv a d)

/-! ## Paillier data types (`paillier/paillier.h`) -/

/-- Verification key of one decryption server. -/
structure paillier_verificationkey_t where
  id : Int
  v : Int
  deriving DecidableEq, Repr, Inhabited

/-- Public key; `n_squared`, `n_plusone`, `delta` and
`combineSharesConstant` are cached values. -/
structure paillier_pubkey_t where
  bits : Nat
  decryptServers : Nat
  threshold : Nat
  n : Int
  n_squared : Int
  n_plusone : Int
  delta : Int
  combineSharesConstant : Int
  v : Int
  verificationKeys : List paillier_verificationkey_t
  deriving DecidableEq, Repr, Inhabited

/-- Partial key of the decryption server `id`. -/
structure paillier_partialkey_t where
  id : Int
  s : Int
  deriving DecidableEq, Repr, Inhabited

/-- Plain ciphertext. -/
structure paillier_ciphertext_pure_t where
  c : Int
  deriving DecidableEq, Repr, Inhabited

/-- Ciphertext with the proof that the plaintext is one of two values. -/
structure paillier_ciphertext_proof_t where
  c : Int
  e : Int
  e1 : Int
  v1 : Int
  e2 : Int
  v2 : Int
  deriving DecidableEq, Repr, Inhabited

/-- Partial decryption with its proof of correctness. -/
structure paillier_partialdecryption_proof_t where
  id : Int
  decryption : Int
  c4 : Int
  ci2 : Int
  e : Int
  z : Int
  deriving DecidableEq, Repr, Inhabited

/-! ## Partial decryption and combination (`paillier/paillier.cpp`) -/

/-- Models `paillier_dec`: `c_i = c^(2*delta*s_i) mod n^2`, stored with the id of the
share into `res` (a fresh record when the caller passes `NULL`). -/
def paillier_dec (res : Option paillier_partialdecryption_proof_t)
    (pub : paillier_pubkey_t) (prv : paillier_partialkey_t)
    (ct : paillier_ciphertext_pure_t) : Option paillier_partialdecryption_proof_t :=
  let res := res.getD default
  let exp := pub.delta * prv.s
  let exp := exp * 2
  (mpz_powm ct.c exp pub.n_squared).map
    (fun d => { res with id := prv.id, decryption := d })

/-- Body of the inner loop of `paillier_combining` for the indices `i`, `j`. -/
def paillier_combining_step (partDecr : List paillier_partialdecryption_proof_t)
    (i : Nat) (lambda : Int) (j : Nat) : Option Int :=
  if j ≠ i then do
    let pj ← partDecr[j]?
    let lambda := lambda * (-pj.id)
    let pi ← partDecr[i]?
    let divisor := pi.id - pj.id
    mpz_tdiv_q lambda divisor
  else some lambda

/-- The inner loop of `paillier_combining`: starting from `delta`, for every
`j != i` below the threshold multiply by `-id_j` and divide by `id_i - id_j`. -/
def paillier_combining_lambda (pub : paillier_pubkey_t)
    (partDecr : List paillier_partialdecryption_proof_t) (i : Nat) : Option Int :=
  (List.range pub.threshold).foldlM (paillier_combining_step partDecr i) pub.delta

/-- Body of the outer loop of `paillier_combining`. -/
def paillier_combining_factor (pub : paillier_pubkey_t)
    (partDecr : List paillier_partialdecryption_proof_t)
    (cprime : Int) (i : Nat) : Option Int := do
  let lambda ← paillier_combining_lambda pub partDecr i
  let exp := lambda * 2
  let pi ← partDecr[i]?
  let factor ← mpz_powm pi.decryption exp pub.n_squared
  let cprime := cprime * factor
  mpz_mod cprime pub.n_squared

/-- Models `paillier_combining`: the plaintext recovered from the first `threshold`
partial decryptions of `partDecr`. -/
def paillier_combining (pub : paillier_pubkey_t)
    (partDecr : List paillier_partialdecryption_proof_t) : Option Int := do
  let cprime ← (List.range pub.threshold).foldlM (paillier_combining_factor pub partDecr) 1
  let L := cprime - 1
  let L ← mpz_div L pub.n
  let m := L * pub.combineSharesConstant
  mpz_mod m pub.n

/-- Value at `X` of the polynomial with coefficient list `a` (constant term
first): the share polynomial `f` of key generation. -/
def polyEval (a : List Int) (X : Int) : Int :=
  match a with
  | [] => 0
  | a0 :: rest => a0 + X * polyEval rest X


/-- Server id stored at position `j` of an array of partial decryptions. -/
def idAt (partDecr : List paillier_partialdecryption_proof_t) (j : ℕ) : ℤ :=
  ((partDecr[j]?).getD default).id


/-! ## Proof verification (`paillier/paillier.cpp`)

`hashMultiple` (SHA-256d of the concatenated base-16 renderings) is the
parameter `H`; its `uint256` result is read back as an integer. -/

/-- Models `hashMultiple` followed by `mpz_set_str(e, hash.GetHex(), 16)`. -/
def hashToMpz (H : List Int → Nat) (vec : List Int) : Int := ((H vec % 2 ^ 256 : Nat) : Int)

/-- Models `paillier_verify_enc(pub, encrProof, pt1, pt2)`. -/
def paillier_verify_enc_pt (H : List Int → Nat) (pub : paillier_pubkey_t)
    (encrProof : paillier_ciphertext_proof_t) (pt1 pt2 : Int) : Option Bool := do
  -- compute u1 = v1^n * g^(pt1*e1) * c^(-e1) mod n^2
  let u1 ← mpz_powm encrProof.v1 pub.n pub.n_squared
  let gPower1 := pt1 * encrProof.e1
  let gPower1 ← mpz_powm pub.n_plusone gPower1 pub.n_squared
  let cPower1 := 0 - encrProof.e1
  let cPower1 ← mpz_powm encrProof.c cPower1 pub.n_squared
  let u1 := u1 * gPower1
  let u1 := u1 * cPower1
  let u1 ← mpz_mod u1 pub.n_squared
  -- compute u2 = v2^n * g^(pt2*e2) * c^(-e2) mod n^2
  let u2 ← mpz_powm encrProof.v2 pub.n pub.n_squared
  let gPower2 := pt2 * encrProof.e2
  let gPower2 ← mpz_powm pub.n_plusone gPower2 pub.n_squared
  let cPower2 := 0 - encrProof.e2
  let cPower2 ← mpz_powm encrProof.c cPower2 pub.n_squared
  let u2 := u2 * gPower2
  let u2 := u2 * cPower2
  let u2 ← mpz_mod u2 pub.n_squared
  -- rebuild hash: s = H(u1,u2,c,pt,pt2)
  let e := hashToMpz H [u1, u2, encrProof.c, pt1, pt2]
  -- verify hash
  let result := decide (e = encrProof.e)
  -- verify s
  let temp := encrProof.e1 + encrProof.e2
  let temp ← mpz_mod temp pub.n
  let e ← mpz_mod e pub.n
  some (result && decide (e = temp))

/-- Models `paillier_verify_enc(pub, encrProof)`: the plaintext set is `{0, 1}`. -/
def paillier_verify_enc (H : List Int → Nat) (pub : paillier_pubkey_t)
    (encrProof : paillier_ciphertext_proof_t) : Option Bool :=
  paillier_verify_enc_pt H pub encrProof 0 1

/-- Models `paillier_verify_decryption`. -/
def paillier_verify_decryption (H : List Int → Nat) (pub : paillier_pubkey_t)
    (dec_proof : paillier_partialdecryption_proof_t) : Option Bool := do
  -- tries to compute the original a = c^4z * ci^(2*-e)
  let a ← mpz_powm dec_proof.c4 dec_proof.z pub.n_squared
  let temp := 0 - dec_proof.e
  let temp ← mpz_powm dec_proof.ci2 temp pub.n_squared
  let a := a * temp
  let a ← mpz_mod a pub.n_squared
  -- tries to compute the original b = v^z * vi^(-e)
  let b ← mpz_powm pub.v dec_proof.z pub.n_squared
  let temp := 0 - dec_proof.e
  let vi ← if dec_proof.id - 1 < 0 then none
    else pub.verificationKeys[(dec_proof.id - 1).toNat]?
  let temp ← mpz_powm vi.v temp pub.n_squared
  let b := b * temp
  let b ← mpz_mod b pub.n_squared
  -- tries to rehash the value H(a, b, c^4, ci2)
  let e := hashToMpz H [a, b, dec_proof.c4, dec_proof.ci2]
  -- see if the original hash is equal to the guessed hash
  some (decide (e = dec_proof.e))

/-! ## Keys (`bitcoin/key.h`) -/

/-- Role carried by every signing key. -/
inductive Role where
  | KEY_UNKNOWN | KEY_TRUSTEE | KEY_ELECTION | KEY_VOTE | KEY_MINING
  deriving DecidableEq, Repr, Inhabited

/-- Encoded public key with its role; `operator==` compares both fields. -/
structure CPubKey where
  vch : List Nat
  role : Role
  deriving DecidableEq, Repr, Inhabited

/-- Private key with its role. -/
structure CKey where
  vch : List Nat
  fValid : Bool
  role : Role
  deriving DecidableEq, Repr, Inhabited

/-- Models `SignKeyPair`: `first` is the private key, `second` the public key. -/
abbrev SignKeyPair := CKey × CPubKey

/-! ## Elections, ballots, transactions and blocks -/

/-- Models `Question` of `election.h`. -/
structure Question where
  id : Nat
  question : String
  answers : List String
  deriving DecidableEq, Repr, Inhabited

/-- Models `EncryptedBallot`: `answer` is a pointer and may be `NULL`. -/
structure EncryptedBallot where
  questionID : Nat
  answer : Option paillier_ciphertext_proof_t
  deriving DecidableEq, Repr, Inhabited

/-- Models `TalliedBallots`: `answers` is a pointer and may be `NULL`. -/
structure TalliedBallots where
  questionID : Nat
  answers : Option paillier_partialdecryption_proof_t
  deriving DecidableEq, Repr, Inhabited

/-- Models `Election` of `election.h`; the sets of key ids are listed in iteration
order. -/
structure Election where
  name : String
  description : String
  questions : List Question
  probableEndingTime : Int
  encPubKey : Option paillier_pubkey_t
  voters : List Nat
  trustees : List Nat
  deriving DecidableEq, Repr, Inhabited

/-- Models `TxType` of `transaction.h`. -/
inductive TxType where
  | TX_NONE | TX_VOTE | TX_ELECTION | TX_TALLY | TX_TRUSTEE_TALLY
  deriving DecidableEq, Repr, Inhabited

/-- Models `VerifyResult` of `transaction.h`. -/
inductive VerifyResult where
  | VR_OK | VR_SIGN_ERROR | VR_TX_MISSING | VR_USER_REJECTED | VR_PK_MISMATCH
  | VR_LAST_VOTES | VR_BALLOT_ERROR | VR_ELEC_ERROR
  deriving DecidableEq, Repr, Inhabited

/-- The fields the four transaction classes add to `Transaction`. A set member
(`std::set`) is the list of its elements in iteration order. -/
inductive TxBody where
  | vote (election : Nat) (ballots : List EncryptedBallot)
  | election (election : Election)
  | tally (election : Nat) (lastBlock : Nat) (endElection : Bool)
  | trusteeTally (tally : Nat) (partialDecryption : List TalliedBallots)
  deriving DecidableEq, Repr, Inhabited

/-- The type the constructor of each class passes to `Transaction`
(`TxVote() : Transaction(TxType::TX_VOTE)` and so on). -/
def TxBody.constructorType : TxBody → TxType
  | .vote _ _ => .TX_VOTE
  | .election _ => .TX_ELECTION
  | .tally _ _ _ => .TX_TALLY
  | .trusteeTally _ _ => .TX_TRUSTEE_TALLY

/-- A transaction: the `Signable` fields, the private member `type` of
`Transaction` and the fields of its class (`body`; the constructor of `body` is
the dynamic class of the object). `Transaction::serialize` archives `type` as a
field of its own, so an object read from the network carries the tag of the
archive, whatever its class. -/
structure Transaction where
  verificationKey : CPubKey
  signature : List Nat
  type : TxType
  body : TxBody
  deriving DecidableEq, Repr, Inhabited

/-- Models `Transaction::getType`: `return this->type`. -/
def Transaction.getType (t : Transaction) : TxType := t.type

/-- Models `BlockHeader` of `block.h`; `nonce` is an `unsigned int`. -/
structure BlockHeader where
  version : Int
  hashPrevBlock : Nat
  nonce : Nat
  time : Int
  deriving DecidableEq, Repr, Inhabited

/-- Models `Block`: the `Signable` fields, the header and the transactions in the
iteration order of the `std::set`. -/
structure Block where
  verificationKey : CPubKey
  signature : List Nat
  header : BlockHeader
  transactions : List Transaction
  deriving DecidableEq, Repr, Inhabited

/-- Models `Settings::CLIENT_VERSION`. -/
def CLIENT_VERSION : Int := 1000000 * 0 + 10000 * 0 + 100 * 1

/-- Models `new Block()`: the default header, an invalid key, no signature. -/
def Block.new : Block :=
  { verificationKey := ⟨[], .KEY_UNKNOWN⟩, signature := [],
    header := ⟨CLIENT_VERSION, 0, 0, 0⟩, transactions := [] }

/-- External primitives. `hashTx` and `hashBlock` are SHA-256d of the text
archive that `Signable::getHash` builds with the `hashing` flag set, so they
receive the verification key and the payload (for a transaction the member
`type` and the fields of the class) but not the signature of the object
itself. `serialize`/`deserialize` are the boost binary archive of a
block pointer; `deserialize` reads one block from the front of a byte stream. -/
structure Primitives where
  Hash160 : List Nat → Nat
  hashTx : CPubKey → TxType → TxBody → Nat
  hashBlock : CPubKey → BlockHeader → List Transaction → Nat
  Verify : CPubKey → Nat → List Nat → Bool
  Sign : CKey → Nat → Bool × List Nat
  serialize : Block → List Nat
  deserialize : List Nat → Option Block

/-- Models `CPubKey::GetID`: hash of the encoded key, the role excluded. -/
def CPubKey.GetID (P : Primitives) (k : CPubKey) : Nat := P.Hash160 k.vch

/-- Models `Signable::getHash` on a transaction. -/
def Transaction.getHash (P : Primitives) (t : Transaction) : Nat :=
  P.hashTx t.verificationKey t.type t.body

/-- Models `Signable::getHash` on a block. -/
def Block.getHash (P : Primitives) (b : Block) : Nat :=
  P.hashBlock b.verificationKey b.header b.transactions

/-- Models `Signable::verifySignature` on a transaction. -/
def Transaction.verifySignature (P : Primitives) (t : Transaction) : Bool :=
  P.Verify t.verificationKey (t.getHash P) t.signature

/-- Models `Signable::sign` on a block: set the verification key, hash, then sign. -/
def Block.sign (P : Primitives) (b : Block) (keys : SignKeyPair) : Bool × Block :=
  let b := { b with verificationKey := keys.2 }
  let hash := b.getHash P
  let r := P.Sign keys.1 hash
  (r.1, { b with signature := r.2 })

/-! ## Block store (`database/blockchaindb.h`, `database/blockchaindb.cpp`) -/

/-- Models `BlockChainStatus`. -/
inductive BlockChainStatus where
  | BC_OK | BC_NOT_FOUND | BC_FILE_CORRUPT | BC_IS_EMPTY | BC_INVALID_BLOCK
  deriving DecidableEq, Repr, Inhabited

/-- Models `Locator`: block file id (`unsigned int`) and position in that file. -/
structure Locator where
  id : Nat
  blockPos : Nat
  deriving DecidableEq, Repr, Inhabited

/-- Models `BlockInfo`: locator of a block and hash of its predecessor. -/
structure BlockInfo where
  locator : Locator
  preHash : Nat
  deriving DecidableEq, Repr, Inhabited

/-- Models `Settings::CHAIN_BLOCK_FILE_SIZE`. -/
def CHAIN_BLOCK_FILE_SIZE : Nat := 1024 * 1024 * 8

/-- State of the block store: the members of `BlockChainDB`, the entries of the
index (`("bl", hash)`, `("l", hash)` and the two saved meta values) and the
block files by id. -/
structure BlockChainDB where
  genesisBlock : Nat
  latestBlock : Nat
  currentLocation : Locator
  blockInfos : Nat → Option BlockInfo
  locators : Nat → Option Locator
  savedLatestBlock : Nat
  savedCurrentLocation : Locator
  files : Nat → Option (List Nat)

/-- Models `BlockChainDB::saveMetaData`. -/
def BlockChainDB.saveMetaData (db : BlockChainDB) : BlockChainDB :=
  { db with savedLatestBlock := db.latestBlock, savedCurrentLocation := db.currentLocation }

/-- Models `BlockChainDB::saveBlockInfo`. -/
def BlockChainDB.saveBlockInfo (db : BlockChainDB) (bHash : Nat) (bInfo : BlockInfo) :
    BlockChainDB :=
  { db with blockInfos := Function.update db.blockInfos bHash (some bInfo) }

/-- Models `BlockChainDB::removeBlockInfo`. -/
def BlockChainDB.removeBlockInfo (db : BlockChainDB) (bHash : Nat) : BlockChainDB :=
  { db with blockInfos := Function.update db.blockInfos bHash none }

/-- Models `BlockChainDB::saveLocator`. -/
def BlockChainDB.saveLocator (db : BlockChainDB) (hash : Nat) (loc : Locator) : BlockChainDB :=
  { db with locators := Function.update db.locators hash (some loc) }

/-- Models `BlockChainDB::removeLocator`. -/
def BlockChainDB.removeLocator (db : BlockChainDB) (hash : Nat) : BlockChainDB :=
  { db with locators := Function.update db.locators hash none }

/-- Models `BlockChainDB::getLatestBlockHash`. -/
def BlockChainDB.getLatestBlockHash (db : BlockChainDB) : Nat := db.latestBlock

/-- Models `BlockChainDB::containsBlock`. -/
def BlockChainDB.containsBlock (db : BlockChainDB) (bHash : Nat) : Bool :=
  (db.blockInfos bHash).isSome

/-- Models `BlockChainDB::containsTransaction`. -/
def BlockChainDB.containsTransaction (db : BlockChainDB) (tHash : Nat) : Bool :=
  (db.locators tHash).isSome

/-- Models `BlockChainDB::addBlock`. Opening the block file and writing the archive are
taken to succeed; the remaining `BC_FILE_CORRUPT` exit is the position check. -/
def BlockChainDB.addBlock (P : Primitives) (db : BlockChainDB) (block : Block) :
    BlockChainStatus × BlockChainDB :=
  -- check if this block is in order
  if db.latestBlock ≠ block.header.hashPrevBlock then (.BC_INVALID_BLOCK, db)
  else
    let blockfile := db.currentLocation.id
    -- check if new file has to be generated
    let db := if (db.files blockfile).isNone then
        { db with files := Function.update db.files blockfile (some []),
                  currentLocation := { db.currentLocation with blockPos := 0 } }
      else db
    let content := (db.files blockfile).getD []
    -- get ending position in blockfile
    let position := content.length
    if position ≠ db.currentLocation.blockPos then (.BC_FILE_CORRUPT, db)
    else
      let bInfo : BlockInfo := ⟨db.currentLocation, block.header.hashPrevBlock⟩
      -- store meta information about block
      let hash := block.getHash P
      let db := db.saveBlockInfo hash bInfo
      let db := { db with latestBlock := hash }
      -- store meta information about each transaction
      let db := block.transactions.foldl
        (fun db transaction => db.saveLocator (transaction.getHash P) db.currentLocation) db
      -- save block to disk
      let content := content ++ P.serialize block
      let db := { db with files := Function.update db.files blockfile (some content) }
      -- get new current position
      let db := { db with currentLocation := { db.currentLocation with blockPos := content.length } }
      -- check if new blockfile should be started next time
      let db := if db.currentLocation.blockPos > CHAIN_BLOCK_FILE_SIZE then
          { db with currentLocation :=
              { db.currentLocation with id := (db.currentLocation.id + 1) % 2 ^ 32 } }
        else db
      (.BC_OK, db.saveMetaData)

/-- Models `BlockChainDB::getBlock(const Locator&, Block**)`. -/
def BlockChainDB.getBlockAt (P : Primitives) (db : BlockChainDB) (location : Locator) :
    BlockChainStatus × Option Block :=
  match db.files location.id with
  | none => (.BC_NOT_FOUND, none)
  | some content =>
    match P.deserialize (content.drop location.blockPos) with
    | none => (.BC_FILE_CORRUPT, none)
    | some block => (.BC_OK, some block)

/-- Models `BlockChainDB::getBlock(const uint256&, Block**)`. -/
def BlockChainDB.getBlock (P : Primitives) (db : BlockChainDB) (bHash : Nat) :
    BlockChainStatus × Option Block :=
  match db.blockInfos bHash with
  | none => (.BC_NOT_FOUND, none)
  | some blockInfo => db.getBlockAt P blockInfo.locator

/-- Models `BlockChainDB::getBlockByTransaction`. -/
def BlockChainDB.getBlockByTransaction (P : Primitives) (db : BlockChainDB) (tHash : Nat) :
    BlockChainStatus × Option Block :=
  match db.locators tHash with
  | none => (.BC_NOT_FOUND, none)
  | some location => db.getBlockAt P location

/-- Models `BlockChainDB::getLatestBlock`. -/
def BlockChainDB.getLatestBlock (P : Primitives) (db : BlockChainDB) :
    BlockChainStatus × Option Block :=
  if db.genesisBlock = db.latestBlock then (.BC_IS_EMPTY, none)
  else db.getBlock P db.latestBlock

/-- Models `BlockChainDB::getTransaction`. -/
def BlockChainDB.getTransaction (P : Primitives) (db : BlockChainDB) (tHash : Nat) :
    BlockChainStatus × Option Transaction :=
  match db.getBlockByTransaction P tHash with
  | (.BC_OK, some block) =>
    match block.transactions.find? (fun current => decide (tHash = current.getHash P)) with
    | some current => (.BC_OK, some current)
    | none => (.BC_NOT_FOUND, none)
  | (result, _) => (result, none)

/-- The `while (hash != start)` loop of `getAllBlocks`; `none` when the fuel
runs out before the loop ends. The list is `blocksOut`. -/
def BlockChainDB.getAllBlocksLoop (P : Primitives) (db : BlockChainDB) (start : Nat) :
    Nat → Nat → List Block → Option (BlockChainStatus × List Block)
  | 0, hash, blocksOut => if hash ≠ start then none else some (.BC_OK, blocksOut)
  | fuel + 1, hash, blocksOut =>
    if hash ≠ start then
      match db.getBlock P hash with
      | (.BC_OK, some block) =>
        db.getAllBlocksLoop P start fuel block.header.hashPrevBlock (block :: blocksOut)
      | (result, _) => some (result, blocksOut)
    else some (.BC_OK, blocksOut)

/-- Models `BlockChainDB::getAllBlocks(start, end, blocksOut)`. -/
def BlockChainDB.getAllBlocks (P : Primitives) (db : BlockChainDB) (fuel : Nat)
    (start «end» : Nat) : Option (BlockChainStatus × List Block) :=
  -- only get first block if not genesis block
  let startBlock : BlockChainStatus × Option Block :=
    if start ≠ db.genesisBlock then db.getBlock P start else (.BC_OK, none)
  match startBlock with
  | (.BC_OK, startBlock) =>
    -- go from back to front
    match db.getAllBlocksLoop P start fuel «end» [] with
    | some (.BC_OK, blocksOut) =>
      -- only add start block if not genesis block
      match startBlock with
      | some b => some (.BC_OK, b :: blocksOut)
      | none => some (.BC_OK, blocksOut)
    | other => other
  | (result, _) => some (result, [])

/-- The loop of `cutOffAfter` that removes the block files with an id above
`startId`, counting down from `i`. The flag is `false` when a file to remove is
missing; the loop stops there and keeps what it removed so far. -/
def BlockChainDB.removeBlockFiles (db : BlockChainDB) (startId : Nat) :
    Nat → Bool × BlockChainDB
  | 0 => (true, db)
  | i + 1 =>
    if i + 1 > startId then
      if (db.files (i + 1)).isSome then
        BlockChainDB.removeBlockFiles
          { db with files := Function.update db.files (i + 1) none } startId i
      else (false, db)
    else (true, db)

/-- The meta data loop of `cutOffAfter` for one block. -/
def BlockChainDB.removeBlockMeta (P : Primitives) (db : BlockChainDB) (block : Block) :
    BlockChainDB :=
  let db := block.transactions.foldl
    (fun db transaction => db.removeLocator (transaction.getHash P)) db
  db.removeBlockInfo (block.getHash P)

/-- Models `BlockChainDB::cutOffAfter`; `none` only when `getAllBlocks` runs out of
fuel. -/
def BlockChainDB.cutOffAfter (P : Primitives) (db : BlockChainDB) (fuel : Nat) (bHash : Nat) :
    Option (BlockChainStatus × BlockChainDB) :=
  -- nothing to do
  if bHash = db.latestBlock then some (.BC_OK, db)
  else
    -- get info for first block
    match db.blockInfos bHash with
    | none => some (.BC_NOT_FOUND, db)
    | some startInfo =>
      -- get all blocks that will be cut off
      match db.getAllBlocks P fuel bHash db.latestBlock with
      | none => none
      | some (.BC_OK, blocks) =>
        match blocks[1]? with
        | none => some (.BC_FILE_CORRUPT, db) -- `blocks[1]` out of bounds: undefined in C++
        | some second =>
          match db.blockInfos (second.getHash P) with
          | none => some (.BC_NOT_FOUND, db)
          | some secondInfo =>
            -- check if second block is inside the same file as first
            let truncate : Nat :=
              if secondInfo.locator.id = startInfo.locator.id
              then secondInfo.locator.blockPos % 2 ^ 32 else 2 ^ 32 - 1
            -- remove all meta data
            let db := (blocks.drop 1).foldl (fun db block => db.removeBlockMeta P block) db
            -- remove superfluous block files
            match db.removeBlockFiles startInfo.locator.id db.currentLocation.id with
            | (false, db) => some (.BC_FILE_CORRUPT, db)
            | (true, db) =>
              -- update current, last
              let db := { db with latestBlock := bHash, currentLocation := startInfo.locator }
              -- check if new blockfile should be started next time
              let db := if db.currentLocation.blockPos > CHAIN_BLOCK_FILE_SIZE then
                  { db with currentLocation :=
                      { db.currentLocation with id := (db.currentLocation.id + 1) % 2 ^ 32 } }
                else db
              -- save new meta data
              let db := db.saveMetaData
              if truncate = 2 ^ 32 - 1 then some (.BC_OK, db)
              else
                -- cutoff inside last file
                match db.files startInfo.locator.id with
                | none => some (.BC_FILE_CORRUPT, db)
                | some content =>
                  -- truncate current block file (buffer leftovers)
                  let buffer := content.take truncate
                    ++ List.replicate (truncate - content.length) 0
                  some (.BC_OK,
                    { db with files := Function.update db.files startInfo.locator.id (some buffer) })
      | some (result, _) => some (result, db)

/-! ## Local election records (`electionmanager.h`, `database/electiondb.cpp`) -/

/-- Models `Ballot` of `election.h`. -/
structure Ballot where
  questionID : Nat
  answer : Int
  deriving DecidableEq, Repr, Inhabited

/-- Models `ElectionManager`: the election transaction restored from the chain and the
serialized bookkeeping fields. -/
structure ElectionManager where
  transaction : Option Transaction
  ended : Bool
  votesRegistered : List Nat
  myVotes : List (Nat × Nat)
  tallies : List (Nat × List Nat)
  results : List (Nat × List Ballot)
  deriving Inhabited

/-- The local election store: the `ElectionManager` saved under the hash of an
election transaction, if this peer saved one. -/
abbrev ElectionDB := Nat → Option ElectionManager

/-- Models `ElectionDB::Get`: read the record, then restore its transaction from the
block chain. -/
def ElectionDB.Get (P : Primitives) (db : BlockChainDB) (edb : ElectionDB) (hash : Nat) :
    Option ElectionManager :=
  match edb hash with
  | none => none
  | some data => some { data with transaction := (db.getTransaction P hash).2 }

/-- The election held by the transaction of an `ElectionManager` (the C++ code
dereferences the pointers without a check). -/
def ElectionManager.election (em : ElectionManager) : Option Election :=
  match em.transaction with
  | some t => match t.body with
    | .election e => some e
    | _ => none
  | none => none

/-- Models `ElectionManager::isVoterEligible`. -/
def ElectionManager.isVoterEligible (P : Primitives) (em : ElectionManager) (key : CPubKey) :
    Bool :=
  let keyID := key.GetID P
  match em.election with
  | some e => e.voters.any (fun current => decide (keyID = current))
  | none => false

/-- Models `ElectionManager::isTrusteeEligible`. -/
def ElectionManager.isTrusteeEligible (P : Primitives) (em : ElectionManager) (key : CPubKey) :
    Bool :=
  let keyID := key.GetID P
  match em.election with
  | some e => e.trustees.any (fun current => decide (keyID = current))
  | none => false

/-! ## Transaction verification (`transactions/*.cpp`) -/

/-- Models `std::set::insert` on a set kept as a duplicate-free list. -/
def setInsert (x : Nat) (s : List Nat) : List Nat :=
  if x ∈ s then s else s ++ [x]

/-- The inner `BOOST_FOREACH` over the questions of the election: every
question with the id of the ballot is inserted into `checked`. -/
def checkQuestions (questions : List Question) (questionID : Nat) (checked : List Nat) :
    List Nat :=
  questions.foldl
    (fun checked question => if questionID ≠ question.id then checked
      else setInsert question.id checked) checked

/-- The ballot loop of `TxVote::verify`; `none` stands for the early
`return VR_BALLOT_ERROR`. -/
def checkVoteBallots (questions : List Question) :
    List EncryptedBallot → List Nat → Option (List Nat)
  | [], checked => some checked
  | ballot :: rest, checked =>
    if ballot.answer.isNone then none
    -- check for duplicate question ID
    else if ballot.questionID ∈ checked then none
    else checkVoteBallots questions rest (checkQuestions questions ballot.questionID checked)

/-- The ballot loop of `TxTrusteeTally::verify`. -/
def checkTalliedBallots (questions : List Question) :
    List TalliedBallots → List Nat → Option (List Nat)
  | [], checked => some checked
  | ballot :: rest, checked =>
    if ballot.answers.isNone then none
    else if ballot.questionID ∈ checked then none
    else checkTalliedBallots questions rest (checkQuestions questions ballot.questionID checked)

/-- Models `TxVote::verify` for the transaction `t` with fields `election`, `ballots`. -/
def TxVote.verify (P : Primitives) (db : BlockChainDB) (edb : ElectionDB)
    (t : Transaction) (election : Nat) (ballots : List EncryptedBallot) : VerifyResult :=
  if !t.verifySignature P then .VR_SIGN_ERROR
  else
    -- find referenced election
    match db.getTransaction P election with
    | (.BC_OK, some tx) =>
      match tx.body with
      | .election e =>
        -- check that all questions at most once
        match checkVoteBallots e.questions ballots [] with
        | none => .VR_BALLOT_ERROR
        | some checked =>
          -- check that no unknown questions were answered
          if ballots.length ≠ checked.length then .VR_BALLOT_ERROR
          else
            match ElectionDB.Get P db edb (tx.getHash P) with
            | none => .VR_USER_REJECTED
            | some em =>
              if em.isVoterEligible P t.verificationKey then .VR_OK else .VR_USER_REJECTED
      | _ => .VR_TX_MISSING
    | _ => .VR_TX_MISSING

/-- Models `TxElection::verify`. -/
def TxElection.verify (P : Primitives) (t : Transaction) (e : Election) : VerifyResult :=
  if !t.verifySignature P then .VR_SIGN_ERROR
  else
    let checkAttributes := e.encPubKey.isSome && decide (e.questions.length > 0) &&
      decide (e.trustees.length > 0) && decide (e.voters.length > 0)
    if checkAttributes then .VR_OK else .VR_ELEC_ERROR

/-- Models `TxTally::verify`. -/
def TxTally.verify (P : Primitives) (db : BlockChainDB)
    (t : Transaction) (election lastBlock : Nat) : VerifyResult :=
  if !t.verifySignature P then .VR_SIGN_ERROR
  else
    match db.getTransaction P election with
    | (.BC_OK, some tx) =>
      match tx.body with
      | .election _ =>
        -- find referenced last block
        match db.getBlock P lastBlock with
        | (.BC_OK, some lastVotesBlock) =>
          -- check if there is at least one TxVote in the lastBlock,
          -- which corresponds to the same election as this tally
          let valid := lastVotesBlock.transactions.any (fun t' =>
            if t'.getType ≠ TxType.TX_VOTE then false
            else
              -- only consider TxVote transactions in this block
              match t'.body with
              | .vote election' _ => decide (election' = election)
              | _ => false)
          if !valid then .VR_LAST_VOTES
          else if tx.verificationKey ≠ t.verificationKey then .VR_PK_MISMATCH
          else .VR_OK
        | _ => .VR_LAST_VOTES
      | _ => .VR_TX_MISSING
    | _ => .VR_TX_MISSING

/-- Models `TxTrusteeTally::verify`. -/
def TxTrusteeTally.verify (P : Primitives) (db : BlockChainDB) (edb : ElectionDB)
    (t : Transaction) (tally : Nat) (partialDecryption : List TalliedBallots) : VerifyResult :=
  if !t.verifySignature P then .VR_SIGN_ERROR
  else
    -- find referenced tally transaction
    match db.getTransaction P tally with
    | (.BC_OK, some tx) =>
      match tx.body with
      | .tally election _ _ =>
        -- find referenced election by tally
        match db.getTransaction P election with
        | (.BC_OK, some tx) =>
          match tx.body with
          | .election e =>
            match ElectionDB.Get P db edb (tx.getHash P) with
            | none => .VR_TX_MISSING
            | some em =>
              if !em.isTrusteeEligible P t.verificationKey then .VR_USER_REJECTED
              -- check that number of answers match number of questions
              else if partialDecryption.length ≠ e.questions.length then .VR_BALLOT_ERROR
              else
                match checkTalliedBallots e.questions partialDecryption [] with
                | none => .VR_BALLOT_ERROR
                | some checked =>
                  if partialDecryption.length = checked.length then .VR_OK
                  else .VR_BALLOT_ERROR
          | _ => .VR_TX_MISSING
        | _ => .VR_TX_MISSING
      | _ => .VR_TX_MISSING
    | _ => .VR_TX_MISSING

/-- Models `Transaction::verify`: the virtual call. -/
def Transaction.verify (P : Primitives) (db : BlockChainDB) (edb : ElectionDB)
    (t : Transaction) : VerifyResult :=
  match t.body with
  | .vote election ballots => TxVote.verify P db edb t election ballots
  | .election e => TxElection.verify P t e
  | .tally election lastBlock _ => TxTally.verify P db t election lastBlock
  | .trusteeTally tally partialDecryption =>
    TxTrusteeTally.verify P db edb t tally partialDecryption

/-! ## Block reception (`controller.cpp`) -/

/-- Models `Settings::MINING_LEADING_ZEROS`. -/
def MINING_LEADING_ZEROS : Nat := 13

/-- Models `hashTarget = 0; hashTarget = (hashTarget - 1) >> MINING_LEADING_ZEROS` on
`uint256`. -/
def hashTarget : Nat := ((0 + 2 ^ 256 - 1) % 2 ^ 256) >>> MINING_LEADING_ZEROS

/-- What `Controller::receiveBlock` did: the block store afterwards, whether the
accept part was reached (then the miner is told about the block), and the
transactions handed to the per-type handlers, in order. -/
structure ReceiveResult where
  db : BlockChainDB
  accepted : Bool
  processed : List Transaction

/-- The transaction loop of `Controller::receiveBlock`: `true` when every
transaction is unknown to the chain and verifies. -/
def Controller.checkTransactions (P : Primitives) (db : BlockChainDB) (edb : ElectionDB) :
    List Transaction → Bool
  | [] => true
  | t :: rest =>
    -- check existance of transaction
    if db.containsTransaction (t.getHash P) then false
    -- check transaction
    else if t.verify P db edb ≠ .VR_OK then false
    else Controller.checkTransactions P db edb rest

/-- Hash and time of the last block as `receiveBlock` and the miner read them:
`none` when `getLatestBlock` fails. -/
def Controller.readLastBlock (P : Primitives) (db : BlockChainDB) : Option (Nat × Int) :=
  match db.getLatestBlock P with
  | (.BC_OK, some lastBlock) => some (lastBlock.getHash P, lastBlock.header.time)
  | (.BC_IS_EMPTY, _) => some (db.genesisBlock, 0)
  | _ => none

/-- Models `Controller::receiveBlock`; `now` is `Helper::GetUNIXTimestamp()`. -/
def Controller.receiveBlock (P : Primitives) (db : BlockChainDB) (edb : ElectionDB)
    (now : Int) (b : Block) : ReceiveResult :=
  -- check last block
  match Controller.readLastBlock P db with
  | none => ⟨db, false, []⟩
  | some (lastBlockHash, lastBlockTime) =>
    if b.header.hashPrevBlock ≠ lastBlockHash then ⟨db, false, []⟩
    -- check time is reasonable
    else if b.header.time > now ∨ b.header.time < lastBlockTime then ⟨db, false, []⟩
    else
      -- check hash (and therefore implicitly the nonce)
      let hash := b.getHash P
      if ¬ (hash ≤ hashTarget) then ⟨db, false, []⟩
      -- check existance of block
      else if db.containsBlock hash then ⟨db, false, []⟩
      -- verify transactions
      else if !Controller.checkTransactions P db edb b.transactions then ⟨db, false, []⟩
      else
        -- save persistently
        match db.addBlock P b with
        | (.BC_OK, db') => ⟨db', true, b.transactions⟩
        | (_, db') => ⟨db', false, []⟩

/-! ## Miner (`miner.cpp`, `net/protocols/blocks.h`) -/

/-- Models `Settings::MINING_NONCES_AT_ONCE`. -/
def MINING_NONCES_AT_ONCE : Nat := 1000

/-- The members of `Miner` the nonce search uses; nonces are `unsigned int`. -/
structure Miner where
  transactions : List Transaction
  hashTarget : Nat
  startNonce : Nat
  currentNonce : Nat
  newBlockFoundFlag : Bool

/-- Models `Miner::consumeNextNonces`: returns `(lowerBound, upperBound)` and the
miner with the cursor advanced; the sums wrap at `2^32`. -/
def Miner.consumeNextNonces (m : Miner) (numNext : Nat) : (Nat × Nat) × Miner :=
  let lowerBound := m.currentNonce
  let m := if m.startNonce ≥ m.currentNonce ∧ m.startNonce < (m.currentNonce + numNext) % 2 ^ 32
    then { m with currentNonce := m.startNonce }
    else { m with currentNonce := (m.currentNonce + numNext) % 2 ^ 32 }
  ((lowerBound, m.currentNonce), m)

/-- The `for (nonce = lowerBound; nonce < upperBound; ++nonce)` loop of
`mineTransactions` over the listed nonces: the block handed to
`onNewBlockFound` when that call publishes it (the flag was not set). -/
def Miner.tryNonces (P : Primitives) (m : Miner) (newBlock : Block) : List Nat → Option Block
  | [] => none
  | nonce :: rest =>
    -- nonce is the only values which changes
    let newBlock := { newBlock with header := { newBlock.header with nonce := nonce } }
    -- compute hash and check against the hashTarget
    let hashBuf := newBlock.getHash P
    if hashBuf ≤ m.hashTarget ∧ m.newBlockFoundFlag = false then some newBlock
    else Miner.tryNonces P m newBlock rest

/-- The `while (true)` loop of `mineTransactions`, bounded by `fuel` batches:
the block handed to `publishBlock`, if any. -/
def Miner.mineLoop (P : Primitives) (newBlock : Block) : Nat → Miner → Option Block
  | 0, _ => none
  | fuel + 1, m =>
    -- consume some nonces to process from the pool
    let ((lowerBound, upperBound), m) := m.consumeNextNonces MINING_NONCES_AT_ONCE
    if lowerBound = upperBound then none
    else
      match Miner.tryNonces P m newBlock (List.range' lowerBound (upperBound - lowerBound)) with
      | some found => some found
      | none => Miner.mineLoop P newBlock fuel m

/-- Models `Miner::mineTransactions` on one thread: the block it hands to
`MiningManager::publishBlock`, if it finds one within `fuel` batches. `skp` is
`miningManager->skp`, `now` the time read at the start. -/
def Miner.mineTransactions (P : Primitives) (db : BlockChainDB) (m : Miner)
    (skp : SignKeyPair) (now : Int) (fuel : Nat) : Option Block :=
  let newBlock : Block := Block.new
  -- set time fixed
  let newBlock := { newBlock with header := { newBlock.header with time := now } }
  -- precompute last block-hash
  match Controller.readLastBlock P db with
  | none => none
  | some (prevBlockHash, _) =>
    -- create new block
    let newBlock := { newBlock with header := { newBlock.header with hashPrevBlock := prevBlockHash } }
    let newBlock := { newBlock with transactions := m.transactions }
    let newBlock := { newBlock with verificationKey := skp.2 }
    -- search for proof of work
    Miner.mineLoop P newBlock fuel m

/-- Models `BlocksProtocol::Publish`: the signed block that is flooded and delivered
to the local callback, or `none` when the key is not a mining key. -/
def BlocksProtocol.Publish (P : Primitives) (block : Block) (keys : SignKeyPair) :
    Option Block :=
  if keys.1.role ≠ Role.KEY_MINING then none
  else some (block.sign P keys).2

/-! ## Chains of blocks (specification vocabulary for the block store) -/

/-- Models `Settings::HASH_GENESIS_BLOCK`. -/
def HASH_GENESIS_BLOCK : Nat :=
  0xa71b445873a2f1c0256af99d7fc0ffb117ca2fa16945ebcaa6393b60bdd8e787

/-- The store right after `BlockChainDB::clear` (or first start): no index
entry, no block file, `latestBlock` is the genesis hash. -/
def BlockChainDB.empty : BlockChainDB :=
  { genesisBlock := HASH_GENESIS_BLOCK, latestBlock := HASH_GENESIS_BLOCK,
    currentLocation := ⟨0, 0⟩, blockInfos := fun _ => none, locators := fun _ => none,
    savedLatestBlock := HASH_GENESIS_BLOCK, savedCurrentLocation := ⟨0, 0⟩,
    files := fun _ => none }

/-- Successive `addBlock` calls that all return `BC_OK`: the resulting store,
or `none` as soon as one call returns another status. -/
def BlockChainDB.addBlocks (P : Primitives) (db : BlockChainDB) :
    List Block → Option BlockChainDB
  | [] => some db
  | b :: rest =>
    match db.addBlock P b with
    | (.BC_OK, db') => BlockChainDB.addBlocks P db' rest
    | _ => none

/-- Each block names the hash of the block before it; the first names `start`. -/
def Linked (P : Primitives) (start : Nat) : List Block → Prop
  | [] => True
  | b :: rest => b.header.hashPrevBlock = start ∧ Linked P (b.getHash P) rest

/-- The block `b` is indexed under its hash and its archive lies in the named
block file at the recorded position. -/
def Stored (P : Primitives) (db : BlockChainDB) (b : Block) : Prop :=
  ∃ info content pre rest, db.blockInfos (b.getHash P) = some info ∧
    db.files info.locator.id = some content ∧
    content = pre ++ P.serialize b ++ rest ∧ pre.length = info.locator.blockPos

/-- Hash of the last block of a chain that starts after `start`. -/
def lastHash (P : Primitives) (start : Nat) (bs : List Block) : Nat :=
  match bs.getLast? with
  | some b => b.getHash P
  | none => start

/-! ## A small concrete instance

Stand-ins for the external primitives and a short chain, used to evaluate the
definitions on concrete inputs. The toy archive of a block is its nonce
followed by `header.version` zero bytes; reading looks the nonce up in
`toyBlocks`. A toy signature of hash `h` under the key bytes `k` is `h :: k`. -/

/-- A Paillier key of the instance: `n = 5 * 7`, two servers, threshold two. -/
def toyPub : paillier_pubkey_t :=
  { bits := 6, decryptServers := 2, threshold := 2, n := 35, n_squared := 1225,
    n_plusone := 36, delta := 2, combineSharesConstant := 11, v := 4,
    verificationKeys := [⟨1, 4⟩, ⟨2, 16⟩] }

/-- A mining key pair of the instance. -/
def toyMiningKeys : SignKeyPair := (⟨[7], true, .KEY_MINING⟩, ⟨[7], .KEY_MINING⟩)

/-- The election of the instance: one question, one voter (key id 5), two
trustees (key ids 8 and 9). -/
def toyElection : Election :=
  { name := "E1", description := "", questions := [⟨11, "Q", ["NO", "YES"]⟩],
    probableEndingTime := 5, encPubKey := some toyPub, voters := [5], trustees := [8, 9] }

/-- The election transaction (toy hash 105), signed by the election key. -/
def toyElectionTx : Transaction :=
  { verificationKey := ⟨[3], .KEY_ELECTION⟩, signature := [105, 3],
    type := .TX_ELECTION, body := .election toyElection }

/-- A ciphertext whose challenge field is no 256-bit value. -/
def toyBadCipher : paillier_ciphertext_proof_t :=
  { c := 36, e := 2 ^ 256, e1 := 0, v1 := 1, e2 := 0, v2 := 1 }

/-- A vote of voter 5 on question 11 carrying `toyBadCipher` (toy hash 306). -/
def toyVoteTx : Transaction :=
  { verificationKey := ⟨[5], .KEY_VOTE⟩, signature := [306, 5], type := .TX_VOTE,
    body := .vote 105 [⟨11, some toyBadCipher⟩] }

/-- The vote `toyVoteTx` with a null pointer in place of the ciphertext (toy
hash 306 again, so the signature is valid). -/
def toyNullVoteTx : Transaction :=
  { toyVoteTx with body := .vote 105 [⟨11, none⟩] }

/-- The tally request of the election creator on block 3 (toy hash 408). -/
def toyTallyTx : Transaction :=
  { verificationKey := ⟨[3], .KEY_ELECTION⟩, signature := [408, 3], type := .TX_TALLY,
    body := .tally 105 3 false }

/-- A partial decryption whose challenge field is no 256-bit value. -/
def toyBadPartial : paillier_partialdecryption_proof_t :=
  { id := 1, decryption := 1, c4 := 1, ci2 := 1, e := 2 ^ 256, z := 0 }

/-- A trustee tally of trustee 8 for the tally 408 carrying `toyBadPartial`. -/
def toyTrusteeTallyTx : Transaction :=
  { verificationKey := ⟨[8], .KEY_TRUSTEE⟩, signature := [808, 8], type := .TX_TRUSTEE_TALLY,
    body := .trusteeTally 408 [⟨11, some toyBadPartial⟩] }

/-- A transaction of the instance: a tally request naming block `e`. -/
def toyTx (e : Nat) : Transaction :=
  { verificationKey := ⟨[3], .KEY_ELECTION⟩, signature := [], type := .TX_TALLY,
    body := .tally 0 e false }

/-- A block of the instance. -/
def toyBlock (nonce prev : Nat) (version : Int) (txs : List Transaction) : Block :=
  { verificationKey := toyMiningKeys.2, signature := [],
    header := ⟨version, prev, nonce, 0⟩, transactions := txs }

/-- Block 1 on the genesis hash, holding the election (toy hash 2). -/
def toyB1 : Block := toyBlock 1 HASH_GENESIS_BLOCK 3 [toyElectionTx]

/-- Block 2 after block 1, holding the vote (toy hash 3). -/
def toyB2 : Block := toyBlock 2 2 3 [toyVoteTx]

/-- Block 3 after block 2, holding the tally request (toy hash 4). -/
def toyB3 : Block := toyBlock 3 3 3 [toyTallyTx]

/-- Block 4 after block 1, with an archive of more than 8 MiB (toy hash 5). -/
def toyB4 : Block := toyBlock 4 2 (1024 * 1024 * 8) [toyTx 4]

/-- The blocks the toy archive reader knows. -/
def toyBlocks : List Block := [toyB1, toyB2, toyB3, toyB4]

/-- Stand-ins for the external primitives. -/
def toyP : Primitives :=
  { Hash160 := fun vch => vch.sum
    hashTx := fun _ type body =>
      (match body with
      | .election e => 100 + e.probableEndingTime.toNat
      | .vote e bs => 200 + e + bs.length
      | .tally e l _ => 300 + e + l
      | .trusteeTally t _ => 400 + t) +
        (if type = body.constructorType then 0 else 1000)
    hashBlock := fun _ header _ => header.nonce + 1
    Verify := fun key hash sig => decide (sig = hash :: key.vch)
    Sign := fun key hash => (key.fValid, hash :: key.vch)
    serialize := fun b => b.header.nonce :: List.replicate b.header.version.toNat 0
    deserialize := fun bytes =>
      match bytes with
      | [] => none
      | n :: _ => toyBlocks.find? (fun b => decide (b.header.nonce = n)) }

/-- The store after `addBlock(toyB1)` on the empty store. -/
def toyDB1 : BlockChainDB := (BlockChainDB.empty.addBlock toyP toyB1).2

/-- The store after `toyB1`, `toyB2`, `toyB3` were appended in turn. -/
def toyDB3 : BlockChainDB := ((toyDB1.addBlock toyP toyB2).2.addBlock toyP toyB3).2

/-- A local election store holding a record for the election 105 only. -/
def toyElections : ElectionDB := fun h => if h = 105 then some default else none

/-! ## Gossip duplicate suppression (`net/protocols/duplicate.h`)

`Helper::GetUNIXTimestamp()` is read once per loop iteration and once in
`seenMessage`; the successive readings are `clock 0, clock 1, ...` and `tick`
counts the readings made so far. Message ids (`boost::uuids::uuid`) are `Nat`. -/

/-- Models `id_pair`: a message id with the time it was seen. -/
abbrev id_pair := Nat × Int

/-- Models `id_memory`. -/
abbrev id_memory := List id_pair

/-- Models `DuplicateProtocol`: the remembered messages. -/
structure DuplicateProtocol where
  lastSeen : id_memory
  deriving DecidableEq, Repr, Inhabited

/-- Models `DuplicateProtocol::seenMessage`: store the id with the current
timestamp. -/
def DuplicateProtocol.seenMessage (clock : Nat → Int) (p : DuplicateProtocol)
    (tick : Nat) (id : Nat) : DuplicateProtocol × Nat :=
  ({ p with lastSeen := p.lastSeen ++ [(id, clock tick)] }, tick + 1)

/-- The `for` loop of `DuplicateProtocol::checkDuplicate` from the iterator
position on: whether it returned `true`, the entries from the position on
afterwards, and the number of clock readings afterwards. -/
def DuplicateProtocol.checkLoop (clock : Nat → Int) (validity : Int) (id : Nat) :
    id_memory → Nat → Bool × id_memory × Nat
  | [], tick => (false, [], tick)
  | current :: rest, tick =>
    -- check if entry is still valid
    if clock tick - current.2 ≥ validity then
      DuplicateProtocol.checkLoop clock validity id rest (tick + 1)
    -- discard, if ping ID was seen
    else if id = current.1 then (true, current :: rest, tick + 1)
    else
      let r := DuplicateProtocol.checkLoop clock validity id rest (tick + 1)
      (r.1, current :: r.2.1, r.2.2)

/-- Models `DuplicateProtocol::checkDuplicate`; `validity` is
`Settings::GetDuplicateValidity()`. -/
def DuplicateProtocol.checkDuplicate (clock : Nat → Int) (validity : Int)
    (p : DuplicateProtocol) (tick : Nat) (id : Nat) : Bool × DuplicateProtocol × Nat :=
  let r := DuplicateProtocol.checkLoop clock validity id p.lastSeen tick
  if r.1 then (true, { p with lastSeen := r.2.1 }, r.2.2)
  else
    -- register as seen
    let s := DuplicateProtocol.seenMessage clock { p with lastSeen := r.2.1 } r.2.2 id
    (false, s.1, s.2)

/-! ## Transaction queue of the mining manager (`miner.cpp`)

The queue and the transaction sets hold `Transaction*`. A pointer is a `Nat`
and `heap` gives the object it points to. -/

/-- Models `std::set::insert` / `emplace` on a set kept as the list of its
elements in iteration order, for the strict order `lt`: an element equivalent
to `x` keeps `x` out. -/
def stdSetInsert {α : Type} (lt : α → α → Bool) (x : α) : List α → List α
  | [] => [x]
  | y :: ys =>
    if lt x y then x :: y :: ys
    else if lt y x then y :: stdSetInsert lt x ys
    else y :: ys

/-- Models `pt_cmp` on `Transaction*`: `*t1 < *t2`, which `Signable::operator<`
decides by the hashes. -/
def pt_cmp (P : Primitives) (heap : Nat → Transaction) (t1 t2 : Nat) : Bool :=
  decide ((heap t1).getHash P < (heap t2).getHash P)

/-- Models `Settings::MINING_MIN_TRANSACTIONS`. -/
def MINING_MIN_TRANSACTIONS : Nat := 1

/-- Models `MINING_ERROR` of `miner.h`. -/
inductive MINING_ERROR where
  | MINING_OK | MINING_NOT_ENOUGH_TX | MINING_IN_PROGRESS | MINING_INVALID_TX | MINING_FAIL
  deriving DecidableEq, Repr, Inhabited

/-- Models `MiningManager::checkForDuplicateVoteTransaction`. The two
`dynamic_cast<TxVote*>` are not checked: `none` when one of the objects is not
a `TxVote` and the null pointer is dereferenced. -/
def MiningManager.checkForDuplicateVoteTransaction (heap : Nat → Transaction)
    (t1 t2 : Nat) : Option Bool :=
  if (heap t1).getType ≠ TxType.TX_VOTE then some false
  else if (heap t1).getType ≠ (heap t2).getType then some false
  else
    match (heap t1).body, (heap t2).body with
    | .vote election1 _, .vote election2 _ =>
      if election1 ≠ election2 then some false
      else if (heap t1).verificationKey ≠ (heap t2).verificationKey then some false
      else some true
    | _, _ => none

/-- The inner `BOOST_FOREACH` of `getTransactionsForBlock`: whether `t1` is a
duplicate of a member of `outTransactions`; the loop ends at the first
duplicate. -/
def MiningManager.foundDuplicate (heap : Nat → Transaction) (t1 : Nat) :
    List Nat → Option Bool
  | [] => some false
  | t2 :: rest =>
    match MiningManager.checkForDuplicateVoteTransaction heap t1 t2 with
    | none => none
    | some true => some true
    | some false => MiningManager.foundDuplicate heap t1 rest

/-- The body of the outer `BOOST_FOREACH` of `getTransactionsForBlock` for the
queue entry `t1`: `outTransactions` afterwards. -/
def MiningManager.selectTransaction (P : Primitives) (heap : Nat → Transaction)
    (outTransactions : List Nat) (t1 : Nat) : Option (List Nat) :=
  -- ...check for each already seen transaction if we already saw this vote
  match MiningManager.foundDuplicate heap t1 outTransactions with
  | none => none
  -- ...if "no" for each: add to already seen transactions
  | some false => some (stdSetInsert (pt_cmp P heap) t1 outTransactions)
  | some true => some outTransactions

/-- Models `MiningManager::getTransactionsForBlock`: the return value, the
queue afterwards and `outTransactions` afterwards; `none` when
`checkForDuplicateVoteTransaction` dereferences a null pointer. -/
def MiningManager.getTransactionsForBlock (P : Primitives) (heap : Nat → Transaction)
    (transQueue outTransactions : List Nat) : Option (Bool × List Nat × List Nat) :=
  -- for each transaction...
  match transQueue.foldlM (MiningManager.selectTransaction P heap) outTransactions with
  | none => none
  | some outTransactions =>
    -- check if enough transactions could be retrieved from queue
    if outTransactions.length < MINING_MIN_TRANSACTIONS then
      some (false, transQueue, outTransactions)
    else
      -- remove the outTransactions from transQueue
      let transQueue := outTransactions.foldl
        (fun transQueue t => transQueue.filter (fun x => decide (x ≠ t))) transQueue
      some (true, transQueue, outTransactions)

/-- Models `MiningManager::addTransaction`: the result code and the queue
afterwards. With `run` set the code is that of `runIfPossible`, which is not
part of the model; `MINING_OK` stands for it. -/
def MiningManager.addTransaction (P : Primitives) (db : BlockChainDB) (edb : ElectionDB)
    (heap : Nat → Transaction) (transQueue : List Nat) (t : Nat) (run : Bool) :
    MINING_ERROR × List Nat :=
  let error := (heap t).verify P db edb
  if error ≠ .VR_OK then (.MINING_INVALID_TX, transQueue)
  -- if called from failed attempts to mine, insert at front
  else if !run then (.MINING_OK, t :: transQueue)
  else (.MINING_OK, transQueue ++ [t])

/-- Models `std::set_difference(first1, last1, first2, last2, out)` with the
order `lt`. -/
def std_set_difference {α : Type} (lt : α → α → Bool) : List α → List α → List α
  | [], _ => []
  | x :: xs, [] => x :: xs
  | x :: xs, y :: ys =>
    if lt x y then x :: std_set_difference lt xs (y :: ys)
    else if lt y x then std_set_difference lt (x :: xs) ys
    else std_set_difference lt xs ys

/-- Models `Miner::onNewBlockFromNetwork`: the queue of the mining manager
afterwards. `transactions` is the set of the miner and `bTransactions` the set
of the block, both in iteration order (by hash); `std::set_difference` is
called without a comparator and `temp` is a `std::set<Transaction*>`, so both
compare the pointers themselves. -/
def Miner.onNewBlockFromNetwork (P : Primitives) (db : BlockChainDB) (edb : ElectionDB)
    (heap : Nat → Transaction) (newBlockFoundFlag : Bool)
    (transactions bTransactions transQueue : List Nat) : List Nat :=
  -- ignore this event if the miner itself created it
  if newBlockFoundFlag then transQueue
  else
    -- temp = transactions - b->transactions
    let temp := (std_set_difference (fun a b => decide (a < b)) transactions bTransactions).foldl
      (fun temp t => stdSetInsert (fun a b => decide (a < b)) t temp) []
    -- these are the transactions the miner can be restarted with
    temp.foldl
      (fun transQueue trans =>
        (MiningManager.addTransaction P db edb heap transQueue trans false).2)
      transQueue

/-- A second vote of voter 5 in the election 105, with two ballots (toy hash
307). -/
def toyRevoteTx : Transaction :=
  { toyVoteTx with
    signature := [307, 5]
    body := .vote 105 [⟨11, some toyBadCipher⟩, ⟨12, some toyBadCipher⟩] }

/-- The heap of the examples: `1` is the tally request, `2` the vote, `3` the
vote as deserialized from a network block, `4` the second vote of the same
voter. -/
def toyHeap : Nat → Transaction :=
  fun p => if p = 1 then toyTallyTx else if p = 4 then toyRevoteTx else toyVoteTx

/-- A vote like `toyVoteTx`, but its verification key carries the mining role. -/
def toyWrongRoleVoteTx : Transaction :=
  { toyVoteTx with verificationKey := ⟨[5], .KEY_MINING⟩ }

/-- A block like `toyB2`, but its verification key carries the vote role. -/
def toyWrongRoleBlock : Block :=
  { toyB2 with verificationKey := ⟨[7], .KEY_VOTE⟩ }

/-! ## Encryption, proofs of knowledge and the homomorphic product
(`paillier/paillier.cpp`)

The values the C code samples with `mpz_urandomb` are arguments of the
functions. -/

/-- Models `paillier_enc` with the blinding factor `r` given:
`c = (n+1)^m * r^n mod n^2`. -/
def paillier_enc (pub : paillier_pubkey_t) (pt : Int) (r : Int) :
    Option paillier_ciphertext_pure_t := do
  let c ← mpz_powm pub.n_plusone pt pub.n_squared
  let x ← mpz_powm r pub.n pub.n_squared
  let c := c * x
  let c ← mpz_mod c pub.n_squared
  some ⟨c⟩

/-- Models `PLAINTEXT_SELECTION` of `paillier.h`. -/
inductive PLAINTEXT_SELECTION where
  | FIRST | SECOND
  deriving DecidableEq, Repr, Inhabited

/-- Models `paillier_enc_proof(pub, pt, pt2, index, get_rand, r_hex)` with the
sampled values `r`, `rho`, `e2`, `v2` given. -/
def paillier_enc_proof_pt (H : List Int → Nat) (pub : paillier_pubkey_t) (pt pt2 : Int)
    (index : PLAINTEXT_SELECTION) (r rho e2 v2 : Int) : Option paillier_ciphertext_proof_t := do
  -- If index==second the pt2 is the chosen plaintext and pt the "other" plaintext
  let chosenPlaintext := if index = .SECOND then pt2 else pt
  let m2 := if index = .SECOND then pt else pt2
  -- Get encryption
  let encr ← paillier_enc pub chosenPlaintext r
  -- compute u2 = v2^n * g^(m2*e2) * c^(-e2) mod n^2
  let u2 ← mpz_powm v2 pub.n pub.n_squared
  let gPower := m2 * e2
  let gPower ← mpz_powm pub.n_plusone gPower pub.n_squared
  let cPower := 0 - e2
  let cPower ← mpz_powm encr.c cPower pub.n_squared
  let u2 := u2 * gPower
  let u2 := u2 * cPower
  let u2 ← mpz_mod u2 pub.n_squared
  -- compute u1 = rho^n mod n^2
  let u1 ← mpz_powm rho pub.n pub.n_squared
  -- Commit to u1,u2 by hash: s = H(u1,u2,c,m1,m2)
  let vec := if index = .SECOND then [u2, u1, encr.c, pt, pt2] else [u1, u2, encr.c, pt, pt2]
  let e := hashToMpz H vec
  -- e1NoMod = e - e2
  let e1NoMod := e - e2
  -- e1 = e1NoMod mod n
  let e1 ← mpz_mod e1NoMod pub.n
  -- v1 = rho * r^e1 * g^(e1NoMod / n) mod n
  let v1 ← mpz_tdiv_q e1NoMod pub.n
  let v1 ← mpz_powm pub.n_plusone v1 pub.n
  let rPower ← mpz_powm r e1 pub.n
  let v1 := v1 * rPower
  let v1 := v1 * rho
  let v1 ← mpz_mod v1 pub.n
  -- Publish (c, s, e1, v1, e2, v2)
  if index = .SECOND then some ⟨encr.c, e, e2, v2, e1, v1⟩
  else some ⟨encr.c, e, e1, v1, e2, v2⟩

/-- Models `paillier_enc_proof(pub, choice, get_rand, r_hex)`: the plaintexts
are 0 and 1. -/
def paillier_enc_proof (H : List Int → Nat) (pub : paillier_pubkey_t)
    (choice : PLAINTEXT_SELECTION) (r rho e2 v2 : Int) : Option paillier_ciphertext_proof_t :=
  paillier_enc_proof_pt H pub 0 1 choice r rho e2 v2

/-- Models `paillier_dec_proof` with the proof randomness `r` given. -/
def paillier_dec_proof (H : List Int → Nat) (pub : paillier_pubkey_t)
    (prv : paillier_partialkey_t) (ct : paillier_ciphertext_pure_t) (r : Int) :
    Option paillier_partialdecryption_proof_t := do
  -- c4 = c^4 mod n^(s+1)
  let c4 ← mpz_powm ct.c 4 pub.n_squared
  -- a = c^4r mod n^(s+1)
  let a ← mpz_powm c4 r pub.n_squared
  -- b = v^r mod n^(s+1)
  let b ← mpz_powm pub.v r pub.n_squared
  -- partial-decrypt ciphertext (ci = c^(2*Delta*si))
  let partDecrProof ← paillier_dec (some { (default : paillier_partialdecryption_proof_t)
    with c4 := c4 }) pub prv ct
  -- ci^2 mod n^(s+1)
  let ci2 ← mpz_powm partDecrProof.decryption 2 pub.n_squared
  -- hash: H(a,b,c4,ci2)
  let e := hashToMpz H [a, b, c4, ci2]
  -- z = r + e*si*delta
  let z := prv.s * e
  let z := z * pub.delta
  let z := r + z
  some { partDecrProof with ci2 := ci2, e := e, z := z }

/-- Models `paillier_mul`: the product of the two ciphertexts modulo
`n_squared`, written to `res`. -/
def paillier_mul (pub : paillier_pubkey_t) (ct0 ct1 : paillier_ciphertext_pure_t) :
    Option paillier_ciphertext_pure_t := do
  let c := ct0.c * ct1.c
  let c ← mpz_mod c pub.n_squared
  some ⟨c⟩

/-- Models `paillier_create_enc_zero`: the number 1. -/
def paillier_create_enc_zero : paillier_ciphertext_pure_t := ⟨1⟩

/-- A key with `v = 0` and the verification value `0 = v^(delta*s_1)` for
server 1. -/
def toyZeroPub : paillier_pubkey_t :=
  { toyPub with v := 0, verificationKeys := [⟨1, 0⟩] }

/-! ## Tallying (`electionmanager.cpp`, `paillier/comparison.cpp`) -/

/-- Models `operator<` on `paillier_ciphertext_proof_t`. -/
def paillier_ciphertext_proof_t.lt (first second : paillier_ciphertext_proof_t) : Bool :=
  if first.c < second.c then true
  else if second.c < first.c then false
  else if first.e < second.e then true
  else if second.e < first.e then false
  else if first.e1 < second.e1 then true
  else if second.e1 < first.e1 then false
  else if first.e2 < second.e2 then true
  else if second.e2 < first.e2 then false
  else if first.v1 < second.v1 then true
  else if second.v1 < first.v1 then false
  else if first.v2 < second.v2 then true
  else false

/-- Models `operator<` on `paillier_partialdecryption_proof_t`. -/
def paillier_partialdecryption_proof_t.lt
    (first second : paillier_partialdecryption_proof_t) : Bool :=
  if first.id < second.id then true
  else if second.id < first.id then false
  else if first.decryption < second.decryption then true
  else if second.decryption < first.decryption then false
  else if first.c4 < second.c4 then true
  else if second.c4 < first.c4 then false
  else if first.ci2 < second.ci2 then true
  else if second.ci2 < first.ci2 then false
  else if first.e < second.e then true
  else if second.e < first.e then false
  else if first.z < second.z then true
  else false

/-- Models `EncryptedBallot::operator<`: `std::tie(questionID, *answer)` compared
lexicographically. The callers below do not reach it with a null `answer`. -/
def EncryptedBallot.lt (a b : EncryptedBallot) : Bool :=
  match a.answer, b.answer with
  | some x, some y =>
    decide (a.questionID < b.questionID) ||
      (!decide (b.questionID < a.questionID) && x.lt y)
  | _, _ => false

/-- Models `TalliedBallots::operator<`: `std::tie(questionID, *answers)` compared
lexicographically. The callers below do not reach it with a null `answers`. -/
def TalliedBallots.lt (a b : TalliedBallots) : Bool :=
  match a.answers, b.answers with
  | some x, some y =>
    decide (a.questionID < b.questionID) ||
      (!decide (b.questionID < a.questionID) && x.lt y)
  | _, _ => false

/-- Models `result.insert(first, last)` on a `std::set<EncryptedBallot>`; `none`
when a ballot with a null `answer` is to be compared. -/
def insertEncryptedBallots (ballots result : List EncryptedBallot) :
    Option (List EncryptedBallot) :=
  ballots.foldlM
    (fun result ballot =>
      if ballot.answer.isNone then none
      else some (stdSetInsert EncryptedBallot.lt ballot result))
    result

/-- The body of the `BOOST_FOREACH` over the transactions of a block in
`ElectionManager::getAllVotes`; the state is `(voters, result)`. The object is
selected by `getType()` and then cast with `(TxVote*)`: `none` when an object of
another class carries the tag `TX_VOTE` and is read as a `TxVote`. -/
def ElectionManager.getAllVotesTx (P : Primitives) (hash : Nat)
    (st : List Nat × List EncryptedBallot) (txCurrent : Transaction) :
    Option (List Nat × List EncryptedBallot) :=
  if txCurrent.getType ≠ TxType.TX_VOTE then some st
  else
    match txCurrent.body with
    | .vote election ballots =>
      -- check if vote corresponds to election
      if hash ≠ election then some st
      -- skip old votes
      else if txCurrent.verificationKey.GetID P ∈ st.1 then some st
      else
        -- insert all all ballots from this vote
        (insertEncryptedBallots ballots st.2).map
          (fun result => (setInsert (txCurrent.verificationKey.GetID P) st.1, result))
    | _ => none

/-- Models `ElectionManager::getAllVotes`: the returned set in iteration order;
`none` when `getAllBlocks` runs out of fuel or a null pointer is dereferenced. -/
def ElectionManager.getAllVotes (P : Primitives) (db : BlockChainDB) (em : ElectionManager)
    (fuel : Nat) (lastBlock : Nat) : Option (List EncryptedBallot) :=
  match em.transaction with
  | none => none
  | some transaction =>
    let hash := transaction.getHash P
    -- get block in which election was started
    match db.getBlockByTransaction P hash with
    | (.BC_OK, some startBlock) =>
      -- get all blocks until lastBlock
      match db.getAllBlocks P fuel (startBlock.getHash P) lastBlock with
      | none => none
      | some (.BC_OK, blocksFromChain) =>
        -- search for all relevant votes
        (blocksFromChain.reverse.foldlM
          (fun (st : List Nat × List EncryptedBallot) (currentBlock : Block) =>
            currentBlock.transactions.foldlM (ElectionManager.getAllVotesTx P hash) st)
          (([] : List Nat), ([] : List EncryptedBallot))).map (fun st => st.2)
      | some _ => some []
    | _ => some []

/-- Models `std::map::find` on a map kept as the list of its entries in
iteration order. -/
def stdMapFind? {β : Type} (m : List (Nat × β)) (k : Nat) : Option β :=
  match m with
  | [] => none
  | (k', v) :: rest => if k = k' then some v else stdMapFind? rest k

/-- Models `m[k] = v` on a `std::map`: the entry is replaced, or inserted at its
place in the key order. -/
def stdMapSet {β : Type} (m : List (Nat × β)) (k : Nat) (v : β) : List (Nat × β) :=
  match m with
  | [] => [(k, v)]
  | (k', v') :: rest =>
    if k < k' then (k, v) :: (k', v') :: rest
    else if k = k' then (k, v) :: rest
    else (k', v') :: stdMapSet rest k v

/-- Models `Ballot::operator<`: `std::tie(questionID, answer)` compared
lexicographically. -/
def Ballot.lt (a b : Ballot) : Bool :=
  decide (a.questionID < b.questionID) ||
    (!decide (b.questionID < a.questionID) && decide (a.answer < b.answer))

/-- Models `mpz_get_ui` (the low 64 bits of the absolute value) followed by the
conversion of the `unsigned long` to `int`. -/
def mpz_get_ui_int (m : Int) : Int :=
  (((m.natAbs % 2 ^ 64 + 2 ^ 31) % 2 ^ 32 : Nat) : Int) - 2 ^ 31

/-- The first loop of `ElectionManager::tally`: the partial decryptions of the
registered trustee tallies as a `std::set<TalliedBallots>`; `none` when a hash
does not resolve to a trustee tally or a partial decryption is a null pointer
(the C++ code dereferences both without a check). -/
def ElectionManager.tallyGather (P : Primitives) (db : BlockChainDB)
    (trusteeTallies : List Nat) : Option (List TalliedBallots) :=
  trusteeTallies.foldlM
    (fun (ballots : List TalliedBallots) (ttHash : Nat) =>
      -- get trustee tally transaction
      match (db.getTransaction P ttHash).2 with
      | some transaction =>
        match transaction.body with
        | .trusteeTally _ partialDecryption =>
          -- gather
          partialDecryption.foldlM
            (fun (ballots : List TalliedBallots) (ballot : TalliedBallots) =>
              if ballot.answers.isNone then none
              else some (stdSetInsert TalliedBallots.lt ballot ballots))
            ballots
        | _ => none
      | none => none)
    []

/-- The body of the second loop of `ElectionManager::tally`; the state is
`decryptionSets`. -/
def ElectionManager.tallySort (H : List Int → Nat) (key : paillier_pubkey_t)
    (decryptionSets : List (Nat × List paillier_partialdecryption_proof_t))
    (ballot : TalliedBallots) :
    Option (List (Nat × List paillier_partialdecryption_proof_t)) :=
  -- check if question was seen before, otherwise initialize
  let decryptionSets :=
    if (stdMapFind? decryptionSets ballot.questionID).isNone
    then stdMapSet decryptionSets ballot.questionID []
    else decryptionSets
  let current := (stdMapFind? decryptionSets ballot.questionID).getD []
  -- check if for this question enough ballots were collected
  if current.length ≥ key.threshold then some decryptionSets
  else
    match ballot.answers with
    | none => none
    | some answers =>
      -- check if the proof is valid
      match paillier_verify_decryption H key answers with
      | none => none
      | some false => some decryptionSets
      -- add proof to question's set
      | some true => some (stdMapSet decryptionSets ballot.questionID (current ++ [answers]))

/-- The body of the last loop of `ElectionManager::tally`: decrypt the votes of
one question and update the results. -/
def ElectionManager.tallyQuestion (key : paillier_pubkey_t) (tallyHash : Nat)
    (em : ElectionManager) (entry : Nat × List paillier_partialdecryption_proof_t) :
    Option ElectionManager := do
  -- decrypt votes
  let plain ← paillier_combining key entry.2
  let b : Ballot := { questionID := entry.1, answer := mpz_get_ui_int plain }
  -- update results
  some { em with
    results := stdMapSet em.results tallyHash
      (stdSetInsert Ballot.lt b ((stdMapFind? em.results tallyHash).getD [])) }

/-- Models `ElectionManager::tally`: the return value and the manager
afterwards; `none` when a null pointer is dereferenced or a GMP call fails.
The maps `tallies` and `results` are the lists of their entries. -/
def ElectionManager.tally (P : Primitives) (H : List Int → Nat) (db : BlockChainDB)
    (em : ElectionManager) (tallyHash : Nat) : Option (Bool × ElectionManager) :=
  -- check if trustee tallies exist
  match stdMapFind? em.tallies tallyHash with
  | none => some (false, em)
  | some trusteeTallies =>
    -- collect all ballots
    match ElectionManager.tallyGather P db trusteeTallies with
    | none => none
    | some ballots =>
      match em.election.bind (fun e => e.encPubKey) with
      | none => none
      | some key =>
        -- sort all ballots reg. question IDs
        match ballots.foldlM (ElectionManager.tallySort H key) [] with
        | none => none
        | some decryptionSets =>
          -- verify that for each question enough proofs are available
          if decryptionSets.any (fun entry => decide (entry.2.length < key.threshold))
          then some (false, em)
          else
            -- perform tallying
            (decryptionSets.foldlM (ElectionManager.tallyQuestion key tallyHash) em).map
              (fun em => (true, em))

/-- A manager of the toy election with the tally request 408 registered and no
trustee tally for it. -/
def toyManager : ElectionManager :=
  { (default : ElectionManager) with
    transaction := some toyElectionTx, tallies := [(408, [])] }

/-- The partial decryptions for question `q` among `ballots`, in the order of
`ballots`, that `paillier_verify_decryption` accepts. It is no function of the
C++ code; the statements about `tally` are written with it. -/
def ElectionManager.acceptedPartials (H : List Int → Nat) (key : paillier_pubkey_t)
    (ballots : List TalliedBallots) (q : Nat) : List paillier_partialdecryption_proof_t :=
  ballots.filterMap (fun b => b.answers.filter (fun a =>
    decide (b.questionID = q) && decide (paillier_verify_decryption H key a = some true)))

/-- A partial decryption of the ciphertext 36 by server 2 of `toyPub` (share 1),
as `paillier_dec_proof` builds it with the random value 3 and the challenge 5. -/
def toyPartial : paillier_partialdecryption_proof_t :=
  { id := 2, decryption := 141, c4 := 141, ci2 := 281, e := 5, z := 13 }

/-- A trustee tally of trustee 9 for the tally 408 carrying `toyPartial` (toy
hash 808). -/
def toyPartialTallyTx : Transaction :=
  { verificationKey := ⟨[9], .KEY_TRUSTEE⟩, signature := [808, 9], type := .TX_TRUSTEE_TALLY,
    body := .trusteeTally 408 [⟨11, some toyPartial⟩] }

/-- The block after `toyB3` holding `toyPartialTallyTx`. -/
def toyB5 : Block := toyBlock 5 4 3 [toyPartialTallyTx]

/-- The stand-ins of `toyP`, reading `toyB5` too. -/
def toyP5 : Primitives :=
  { toyP with
    deserialize := fun bytes =>
      match bytes with
      | [] => none
      | n :: _ => (toyBlocks ++ [toyB5]).find? (fun b => decide (b.header.nonce = n)) }

/-- The store after `toyB5` was appended to `toyDB3`. -/
def toyDB5 : BlockChainDB := (toyDB3.addBlock toyP5 toyB5).2

/-- A manager of the toy election with the tally request 408 and the trustee
tally 808 registered for it. -/
def toyManager5 : ElectionManager :=
  { (default : ElectionManager) with
    transaction := some toyElectionTx, tallies := [(408, [808])] }

/-! ## Message headers and flooding (`net/message.h`, `net/connection.cpp`, `net/network.cpp`) -/

/-- Models `TTL_NOT_SET`: the TTL has not been set yet. -/
def TTL_NOT_SET : Int := -32

/-- Models `TTL_INFINITE`: the TTL should not be decreased. -/
def TTL_INFINITE : Int := -64

/-- Models `Settings::defaultFloodTTL`. -/
def defaultFloodTTL : Int := 3

/-- The value of an `int` after an arithmetic result is reduced to 32 bits (two's
complement). -/
def wrapInt32 (x : Int) : Int := (x + 2 ^ 31) % 2 ^ 32 - 2 ^ 31

/-- Models `MessageHeader`; `ttl` and `hop` are `int`, `type` is the numeric value
of the `MessageType`. -/
structure MessageHeader where
  ttl : Int
  hop : Int
  size : Int
  type : Nat
  deriving DecidableEq, Repr, Inhabited

/-- Models `Message`: the header and the id; the body of the subclasses plays no
role in sending. -/
structure Message where
  header : MessageHeader
  id : Nat
  deriving DecidableEq, Repr, Inhabited

/-- The members of `Connection` that `Network::Flood` reads: `ptr` identifies
the connection object, and a nil `guid` (here 0) says that the peers did not
exchange their info yet. -/
structure Connection where
  ptr : Nat
  guid : Nat
  deriving DecidableEq, Repr, Inhabited

/-- Models `Connection::IsInitialized`. -/
def Connection.IsInitialized (c : Connection) : Bool := decide (c.guid ≠ 0)

/-- Models the header update of `Connection::ReadDataCallback` on the header
read from the socket: increase hop, decrease ttl (if needed). -/
def Connection.ReadDataCallback (header : MessageHeader) : MessageHeader :=
  -- increase hop, decrease ttl (if needed)
  let header := { header with hop := wrapInt32 (header.hop + 1) }
  if header.ttl ≠ TTL_INFINITE then { header with ttl := wrapInt32 (header.ttl - 1) }
  else header

/-- Models `Connection::Write`: whether the message is written to the socket,
and the message afterwards; `dataSize` is the size of its archive. -/
def Connection.Write (dataSize : Int) (message : Message) : Bool × Message :=
  -- set TTL to 1 if not been set, drop message if TTL is le 0
  if message.header.ttl = TTL_NOT_SET then
    let message := { message with header := { message.header with ttl := 1 } }
    -- set header accordingly
    (true, { message with header := { message.header with size := dataSize } })
  else if message.header.ttl ≠ TTL_INFINITE ∧ message.header.ttl ≤ 0 then
    (false, message)
  else
    -- set header accordingly
    (true, { message with header := { message.header with size := dataSize } })

/-- Models `Network::Flood`: the connections the message is written to, each
with the header it is sent with, and the message afterwards. `floodingTTL` is
`Settings::GetFloodingTTL()`, `connections` is `Peers::GetConnections()`, and
`exclude` is the `ptr` of the excluded connection, if any. -/
def Network.Flood (floodingTTL : Int) (dataSize : Int) (connections : List Connection)
    (message : Message) (exclude : Option Nat) : List (Nat × MessageHeader) × Message :=
  -- set TTL header if not been set before
  let message :=
    if message.header.ttl = TTL_NOT_SET
    then { message with header := { message.header with ttl := floodingTTL } }
    else message
  -- send given message to all connected peers (which are initialized)
  connections.foldl
    (fun (st : List (Nat × MessageHeader) × Message) (connection : Connection) =>
      -- check if connection is excluded
      if exclude = some connection.ptr then st
      else if !connection.IsInitialized then st
      else
        match Connection.Write dataSize st.2 with
        | (true, message) => (st.1 ++ [(connection.ptr, message.header)], message)
        | (false, message) => (st.1, message))
    ([], message)

/-! ## Hashing and signing of a `Signable` (`transaction.h`, `transaction.cpp`)

The archive of an object is a list of bytes. `classInfo` stands for what
`oa << obj` writes before the object data and `derived` for what the `serialize`
functions of the derived classes write after the base object; the encoders of
the two members of `Signable` and SHA-256 are parameters. -/

/-- The encoders of a text archive for the members of `Signable`, and SHA-256. -/
structure ArchivePrimitives where
  arKey : CPubKey → List Nat
  arBytes : List Nat → List Nat
  SHA256 : List Nat → List Nat
  Sign : CKey → List Nat → Option (List Nat)

/-- Models the class `Signable` with the archive parts of the object it is the
base of. -/
structure Signable where
  verificationKey : CPubKey
  signature : List Nat
  hashing : Bool
  classInfo : List Nat
  derived : List Nat
  deriving DecidableEq, Repr, Inhabited

/-- Models `Signable::serialize`: the verification key, and the signature unless
the object is being hashed. -/
def Signable.serialize (A : ArchivePrimitives) (x : Signable) : List Nat :=
  let a := A.arKey x.verificationKey
  if !x.hashing then a ++ A.arBytes x.signature else a

/-- Models `oa << obj` for the self reference `obj`: the base object is
serialized first by every derived class. -/
def Signable.archive (A : ArchivePrimitives) (x : Signable) : List Nat :=
  x.classInfo ++ x.serialize A ++ x.derived

/-- Models `Signable::getHash`: the hash and the object afterwards. The SHA-256
calls are taken to succeed. -/
def Signable.getHash (A : ArchivePrimitives) (x : Signable) : List Nat × Signable :=
  -- make sure signature is not hashed!
  let x := { x with hashing := true }
  -- serialize object
  let strObj := x.archive A
  -- generate hash
  let hash1 := A.SHA256 strObj
  let hash2 := A.SHA256 hash1
  let x := { x with hashing := false }
  (hash2, x)

/-- Models `CKey::Sign(hash, vchSig)` on the signature member: an invalid key
leaves `vchSig` as it is and returns false. -/
def CKey.SignInto (A : ArchivePrimitives) (key : CKey) (hash : List Nat) (vchSig : List Nat) :
    Bool × List Nat :=
  if !key.fValid then (false, vchSig)
  else
    match A.Sign key hash with
    | none => (false, [])
    | some sig => (true, sig)

/-- Models `Signable::sign`: the return value and the object afterwards. -/
def Signable.sign (A : ArchivePrimitives) (x : Signable) (keys : SignKeyPair) :
    Bool × Signable :=
  let x := { x with verificationKey := keys.2 }
  let (hash, x) := x.getHash A
  let r := keys.1.SignInto A hash x.signature
  (r.1, { x with signature := r.2 })

/-! ## Equality of ballots and sets of ballots (`paillier/comparison.cpp`, `election.h`) -/

/-- Models `operator==` on `paillier_ciphertext_proof_t`. -/
def paillier_ciphertext_proof_t.eq (first second : paillier_ciphertext_proof_t) : Bool :=
  decide (first.c = second.c) && decide (first.e = second.e) &&
    decide (first.e1 = second.e1) && decide (first.e2 = second.e2) &&
    decide (first.v1 = second.v1) && decide (first.v2 = second.v2)

/-- Models `operator==` on `paillier_partialdecryption_proof_t`. -/
def paillier_partialdecryption_proof_t.eq
    (first second : paillier_partialdecryption_proof_t) : Bool :=
  decide (first.id = second.id) && decide (first.decryption = second.decryption) &&
    decide (first.c4 = second.c4) && decide (first.ci2 = second.ci2) &&
    decide (first.e = second.e) && decide (first.z = second.z)

/-- Models `EncryptedBallot::operator==`; the C++ code dereferences both `answer`
pointers, so the result for a null pointer is not defined (here `false`). -/
def EncryptedBallot.eq (a b : EncryptedBallot) : Bool :=
  match a.answer, b.answer with
  | some x, some y => decide (a.questionID = b.questionID) && x.eq y
  | _, _ => false

/-- Models `TalliedBallots::operator==`; the C++ code dereferences both `answers`
pointers, so the result for a null pointer is not defined (here `false`). -/
def TalliedBallots.eq (a b : TalliedBallots) : Bool :=
  match a.answers, b.answers with
  | some x, some y => decide (a.questionID = b.questionID) && x.eq y
  | _, _ => false

/-- Models the range constructor `std::set<T> s(first, last)`: the elements are
inserted in turn. -/
def stdSetOfRange {α : Type} (lt : α → α → Bool) (xs : List α) : List α :=
  xs.foldl (fun s x => stdSetInsert lt x s) []

/-- Models `operator==` on two `std::set<T>`: equal sizes and equal elements,
position by position. -/
def stdSetEq {α : Type} (eq : α → α → Bool) (s1 s2 : List α) : Bool :=
  decide (s1.length = s2.length) && (s1.zip s2).all (fun p => eq p.1 p.2)

/-! ## The nonce cursor of the miner (`miner.cpp`) -/

/-- Models the nonce initialisation in the constructor of `Miner`: `random` is
the value of `Helper::GenerateRandomUInt()`, and the sum wraps at `2^32`. -/
def Miner.initNonces (m : Miner) (random : Nat) : Miner :=
  -- init nonces
  let m := { m with startNonce := random }
  { m with currentNonce := (m.startNonce + 1) % 2 ^ 32 }

/-- The miner after `n` calls of `consumeNextNonces` with the batch size
`MINING_NONCES_AT_ONCE`. -/
def Miner.afterBatches (m : Miner) : Nat → Miner
  | 0 => m
  | n + 1 => ((Miner.afterBatches m n).consumeNextNonces MINING_NONCES_AT_ONCE).2

/-- The nonces the `for (nonce = lowerBound; nonce < upperBound; ++nonce)` loop
of `mineTransactions` visits for a batch. -/
def Miner.batchNonces (bounds : Nat × Nat) : List Nat :=
  List.range' bounds.1 (bounds.2 - bounds.1)

/-! ## Local election records of a peer (`electionmanager.cpp`, `controller.cpp`) -/

/-- Models `SignKeyStore::getAllKeysOfType` on the key pairs of the store. -/
def SignKeyStore.getAllKeysOfType (store : List SignKeyPair) (role : Role) : List SignKeyPair :=
  store.filter (fun current => decide (current.1.role = role))

/-- Models `ElectionManager::amICreator`. -/
def ElectionManager.amICreator (P : Primitives) (store : List SignKeyPair)
    (em : ElectionManager) : Bool :=
  -- get all my election keys
  let electionKeys := SignKeyStore.getAllKeysOfType store .KEY_ELECTION
  match em.transaction with
  | none => false
  | some transaction =>
    -- get signature key of original transaction
    let creatorKeyID := transaction.verificationKey.GetID P
    -- check if one of my election keys matches the creation key
    electionKeys.any (fun current => decide (creatorKeyID = current.2.GetID P))

/-- Models `ElectionManager::amIVoter`. -/
def ElectionManager.amIVoter (P : Primitives) (store : List SignKeyPair)
    (em : ElectionManager) : Bool :=
  -- get all my vote keys
  let voteKeys := SignKeyStore.getAllKeysOfType store .KEY_VOTE
  -- check if one of my keys is listed as a voter
  voteKeys.any (fun current => em.isVoterEligible P current.2)

/-- Models `ElectionManager::amITrustee`. -/
def ElectionManager.amITrustee (P : Primitives) (store : List SignKeyPair)
    (em : ElectionManager) : Bool :=
  -- get all my trustee keys
  let trusteeKeys := SignKeyStore.getAllKeysOfType store .KEY_TRUSTEE
  -- check if one of my keys is listed as a trustee
  trusteeKeys.any (fun current => em.isTrusteeEligible P current.2)

/-- Models `ElectionManager::amIInvolved`. -/
def ElectionManager.amIInvolved (P : Primitives) (store : List SignKeyPair)
    (em : ElectionManager) : Bool :=
  em.amICreator P store || em.amIVoter P store || em.amITrustee P store

/-- Models `ElectionDB::Save`: the record is written under the hash of the
election transaction. -/
def ElectionDB.Save (P : Primitives) (edb : ElectionDB) (manager : ElectionManager) :
    ElectionDB :=
  match manager.transaction with
  | none => edb
  | some transaction =>
    -- obtain hash of the original transaction
    let hash := transaction.getHash P
    -- save to database
    fun h => if h = hash then some manager else edb h

/-- Models `Controller::processTxElection`: the election store of the peer
afterwards; `store` holds the key pairs of the peer. -/
def Controller.processTxElection (P : Primitives) (store : List SignKeyPair)
    (edb : ElectionDB) (txElection : Transaction) : ElectionDB :=
  -- create new election manager and save to db
  let em : ElectionManager := { (default : ElectionManager) with transaction := some txElection }
  if em.amIInvolved P store then ElectionDB.Save P edb em else edb

/-- The key store of a peer that holds the key of voter 5. -/
def toyVoterStore : List SignKeyPair := [(⟨[5], true, .KEY_VOTE⟩, ⟨[5], .KEY_VOTE⟩)]

/-- The key store of a peer that only mines. -/
def toyMinerStore : List SignKeyPair := [toyMiningKeys]

/-! ## Further instances for the tally (`electionmanager.cpp`) -/

/-- The partial decryption `toyPartial` with its `decryption` field replaced. -/
def toyForgedPartial : paillier_partialdecryption_proof_t :=
  { toyPartial with decryption := 1 }

/-- A second partial decryption of the ciphertext 36 by server 2 of `toyPub`,
as `paillier_dec_proof` builds it with the random value 4 and the challenge 5. -/
def toyPartialB : paillier_partialdecryption_proof_t :=
  { id := 2, decryption := 141, c4 := 141, ci2 := 281, e := 5, z := 14 }

/-- A partial decryption with the server id 0. -/
def toyPartialC : paillier_partialdecryption_proof_t :=
  { id := 0, decryption := 141, c4 := 141, ci2 := 281, e := 0, z := 0 }

/-- A trustee tally of trustee 9 for the tally 408 carrying `toyPartial` (toy
hash 13808 under `toyP6`). -/
def toyTrusteeTallyA : Transaction :=
  { verificationKey := ⟨[9], .KEY_TRUSTEE⟩, signature := [13808, 9], type := .TX_TRUSTEE_TALLY,
    body := .trusteeTally 408 [⟨11, some toyPartial⟩] }

/-- A second trustee tally of trustee 9 for the tally 408, carrying
`toyPartialB` (toy hash 14808 under `toyP6`). -/
def toyTrusteeTallyB : Transaction :=
  { verificationKey := ⟨[9], .KEY_TRUSTEE⟩, signature := [14808, 9], type := .TX_TRUSTEE_TALLY,
    body := .trusteeTally 408 [⟨11, some toyPartialB⟩] }

/-- A trustee tally of trustee 8 for the tally 408 carrying `toyPartialC` (toy
hash 808 under `toyP6`). -/
def toyTrusteeTallyC : Transaction :=
  { verificationKey := ⟨[8], .KEY_TRUSTEE⟩, signature := [808, 8], type := .TX_TRUSTEE_TALLY,
    body := .trusteeTally 408 [⟨11, some toyPartialC⟩] }

/-- The block after `toyB3` holding the two trustee tallies of trustee 9. -/
def toyB6 : Block := toyBlock 6 4 3 [toyTrusteeTallyA, toyTrusteeTallyB]

/-- A block after `toyB3` holding the trustee tally with the server id 0. -/
def toyB7 : Block := toyBlock 7 4 3 [toyTrusteeTallyC]

/-- The stand-ins of `toyP` with a hash of a trustee tally that depends on the
responses of its proofs, reading `toyB6` and `toyB7` too. -/
def toyP6 : Primitives :=
  { toyP with
    hashTx := fun key type body =>
      match body with
      | .trusteeTally t pd =>
        400 + t + 1000 * (pd.map (fun b => (b.answers.map (fun a => a.z.toNat)).getD 0)).sum +
          (if type = TxType.TX_TRUSTEE_TALLY then 0 else 1000)
      | _ => toyP.hashTx key type body
    deserialize := fun bytes =>
      match bytes with
      | [] => none
      | n :: _ => (toyBlocks ++ [toyB6, toyB7]).find? (fun b => decide (b.header.nonce = n)) }

/-- The store after `toyB6` was appended to `toyDB3`. -/
def toyDB6 : BlockChainDB := (toyDB3.addBlock toyP6 toyB6).2

/-- The store after `toyB7` was appended to `toyDB3`. -/
def toyDB7 : BlockChainDB := (toyDB3.addBlock toyP6 toyB7).2

/-- A manager of the toy election with both trustee tallies of `toyB6`
registered for the tally request 408. -/
def toyManager6 : ElectionManager :=
  { (default : ElectionManager) with
    transaction := some toyElectionTx, tallies := [(408, [13808, 14808])] }

/-- A manager of the toy election with the trustee tally of `toyB7` registered
for the tally request 408. -/
def toyManager7 : ElectionManager :=
  { (default : ElectionManager) with
    transaction := some toyElectionTx, tallies := [(408, [808])] }

/-! ## Transactions whose archived type differs from their class

`Transaction::serialize` reads `type` from the archive, `verify()` is the
virtual function of the class and never reads `type`. -/

/-- A ciphertext other than `toyBadCipher`. -/
def toyOtherCipher : paillier_ciphertext_proof_t :=
  { c := 37, e := 2 ^ 256, e1 := 0, v1 := 1, e2 := 0, v2 := 1 }

/-- A vote of voter 5 in the election 105 on question 11, carrying
`toyOtherCipher`; the object is a `TxVote` and its archive holds the type
`TX_TALLY` (toy hash 1306). -/
def toyForgedVoteTx : Transaction :=
  { verificationKey := ⟨[5], .KEY_VOTE⟩, signature := [1306, 5], type := .TX_TALLY,
    body := .vote 105 [⟨11, some toyOtherCipher⟩] }

/-- A block after `toyB1` holding `toyForgedVoteTx` only (toy hash 9). -/
def toyB8 : Block := toyBlock 8 2 3 [toyForgedVoteTx]

/-- A block after `toyB2` holding `toyForgedVoteTx` only (toy hash 10). -/
def toyB9 : Block := toyBlock 9 3 3 [toyForgedVoteTx]

/-- The stand-ins of `toyP`, reading `toyB8` and `toyB9` too. -/
def toyP8 : Primitives :=
  { toyP with
    deserialize := fun bytes =>
      match bytes with
      | [] => none
      | n :: _ => (toyBlocks ++ [toyB8, toyB9]).find? (fun b => decide (b.header.nonce = n)) }

/-- The store after `toyB8` was appended to `toyDB1`. -/
def toyDB8 : BlockChainDB := (toyDB1.addBlock toyP8 toyB8).2

/-- The tally request of the election creator on the block `toyB8` (toy hash
414). -/
def toyTally8Tx : Transaction :=
  { verificationKey := ⟨[3], .KEY_ELECTION⟩, signature := [414, 3], type := .TX_TALLY,
    body := .tally 105 9 false }

/-- A second election of the same creator (toy hash 106). -/
def toyElection2Tx : Transaction :=
  { verificationKey := ⟨[3], .KEY_ELECTION⟩, signature := [106, 3], type := .TX_ELECTION,
    body := .election { toyElection with name := "E2", probableEndingTime := 6 } }

/-- A heap: `1` is the second election, `2` the vote `toyVoteTx`, `3` the same
vote as deserialized from a network block, `5` the vote `toyForgedVoteTx`. -/
def toyHeap2 : Nat → Transaction :=
  fun p => if p = 1 then toyElection2Tx else if p = 5 then toyForgedVoteTx else toyVoteTx

/-! ## The input of the Fiat-Shamir hash (`paillier/paillier.cpp`) -/

/-- Models `mpz_get_str(NULL, 16, value)`: the digits in base 16 (lower case),
after a minus sign for a negative value. -/
def mpz_get_str16 (value : Int) : List Char :=
  if value < 0 then '-' :: Nat.toDigits 16 value.natAbs else Nat.toDigits 16 value.toNat

/-- The bytes `hashMultiple` passes to `Hash`: the concatenated strings and the
null terminator. -/
def hashMultiple_concat (vec : List Int) : List Char :=
  -- get strings
  let chars := vec.map mpz_get_str16
  -- do the copy and concat
  let concat := chars.foldl (fun concat c => concat ++ c) []
  concat ++ [Char.ofNat 0]

end Bitvoting

namespace Bitvoting

open Nat

/-! ## Integer Lagrange coefficients -/

theorem list_prod_dvd_factorial (k : ℕ) (zs : List ℕ) (hnd : zs.Nodup)
    (hr : ∀ z ∈ zs, 1 ≤ z ∧ z ≤ k) : zs.prod ∣ k ! := by
  have h1 : zs.prod = ∏ z ∈ zs.toFinset, z := by
    rw [List.prod_toFinset _ hnd]; simp
  have h2 : zs.toFinset ⊆ Finset.Ico 1 (k + 1) := by
    intro z hz
    rw [List.mem_toFinset] at hz
    have := hr z hz
    exact Finset.mem_Ico.mpr ⟨this.1, by omega⟩
  rw [h1, ← Finset.prod_Ico_id_eq_factorial]
  exact Finset.prod_dvd_prod_of_subset _ _ _ h2

theorem diff_prod_dvd_factorial (l : ℕ) (x : ℤ) (hx : 1 ≤ x ∧ x ≤ l) (ys : List ℤ)
    (hnd : ys.Nodup) (hr : ∀ y ∈ ys, 1 ≤ y ∧ y ≤ l) (hxy : x ∉ ys) :
    (ys.map (fun y => x - y)).prod ∣ ((l ! : ℕ) : ℤ) := by
  rw [← Int.natAbs_dvd_natAbs, Int.natAbs_ofNat]
  have hprod : ((ys.map (fun y => x - y)).prod).natAbs
      = (ys.map (fun y => (x - y).natAbs)).prod := by
    have := map_list_prod Int.natAbsHom (ys.map (fun y => x - y))
    simpa [List.map_map, Function.comp_def] using this
  rw [hprod]
  have hsplit : (ys.map (fun y => (x - y).natAbs)).prod
      = ((ys.filter (fun y => decide (y < x))).map (fun y => (x - y).natAbs)).prod
        * ((ys.filter (fun y => !decide (y < x))).map (fun y => (x - y).natAbs)).prod := by
    rw [← List.prod_append, ← List.map_append]
    exact ((List.filter_append_perm _ ys).map _).prod_eq.symm
  rw [hsplit]
  have hlo : ((ys.filter (fun y => decide (y < x))).map (fun y => (x - y).natAbs)).prod
      ∣ (x.toNat - 1)! := by
    apply list_prod_dvd_factorial
    · apply List.Nodup.map_on _ (hnd.filter _)
      intro a ha b hb hab
      simp only [List.mem_filter, decide_eq_true_eq] at ha hb
      omega
    · intro z hz
      simp only [List.mem_map, List.mem_filter, decide_eq_true_eq] at hz
      obtain ⟨y, ⟨hy, hlt⟩, rfl⟩ := hz
      have := hr y hy
      omega
  have hhi : ((ys.filter (fun y => !decide (y < x))).map (fun y => (x - y).natAbs)).prod
      ∣ (l - 1 - (x.toNat - 1))! := by
    apply list_prod_dvd_factorial
    · apply List.Nodup.map_on _ (hnd.filter _)
      intro a ha b hb hab
      simp only [List.mem_filter, Bool.not_eq_true', decide_eq_false_iff_not] at ha hb
      omega
    · intro z hz
      simp only [List.mem_map, List.mem_filter, Bool.not_eq_true', decide_eq_false_iff_not] at hz
      obtain ⟨y, ⟨hy, hlt⟩, rfl⟩ := hz
      have := hr y hy
      have hne : y ≠ x := fun h => hxy (h ▸ hy)
      omega
  have hle : x.toNat - 1 ≤ l - 1 := by omega
  have h3 := Nat.factorial_mul_factorial_dvd_factorial hle
  have h4 : (l - 1)! ∣ l ! := Nat.factorial_dvd_factorial (by omega)
  exact (Nat.mul_dvd_mul hlo hhi).trans (h3.trans h4)

/-- Products of differences of distinct server ids divide `l!`. -/
theorem finset_diff_prod_dvd_factorial (l t : ℕ) (xs : ℕ → ℤ)
    (hr : ∀ j < t, 1 ≤ xs j ∧ xs j ≤ l)
    (hinj : ∀ j < t, ∀ j' < t, xs j = xs j' → j = j')
    (i : ℕ) (hi : i < t) (S : Finset ℕ) (hS : ∀ j ∈ S, j < t) (hiS : i ∉ S) :
    (∏ j ∈ S, (xs i - xs j)) ∣ ((l ! : ℕ) : ℤ) := by
  have h := diff_prod_dvd_factorial l (xs i) (hr i hi) (S.toList.map xs)
    (by
      apply List.Nodup.map_on _ S.nodup_toList
      intro a ha b hb hab
      exact hinj a (hS a (Finset.mem_toList.mp ha)) b (hS b (Finset.mem_toList.mp hb)) hab)
    (by
      intro y hy
      simp only [List.mem_map, Finset.mem_toList] at hy
      obtain ⟨j, hj, rfl⟩ := hy
      exact hr j (hS j hj))
    (by
      intro hmem
      simp only [List.mem_map, Finset.mem_toList] at hmem
      obtain ⟨j, hj, hji⟩ := hmem
      have := hinj j (hS j hj) i hi hji
      exact hiS (this ▸ hj))
  rw [List.map_map] at h
  rw [← Finset.prod_to_list]
  exact h

theorem getElem?_eq_some_idAt (partDecr : List paillier_partialdecryption_proof_t) (j : ℕ)
    (hj : j < partDecr.length) : ∃ p, partDecr[j]? = some p ∧ p.id = idAt partDecr j := by
  refine ⟨partDecr[j], List.getElem?_eq_getElem hj, ?_⟩
  simp [idAt, List.getElem?_eq_getElem hj]

/-- Invariant of the inner loop of `paillier_combining`: after `k` rounds the
accumulator is the exact quotient. -/
theorem paillier_combining_lambda_loop (pub : paillier_pubkey_t)
    (partDecr : List paillier_partialdecryption_proof_t)
    (hdelta : pub.delta = ((pub.decryptServers ! : ℕ) : ℤ))
    (hlen : partDecr.length = pub.threshold)
    (hr : ∀ j < pub.threshold, 1 ≤ idAt partDecr j ∧ idAt partDecr j ≤ pub.decryptServers)
    (hinj : ∀ j < pub.threshold, ∀ j' < pub.threshold,
      idAt partDecr j = idAt partDecr j' → j = j')
    (i : ℕ) (hi : i < pub.threshold) (k : ℕ) (hk : k ≤ pub.threshold) :
    ∃ A : ℤ, (List.range k).foldlM (paillier_combining_step partDecr i) pub.delta = some A ∧
      A * ∏ j ∈ (Finset.range k).erase i, (idAt partDecr i - idAt partDecr j)
        = pub.delta * ∏ j ∈ (Finset.range k).erase i, (- idAt partDecr j) := by
  induction k with
  | zero => exact ⟨pub.delta, by simp⟩
  | succ k ih =>
    obtain ⟨A, hA, hinv⟩ := ih (by omega)
    rw [List.range_succ, List.foldlM_append, hA]
    by_cases hki : k = i
    · subst hki
      refine ⟨A, by simp [paillier_combining_step], ?_⟩
      have : (Finset.range (k + 1)).erase k = (Finset.range k).erase k := by
        ext j; simp only [Finset.mem_erase, Finset.mem_range]; omega
      rw [this]; exact hinv
    · have hset : (Finset.range (k + 1)).erase i = insert k ((Finset.range k).erase i) := by
        ext j; simp only [Finset.mem_erase, Finset.mem_range, Finset.mem_insert]; omega
      have hknot : k ∉ (Finset.range k).erase i := by simp
      obtain ⟨pk, hpk, hpkid⟩ := getElem?_eq_some_idAt partDecr k (by omega)
      obtain ⟨pi, hpi, hpiid⟩ := getElem?_eq_some_idAt partDecr i (by omega)
      have hne : idAt partDecr i - idAt partDecr k ≠ 0 := by
        intro h0
        have := hinj i hi k (by omega) (by omega)
        exact hki this.symm
      have hdvd := finset_diff_prod_dvd_factorial pub.decryptServers pub.threshold
        (idAt partDecr) hr hinj i hi ((Finset.range (k + 1)).erase i)
        (by intro j hj; simp only [Finset.mem_erase, Finset.mem_range] at hj; omega)
        (by simp)
      rw [← hdelta, hset, Finset.prod_insert hknot] at hdvd
      obtain ⟨Q, hQ⟩ := hdvd
      have hdne : pub.delta ≠ 0 := by
        rw [hdelta]; exact_mod_cast Nat.factorial_ne_zero _
      have hDne : ∏ j ∈ (Finset.range k).erase i, (idAt partDecr i - idAt partDecr j) ≠ 0 := by
        intro h0; rw [h0] at hQ; simp at hQ; exact hdne hQ
      have hAeq : A = (idAt partDecr i - idAt partDecr k)
          * (Q * ∏ j ∈ (Finset.range k).erase i, (- idAt partDecr j)) := by
        apply mul_right_cancel₀ hDne
        rw [hinv]
        conv_lhs => rw [hQ]
        ring
      refine ⟨Q * (∏ j ∈ (Finset.range k).erase i, (- idAt partDecr j)) * (- idAt partDecr k),
        ?_, ?_⟩
      · simp only [List.foldlM_cons, List.foldlM_nil, paillier_combining_step, hki, ne_eq,
          not_false_eq_true, if_true, hpk, hpi, Option.bind_eq_bind, Option.some_bind,
          mpz_tdiv_q, hpiid, hpkid, hne, if_false, bind_pure]
        congr 1
        rw [hAeq]
        rw [show (idAt partDecr i - idAt partDecr k)
            * (Q * ∏ j ∈ (Finset.range k).erase i, (- idAt partDecr j)) * (- idAt partDecr k)
            = (idAt partDecr i - idAt partDecr k)
              * (Q * (∏ j ∈ (Finset.range k).erase i, (- idAt partDecr j)) * (- idAt partDecr k))
            by ring]
        exact Int.mul_tdiv_cancel_left _ hne
      · rw [hset, Finset.prod_insert hknot, Finset.prod_insert hknot]
        conv_rhs => rw [hQ]
        ring

end Bitvoting

namespace Bitvoting

open Polynomial in
/-- The polynomial over the rationals with the integer coefficient list `a`. -/
theorem exists_poly_of_list (a : List ℤ) :
    ∃ F : Polynomial ℚ, (∀ m, a.length ≤ m → F.coeff m = 0) ∧
      ∀ x : ℤ, F.eval (x : ℚ) = (polyEval a x : ℚ) := by
  induction a with
  | nil => exact ⟨0, by simp, by simp [polyEval]⟩
  | cons a0 rest ih =>
    obtain ⟨G, hG, hGe⟩ := ih
    refine ⟨C (a0 : ℚ) + X * G, ?_, ?_⟩
    · intro m hm
      cases m with
      | zero => simp at hm
      | succ m =>
        simp only [List.length_cons, Nat.add_le_add_iff_right] at hm
        rw [coeff_add, coeff_C_succ, coeff_X_mul, hG m hm, add_zero]
    · intro x
      simp [polyEval, hGe]

/-- Lagrange interpolation at zero with the multiplier `delta`: the integer
coefficients `lam i` recombine the values of a polynomial of degree below `t`
into `delta * f(0)`. -/
theorem lagrange_at_zero (t : ℕ) (xs : ℕ → ℤ)
    (hinj : ∀ j < t, ∀ j' < t, xs j = xs j' → j = j')
    (delta : ℤ) (lam : ℕ → ℤ)
    (hlam : ∀ i < t, lam i * ∏ j ∈ (Finset.range t).erase i, (xs i - xs j)
      = delta * ∏ j ∈ (Finset.range t).erase i, (- xs j))
    (a : List ℤ) (ha : a.length ≤ t) :
    ∑ i ∈ Finset.range t, lam i * polyEval a (xs i) = delta * polyEval a 0 := by
  obtain ⟨F, hF, hFe⟩ := exists_poly_of_list a
  have hinjQ : Set.InjOn (fun j => (xs j : ℚ)) (Finset.range t : Finset ℕ) := by
    intro j hj j' hj' h
    simp only [Finset.coe_range, Set.mem_Iio] at hj hj'
    have h' : (xs j : ℚ) = xs j' := h
    exact hinj j hj j' hj' (by exact_mod_cast h')
  have hdeg : F.degree < ((Finset.range t).card : WithBot ℕ) := by
    rw [Finset.card_range, Polynomial.degree_lt_iff_coeff_zero]
    intro m hm
    exact hF m (le_trans ha hm)
  have hint := Lagrange.eq_interpolate hinjQ hdeg
  have h0 := congrArg (Polynomial.eval (0 : ℚ)) hint
  rw [Lagrange.interpolate_apply, Polynomial.eval_finset_sum] at h0
  have hbasis : ∀ i ∈ Finset.range t,
      (delta : ℚ) * Polynomial.eval 0 (Lagrange.basis (Finset.range t) (fun j => (xs j : ℚ)) i)
        = (lam i : ℚ) := by
    intro i hi
    have hi' : i < t := Finset.mem_range.mp hi
    have hD : (∏ j ∈ (Finset.range t).erase i, ((xs i : ℚ) - xs j)) ≠ 0 := by
      rw [Finset.prod_ne_zero_iff]
      intro j hj
      simp only [Finset.mem_erase, Finset.mem_range] at hj
      intro h
      have : xs i = xs j := by exact_mod_cast sub_eq_zero.mp h
      exact hj.1 (hinj i hi' j hj.2 this).symm
    have hl : (lam i : ℚ) * ∏ j ∈ (Finset.range t).erase i, ((xs i : ℚ) - xs j)
        = delta * ∏ j ∈ (Finset.range t).erase i, (- (xs j : ℚ)) := by
      exact_mod_cast hlam i hi'
    rw [Lagrange.basis, Polynomial.eval_prod]
    simp only [Lagrange.basisDivisor, Polynomial.eval_mul, Polynomial.eval_C,
      Polynomial.eval_sub, Polynomial.eval_X, zero_sub]
    rw [Finset.prod_mul_distrib, Finset.prod_inv_distrib]
    field_simp
    linarith [hl]
  have key : (delta : ℚ) * (polyEval a 0 : ℚ)
      = ∑ i ∈ Finset.range t, (lam i : ℚ) * (polyEval a (xs i) : ℚ) := by
    have e0 := hFe 0
    simp only [Int.cast_zero] at e0
    rw [← e0, h0, Finset.mul_sum]
    apply Finset.sum_congr rfl
    intro i hi
    rw [Polynomial.eval_mul, Polynomial.eval_C, hFe, ← hbasis i hi]
    ring
  have : ((∑ i ∈ Finset.range t, lam i * polyEval a (xs i) : ℤ) : ℚ)
      = ((delta * polyEval a 0 : ℤ) : ℚ) := by
    push_cast
    exact key.symm
  exact_mod_cast this

end Bitvoting

namespace Bitvoting

/-! ## GMP modular arithmetic read in `ZMod` -/

theorem zmod_unit_val_cast (N : ℕ) [NeZero N] (u : (ZMod N)ˣ) :
    ((((u : ZMod N).val : ℕ) : ℤ) : ZMod N) = (u : ZMod N) := by
  rw [Int.cast_natCast, ZMod.natCast_zmod_val]

theorem mpz_invert_unit (N : ℕ) [NeZero N] (u : (ZMod N)ˣ) (b : ℤ)
    (hb : b = (((u : ZMod N).val : ℕ) : ℤ)) :
    ∃ inv : ℤ, mpz_invert b (N : ℤ) = some inv ∧
      (inv : ZMod N) = ((u⁻¹ : (ZMod N)ˣ) : ZMod N) := by
  have hbc : (b : ZMod N) = (u : ZMod N) := by rw [hb]; exact zmod_unit_val_cast N u
  have hcop : Int.gcd b (N : ℤ) = 1 := by
    rw [hb, Int.gcd_natCast_natCast]
    exact ZMod.val_coe_unit_coprime u
  refine ⟨Int.gcdA b (N : ℤ) % (N : ℤ), by simp [mpz_invert, hcop], ?_⟩
  have hbez := Int.gcd_eq_gcd_ab b (N : ℤ)
  rw [hcop] at hbez
  have hcast := congrArg (Int.cast : ℤ → ZMod N) hbez
  push_cast at hcast
  rw [hbc] at hcast
  simp only [ZMod.natCast_self, zero_mul, add_zero] at hcast
  have hmod : (((Int.gcdA b (N : ℤ) % (N : ℤ) : ℤ)) : ZMod N)
      = ((Int.gcdA b (N : ℤ) : ℤ) : ZMod N) := by
    rw [ZMod.intCast_eq_intCast_iff]
    exact Int.mod_modEq _ _
  rw [hmod]
  exact (Units.inv_eq_of_mul_eq_one_right hcast.symm).symm

/-- On a reduced unit, `mpz_powm` is the integer power in the unit group. -/
theorem mpz_powm_unit (N : ℕ) [NeZero N] (u : (ZMod N)ˣ) (e : ℤ) (b : ℤ)
    (hb : b = (((u : ZMod N).val : ℕ) : ℤ)) :
    mpz_powm b e (N : ℤ)
      = some ((((u ^ e : (ZMod N)ˣ) : ZMod N).val : ℕ) : ℤ) := by
  have hbc : (b : ZMod N) = (u : ZMod N) := by rw [hb]; exact zmod_unit_val_cast N u
  have hN : ¬ ((N : ℤ) = 0) := by exact_mod_cast NeZero.ne N
  unfold mpz_powm
  rw [if_neg hN]
  split_ifs with he
  · obtain ⟨k, rfl⟩ := Int.eq_ofNat_of_zero_le he
    rw [Int.toNat_ofNat, zpow_natCast, Units.val_pow_eq_pow_val, ← ZMod.val_intCast,
      Int.cast_pow, hbc]
  · obtain ⟨inv, hinv, hinvc⟩ := mpz_invert_unit N u b hb
    rw [hinv, Option.map_some', ← ZMod.val_intCast, Int.cast_pow, hinvc]
    have hk : e = -(((-e).toNat : ℕ) : ℤ) := by omega
    conv_rhs => rw [hk, zpow_neg, zpow_natCast]
    rw [← inv_pow, Units.val_pow_eq_pow_val]

theorem mpz_mod_of_ne (a N : Int) (hN : N ≠ 0) : mpz_mod a N = some (a % N) := by
  simp [mpz_mod, hN]

theorem mpz_mod_mul_val (N : ℕ) [NeZero N] (a b : ZMod N) :
    mpz_mod (((a.val : ℕ) : ℤ) * ((b.val : ℕ) : ℤ)) (N : ℤ)
      = some (((a * b).val : ℕ) : ℤ) := by
  have hN : (N : ℤ) ≠ 0 := by exact_mod_cast NeZero.ne N
  rw [mpz_mod_of_ne _ _ hN, ← ZMod.val_intCast, Int.cast_mul, Int.cast_natCast, Int.cast_natCast,
    ZMod.natCast_zmod_val, ZMod.natCast_zmod_val]

end Bitvoting

namespace Bitvoting

/-- Invariant of the outer loop of `paillier_combining`: when every stored
partial decryption is a power of one unit `uc`, the running product is the
power of `uc` by the accumulated exponent. -/
theorem paillier_combining_outer_loop (pub : paillier_pubkey_t)
    (partDecr : List paillier_partialdecryption_proof_t)
    (N : ℕ) [NeZero N] (hN1 : 1 < N) (hN : pub.n_squared = (N : ℤ)) (uc : (ZMod N)ˣ)
    (dexp lam : ℕ → ℤ)
    (hdec : ∀ i < pub.threshold, ∃ p, partDecr[i]? = some p ∧
      p.decryption = ((((uc ^ dexp i : (ZMod N)ˣ) : ZMod N).val : ℕ) : ℤ))
    (hlam : ∀ i < pub.threshold, paillier_combining_lambda pub partDecr i = some (lam i))
    (k : ℕ) (hk : k ≤ pub.threshold) :
    (List.range k).foldlM (paillier_combining_factor pub partDecr) 1
      = some ((((uc ^ (∑ i ∈ Finset.range k, dexp i * (lam i * 2)) : (ZMod N)ˣ)
          : ZMod N).val : ℕ) : ℤ) := by
  induction k with
  | zero =>
    simp only [List.range_zero, List.foldlM_nil, Finset.range_zero, Finset.sum_empty, zpow_zero,
      Units.val_one]
    rw [ZMod.val_one_eq_one_mod, Nat.mod_eq_of_lt hN1]
    rfl
  | succ k ih =>
    rw [List.range_succ, List.foldlM_append, ih (by omega)]
    obtain ⟨p, hp, hpd⟩ := hdec k (by omega)
    have hpow := mpz_powm_unit N (uc ^ dexp k) (lam k * 2) p.decryption hpd
    simp only [List.foldlM_cons, List.foldlM_nil, paillier_combining_factor,
      hlam k (by omega), hp, hN, hpow, Option.bind_eq_bind, Option.some_bind, bind_pure]
    have hE : uc ^ (∑ i ∈ Finset.range k, dexp i * (lam i * 2)) * (uc ^ dexp k) ^ (lam k * 2)
        = uc ^ (∑ i ∈ Finset.range (k + 1), dexp i * (lam i * 2)) := by
      rw [Finset.sum_range_succ, zpow_add, ← zpow_mul uc (dexp k) (lam k * 2)]
    rw [mpz_mod_mul_val, ← Units.val_mul, hE]

end Bitvoting

namespace Bitvoting

open Nat

/-! ## Number theory of the Paillier modulus -/

theorem totient_sq_safe (p q p' q' : ℕ) (hp : p.Prime) (hq : q.Prime) (hpq : p ≠ q)
    (hp' : p = 2 * p' + 1) (hq' : q = 2 * q' + 1) :
    Nat.totient ((p * q) ^ 2) = 4 * (p * q) * (p' * q') := by
  have hcop : Nat.Coprime (p ^ 2) (q ^ 2) :=
    Nat.Coprime.pow 2 2 ((Nat.coprime_primes hp hq).mpr hpq)
  rw [mul_pow, Nat.totient_mul hcop, Nat.totient_prime_pow hp (by norm_num),
    Nat.totient_prime_pow hq (by norm_num)]
  have h1 : p - 1 = 2 * p' := by omega
  have h2 : q - 1 = 2 * q' := by omega
  rw [h1, h2]
  ring

theorem one_add_pow_zmod_sq (n k : ℕ) :
    ((1 + n : ZMod (n ^ 2))) ^ k = 1 + (k : ZMod (n ^ 2)) * n := by
  have hn2 : (n : ZMod (n ^ 2)) * n = 0 := by
    have : ((n ^ 2 : ℕ) : ZMod (n ^ 2)) = 0 := ZMod.natCast_self _
    rw [← this]; push_cast; ring
  induction k with
  | zero => simp
  | succ k ih =>
    rw [pow_succ (1 + (n : ZMod (n ^ 2))) k, ih]
    push_cast
    linear_combination (k : ZMod (n ^ 2)) * hn2

/-- The threshold parameters force `l < p` for every prime factor `p` of `n`
once `4 * delta^2` is invertible modulo `n`. -/
theorem decryptServers_lt_prime (l p n : ℕ) (csc : ℤ) (hp : p.Prime) (hpn : p ∣ n)
    (hcsc : (4 * ((l ! : ℕ) : ℤ) ^ 2 * csc) % (n : ℤ) = 1) : l < p := by
  by_contra hlt
  have hdvd : p ∣ l ! := (Nat.Prime.dvd_factorial hp).mpr (by omega)
  have h1 : (p : ℤ) ∣ 4 * ((l ! : ℕ) : ℤ) ^ 2 * csc := by
    have : (p : ℤ) ∣ ((l ! : ℕ) : ℤ) := Int.natCast_dvd_natCast.mpr hdvd
    exact Dvd.dvd.mul_right (Dvd.dvd.mul_left (Dvd.dvd.pow this (by norm_num)) 4) csc
  have h2 : (p : ℤ) ∣ (n : ℤ) := Int.natCast_dvd_natCast.mpr hpn
  have h3 := Int.emod_add_ediv (4 * ((l ! : ℕ) : ℤ) ^ 2 * csc) (n : ℤ)
  rw [hcsc] at h3
  have h4 : (p : ℤ) ∣ 1 := by
    have h5 : (p : ℤ) ∣ (n : ℤ) * (4 * ((l ! : ℕ) : ℤ) ^ 2 * csc / (n : ℤ)) :=
      Dvd.dvd.mul_right h2 _
    have := (Int.dvd_add_left h5).mp (h3 ▸ h1)
    exact this
  have h6 : p ∣ 1 := Int.natCast_dvd_natCast.mp (by exact_mod_cast h4)
  exact hp.one_lt.ne' (Nat.dvd_one.mp h6)

end Bitvoting

namespace Bitvoting

open Nat

/-- Powers of the unit `1 + n` modulo `n^2`, read back as reduced integers. -/
theorem one_add_zpow_val (n : ℕ) (hn : 1 < n) (ug : (ZMod (n ^ 2))ˣ)
    (hug : (ug : ZMod (n ^ 2)) = 1 + (n : ZMod (n ^ 2))) (Z : ℤ) :
    ((((ug ^ Z : (ZMod (n ^ 2))ˣ) : ZMod (n ^ 2)).val : ℕ) : ℤ) = 1 + (Z % (n : ℤ)) * n := by
  have hn2 : ((n ^ 2 : ℕ) : ZMod (n ^ 2)) = 0 := ZMod.natCast_self _
  have hugn : ug ^ n = 1 := by
    apply Units.ext
    rw [Units.val_pow_eq_pow_val, hug, one_add_pow_zmod_sq, Units.val_one]
    have : (n : ZMod (n ^ 2)) * n = 0 := by rw [← hn2]; push_cast; ring
    rw [this, add_zero]
  have hnpos : (0 : ℤ) < n := by exact_mod_cast (by omega : 0 < n)
  have hk0 : 0 ≤ Z % (n : ℤ) := Int.emod_nonneg _ (by omega)
  have hklt : Z % (n : ℤ) < n := Int.emod_lt_of_pos _ hnpos
  obtain ⟨k, hk⟩ := Int.eq_ofNat_of_zero_le hk0
  have hkn : k < n := by rw [hk] at hklt; exact_mod_cast hklt
  have hZ : Z = (n : ℤ) * (Z / (n : ℤ)) + (k : ℤ) := by
    rw [← hk]; exact (Int.ediv_add_emod Z n).symm
  have hpow : ug ^ Z = ug ^ k := by
    rw [hZ, zpow_add, zpow_mul, zpow_natCast, hugn, one_zpow, one_mul, zpow_natCast]
  rw [hpow, Units.val_pow_eq_pow_val, hug, one_add_pow_zmod_sq, hk]
  have hcast : (1 + (k : ZMod (n ^ 2)) * n) = ((1 + k * n : ℕ) : ZMod (n ^ 2)) := by
    push_cast; ring
  rw [hcast, ZMod.val_natCast]
  have hlt : 1 + k * n < n ^ 2 := by
    have : k * n ≤ (n - 1) * n := Nat.mul_le_mul_right n (by omega)
    have h2 : (n - 1) * n + n = n ^ 2 := by
      cases n with
      | zero => omega
      | succ m => simp; ring
    omega
  rw [Nat.mod_eq_of_lt hlt]
  push_cast
  ring

end Bitvoting

namespace Bitvoting

open Nat

/-- The exponent accumulated by `paillier_combining` on honest partial
decryptions is `4 * delta^2 * d` up to a multiple of `4 * n * m`. -/
theorem combining_exponent (t : ℕ) (delta d nm : ℤ) (xs : ℕ → ℤ) (sAt lam : ℕ → ℤ)
    (a : List ℤ) (hf0 : polyEval a 0 = d)
    (hs : ∀ i < t, sAt i = polyEval a (xs i) % nm)
    (hlag : ∑ i ∈ Finset.range t, lam i * polyEval a (xs i) = delta * polyEval a 0) :
    ∃ K : ℤ, ∑ i ∈ Finset.range t, delta * sAt i * 2 * (lam i * 2)
      = 4 * delta ^ 2 * d + 4 * nm * K := by
  refine ⟨- (delta * ∑ i ∈ Finset.range t, lam i * (polyEval a (xs i) / nm)), ?_⟩
  have h1 : ∑ i ∈ Finset.range t, delta * sAt i * 2 * (lam i * 2)
      = ∑ i ∈ Finset.range t,
          (4 * delta * (lam i * polyEval a (xs i))
            - 4 * nm * delta * (lam i * (polyEval a (xs i) / nm))) := by
    apply Finset.sum_congr rfl
    intro i hi
    rw [hs i (Finset.mem_range.mp hi)]
    have := Int.emod_add_ediv (polyEval a (xs i)) nm
    have e : polyEval a (xs i) % nm = polyEval a (xs i) - nm * (polyEval a (xs i) / nm) := by
      linarith
    rw [e]; ring
  rw [h1, Finset.sum_sub_distrib, ← Finset.mul_sum, ← Finset.mul_sum, hlag, hf0]
  ring

end Bitvoting

namespace Bitvoting

open Nat

theorem zpow_reduce_of_exponent {G : Type} [CommGroup G] (ug ur : G) (phi M n : ℕ)
    (hphi : ∀ u : G, u ^ phi = 1) (X K Y : ℤ) (e2 : (n : ℤ) * X = (phi : ℤ) * Y) :
    (ug ^ M * ur ^ n) ^ (X + (phi : ℤ) * K) = ug ^ ((M : ℤ) * X) := by
  have h1 : (ug ^ M * ur ^ n) ^ ((phi : ℤ) * K) = 1 := by
    rw [zpow_mul, zpow_natCast, hphi, one_zpow]
  have h2 : (ur ^ n) ^ X = 1 := by
    rw [← zpow_natCast ur n, ← zpow_mul, e2, zpow_mul, zpow_natCast, hphi, one_zpow]
  have h3 : (ug ^ M) ^ X = ug ^ ((M : ℤ) * X) := by
    rw [← zpow_natCast ug M, ← zpow_mul]
  rw [zpow_add, h1, mul_one, mul_zpow, h2, mul_one, h3]

/-- The last lines of `paillier_combining`, once the product `cprime` is known. -/
theorem paillier_combining_tail (pub : paillier_pubkey_t)
    (partDecr : List paillier_partialdecryption_proof_t) (n : ℕ) (hn : pub.n = (n : ℤ))
    (hpos : 0 < n) (Y : ℤ)
    (hfold : (List.range pub.threshold).foldlM (paillier_combining_factor pub partDecr) 1
      = some (1 + Y * (n : ℤ))) :
    paillier_combining pub partDecr = some ((Y * pub.combineSharesConstant) % (n : ℤ)) := by
  have hnpos : (0 : ℤ) < (n : ℤ) := by exact_mod_cast hpos
  unfold paillier_combining
  rw [hfold]
  simp only [Option.bind_eq_bind, Option.some_bind, mpz_div, hn, add_sub_cancel_left]
  rw [if_neg (ne_of_gt hnpos)]
  simp only [Option.some_bind, mpz_mod_of_ne _ _ (ne_of_gt hnpos), Option.some.injEq]
  rw [Int.fdiv_eq_ediv _ (le_of_lt hnpos), Int.mul_ediv_cancel _ (ne_of_gt hnpos)]

theorem combining_result_mod (n : ℤ) (hn : 1 < n) (M delta d csc : ℤ) (hM0 : 0 ≤ M) (hMn : M < n)
    (hd1 : d % n = 1) (hcsc : (4 * delta ^ 2 * csc) % n = 1) :
    ((M * (4 * delta ^ 2 * d)) % n * csc) % n = M := by
  have hmod : (M * (4 * delta ^ 2 * d)) % n * csc ≡ M [ZMOD n] := by
    have h1 : (M * (4 * delta ^ 2 * d)) % n ≡ M * (4 * delta ^ 2 * d) [ZMOD n] :=
      Int.mod_modEq _ _
    have h2 : d ≡ 1 [ZMOD n] := by
      unfold Int.ModEq; rw [hd1]; exact (Int.emod_eq_of_lt (by norm_num) hn).symm
    have h3 : 4 * delta ^ 2 * csc ≡ 1 [ZMOD n] := by
      unfold Int.ModEq; rw [hcsc]; exact (Int.emod_eq_of_lt (by norm_num) hn).symm
    calc (M * (4 * delta ^ 2 * d)) % n * csc
        ≡ M * (4 * delta ^ 2 * d) * csc [ZMOD n] := Int.ModEq.mul_right _ h1
      _ = M * d * (4 * delta ^ 2 * csc) := by ring
      _ ≡ M * 1 * 1 [ZMOD n] := Int.ModEq.mul (Int.ModEq.mul_left _ h2) h3
      _ = M := by ring
  unfold Int.ModEq at hmod
  rw [hmod]
  exact Int.emod_eq_of_lt hM0 hMn

/-- C1 (combine correctness): for a key that satisfies the relations of key
generation (`n = p*q` for distinct primes `p = 2p'+1`, `q = 2q'+1`,
`m = p'q'`, `delta = l!`, `4*delta^2*combineSharesConstant = 1 mod n`, shares
`s_i = f(i) mod n*m` of a polynomial `f` with `t` coefficients, `f(0) = d`,
`d = 0 mod m`, `d = 1 mod n`), every plaintext `M ≤ l`, every blinding `r`
coprime to `n`, and every list of `t` partial decryptions with pairwise
distinct server ids in `1..l` that `paillier_dec` computes from
`c = (n+1)^M * r^n mod n^2`, `paillier_combining` returns exactly `M`. -/
theorem paillier_combining_correct
    (pub : paillier_pubkey_t) (p q p' q' : ℕ) (d : ℤ) (a : List ℤ) (M r : ℕ)
    (keys : List paillier_partialkey_t)
    (partDecr : List paillier_partialdecryption_proof_t)
    (hp : p.Prime) (hq : q.Prime) (hpq : p ≠ q)
    (hp' : p = 2 * p' + 1) (hq' : q = 2 * q' + 1)
    (hn : pub.n = ((p * q : ℕ) : ℤ)) (hnsq : pub.n_squared = pub.n * pub.n)
    (hdelta : pub.delta = ((pub.decryptServers ! : ℕ) : ℤ))
    (hcsc : (4 * pub.delta ^ 2 * pub.combineSharesConstant) % pub.n = 1)
    (hd0 : d % ((p' * q' : ℕ) : ℤ) = 0) (hd1 : d % pub.n = 1)
    (ha : a.length = pub.threshold) (hf0 : polyEval a 0 = d)
    (hM : M ≤ pub.decryptServers) (hr : Nat.Coprime r (p * q))
    (hlen : keys.length = pub.threshold)
    (hids : (keys.map (fun k => k.id)).Nodup)
    (hkeys : ∀ k ∈ keys, 1 ≤ k.id ∧ k.id ≤ pub.decryptServers ∧
      k.s = polyEval a k.id % (pub.n * ((p' * q' : ℕ) : ℤ)))
    (hparts : List.Forall₂
      (fun prv pd => paillier_dec none pub prv
        ⟨((pub.n + 1) ^ M * (r : ℤ) ^ (p * q)) % (pub.n * pub.n)⟩ = some pd)
      keys partDecr) :
    paillier_combining pub partDecr = some (M : ℤ) := by
  -- the modulus
  have hp2 : 2 ≤ p := hp.two_le
  have hq2 : 2 ≤ q := hq.two_le
  have hn1 : 1 < p * q := by nlinarith
  have hN1 : 1 < (p * q) ^ 2 := by nlinarith
  haveI : NeZero ((p * q) ^ 2) := ⟨by omega⟩
  have hN : pub.n_squared = (((p * q) ^ 2 : ℕ) : ℤ) := by
    rw [hnsq, hn]; push_cast; ring
  -- the units
  have hcopg : Nat.Coprime (p * q + 1) ((p * q) ^ 2) :=
    Nat.Coprime.pow_right 2 (by rw [Nat.coprime_self_add_left]; exact Nat.coprime_one_left _)
  obtain ⟨ug, hug⟩ : ∃ ug : (ZMod ((p * q) ^ 2))ˣ,
      (ug : ZMod ((p * q) ^ 2)) = 1 + ((p * q : ℕ) : ZMod ((p * q) ^ 2)) :=
    ⟨ZMod.unitOfCoprime _ hcopg, by rw [ZMod.coe_unitOfCoprime]; push_cast; ring⟩
  obtain ⟨ur, hur⟩ : ∃ ur : (ZMod ((p * q) ^ 2))ˣ,
      (ur : ZMod ((p * q) ^ 2)) = (r : ZMod ((p * q) ^ 2)) :=
    ⟨ZMod.unitOfCoprime _ (Nat.Coprime.pow_right 2 hr), ZMod.coe_unitOfCoprime _ _⟩
  have htot := totient_sq_safe p q p' q' hp hq hpq hp' hq'
  have hphi : ∀ u : (ZMod ((p * q) ^ 2))ˣ, u ^ (4 * (p * q) * (p' * q')) = 1 := by
    intro u; rw [← htot]; exact ZMod.pow_totient u
  -- the ciphertext
  have hc : ((pub.n + 1) ^ M * (r : ℤ) ^ (p * q)) % (pub.n * pub.n)
      = (((((ug ^ M * ur ^ (p * q) : (ZMod ((p * q) ^ 2))ˣ)) : ZMod ((p * q) ^ 2)).val : ℕ) : ℤ) := by
    rw [← hnsq, hN, ← ZMod.val_intCast, hn]
    congr 2
    rw [Units.val_mul, Units.val_pow_eq_pow_val, Units.val_pow_eq_pow_val, hug, hur]
    push_cast
    ring
  -- the partial decryptions, position by position
  obtain ⟨hlen2, hget⟩ := List.forall₂_iff_get.mp hparts
  have hplen : partDecr.length = pub.threshold := by omega
  have hpos : ∀ i (h1 : i < keys.length) (h2 : i < partDecr.length),
      (partDecr.get ⟨i, h2⟩).id = (keys.get ⟨i, h1⟩).id ∧
      (partDecr.get ⟨i, h2⟩).decryption
        = (((((ug ^ M * ur ^ (p * q)) ^ (pub.delta * (keys.get ⟨i, h1⟩).s * 2)
            : (ZMod ((p * q) ^ 2))ˣ) : ZMod ((p * q) ^ 2)).val : ℕ) : ℤ) := by
    intro i h1 h2
    have h := hget i h1 h2
    simp only [paillier_dec] at h
    rw [hN, mpz_powm_unit _ (ug ^ M * ur ^ (p * q)) _ _ hc] at h
    simp only [Option.map_some', Option.some.injEq] at h
    rw [← h]
    exact ⟨rfl, rfl⟩
  have hidAt : ∀ i (h1 : i < keys.length), idAt partDecr i = (keys.get ⟨i, h1⟩).id := by
    intro i h1
    have h2 : i < partDecr.length := by omega
    rw [← (hpos i h1 h2).1]
    simp [idAt, List.getElem?_eq_getElem h2]
  have hrange : ∀ j < pub.threshold,
      1 ≤ idAt partDecr j ∧ idAt partDecr j ≤ pub.decryptServers := by
    intro j hj
    have h1 : j < keys.length := by omega
    rw [hidAt j h1]
    have := hkeys _ (List.get_mem keys j h1)
    exact ⟨this.1, this.2.1⟩
  have hinj : ∀ j < pub.threshold, ∀ j' < pub.threshold,
      idAt partDecr j = idAt partDecr j' → j = j' := by
    intro j hj j' hj' h
    have h1 : j < keys.length := by omega
    have h1' : j' < keys.length := by omega
    rw [hidAt j h1, hidAt j' h1'] at h
    have hm1 : j < (keys.map (fun k => k.id)).length := by simpa using h1
    have hm2 : j' < (keys.map (fun k => k.id)).length := by simpa using h1'
    have : (keys.map (fun k => k.id))[j] = (keys.map (fun k => k.id))[j'] := by
      simpa using h
    exact (List.Nodup.getElem_inj_iff hids).mp this
  -- the Lagrange coefficients computed by the inner loop
  have hlamEx : ∀ i < pub.threshold, ∃ A : ℤ,
      paillier_combining_lambda pub partDecr i = some A ∧
      A * ∏ j ∈ (Finset.range pub.threshold).erase i, (idAt partDecr i - idAt partDecr j)
        = pub.delta * ∏ j ∈ (Finset.range pub.threshold).erase i, (- idAt partDecr j) :=
    fun i hi => paillier_combining_lambda_loop pub partDecr hdelta hplen hrange hinj i hi
      pub.threshold le_rfl
  have hlam : ∀ i < pub.threshold, paillier_combining_lambda pub partDecr i
      = some ((paillier_combining_lambda pub partDecr i).getD 0) := by
    intro i hi
    obtain ⟨A, hA, _⟩ := hlamEx i hi
    rw [hA]; rfl
  have hlamP : ∀ i < pub.threshold,
      (paillier_combining_lambda pub partDecr i).getD 0
        * ∏ j ∈ (Finset.range pub.threshold).erase i, (idAt partDecr i - idAt partDecr j)
        = pub.delta * ∏ j ∈ (Finset.range pub.threshold).erase i, (- idAt partDecr j) := by
    intro i hi
    obtain ⟨A, hA, hAP⟩ := hlamEx i hi
    rw [hA]; exact hAP
  -- the outer loop
  have hdec : ∀ i < pub.threshold, ∃ pd, partDecr[i]? = some pd ∧
      pd.decryption = (((((ug ^ M * ur ^ (p * q))
          ^ (pub.delta * ((keys[i]?).getD default).s * 2)
            : (ZMod ((p * q) ^ 2))ˣ) : ZMod ((p * q) ^ 2)).val : ℕ) : ℤ) := by
    intro i hi
    have h1 : i < keys.length := by omega
    have h2 : i < partDecr.length := by omega
    refine ⟨partDecr.get ⟨i, h2⟩, List.getElem?_eq_getElem h2, ?_⟩
    rw [(hpos i h1 h2).2]
    simp [List.getElem?_eq_getElem h1]
  have hloop := paillier_combining_outer_loop pub partDecr ((p * q) ^ 2) hN1 hN
    (ug ^ M * ur ^ (p * q)) (fun i => pub.delta * ((keys[i]?).getD default).s * 2)
    (fun i => (paillier_combining_lambda pub partDecr i).getD 0) hdec hlam
    pub.threshold le_rfl
  -- the accumulated exponent
  have hlag := lagrange_at_zero pub.threshold (idAt partDecr) hinj pub.delta
    (fun i => (paillier_combining_lambda pub partDecr i).getD 0) hlamP a (le_of_eq ha)
  have hs : ∀ i < pub.threshold, ((keys[i]?).getD default).s
      = polyEval a (idAt partDecr i) % (pub.n * ((p' * q' : ℕ) : ℤ)) := by
    intro i hi
    have h1 : i < keys.length := by omega
    rw [hidAt i h1]
    have := (hkeys _ (List.get_mem keys i h1)).2.2
    simpa [List.getElem?_eq_getElem h1] using this
  obtain ⟨K, hK⟩ := combining_exponent pub.threshold pub.delta d
    (pub.n * ((p' * q' : ℕ) : ℤ)) (idAt partDecr)
    (fun i => ((keys[i]?).getD default).s)
    (fun i => (paillier_combining_lambda pub partDecr i).getD 0) a hf0 hs hlag
  -- reduce the power of the ciphertext unit
  obtain ⟨d', hd'⟩ : ∃ d' : ℤ, d = ((p' * q' : ℕ) : ℤ) * d' :=
    ⟨d / ((p' * q' : ℕ) : ℤ), (Int.mul_ediv_cancel' (Int.dvd_of_emod_eq_zero hd0)).symm⟩
  have e1 : (4 * (pub.n * ((p' * q' : ℕ) : ℤ)) * K)
      = ((4 * (p * q) * (p' * q') : ℕ) : ℤ) * K := by rw [hn]; push_cast; ring
  have e2 : ((p * q : ℕ) : ℤ) * (4 * pub.delta ^ 2 * d)
      = ((4 * (p * q) * (p' * q') : ℕ) : ℤ) * (pub.delta ^ 2 * d') := by
    rw [hd']; push_cast; ring
  have hpowc := zpow_reduce_of_exponent ug ur (4 * (p * q) * (p' * q')) M (p * q) hphi
    (4 * pub.delta ^ 2 * d) K (pub.delta ^ 2 * d') e2
  have hloop2 : (List.range pub.threshold).foldlM (paillier_combining_factor pub partDecr) 1
      = some (1 + ((M : ℤ) * (4 * pub.delta ^ 2 * d)) % ((p * q : ℕ) : ℤ)
          * ((p * q : ℕ) : ℤ)) := by
    rw [hloop]
    congr 1
    rw [← one_add_zpow_val (p * q) hn1 ug hug, ← hpowc, ← e1, ← hK]
  -- the tail of the function
  have hlp : pub.decryptServers < p :=
    decryptServers_lt_prime pub.decryptServers p (p * q) pub.combineSharesConstant hp
      (Dvd.intro q rfl) (by rw [← hdelta, ← hn]; exact hcsc)
  have hMn : (M : ℤ) < ((p * q : ℕ) : ℤ) := by
    have hpq2 : p ≤ p * q := Nat.le_mul_of_pos_right p (by omega)
    have : M < p * q := by omega
    exact_mod_cast this
  rw [paillier_combining_tail pub partDecr (p * q) hn (by omega) _ hloop2]
  rw [hn] at hcsc hd1
  rw [combining_result_mod ((p * q : ℕ) : ℤ) (by exact_mod_cast hn1) (M : ℤ) pub.delta d
    pub.combineSharesConstant (by positivity) hMn hd1 hcsc]

end Bitvoting

namespace Bitvoting

/-! ## Block store: `addBlock` -/

theorem foldl_saveLocator (P : Primitives) (txs : List Transaction) (db : BlockChainDB) :
    let r := txs.foldl
      (fun db transaction => db.saveLocator (transaction.getHash P) db.currentLocation) db
    r.genesisBlock = db.genesisBlock ∧ r.latestBlock = db.latestBlock ∧
    r.currentLocation = db.currentLocation ∧ r.blockInfos = db.blockInfos ∧
    r.savedLatestBlock = db.savedLatestBlock ∧
    r.savedCurrentLocation = db.savedCurrentLocation ∧ r.files = db.files ∧
    ∀ h, r.locators h = if h ∈ txs.map (fun t => t.getHash P) then some db.currentLocation
      else db.locators h := by
  induction txs generalizing db with
  | nil => simp
  | cons t rest ih =>
    have := ih (db.saveLocator (t.getHash P) db.currentLocation)
    simp only [List.foldl_cons, List.map_cons, List.mem_cons]
    simp only [BlockChainDB.saveLocator] at this ⊢
    obtain ⟨h1, h2, h3, h4, h5, h6, h7, h8⟩ := this
    refine ⟨h1, h2, h3, h4, h5, h6, h7, ?_⟩
    intro h
    rw [h8 h]
    by_cases hm : h ∈ rest.map (fun t => t.getHash P)
    · simp [hm]
    · by_cases hh : h = t.getHash P
      · subst hh; simp [hm]
      · simp [hm, hh, Function.update_noteq hh]

theorem foldl_saveLocator_genesisBlock (P : Primitives) (txs : List Transaction)
    (db : BlockChainDB) : (txs.foldl (fun db transaction =>
      db.saveLocator (transaction.getHash P) db.currentLocation) db).genesisBlock
      = db.genesisBlock := (foldl_saveLocator P txs db).1

theorem foldl_saveLocator_latestBlock (P : Primitives) (txs : List Transaction)
    (db : BlockChainDB) : (txs.foldl (fun db transaction =>
      db.saveLocator (transaction.getHash P) db.currentLocation) db).latestBlock
      = db.latestBlock := (foldl_saveLocator P txs db).2.1

theorem foldl_saveLocator_currentLocation (P : Primitives) (txs : List Transaction)
    (db : BlockChainDB) : (txs.foldl (fun db transaction =>
      db.saveLocator (transaction.getHash P) db.currentLocation) db).currentLocation
      = db.currentLocation := (foldl_saveLocator P txs db).2.2.1

theorem foldl_saveLocator_blockInfos (P : Primitives) (txs : List Transaction)
    (db : BlockChainDB) : (txs.foldl (fun db transaction =>
      db.saveLocator (transaction.getHash P) db.currentLocation) db).blockInfos
      = db.blockInfos := (foldl_saveLocator P txs db).2.2.2.1

theorem foldl_saveLocator_files (P : Primitives) (txs : List Transaction)
    (db : BlockChainDB) : (txs.foldl (fun db transaction =>
      db.saveLocator (transaction.getHash P) db.currentLocation) db).files
      = db.files := (foldl_saveLocator P txs db).2.2.2.2.2.2.1

theorem foldl_saveLocator_locators (P : Primitives) (txs : List Transaction)
    (db : BlockChainDB) (h : Nat) : (txs.foldl (fun db transaction =>
      db.saveLocator (transaction.getHash P) db.currentLocation) db).locators h
      = if h ∈ txs.map (fun t => t.getHash P) then some db.currentLocation
        else db.locators h := (foldl_saveLocator P txs db).2.2.2.2.2.2.2 h

/-- What a successful `addBlock` did to the store. -/
theorem addBlock_ok (P : Primitives) (db db' : BlockChainDB) (B : Block)
    (h : db.addBlock P B = (.BC_OK, db')) :
    B.header.hashPrevBlock = db.latestBlock ∧
    ∃ content loc,
      ((db.files db.currentLocation.id = some content ∧ loc = db.currentLocation) ∨
       (db.files db.currentLocation.id = none ∧ content = [] ∧
          loc = ⟨db.currentLocation.id, 0⟩)) ∧
      content.length = loc.blockPos ∧
      db'.genesisBlock = db.genesisBlock ∧
      db'.latestBlock = B.getHash P ∧
      db'.blockInfos = Function.update db.blockInfos (B.getHash P)
        (some ⟨loc, B.header.hashPrevBlock⟩) ∧
      (∀ h, db'.locators h = if h ∈ B.transactions.map (fun t => t.getHash P) then some loc
        else db.locators h) ∧
      db'.files = Function.update db.files loc.id (some (content ++ P.serialize B)) ∧
      db'.currentLocation = (if (content ++ P.serialize B).length > CHAIN_BLOCK_FILE_SIZE
        then ⟨(loc.id + 1) % 2 ^ 32, (content ++ P.serialize B).length⟩
        else ⟨loc.id, (content ++ P.serialize B).length⟩) := by
  by_cases h1 : db.latestBlock = B.header.hashPrevBlock
  swap
  · simp [BlockChainDB.addBlock, h1] at h
  refine ⟨h1.symm, ?_⟩
  cases hfile : db.files db.currentLocation.id with
  | none =>
    refine ⟨[], ⟨db.currentLocation.id, 0⟩, Or.inr ⟨rfl, rfl, rfl⟩, rfl, ?_⟩
    simp only [BlockChainDB.addBlock, h1, ne_eq, not_true_eq_false, if_false, hfile,
      Option.isNone_none, if_true, Function.update_same, Option.getD_some, List.length_nil,
      List.nil_append, Prod.mk.injEq, true_and] at h
    subst h
    simp only [BlockChainDB.saveMetaData, BlockChainDB.saveBlockInfo, List.nil_append]
    split_ifs with hsz <;>
      simp [foldl_saveLocator_genesisBlock, foldl_saveLocator_latestBlock,
        foldl_saveLocator_currentLocation, foldl_saveLocator_blockInfos,
        foldl_saveLocator_files, foldl_saveLocator_locators]
  | some content =>
    simp only [BlockChainDB.addBlock, h1, ne_eq, not_true_eq_false, if_false, hfile,
      Option.isNone_some, Bool.false_eq_true, Option.getD_some] at h
    by_cases hpos : content.length = db.currentLocation.blockPos
    swap
    · simp [hpos] at h
    refine ⟨content, db.currentLocation, Or.inl ⟨rfl, rfl⟩, hpos, ?_⟩
    simp only [hpos, not_true_eq_false, if_false, Prod.mk.injEq, true_and] at h
    subst h
    simp only [BlockChainDB.saveMetaData, BlockChainDB.saveBlockInfo]
    split_ifs with hsz <;>
      simp [foldl_saveLocator_genesisBlock, foldl_saveLocator_latestBlock,
        foldl_saveLocator_currentLocation, foldl_saveLocator_blockInfos,
        foldl_saveLocator_files, foldl_saveLocator_locators]

end Bitvoting

namespace Bitvoting

theorem getBlock_of_archive (P : Primitives) (db : BlockChainDB) (b : Block)
    (info : BlockInfo) (content pre rest : List Nat)
    (hinfo : db.blockInfos (b.getHash P) = some info)
    (hfile : db.files info.locator.id = some content)
    (hcontent : content = pre ++ P.serialize b ++ rest)
    (hpre : pre.length = info.locator.blockPos)
    (hrt : P.deserialize (P.serialize b ++ rest) = some b) :
    db.getBlock P (b.getHash P) = (.BC_OK, some b) := by
  have hdrop : content.drop info.locator.blockPos = P.serialize b ++ rest := by
    rw [hcontent, ← hpre, List.append_assoc, List.drop_left]
  simp [BlockChainDB.getBlock, BlockChainDB.getBlockAt, hinfo, hfile, hdrop, hrt]

theorem getBlock_of_stored (P : Primitives) (db : BlockChainDB) (b : Block)
    (hs : Stored P db b) (hrt : ∀ rest, P.deserialize (P.serialize b ++ rest) = some b) :
    db.getBlock P (b.getHash P) = (.BC_OK, some b) := by
  obtain ⟨info, content, pre, rest, hinfo, hfile, hcontent, hpre⟩ := hs
  have hdrop : content.drop info.locator.blockPos = P.serialize b ++ rest := by
    rw [hcontent, ← hpre, List.append_assoc, List.drop_left]
  simp [BlockChainDB.getBlock, BlockChainDB.getBlockAt, hinfo, hfile, hdrop, hrt]

theorem stored_of_addBlock (P : Primitives) (db db' : BlockChainDB) (B : Block)
    (h : db.addBlock P B = (.BC_OK, db')) : Stored P db' B := by
  obtain ⟨_, content, loc, _, hlen, _, _, hinfos, _, hfiles, _⟩ := addBlock_ok P db db' B h
  refine ⟨⟨loc, B.header.hashPrevBlock⟩, content ++ P.serialize B, content, [], ?_, ?_, ?_, hlen⟩
  · rw [hinfos, Function.update_same]
  · rw [hfiles, Function.update_same]
  · simp

theorem stored_preserved (P : Primitives) (db db' : BlockChainDB) (B b : Block)
    (h : db.addBlock P B = (.BC_OK, db')) (hne : b.getHash P ≠ B.getHash P)
    (hs : Stored P db b) : Stored P db' b := by
  obtain ⟨_, content, loc, hopen, _, _, _, hinfos, _, hfiles, _⟩ := addBlock_ok P db db' B h
  obtain ⟨info, c, pre, rest, hinfo, hfile, hcontent, hpre⟩ := hs
  have hinfo' : db'.blockInfos (b.getHash P) = some info := by
    rw [hinfos, Function.update_noteq hne]; exact hinfo
  by_cases hid : info.locator.id = loc.id
  · have hc : c = content := by
      rcases hopen with ⟨hf, hl⟩ | ⟨hf, _, hl⟩
      · rw [hid, hl, hf] at hfile; exact (Option.some.inj hfile).symm
      · rw [hid, hl, hf] at hfile; exact absurd hfile (by simp)
    refine ⟨info, content ++ P.serialize B, pre, rest ++ P.serialize B, hinfo', ?_, ?_, hpre⟩
    · rw [hfiles, hid, Function.update_same]
    · rw [← hc, hcontent]; simp
  · refine ⟨info, c, pre, rest, hinfo', ?_, hcontent, hpre⟩
    rw [hfiles, Function.update_noteq hid]; exact hfile

/-- C9 (an unlinked block is rejected atomically): when
`header.hashPrevBlock` differs from `latestBlock`, `addBlock` returns
`BC_INVALID_BLOCK` and the store (latest block, current location, every index
entry, every block file) is the one it was given. -/
theorem addBlock_unlinked (P : Primitives) (db : BlockChainDB) (block : Block)
    (h : block.header.hashPrevBlock ≠ db.latestBlock) :
    db.addBlock P block = (.BC_INVALID_BLOCK, db) := by
  have h' : db.latestBlock ≠ block.header.hashPrevBlock := fun e => h e.symm
  simp [BlockChainDB.addBlock, h']

/-- C2 (chain append): when `addBlock(B)` returns `BC_OK` on any store (which
it only does for a block with `header.hashPrevBlock = latestBlock`), then
afterwards `getLatestBlockHash()` is the hash of `B`, `containsBlock` holds for
it, `containsTransaction` holds for the hash of every transaction of `B`, and
`getBlock` on the hash of `B` returns `BC_OK` with a block of that hash (the
archive of `B` reads back as `B`). -/
theorem addBlock_chain_append (P : Primitives) (db db' : BlockChainDB) (B : Block)
    (hrt : P.deserialize (P.serialize B) = some B)
    (h : db.addBlock P B = (.BC_OK, db')) :
    db'.getLatestBlockHash = B.getHash P ∧
    db'.containsBlock (B.getHash P) = true ∧
    (∀ tx ∈ B.transactions, db'.containsTransaction (tx.getHash P) = true) ∧
    ∃ b', db'.getBlock P (B.getHash P) = (.BC_OK, some b') ∧ b'.getHash P = B.getHash P := by
  obtain ⟨_, content, loc, _, hlen, _, hlatest, hinfos, hlocs, hfiles, _⟩ :=
    addBlock_ok P db db' B h
  refine ⟨hlatest, ?_, ?_, B, getBlock_of_archive P db' B ⟨loc, B.header.hashPrevBlock⟩
    (content ++ P.serialize B) content [] (by rw [hinfos, Function.update_same])
    (by rw [hfiles, Function.update_same]) (by simp) hlen (by simpa using hrt), rfl⟩
  · simp [BlockChainDB.containsBlock, hinfos]
  · intro tx htx
    have : tx.getHash P ∈ B.transactions.map (fun t => t.getHash P) :=
      List.mem_map_of_mem _ htx
    simp [BlockChainDB.containsTransaction, hlocs, this]

end Bitvoting

namespace Bitvoting

/-! ## Block store: chains and `getAllBlocks` -/

theorem lastHash_append_singleton (P : Primitives) (start : Nat) (bs : List Block) (b : Block) :
    lastHash P start (bs ++ [b]) = b.getHash P := by
  simp [lastHash]

theorem lastHash_cons (P : Primitives) (start : Nat) (b : Block) (bs : List Block) :
    lastHash P start (b :: bs) = lastHash P (b.getHash P) bs := by
  cases bs with
  | nil => simp [lastHash]
  | cons c rest =>
    have h : (b :: c :: rest).getLast? = (c :: rest).getLast? := List.getLast?_cons_cons
    have h2 : (c :: rest).getLast? = some ((c :: rest).getLast (by simp)) :=
      List.getLast?_eq_getLast _ _
    simp only [lastHash, h, h2]

theorem linked_append (P : Primitives) (start : Nat) (l1 l2 : List Block) :
    Linked P start (l1 ++ l2) ↔ Linked P start l1 ∧ Linked P (lastHash P start l1) l2 := by
  induction l1 generalizing start with
  | nil => simp [Linked, lastHash]
  | cons b rest ih =>
    rw [lastHash_cons]
    show (b.header.hashPrevBlock = start ∧ Linked P (b.getHash P) (rest ++ l2)) ↔
      (b.header.hashPrevBlock = start ∧ Linked P (b.getHash P) rest) ∧
        Linked P (lastHash P (b.getHash P) rest) l2
    rw [ih (b.getHash P)]
    tauto

theorem linked_chain' (P : Primitives) (start : Nat) (bs : List Block)
    (h : Linked P start bs) :
    List.Chain' (fun x y => y.header.hashPrevBlock = x.getHash P) bs := by
  induction bs generalizing start with
  | nil => exact List.chain'_nil
  | cons b rest ih =>
    cases rest with
    | nil => exact List.chain'_singleton _
    | cons c rest' =>
      rw [List.chain'_cons]
      exact ⟨h.2.1, ih (b.getHash P) h.2⟩

theorem addBlocks_spec (P : Primitives) (bs : List Block) (db0 db : BlockChainDB)
    (h : db0.addBlocks P bs = some db) :
    Linked P db0.latestBlock bs ∧ db.genesisBlock = db0.genesisBlock ∧
    db.latestBlock = lastHash P db0.latestBlock bs := by
  induction bs generalizing db0 with
  | nil =>
    simp only [BlockChainDB.addBlocks, Option.some.injEq] at h
    subst h
    simp [Linked, lastHash]
  | cons b rest ih =>
    simp only [BlockChainDB.addBlocks] at h
    cases hadd : db0.addBlock P b with
    | mk st db1 =>
      rw [hadd] at h
      cases st <;> simp only [reduceCtorEq] at h
      obtain ⟨hlink, _, _, _, _, hgen, hlatest, _⟩ := addBlock_ok P db0 db1 b hadd
      obtain ⟨i1, i2, i3⟩ := ih db1 h
      rw [hlatest] at i1 i3
      exact ⟨⟨hlink, i1⟩, i2.trans hgen, by rw [i3, lastHash_cons]⟩

theorem stored_preserved_addBlocks (P : Primitives) (bs : List Block) (db0 db : BlockChainDB)
    (b : Block) (h : db0.addBlocks P bs = some db)
    (hne : ∀ b' ∈ bs, b.getHash P ≠ b'.getHash P) (hs : Stored P db0 b) : Stored P db b := by
  induction bs generalizing db0 with
  | nil =>
    simp only [BlockChainDB.addBlocks, Option.some.injEq] at h
    subst h; exact hs
  | cons c rest ih =>
    simp only [BlockChainDB.addBlocks] at h
    cases hadd : db0.addBlock P c with
    | mk st db1 =>
      rw [hadd] at h
      cases st <;> simp only [reduceCtorEq] at h
      exact ih db1 h (fun b' hb' => hne b' (List.mem_cons_of_mem _ hb'))
        (stored_preserved P db0 db1 c b hadd (hne c (List.mem_cons_self _ _)) hs)

theorem stored_of_addBlocks (P : Primitives) (bs : List Block) (db0 db : BlockChainDB)
    (h : db0.addBlocks P bs = some db) (hnd : (bs.map (fun b => b.getHash P)).Nodup) :
    ∀ b ∈ bs, Stored P db b := by
  induction bs generalizing db0 with
  | nil => intro b hb; simp at hb
  | cons c rest ih =>
    simp only [BlockChainDB.addBlocks] at h
    cases hadd : db0.addBlock P c with
    | mk st db1 =>
      rw [hadd] at h
      cases st <;> simp only [reduceCtorEq] at h
      rw [List.map_cons, List.nodup_cons] at hnd
      intro b hb
      rcases List.mem_cons.mp hb with rfl | hb
      · apply stored_preserved_addBlocks P rest db1 db b h _ (stored_of_addBlock P db0 db1 b hadd)
        intro b' hb' heq
        exact hnd.1 (List.mem_map.mpr ⟨b', hb', heq.symm⟩)
      · exact ih db1 h hnd.2 b hb

/-- The backwards walk of `getAllBlocks` over a linked run of readable blocks
returns the run in chain order. -/
theorem getAllBlocksLoop_linked (P : Primitives) (db : BlockChainDB) (start : Nat)
    (mid : List Block) :
    ∀ (acc : List Block) (fuel : Nat), mid.length ≤ fuel →
      (∀ b ∈ mid, db.getBlock P (b.getHash P) = (.BC_OK, some b)) →
      (∀ b ∈ mid, b.getHash P ≠ start) → Linked P start mid →
      db.getAllBlocksLoop P start fuel (lastHash P start mid) acc = some (.BC_OK, mid ++ acc) := by
  induction mid using List.reverseRecOn with
  | nil =>
    intro acc fuel _ _ _ _
    cases fuel <;> simp [BlockChainDB.getAllBlocksLoop, lastHash]
  | append_singleton init c ih =>
    intro acc fuel hfuel hget hne hlink
    rw [lastHash_append_singleton]
    have hc : c.getHash P ≠ start := hne c (by simp)
    obtain ⟨hl1, hl2⟩ := (linked_append P start init [c]).mp hlink
    have hprev : c.header.hashPrevBlock = lastHash P start init := hl2.1
    cases fuel with
    | zero => simp at hfuel
    | succ f =>
      have hgc := hget c (by simp)
      simp only [BlockChainDB.getAllBlocksLoop, hc, ne_eq, not_false_eq_true, if_true, hgc]
      rw [hprev, ih (c :: acc) f (by simp at hfuel; omega)
        (fun b hb => hget b (by simp [hb])) (fun b hb => hne b (by simp [hb])) hl1]
      simp

end Bitvoting

namespace Bitvoting

theorem lastHash_append_cons (P : Primitives) (start : Nat) (A Mid : List Block) (b : Block) :
    lastHash P start (A ++ b :: Mid) = lastHash P (b.getHash P) Mid := by
  cases hM : Mid.getLast? with
  | none =>
    have : Mid = [] := List.getLast?_eq_none_iff.mp hM
    subst this
    simp [lastHash]
  | some m =>
    have hm : Mid ≠ [] := by intro h; rw [h] at hM; simp at hM
    have : (A ++ b :: Mid).getLast? = some m := by
      rw [show A ++ b :: Mid = (A ++ [b]) ++ Mid by simp, List.getLast?_append_of_ne_nil _ hm]
      exact hM
    simp [lastHash, this, hM]

/-- Result of `getAllBlocks` on a chain split as `A ++ b :: Mid ++ C`. -/
theorem getAllBlocks_segment (P : Primitives) (db0 db : BlockChainDB)
    (A Mid C : List Block) (b : Block)
    (hgen : db0.latestBlock = db0.genesisBlock)
    (hadd : db0.addBlocks P (A ++ b :: Mid ++ C) = some db)
    (hnd : ((A ++ b :: Mid ++ C).map (fun b => b.getHash P)).Nodup)
    (hng : ∀ x ∈ A ++ b :: Mid ++ C, x.getHash P ≠ db0.genesisBlock)
    (hrt : ∀ x ∈ A ++ b :: Mid ++ C, ∀ rest, P.deserialize (P.serialize x ++ rest) = some x)
    (fuel : Nat) (hfuel : (A ++ b :: Mid ++ C).length ≤ fuel) :
    db.getAllBlocks P fuel (b.getHash P) (lastHash P (b.getHash P) Mid)
      = some (.BC_OK, b :: Mid) ∧
    db.getAllBlocks P fuel db.genesisBlock (lastHash P (b.getHash P) Mid)
      = some (.BC_OK, A ++ b :: Mid) ∧
    List.Chain' (fun x y => y.header.hashPrevBlock = x.getHash P) (b :: Mid) ∧
    List.Chain' (fun x y => y.header.hashPrevBlock = x.getHash P) (A ++ b :: Mid) := by
  obtain ⟨hlink, hg, _⟩ := addBlocks_spec P _ db0 db hadd
  rw [hgen] at hlink
  have hstored := stored_of_addBlocks P _ db0 db hadd hnd
  have hget : ∀ x ∈ A ++ b :: Mid ++ C, db.getBlock P (x.getHash P) = (.BC_OK, some x) :=
    fun x hx => getBlock_of_stored P db x (hstored x hx) (hrt x hx)
  have hsplit : A ++ b :: Mid ++ C = (A ++ b :: Mid) ++ C := by simp
  have hlinkAB : Linked P db0.genesisBlock (A ++ b :: Mid) := by
    rw [hsplit] at hlink
    exact ((linked_append P _ _ _).mp hlink).1
  have hlinkMid : Linked P (b.getHash P) Mid :=
    ((linked_append P _ A (b :: Mid)).mp hlinkAB).2.2
  have hlen : (A ++ b :: Mid ++ C).length = A.length + (Mid.length + 1) + C.length := by
    simp; omega
  have hbne : b.getHash P ≠ db0.genesisBlock := hng b (by simp)
  have hlastAB := lastHash_append_cons P db0.genesisBlock A Mid b
  refine ⟨?_, ?_, linked_chain' P _ _ ⟨rfl, hlinkMid⟩, linked_chain' P _ _ hlinkAB⟩
  · have hloop := getAllBlocksLoop_linked P db (b.getHash P) Mid [] fuel (by omega)
      (fun x hx => hget x (by simp [hx]))
      (by
        intro x hx heq
        rw [List.map_append, List.map_append, List.map_cons] at hnd
        have h1 := (List.nodup_append.mp hnd).1
        have h2 := (List.nodup_append.mp h1).2.1
        rw [List.nodup_cons] at h2
        exact h2.1 (List.mem_map.mpr ⟨x, hx, heq⟩))
      hlinkMid
    simp [BlockChainDB.getAllBlocks, hg, hbne, hget b (by simp), hloop]
  · have hloop := getAllBlocksLoop_linked P db db0.genesisBlock (A ++ b :: Mid) [] fuel
      (by simp; omega)
      (fun x hx => hget x (by rw [hsplit]; exact List.mem_append_left _ hx))
      (fun x hx => hng x (by rw [hsplit]; exact List.mem_append_left _ hx))
      hlinkAB
    rw [hlastAB] at hloop
    simp [BlockChainDB.getAllBlocks, hg, hloop]

/-- C10 (range query order): on a chain `b_1..b_n` built by successful
`addBlock` calls from a store whose latest block is the genesis hash (block
hashes pairwise distinct and different from the genesis hash, archives reading
back), for `1 ≤ i ≤ j ≤ n` and enough fuel, `getAllBlocks(hash b_i, hash b_j)`
returns `BC_OK` with exactly `[b_i, ..., b_j]`, `getAllBlocks(genesis, hash b_j)`
returns `BC_OK` with exactly `[b_1, ..., b_j]`, and in both results every entry
names the hash of the entry before it. -/
theorem getAllBlocks_range (P : Primitives) (db0 db : BlockChainDB) (bs : List Block)
    (hgen : db0.latestBlock = db0.genesisBlock)
    (hadd : db0.addBlocks P bs = some db)
    (hnd : (bs.map (fun b => b.getHash P)).Nodup)
    (hng : ∀ x ∈ bs, x.getHash P ≠ db0.genesisBlock)
    (hrt : ∀ x ∈ bs, ∀ rest, P.deserialize (P.serialize x ++ rest) = some x)
    (fuel : Nat) (hfuel : bs.length ≤ fuel)
    (i j : Nat) (hi : 1 ≤ i) (hij : i ≤ j) (hj : j ≤ bs.length) (bi bj : Block)
    (hbi : bs[i - 1]? = some bi) (hbj : bs[j - 1]? = some bj) :
    db.getAllBlocks P fuel (bi.getHash P) (bj.getHash P)
      = some (.BC_OK, (bs.take j).drop (i - 1)) ∧
    db.getAllBlocks P fuel db.genesisBlock (bj.getHash P) = some (.BC_OK, bs.take j) ∧
    List.Chain' (fun x y => y.header.hashPrevBlock = x.getHash P) ((bs.take j).drop (i - 1)) ∧
    List.Chain' (fun x y => y.header.hashPrevBlock = x.getHash P) (bs.take j) := by
  have hlt : i - 1 < (bs.take j).length := by rw [List.length_take]; omega
  have hTi : (bs.take j)[i - 1] = bi := by
    rw [List.getElem_take]
    have := List.getElem?_eq_getElem (l := bs) (n := i - 1) (by omega)
    rw [this] at hbi
    exact Option.some.inj hbi
  have hdrop : (bs.take j).drop (i - 1) = bi :: (bs.take j).drop i := by
    have := List.drop_eq_getElem_cons hlt
    rw [hTi, show i - 1 + 1 = i by omega] at this
    exact this
  have hTA : (bs.take j).take (i - 1) = bs.take (i - 1) := by
    rw [List.take_take, min_eq_left (by omega)]
  have hT : bs.take j = bs.take (i - 1) ++ bi :: (bs.take j).drop i := by
    rw [← hdrop, ← hTA, List.take_append_drop]
  have hbs : bs = bs.take (i - 1) ++ bi :: (bs.take j).drop i ++ bs.drop j := by
    have h1 : bs.take (i - 1) ++ bi :: (bs.take j).drop i ++ bs.drop j
        = (bs.take (i - 1) ++ bi :: (bs.take j).drop i) ++ bs.drop j := by simp
    rw [h1, ← hT, List.take_append_drop]
  have hlast : lastHash P (bi.getHash P) ((bs.take j).drop i) = bj.getHash P := by
    rw [← lastHash_append_cons P 0 (bs.take (i - 1)), ← hT]
    have : (bs.take j).getLast? = some bj := by
      rw [List.getLast?_eq_getElem?, List.length_take, min_eq_left hj, List.getElem?_take,
        if_pos (by omega)]
      exact hbj
    simp [lastHash, this]
  have hseg := getAllBlocks_segment P db0 db (bs.take (i - 1)) ((bs.take j).drop i)
    (bs.drop j) bi hgen (by rw [← hbs]; exact hadd) (by rw [← hbs]; exact hnd)
    (by rw [← hbs]; exact hng) (by rw [← hbs]; exact hrt) fuel (by rw [← hbs]; exact hfuel)
  rw [hlast, ← hT, ← hdrop] at hseg
  exact hseg

end Bitvoting

namespace Bitvoting

/-! ## Block store: `cutOffAfter` -/

theorem foldl_removeLocator (P : Primitives) (txs : List Transaction) (db : BlockChainDB) :
    let r := txs.foldl (fun db transaction => db.removeLocator (transaction.getHash P)) db
    r.genesisBlock = db.genesisBlock ∧ r.latestBlock = db.latestBlock ∧
    r.currentLocation = db.currentLocation ∧ r.blockInfos = db.blockInfos ∧
    r.files = db.files := by
  induction txs generalizing db with
  | nil => simp
  | cons t rest ih =>
    have := ih (db.removeLocator (t.getHash P))
    simp only [List.foldl_cons]
    simp only [BlockChainDB.removeLocator] at this ⊢
    exact this

theorem removeBlockMeta_fields (P : Primitives) (db : BlockChainDB) (block : Block) :
    (db.removeBlockMeta P block).genesisBlock = db.genesisBlock ∧
    (db.removeBlockMeta P block).latestBlock = db.latestBlock ∧
    (db.removeBlockMeta P block).currentLocation = db.currentLocation ∧
    (db.removeBlockMeta P block).files = db.files ∧
    (db.removeBlockMeta P block).blockInfos
      = Function.update db.blockInfos (block.getHash P) none := by
  obtain ⟨h1, h2, h3, h4, h5⟩ := foldl_removeLocator P block.transactions db
  simp only [BlockChainDB.removeBlockMeta, BlockChainDB.removeBlockInfo]
  exact ⟨h1, h2, h3, h5, by rw [h4]⟩

theorem foldl_removeBlockMeta (P : Primitives) (blocks : List Block) (db : BlockChainDB) :
    let r := blocks.foldl (fun db block => db.removeBlockMeta P block) db
    r.genesisBlock = db.genesisBlock ∧ r.latestBlock = db.latestBlock ∧
    r.currentLocation = db.currentLocation ∧ r.files = db.files ∧
    ∀ h, r.blockInfos h = if h ∈ blocks.map (fun b => b.getHash P) then none
      else db.blockInfos h := by
  induction blocks generalizing db with
  | nil => simp
  | cons b rest ih =>
    obtain ⟨i1, i2, i3, i4, i5⟩ := ih (db.removeBlockMeta P b)
    obtain ⟨m1, m2, m3, m4, m5⟩ := removeBlockMeta_fields P db b
    simp only [List.foldl_cons, List.map_cons, List.mem_cons]
    refine ⟨i1.trans m1, i2.trans m2, i3.trans m3, i4.trans m4, ?_⟩
    intro h
    rw [i5 h, m5]
    by_cases hm : h ∈ rest.map (fun b => b.getHash P)
    · simp [hm]
    · by_cases hh : h = b.getHash P
      · subst hh; simp [hm]
      · simp [hm, hh, Function.update_noteq hh]

/-- Failure of `cutOffAfter`: it gives up with `BC_FILE_CORRUPT`, after it erased the index
entries of the later blocks, when the block file of the current location does
not exist. -/
theorem cutOffAfter_missing_file (P : Primitives) (db : BlockChainDB) (fuel bHash : Nat)
    (startInfo secondInfo : BlockInfo) (blocks : List Block) (second : Block)
    (hne : bHash ≠ db.latestBlock) (hinfo : db.blockInfos bHash = some startInfo)
    (hall : db.getAllBlocks P fuel bHash db.latestBlock = some (.BC_OK, blocks))
    (hsecond : blocks[1]? = some second)
    (hsinfo : db.blockInfos (second.getHash P) = some secondInfo)
    (hid : startInfo.locator.id < db.currentLocation.id)
    (hfile : db.files db.currentLocation.id = none) :
    ∃ db3, db.cutOffAfter P fuel bHash = some (.BC_FILE_CORRUPT, db3) ∧
      db3.latestBlock = db.latestBlock ∧
      ∀ b ∈ blocks.drop 1, db3.containsBlock (b.getHash P) = false := by
  obtain ⟨_, f2, f3, f4, f5⟩ := foldl_removeBlockMeta P (blocks.drop 1) db
  refine ⟨(blocks.drop 1).foldl (fun db block => db.removeBlockMeta P block) db, ?_, f2, ?_⟩
  · obtain ⟨k, hk⟩ : ∃ k, db.currentLocation.id = k + 1 := ⟨db.currentLocation.id - 1, by omega⟩
    have hrem : BlockChainDB.removeBlockFiles
        ((blocks.drop 1).foldl (fun db block => db.removeBlockMeta P block) db)
        startInfo.locator.id (k + 1)
        = (false, (blocks.drop 1).foldl (fun db block => db.removeBlockMeta P block) db) := by
      have hf : ((blocks.drop 1).foldl (fun db block => db.removeBlockMeta P block) db).files
          (k + 1) = none := by rw [f4, ← hk]; exact hfile
      simp only [BlockChainDB.removeBlockFiles, hf, Option.isSome_none, Bool.false_eq_true,
        if_false, ite_eq_left_iff, not_lt]
      intro hle; omega
    simp only [BlockChainDB.cutOffAfter, hne, if_false, hinfo, hall, hsecond, hsinfo, f3, hk,
      hrem]
  · intro b hb
    have : b.getHash P ∈ (blocks.drop 1).map (fun b => b.getHash P) := List.mem_map_of_mem _ hb
    have h5 := f5 (b.getHash P)
    rw [if_pos this] at h5
    simp only [BlockChainDB.containsBlock, h5, Option.isSome_none]

end Bitvoting

namespace Bitvoting

theorem addBlock_returns_ok (P : Primitives) (db : BlockChainDB) (B : Block)
    (hlink : db.latestBlock = B.header.hashPrevBlock)
    (hfile : db.files db.currentLocation.id = none ∨
      ∃ content, db.files db.currentLocation.id = some content ∧
        content.length = db.currentLocation.blockPos) :
    ∃ db', db.addBlock P B = (.BC_OK, db') := by
  rcases hfile with hf | ⟨content, hf, hlen⟩
  · simp [BlockChainDB.addBlock, hlink, hf]
  · simp [BlockChainDB.addBlock, hlink, hf, hlen]

/-- Two blocks appended to a store whose current block file is new, the second
of which carries the file past `CHAIN_BLOCK_FILE_SIZE`: `addBlock` advances the
file id without creating that file, and `cutOffAfter` on the first block then
returns `BC_FILE_CORRUPT`, leaves `latestBlock` on the second block and has
erased the index entry of the second block. -/
theorem cutOffAfter_after_rollover (P : Primitives) (db0 : BlockChainDB) (b1 b2 : Block)
    (fuel : Nat) (hfuel : 2 ≤ fuel)
    (hgen : db0.latestBlock = db0.genesisBlock)
    (hfile0 : db0.files db0.currentLocation.id = none)
    (hfile1 : db0.files (db0.currentLocation.id + 1) = none)
    (hid : db0.currentLocation.id + 1 < 2 ^ 32)
    (hlink1 : b1.header.hashPrevBlock = db0.latestBlock)
    (hlink2 : b2.header.hashPrevBlock = b1.getHash P)
    (hne : b1.getHash P ≠ b2.getHash P)
    (hng1 : b1.getHash P ≠ db0.genesisBlock) (hng2 : b2.getHash P ≠ db0.genesisBlock)
    (hrt1 : ∀ rest, P.deserialize (P.serialize b1 ++ rest) = some b1)
    (hrt2 : ∀ rest, P.deserialize (P.serialize b2 ++ rest) = some b2)
    (hsz1 : (P.serialize b1).length ≤ CHAIN_BLOCK_FILE_SIZE)
    (hsz2 : CHAIN_BLOCK_FILE_SIZE < (P.serialize b1).length + (P.serialize b2).length) :
    ∃ db db3, db0.addBlocks P [b1, b2] = some db ∧
      db.cutOffAfter P fuel (b1.getHash P) = some (.BC_FILE_CORRUPT, db3) ∧
      db3.getLatestBlockHash = b2.getHash P ∧ db3.containsBlock (b2.getHash P) = false := by
  -- first append
  obtain ⟨db1, hadd1⟩ := addBlock_returns_ok P db0 b1 hlink1.symm (Or.inl hfile0)
  obtain ⟨_, c1, loc1, hopen1, hlen1, hg1, hlatest1, hinfos1, _, hfiles1, hcur1⟩ :=
    addBlock_ok P db0 db1 b1 hadd1
  have hc1 : c1 = [] ∧ loc1 = ⟨db0.currentLocation.id, 0⟩ := by
    rcases hopen1 with ⟨hf, _⟩ | ⟨_, hc, hl⟩
    · rw [hfile0] at hf; exact absurd hf (by simp)
    · exact ⟨hc, hl⟩
  obtain ⟨rfl, rfl⟩ := hc1
  simp only [List.nil_append] at hfiles1 hcur1
  rw [if_neg (by omega)] at hcur1
  -- second append
  have hfile1' : db1.files db1.currentLocation.id = some (P.serialize b1) := by
    rw [hcur1, hfiles1, Function.update_same]
  obtain ⟨db2, hadd2⟩ := addBlock_returns_ok P db1 b2 (by rw [hlatest1, hlink2])
    (Or.inr ⟨P.serialize b1, hfile1', by rw [hcur1]⟩)
  obtain ⟨_, c2, loc2, hopen2, _, hg2, hlatest2, hinfos2, _, hfiles2, hcur2⟩ :=
    addBlock_ok P db1 db2 b2 hadd2
  have hc2 : c2 = P.serialize b1 ∧ loc2 = ⟨db0.currentLocation.id, (P.serialize b1).length⟩ := by
    rcases hopen2 with ⟨hf, hl⟩ | ⟨hf, _, _⟩
    · rw [hfile1'] at hf
      exact ⟨(Option.some.inj hf).symm, by rw [hl, hcur1]⟩
    · rw [hfile1'] at hf; exact absurd hf (by simp)
  obtain ⟨rfl, rfl⟩ := hc2
  rw [if_pos (by rw [List.length_append]; exact hsz2), Nat.mod_eq_of_lt hid] at hcur2
  have hadd : db0.addBlocks P [b1, b2] = some db2 := by
    simp [BlockChainDB.addBlocks, hadd1, hadd2]
  -- the chain read back
  have hseg := getAllBlocks_segment P db0 db2 [] [b2] [] b1 hgen (by simpa using hadd)
    (by simp [hne]) (by simp [hng1, hng2])
    (by
      intro x hx rest
      simp only [List.nil_append, List.append_nil, List.mem_cons, List.mem_singleton,
        List.not_mem_nil, or_false] at hx
      rcases hx with rfl | rfl
      · exact hrt1 rest
      · exact hrt2 rest)
    fuel (by simpa using hfuel)
  have hall : db2.getAllBlocks P fuel (b1.getHash P) db2.latestBlock
      = some (.BC_OK, [b1, b2]) := by
    rw [hlatest2]
    have := hseg.1
    simpa [lastHash] using this
  -- the cut
  have hinfo1 : db2.blockInfos (b1.getHash P)
      = some ⟨⟨db0.currentLocation.id, 0⟩, b1.header.hashPrevBlock⟩ := by
    rw [hinfos2, Function.update_noteq hne, hinfos1, Function.update_same]
  have hinfo2 : db2.blockInfos (b2.getHash P)
      = some ⟨⟨db0.currentLocation.id, (P.serialize b1).length⟩, b2.header.hashPrevBlock⟩ := by
    rw [hinfos2, Function.update_same]
  obtain ⟨db3, hcut, hl3, hc3⟩ := cutOffAfter_missing_file P db2 fuel (b1.getHash P) _ _
    [b1, b2] b2 (by rw [hlatest2]; exact hne) hinfo1 hall rfl hinfo2
    (by rw [hcur2]; exact Nat.lt_succ_self _)
    (by
      rw [hcur2, hfiles2]
      simp only []
      rw [Function.update_noteq (Nat.succ_ne_self _), hfiles1,
        Function.update_noteq (Nat.succ_ne_self _)]
      exact hfile1)
  exact ⟨db2, db3, hadd, hcut, by rw [BlockChainDB.getLatestBlockHash, hl3, hlatest2],
    hc3 b2 (by simp)⟩

end Bitvoting

namespace Bitvoting

theorem toy_serialize_length (b : Block) :
    (toyP.serialize b).length = b.header.version.toNat + 1 := by
  simp only [toyP, List.length_cons, List.length_replicate]

theorem toy_roundtrip (b : Block) (hb : b ∈ toyBlocks) (rest : List Nat) :
    toyP.deserialize (toyP.serialize b ++ rest) = some b := by
  simp only [toyBlocks, List.mem_cons, List.mem_singleton, List.not_mem_nil, or_false] at hb
  rcases hb with rfl | rfl | rfl | rfl <;> rfl

/-- C7, evaluated on a failing input: after the two appends
`addBlock(b1); addBlock(b4)` (transaction hashes pairwise distinct), where the
archive of `b4` carries block file 0 past `CHAIN_BLOCK_FILE_SIZE`,
`cutOffAfter(hash(b1))` returns `BC_FILE_CORRUPT`;
`getLatestBlockHash()` is still the hash of `b4` and `containsBlock` of that
hash is already false. -/
theorem cutOffAfter_rollover_corrupt :
    ((toyB1.transactions ++ toyB4.transactions).map (fun t => t.getHash toyP)).Nodup ∧
    ∃ db db3,
      BlockChainDB.empty.addBlocks toyP [toyB1, toyB4] = some db ∧
      db.cutOffAfter toyP 2 (toyB1.getHash toyP) = some (.BC_FILE_CORRUPT, db3) ∧
      db3.getLatestBlockHash = toyB4.getHash toyP ∧
      db3.containsBlock (toyB4.getHash toyP) = false :=
  ⟨by decide,
    cutOffAfter_after_rollover toyP BlockChainDB.empty _ _ 2 (le_refl 2) rfl rfl rfl
      (by decide) rfl rfl (by decide) (by decide) (by decide)
      (toy_roundtrip _ (by simp [toyBlocks]))
      (toy_roundtrip _ (by simp [toyBlocks]))
      (by rw [toy_serialize_length]; decide)
      (by rw [toy_serialize_length, toy_serialize_length]; decide)⟩

end Bitvoting

namespace Bitvoting

/-! ## Transaction verification -/

theorem setInsert_idem (x : Nat) (s : List Nat) : setInsert x (setInsert x s) = setInsert x s := by
  unfold setInsert
  by_cases h : x ∈ s <;> simp [h]

theorem checkQuestions_eq (qs : List Question) (id : Nat) (checked : List Nat) :
    checkQuestions qs id checked
      = if (∃ q ∈ qs, q.id = id) then setInsert id checked else checked := by
  unfold checkQuestions
  induction qs generalizing checked with
  | nil => simp
  | cons q rest ih =>
    rw [List.foldl_cons, ih]
    by_cases hq : id = q.id
    · subst hq
      simp only [ne_eq, not_true_eq_false, if_false, List.mem_cons, exists_eq_or_imp, true_or,
        if_true, setInsert_idem]
      split_ifs <;> rfl
    · have hq' : ¬ q.id = id := fun h => hq h.symm
      simp [hq, hq']

theorem checkVoteBallots_length_le (qs : List Question) (bs : List EncryptedBallot) :
    ∀ (checked r : List Nat), checkVoteBallots qs bs checked = some r →
      r.length ≤ checked.length + bs.length := by
  induction bs with
  | nil =>
    intro checked r h
    simp only [checkVoteBallots, Option.some.injEq] at h
    subst h; simp
  | cons b rest ih =>
    intro checked r h
    simp only [checkVoteBallots] at h
    split_ifs at h with h1 h2
    have := ih _ r h
    rw [checkQuestions_eq] at this
    have hlen : (if (∃ q ∈ qs, q.id = b.questionID) then setInsert b.questionID checked
        else checked).length ≤ checked.length + 1 := by
      split_ifs
      · unfold setInsert
        by_cases hm : b.questionID ∈ checked <;> simp [hm]
      · omega
    simp only [List.length_cons]
    omega

/-- The ballot loop of `TxVote::verify` ends with as many checked ids as
ballots exactly when every ballot has a ciphertext and names a known question
that no earlier ballot (and no id already checked) names. -/
theorem checkVoteBallots_full (qs : List Question) (bs : List EncryptedBallot) :
    ∀ checked : List Nat,
      (∃ r, checkVoteBallots qs bs checked = some r ∧ r.length = checked.length + bs.length) ↔
      ((∀ b ∈ bs, b.answer.isSome = true ∧ (∃ q ∈ qs, q.id = b.questionID) ∧
          b.questionID ∉ checked) ∧ (bs.map (fun b => b.questionID)).Nodup) := by
  induction bs with
  | nil => intro checked; simp [checkVoteBallots]
  | cons b rest ih =>
    intro checked
    simp only [checkVoteBallots]
    by_cases h1 : b.answer.isNone = true
    · have : ¬ b.answer.isSome = true := by
        cases hb : b.answer <;> simp_all
      simp [h1, this]
    · have h1' : b.answer.isSome = true := by
        cases hb : b.answer <;> simp_all
      by_cases h2 : b.questionID ∈ checked
      · simp [h1, h2]
      · simp only [h1, h2, Bool.false_eq_true, if_false]
        rw [checkQuestions_eq]
        by_cases hk : ∃ q ∈ qs, q.id = b.questionID
        · have hins : setInsert b.questionID checked = checked ++ [b.questionID] := by
            simp [setInsert, h2]
          rw [if_pos hk, hins]
          have := ih (checked ++ [b.questionID])
          simp only [List.length_append, List.length_singleton, List.mem_append,
            List.mem_singleton, not_or] at this
          simp only [List.length_cons, List.mem_cons, forall_eq_or_imp, List.map_cons,
            List.nodup_cons, List.mem_map, not_exists, not_and]
          rw [show checked.length + (rest.length + 1) = checked.length + 1 + rest.length by omega,
            this]
          constructor
          · rintro ⟨hall, hnd⟩
            refine ⟨⟨⟨h1', hk, h2⟩, fun x hx => ⟨(hall x hx).1, (hall x hx).2.1,
              (hall x hx).2.2.1⟩⟩, fun x hx heq => (hall x hx).2.2.2 heq, hnd⟩
          · rintro ⟨⟨_, hall⟩, hnot, hnd⟩
            exact ⟨fun x hx => ⟨(hall x hx).1, (hall x hx).2.1, (hall x hx).2.2,
              fun heq => hnot x hx heq⟩, hnd⟩
        · rw [if_neg hk]
          constructor
          · rintro ⟨r, hr, hlen⟩
            have := checkVoteBallots_length_le qs rest checked r hr
            simp only [List.length_cons] at hlen
            omega
          · rintro ⟨hall, _⟩
            exact absurd (hall b (List.mem_cons_self _ _)).2.1 hk

end Bitvoting

namespace Bitvoting

theorem getTransaction_hash (P : Primitives) (db : BlockChainDB) (h : Nat) (tx : Transaction)
    (hget : db.getTransaction P h = (.BC_OK, some tx)) : tx.getHash P = h := by
  unfold BlockChainDB.getTransaction at hget
  split at hget
  · rename_i block _
    split at hget
    · rename_i current hfind
      simp only [Prod.mk.injEq, Option.some.injEq, true_and] at hget
      subst hget
      have := List.find?_some hfind
      exact (of_decide_eq_true this).symm
    · simp at hget
  · simp at hget

theorem isVoterEligible_iff (P : Primitives) (data : ElectionManager) (tx : Transaction)
    (e : Election) (key : CPubKey) (hbody : tx.body = .election e) :
    ElectionManager.isVoterEligible P { data with transaction := some tx } key = true
      ↔ key.GetID P ∈ e.voters := by
  simp only [ElectionManager.isVoterEligible, ElectionManager.election, hbody, List.any_eq_true,
    decide_eq_true_eq]
  constructor
  · rintro ⟨x, hx, rfl⟩; exact hx
  · intro h; exact ⟨_, h, rfl⟩

/-- The result of `TxVote::verify`, check by check, once the signature check
passed and the referenced election transaction was found. -/
theorem TxVote_verify_found (P : Primitives) (db : BlockChainDB) (edb : ElectionDB)
    (t : Transaction) (election : Nat) (ballots : List EncryptedBallot)
    (tx : Transaction) (e : Election)
    (hsig : t.verifySignature P = true)
    (hget : db.getTransaction P election = (.BC_OK, some tx)) (hbody : tx.body = .election e) :
    TxVote.verify P db edb t election ballots =
      if ((∀ b ∈ ballots, b.answer.isSome = true) ∧
          (ballots.map (fun b => b.questionID)).Nodup ∧
          ∀ b ∈ ballots, ∃ q ∈ e.questions, q.id = b.questionID) then
        if ((edb (tx.getHash P)).isSome = true ∧ t.verificationKey.GetID P ∈ e.voters)
        then .VR_OK else .VR_USER_REJECTED
      else .VR_BALLOT_ERROR := by
  have hfull := checkVoteBallots_full e.questions ballots []
  simp only [List.length_nil, Nat.zero_add, List.not_mem_nil, not_false_eq_true, and_true]
    at hfull
  have hhash := getTransaction_hash P db election tx hget
  simp only [TxVote.verify, hsig, Bool.not_true, Bool.false_eq_true, if_false, hget, hbody]
  cases hc : checkVoteBallots e.questions ballots [] with
  | none =>
    have hno : ¬ ((∀ b ∈ ballots, b.answer.isSome = true ∧ ∃ q ∈ e.questions, q.id = b.questionID)
        ∧ (ballots.map (fun b => b.questionID)).Nodup) := by
      rw [← hfull, hc]; simp
    rw [if_neg]
    rintro ⟨h1, h2, h3⟩
    exact hno ⟨fun b hb => ⟨h1 b hb, h3 b hb⟩, h2⟩
  | some r =>
    by_cases hlen : ballots.length = r.length
    · have hyes : (∀ b ∈ ballots, b.answer.isSome = true ∧
          ∃ q ∈ e.questions, q.id = b.questionID)
          ∧ (ballots.map (fun b => b.questionID)).Nodup := by
        rw [← hfull, hc]; exact ⟨r, rfl, hlen.symm⟩
      rw [if_pos ⟨fun b hb => (hyes.1 b hb).1, hyes.2, fun b hb => (hyes.1 b hb).2⟩]
      simp only [hlen, ne_eq, not_true_eq_false, if_false, ElectionDB.Get]
      cases hedb : edb (tx.getHash P) with
      | none => simp
      | some data =>
        rw [hhash, hget]
        simp only [Option.isSome_some, true_and]
        have hel := isVoterEligible_iff P data tx e t.verificationKey hbody
        by_cases hv : t.verificationKey.GetID P ∈ e.voters
        · rw [if_pos hv, if_pos (hel.mpr hv)]
        · rw [if_neg hv, if_neg (fun h => hv (hel.mp h))]
    · have hno : ¬ ((∀ b ∈ ballots, b.answer.isSome = true ∧
          ∃ q ∈ e.questions, q.id = b.questionID)
          ∧ (ballots.map (fun b => b.questionID)).Nodup) := by
        rw [← hfull, hc]
        rintro ⟨r', hr', hlen'⟩
        simp only [Option.some.injEq] at hr'
        subst hr'
        exact hlen hlen'.symm
      simp only [hlen, ne_eq, not_false_eq_true, if_true]
      rw [if_neg]
      rintro ⟨h1, h2, h3⟩
      exact hno ⟨fun b hb => ⟨h1 b hb, h3 b hb⟩, h2⟩

theorem TxVote_verify_missing (P : Primitives) (db : BlockChainDB) (edb : ElectionDB)
    (t : Transaction) (election : Nat) (ballots : List EncryptedBallot)
    (hsig : t.verifySignature P = true)
    (hno : ¬ ∃ tx e, db.getTransaction P election = (.BC_OK, some tx) ∧ tx.body = .election e) :
    TxVote.verify P db edb t election ballots = .VR_TX_MISSING := by
  simp only [TxVote.verify, hsig, Bool.not_true, Bool.false_eq_true, if_false]
  split
  · rename_i tx hget
    split
    · rename_i e hbody
      exact absurd ⟨tx, e, hget, hbody⟩ hno
    · rfl
  · rfl

end Bitvoting
namespace Bitvoting

theorem hashToMpz_lt (H : List Int → Nat) (vec : List Int) : hashToMpz H vec < 2 ^ 256 := by
  unfold hashToMpz
  have : H vec % 2 ^ 256 < 2 ^ 256 := Nat.mod_lt _ (by positivity)
  exact_mod_cast this

/-- An encryption proof that `paillier_verify_enc` accepts has a challenge `e`
below `2^256`, the range of the hash. -/
theorem paillier_verify_enc_pt_range (H : List Int → Nat) (pub : paillier_pubkey_t)
    (encrProof : paillier_ciphertext_proof_t) (pt1 pt2 : Int)
    (h : paillier_verify_enc_pt H pub encrProof pt1 pt2 = some true) :
    encrProof.e < 2 ^ 256 := by
  simp only [paillier_verify_enc_pt, Option.bind_eq_bind, Option.bind_eq_some,
    Option.some.injEq, Bool.and_eq_true, decide_eq_true_eq] at h
  obtain ⟨_, _, _, _, _, _, _, _, _, _, _, _, _, _, _, _, _, _, _, _, he, _⟩ := h
  rw [← he]
  exact hashToMpz_lt H _

/-- A decryption proof that `paillier_verify_decryption` accepts has a
challenge `e` below `2^256`. -/
theorem paillier_verify_decryption_range (H : List Int → Nat) (pub : paillier_pubkey_t)
    (dec_proof : paillier_partialdecryption_proof_t)
    (h : paillier_verify_decryption H pub dec_proof = some true) :
    dec_proof.e < 2 ^ 256 := by
  by_cases hid : dec_proof.id - 1 < 0
  · simp [paillier_verify_decryption, hid] at h
  · simp only [paillier_verify_decryption, Option.bind_eq_bind, Option.bind_eq_some,
      Option.some.injEq, decide_eq_true_eq, hid, if_false] at h
    obtain ⟨_, _, _, _, _, _, _, _, _, _, _, _, _, _, he⟩ := h
    rw [← he]
    exact hashToMpz_lt H _

theorem checkVoteBallots_congr (qs : List Question) (bs bs' : List EncryptedBallot)
    (h : List.Forall₂ (fun b b' => b.questionID = b'.questionID ∧
      b.answer.isSome = b'.answer.isSome) bs bs') :
    ∀ checked, checkVoteBallots qs bs checked = checkVoteBallots qs bs' checked := by
  induction h with
  | nil => intro checked; rfl
  | @cons a b l1 l2 hab _ ih =>
    intro checked
    have hn : a.answer.isNone = b.answer.isNone := by
      have := hab.2
      cases ha : a.answer <;> cases hb : b.answer <;> simp [ha, hb] at this ⊢
    simp only [checkVoteBallots, hn, hab.1, ih]

theorem checkTalliedBallots_congr (qs : List Question) (bs bs' : List TalliedBallots)
    (h : List.Forall₂ (fun b b' => b.questionID = b'.questionID ∧
      b.answers.isSome = b'.answers.isSome) bs bs') :
    ∀ checked, checkTalliedBallots qs bs checked = checkTalliedBallots qs bs' checked := by
  induction h with
  | nil => intro checked; rfl
  | @cons a b l1 l2 hab _ ih =>
    intro checked
    have hn : a.answers.isNone = b.answers.isNone := by
      have := hab.2
      cases ha : a.answers <;> cases hb : b.answers <;> simp [ha, hb] at this ⊢
    simp only [checkTalliedBallots, hn, hab.1, ih]

set_option maxRecDepth 100000 in
/-- C3 (as stated, refuted by the null-pointer guard): on a peer that holds
the record of the election 105, the vote `toyNullVoteTx` is signed correctly,
its election hash resolves in the chain to the election transaction, its one
question id 11 is the id of a question of the election and the signer's key id
5 is in the voter set, yet `TxVote::verify` returns `VR_BALLOT_ERROR`, because
the ballot carries no ciphertext. -/
theorem TxVote_verify_null_ciphertext :
    toyNullVoteTx.body = .vote 105 [⟨11, none⟩] ∧
    toyNullVoteTx.verifySignature toyP = true ∧
    toyDB1.getTransaction toyP 105 = (.BC_OK, some toyElectionTx) ∧
    toyElectionTx.body = .election toyElection ∧
    ([11] : List Nat).Nodup ∧ (∃ q ∈ toyElection.questions, q.id = 11) ∧
    toyNullVoteTx.verificationKey.GetID toyP ∈ toyElection.voters ∧
    (toyElections 105).isSome = true ∧
    toyNullVoteTx.verify toyP toyDB1 toyElections = .VR_BALLOT_ERROR := by
  refine ⟨rfl, by decide, by decide, rfl, by decide, by decide, by decide, by decide, by decide⟩

/-- The result of `TxVote::verify` by cases, for any content of the local
election store `edb`: the voter check reads the record `ElectionDB::Get`
returns for the election. -/
theorem TxVote_verify_cases (P : Primitives) (db : BlockChainDB) (edb : ElectionDB)
    (t : Transaction) (election : Nat) (ballots : List EncryptedBallot) :
    (TxVote.verify P db edb t election ballots = .VR_OK ↔
      t.verifySignature P = true ∧
      ∃ tx e, db.getTransaction P election = (.BC_OK, some tx) ∧ tx.body = .election e ∧
        (∀ b ∈ ballots, b.answer.isSome = true) ∧
        (ballots.map (fun b => b.questionID)).Nodup ∧
        (∀ b ∈ ballots, ∃ q ∈ e.questions, q.id = b.questionID) ∧
        (edb election).isSome = true ∧ t.verificationKey.GetID P ∈ e.voters) ∧
    (t.verifySignature P = false →
      TxVote.verify P db edb t election ballots = .VR_SIGN_ERROR) ∧
    (t.verifySignature P = true →
      (¬ ∃ tx e, db.getTransaction P election = (.BC_OK, some tx) ∧ tx.body = .election e) →
      TxVote.verify P db edb t election ballots = .VR_TX_MISSING) ∧
    (∀ tx e, t.verifySignature P = true →
      db.getTransaction P election = (.BC_OK, some tx) → tx.body = .election e →
      ¬ ((∀ b ∈ ballots, b.answer.isSome = true) ∧
        (ballots.map (fun b => b.questionID)).Nodup ∧
        (∀ b ∈ ballots, ∃ q ∈ e.questions, q.id = b.questionID)) →
      TxVote.verify P db edb t election ballots = .VR_BALLOT_ERROR) ∧
    (∀ tx e, t.verifySignature P = true →
      db.getTransaction P election = (.BC_OK, some tx) → tx.body = .election e →
      ((∀ b ∈ ballots, b.answer.isSome = true) ∧
        (ballots.map (fun b => b.questionID)).Nodup ∧
        (∀ b ∈ ballots, ∃ q ∈ e.questions, q.id = b.questionID)) →
      ¬ ((edb election).isSome = true ∧ t.verificationKey.GetID P ∈ e.voters) →
      TxVote.verify P db edb t election ballots = .VR_USER_REJECTED) := by
  have hsigerr : t.verifySignature P = false →
      TxVote.verify P db edb t election ballots = .VR_SIGN_ERROR := by
    intro h
    simp only [TxVote.verify, h, Bool.not_false, if_true]
  refine ⟨?_, hsigerr, TxVote_verify_missing P db edb t election ballots, ?_, ?_⟩
  · constructor
    · intro hok
      cases hsig : t.verifySignature P with
      | false => rw [hsigerr hsig] at hok; exact absurd hok (by decide)
      | true =>
        refine ⟨rfl, ?_⟩
        by_cases hex : ∃ tx e, db.getTransaction P election = (.BC_OK, some tx) ∧
            tx.body = .election e
        · obtain ⟨tx, e, hget, hbody⟩ := hex
          refine ⟨tx, e, hget, hbody, ?_⟩
          rw [TxVote_verify_found P db edb t election ballots tx e hsig hget hbody,
            getTransaction_hash P db election tx hget] at hok
          split_ifs at hok with h1 h2
          exact ⟨h1.1, h1.2.1, h1.2.2, h2.1, h2.2⟩
        · rw [TxVote_verify_missing P db edb t election ballots hsig hex] at hok
          exact absurd hok (by decide)
    · rintro ⟨hsig, tx, e, hget, hbody, h1, h2, h3, h4, h5⟩
      rw [TxVote_verify_found P db edb t election ballots tx e hsig hget hbody,
        getTransaction_hash P db election tx hget, if_pos ⟨h1, h2, h3⟩, if_pos ⟨h4, h5⟩]
  · intro tx e hsig hget hbody hno
    rw [TxVote_verify_found P db edb t election ballots tx e hsig hget hbody, if_neg hno]
  · intro tx e hsig hget hbody hyes hno
    rw [TxVote_verify_found P db edb t election ballots tx e hsig hget hbody,
      getTransaction_hash P db election tx hget, if_pos hyes, if_neg hno]

/-- C3 (amended): on a peer that holds the record of the referenced election,
`TxVote::verify` returns `VR_OK` exactly when the signature verifies, the
election hash resolves in the chain to a `TxElection`, every ballot carries a
ciphertext, the question ids are pairwise distinct and each is the id of a
question of the election, and the signer's key id is in the voter set. It
returns `VR_SIGN_ERROR` when the signature fails; otherwise `VR_TX_MISSING`
when the hash does not resolve to a `TxElection`; otherwise `VR_BALLOT_ERROR`
for a null ciphertext, a duplicate or an unknown question id; otherwise
`VR_USER_REJECTED` when the signer's key id is not in the voter set. -/
theorem TxVote_verify_with_record (P : Primitives) (db : BlockChainDB) (edb : ElectionDB)
    (t : Transaction) (election : Nat) (ballots : List EncryptedBallot)
    (hrec : (edb election).isSome = true) :
    (TxVote.verify P db edb t election ballots = .VR_OK ↔
      t.verifySignature P = true ∧
      ∃ tx e, db.getTransaction P election = (.BC_OK, some tx) ∧ tx.body = .election e ∧
        (∀ b ∈ ballots, b.answer.isSome = true) ∧
        (ballots.map (fun b => b.questionID)).Nodup ∧
        (∀ b ∈ ballots, ∃ q ∈ e.questions, q.id = b.questionID) ∧
        t.verificationKey.GetID P ∈ e.voters) ∧
    (t.verifySignature P = false →
      TxVote.verify P db edb t election ballots = .VR_SIGN_ERROR) ∧
    (t.verifySignature P = true →
      (¬ ∃ tx e, db.getTransaction P election = (.BC_OK, some tx) ∧ tx.body = .election e) →
      TxVote.verify P db edb t election ballots = .VR_TX_MISSING) ∧
    (∀ tx e, t.verifySignature P = true →
      db.getTransaction P election = (.BC_OK, some tx) → tx.body = .election e →
      ¬ ((∀ b ∈ ballots, b.answer.isSome = true) ∧
        (ballots.map (fun b => b.questionID)).Nodup ∧
        (∀ b ∈ ballots, ∃ q ∈ e.questions, q.id = b.questionID)) →
      TxVote.verify P db edb t election ballots = .VR_BALLOT_ERROR) ∧
    (∀ tx e, t.verifySignature P = true →
      db.getTransaction P election = (.BC_OK, some tx) → tx.body = .election e →
      ((∀ b ∈ ballots, b.answer.isSome = true) ∧
        (ballots.map (fun b => b.questionID)).Nodup ∧
        (∀ b ∈ ballots, ∃ q ∈ e.questions, q.id = b.questionID)) →
      t.verificationKey.GetID P ∉ e.voters →
      TxVote.verify P db edb t election ballots = .VR_USER_REJECTED) := by
  obtain ⟨h1, h2, h3, h4, h5⟩ := TxVote_verify_cases P db edb t election ballots
  refine ⟨?_, h2, h3, h4, ?_⟩
  · rw [h1]
    constructor
    · rintro ⟨hsig, tx, e, hget, hbody, ha, hb, hc, _, hv⟩
      exact ⟨hsig, tx, e, hget, hbody, ha, hb, hc, hv⟩
    · rintro ⟨hsig, tx, e, hget, hbody, ha, hb, hc, hv⟩
      exact ⟨hsig, tx, e, hget, hbody, ha, hb, hc, hrec, hv⟩
  · intro tx e hsig hget hbody hyes hno
    exact h5 tx e hsig hget hbody hyes (fun h => hno h.2)

set_option maxRecDepth 100000 in
theorem TxVote_verify_with_record_witness :
    (toyElections 105).isSome = true ∧
    (TxVote.verify toyP toyDB1 toyElections toyVoteTx 105 [⟨11, some toyBadCipher⟩] = .VR_OK ↔
      toyVoteTx.verifySignature toyP = true ∧
      ∃ tx e, toyDB1.getTransaction toyP 105 = (.BC_OK, some tx) ∧ tx.body = .election e ∧
        (∀ b ∈ [(⟨11, some toyBadCipher⟩ : EncryptedBallot)], b.answer.isSome = true) ∧
        ([(⟨11, some toyBadCipher⟩ : EncryptedBallot)].map (fun b => b.questionID)).Nodup ∧
        (∀ b ∈ [(⟨11, some toyBadCipher⟩ : EncryptedBallot)],
          ∃ q ∈ e.questions, q.id = b.questionID) ∧
        toyVoteTx.verificationKey.GetID toyP ∈ e.voters) :=
  ⟨by decide,
    (TxVote_verify_with_record toyP toyDB1 toyElections toyVoteTx 105
      [⟨11, some toyBadCipher⟩] (by decide)).1⟩

/-- C4 (as stated, refuted on the toy chain): `toyVoteTx` verifies with
`VR_OK` although its ciphertext passes `paillier_verify_enc` under no key and
no hash function, and `toyTrusteeTallyTx` verifies with `VR_OK` although its
partial decryption passes `paillier_verify_decryption` under none. -/
theorem verify_accepts_failing_proofs :
    toyVoteTx.verify toyP toyDB1 toyElections = .VR_OK ∧
    toyVoteTx.body = .vote 105 [⟨11, some toyBadCipher⟩] ∧
    (∀ H pub, paillier_verify_enc H pub toyBadCipher ≠ some true) ∧
    toyTrusteeTallyTx.verify toyP toyDB3 toyElections = .VR_OK ∧
    toyTrusteeTallyTx.body = .trusteeTally 408 [⟨11, some toyBadPartial⟩] ∧
    (∀ H pub, paillier_verify_decryption H pub toyBadPartial ≠ some true) := by
  refine ⟨by decide, rfl, ?_, by decide, rfl, ?_⟩
  · intro H pub h
    exact lt_irrefl (2 ^ 256 : Int) (paillier_verify_enc_pt_range H pub toyBadCipher 0 1 h)
  · intro H pub h
    exact lt_irrefl (2 ^ 256 : Int) (paillier_verify_decryption_range H pub toyBadPartial h)

/-- C4 (amended): transaction verification does not look into the
zero-knowledge proofs. For a fixed transaction header (key and signature
check), `TxVote::verify` gives the same result on any two ballot lists that
agree, position by position, on the question id and on whether the ciphertext
pointer is null; `TxTrusteeTally::verify` gives the same result on any two
lists of partial decryptions that agree in the same way. -/
theorem verify_independent_of_proofs (P : Primitives) (db : BlockChainDB) (edb : ElectionDB)
    (t : Transaction) (election tally : Nat)
    (ballots ballots' : List EncryptedBallot) (pd pd' : List TalliedBallots)
    (hb : List.Forall₂ (fun b b' => b.questionID = b'.questionID ∧
      b.answer.isSome = b'.answer.isSome) ballots ballots')
    (hp : List.Forall₂ (fun b b' => b.questionID = b'.questionID ∧
      b.answers.isSome = b'.answers.isSome) pd pd') :
    TxVote.verify P db edb t election ballots = TxVote.verify P db edb t election ballots' ∧
    TxTrusteeTally.verify P db edb t tally pd = TxTrusteeTally.verify P db edb t tally pd' := by
  constructor
  · simp only [TxVote.verify, checkVoteBallots_congr _ _ _ hb, hb.length_eq]
  · simp only [TxTrusteeTally.verify, checkTalliedBallots_congr _ _ _ hp, hp.length_eq]

theorem verify_independent_of_proofs_witness :
    TxVote.verify toyP toyDB3 toyElections toyTrusteeTallyTx 105 [⟨11, some toyBadCipher⟩]
      = TxVote.verify toyP toyDB3 toyElections toyTrusteeTallyTx 105 [⟨11, some default⟩] ∧
    TxTrusteeTally.verify toyP toyDB3 toyElections toyTrusteeTallyTx 408
        [⟨11, some toyBadPartial⟩]
      = TxTrusteeTally.verify toyP toyDB3 toyElections toyTrusteeTallyTx 408
        [⟨11, some default⟩] :=
  verify_independent_of_proofs toyP toyDB3 toyElections toyTrusteeTallyTx 105 408
    [⟨11, some toyBadCipher⟩] [⟨11, some default⟩]
    [⟨11, some toyBadPartial⟩] [⟨11, some default⟩]
    (List.Forall₂.cons ⟨rfl, rfl⟩ List.Forall₂.nil)
    (List.Forall₂.cons ⟨rfl, rfl⟩ List.Forall₂.nil)

end Bitvoting
namespace Bitvoting

/-! ## Block reception and mining -/

theorem checkTransactions_iff (P : Primitives) (db : BlockChainDB) (edb : ElectionDB)
    (txs : List Transaction) :
    Controller.checkTransactions P db edb txs = true ↔
      ∀ t ∈ txs, t.verify P db edb = .VR_OK ∧ db.containsTransaction (t.getHash P) = false := by
  induction txs with
  | nil => simp [Controller.checkTransactions]
  | cons t rest ih =>
    simp only [Controller.checkTransactions, List.mem_cons, forall_eq_or_imp]
    by_cases h1 : db.containsTransaction (t.getHash P) = true
    · simp [h1]
    · by_cases h2 : t.verify P db edb = .VR_OK
      · simp [h1, h2, ih]
      · simp [h1, h2]

theorem readLastBlock_time (P : Primitives) (db : BlockChainDB) (last : Block) (h : Nat)
    (lt : Int) (hr : Controller.readLastBlock P db = some (h, lt))
    (hl : db.getLatestBlock P = (.BC_OK, some last)) : lt = last.header.time := by
  simp only [Controller.readLastBlock, hl, Option.some.injEq, Prod.mk.injEq] at hr
  exact hr.2.symm

theorem addBlock_not_ok_of_unlinked (P : Primitives) (db : BlockChainDB) (block : Block)
    (h : block.header.hashPrevBlock ≠ db.latestBlock) :
    db.addBlock P block = (.BC_INVALID_BLOCK, db) := by
  have h' : db.latestBlock ≠ block.header.hashPrevBlock := fun e => h e.symm
  simp [BlockChainDB.addBlock, h']

/-- C5 (block acceptance): `Controller::receiveBlock` reaches its accept part
(the block is appended with `addBlock` returning `BC_OK` and the
per-transaction handlers run on its transactions) only if
`header.hashPrevBlock` is the local latest block hash, `header.time` is at most
`now` and at least the time of the latest block, the block hash is at most
`hashTarget = (2^256 - 1) >> 13`, the block hash is not stored yet, and every
transaction verifies with `VR_OK` and is not in the chain yet; when one of
these checks fails the block store is the one it was before, and no handler
runs. -/
theorem receiveBlock_checks (P : Primitives) (db : BlockChainDB) (edb : ElectionDB)
    (now : Int) (b : Block) :
    hashTarget = (2 ^ 256 - 1) >>> 13 ∧
    ((Controller.receiveBlock P db edb now b).accepted = true →
      (b.header.hashPrevBlock = db.getLatestBlockHash ∧
        b.header.time ≤ now ∧
        (∀ last, db.getLatestBlock P = (.BC_OK, some last) →
          last.header.time ≤ b.header.time) ∧
        b.getHash P ≤ hashTarget ∧
        db.containsBlock (b.getHash P) = false ∧
        ∀ t ∈ b.transactions, t.verify P db edb = .VR_OK ∧
          db.containsTransaction (t.getHash P) = false) ∧
      db.addBlock P b = (.BC_OK, (Controller.receiveBlock P db edb now b).db) ∧
      (Controller.receiveBlock P db edb now b).processed = b.transactions) ∧
    (¬ (b.header.hashPrevBlock = db.getLatestBlockHash ∧
        b.header.time ≤ now ∧
        (∀ last, db.getLatestBlock P = (.BC_OK, some last) →
          last.header.time ≤ b.header.time) ∧
        b.getHash P ≤ hashTarget ∧
        db.containsBlock (b.getHash P) = false ∧
        ∀ t ∈ b.transactions, t.verify P db edb = .VR_OK ∧
          db.containsTransaction (t.getHash P) = false) →
      (Controller.receiveBlock P db edb now b).db = db ∧
      (Controller.receiveBlock P db edb now b).accepted = false ∧
      (Controller.receiveBlock P db edb now b).processed = []) := by
  refine ⟨by decide, ?_⟩
  unfold Controller.receiveBlock
  cases hr : Controller.readLastBlock P db with
  | none => simp
  | some lb =>
    obtain ⟨lastBlockHash, lastBlockTime⟩ := lb
    simp only
    by_cases h1 : b.header.hashPrevBlock = lastBlockHash
    swap
    · simp [h1]
    by_cases h2 : b.header.time > now ∨ b.header.time < lastBlockTime
    · simp only [h1, ne_eq, not_true_eq_false, if_false, h2, if_true, Bool.false_eq_true,
        false_imp_iff, true_and, and_self, imp_true_iff]
    have h2a : b.header.time ≤ now := by
      by_contra hc; exact h2 (Or.inl (lt_of_not_ge hc))
    have h2b : lastBlockTime ≤ b.header.time := by
      by_contra hc; exact h2 (Or.inr (lt_of_not_ge hc))
    by_cases h3 : b.getHash P ≤ hashTarget
    swap
    · simp [h1, h2, h3]
    by_cases h4 : db.containsBlock (b.getHash P) = true
    · simp [h1, h2, h3, h4]
    by_cases h5 : Controller.checkTransactions P db edb b.transactions = true
    swap
    · have h5' := h5
      rw [checkTransactions_iff] at h5'
      simp only [Bool.not_eq_true] at h5
      simp only [h1, ne_eq, not_true_eq_false, if_false, h2, h3, h4, h5, Bool.not_false,
        if_true, Bool.false_eq_true, false_imp_iff, true_and, and_self, imp_true_iff]
    have h5' := (checkTransactions_iff P db edb b.transactions).mp h5
    simp only [Bool.not_eq_true] at h4
    simp only [h1, ne_eq, not_true_eq_false, if_false, h2, h3, h4, h5, Bool.not_true,
      Bool.false_eq_true]
    by_cases h6 : b.header.hashPrevBlock = db.latestBlock
    · have hlast : ∀ last, db.getLatestBlock P = (.BC_OK, some last) →
          last.header.time ≤ b.header.time := by
        intro last hl
        rw [← readLastBlock_time P db last _ _ hr hl]
        exact h2b
      have h6' : lastBlockHash = db.getLatestBlockHash := by rw [← h1]; exact h6
      constructor
      · intro hacc
        refine ⟨⟨h6', h2a, hlast, trivial, trivial, h5'⟩, ?_⟩
        revert hacc
        rcases hadd : db.addBlock P b with ⟨st, db'⟩
        cases st <;> simp
      · intro hno
        exact absurd ⟨h6', h2a, hlast, trivial, trivial, h5'⟩ hno
    · rw [addBlock_not_ok_of_unlinked P db b h6]
      simp

theorem tryNonces_spec (P : Primitives) (m : Miner) (nonces : List Nat) :
    ∀ (newBlock found : Block), Miner.tryNonces P m newBlock nonces = some found →
      found.getHash P ≤ m.hashTarget ∧
      found.header.hashPrevBlock = newBlock.header.hashPrevBlock ∧
      found.header.time = newBlock.header.time ∧
      found.header.version = newBlock.header.version ∧
      found.transactions = newBlock.transactions ∧
      found.verificationKey = newBlock.verificationKey := by
  induction nonces with
  | nil => intro newBlock found h; simp [Miner.tryNonces] at h
  | cons nonce rest ih =>
    intro newBlock found h
    simp only [Miner.tryNonces] at h
    split_ifs at h with hc
    · simp only [Option.some.injEq] at h
      subst h
      exact ⟨hc.1, rfl, rfl, rfl, rfl, rfl⟩
    · have := ih _ found h
      exact this

theorem consumeNextNonces_hashTarget (m : Miner) (k : Nat) :
    (m.consumeNextNonces k).2.hashTarget = m.hashTarget := by
  unfold Miner.consumeNextNonces
  simp only
  split_ifs <;> rfl

theorem mineLoop_spec (P : Primitives) (newBlock : Block) (fuel : Nat) :
    ∀ (m : Miner) (found : Block), Miner.mineLoop P newBlock fuel m = some found →
      found.getHash P ≤ m.hashTarget ∧
      found.header.hashPrevBlock = newBlock.header.hashPrevBlock ∧
      found.header.time = newBlock.header.time ∧
      found.header.version = newBlock.header.version ∧
      found.transactions = newBlock.transactions ∧
      found.verificationKey = newBlock.verificationKey := by
  induction fuel with
  | zero => intro m found h; simp [Miner.mineLoop] at h
  | succ fuel ih =>
    intro m found h
    simp only [Miner.mineLoop] at h
    split_ifs at h with hb
    split at h
    · rename_i f hf
      simp only [Option.some.injEq] at h
      subst h
      have := tryNonces_spec P _ _ newBlock f hf
      rw [consumeNextNonces_hashTarget] at this
      exact this
    · have := ih _ found h
      rw [consumeNextNonces_hashTarget] at this
      exact this

/-- C6 (miner safety): a block that `Miner::mineTransactions` hands to
`publishBlock` has a hash at most the miner's `hashTarget` (the value
`(2^256 - 1) >> 13` the mining manager sets), its `header.hashPrevBlock` is the
latest block hash read at the start of the round, its time is the time read at
the start, its transactions are the miner's, and its verification key is the
public key of the signing pair; hence the block `BlocksProtocol::Publish`
signs has the same hash, which is still at most `hashTarget`. -/
theorem mineTransactions_safe (P : Primitives) (db : BlockChainDB) (m : Miner)
    (skp : SignKeyPair) (now : Int) (fuel : Nat) (b : Block)
    (hm : m.hashTarget = hashTarget)
    (h : Miner.mineTransactions P db m skp now fuel = some b) :
    b.getHash P ≤ hashTarget ∧
    (∃ lastTime, Controller.readLastBlock P db = some (b.header.hashPrevBlock, lastTime)) ∧
    b.header.time = now ∧ b.transactions = m.transactions ∧ b.verificationKey = skp.2 ∧
    ∀ b', BlocksProtocol.Publish P b skp = some b' →
      b'.getHash P = b.getHash P ∧ b'.getHash P ≤ hashTarget ∧
      b'.header = b.header ∧ b'.transactions = b.transactions := by
  unfold Miner.mineTransactions at h
  simp only at h
  split at h
  · simp at h
  · rename_i prevBlockHash lastTime hr
    obtain ⟨h1, h2, h3, _, h5, h6⟩ := mineLoop_spec P _ fuel m b h
    simp only at h2 h3 h5 h6
    rw [hm] at h1
    refine ⟨h1, ⟨lastTime, by rw [h2]; exact hr⟩, h3, h5, h6, ?_⟩
    intro b' hp
    unfold BlocksProtocol.Publish at hp
    split_ifs at hp
    simp only [Option.some.injEq] at hp
    subst hp
    have hh : (b.sign P skp).2.getHash P = b.getHash P := by
      simp only [Block.sign, Block.getHash, h6]
    exact ⟨hh, by rw [hh]; exact h1, rfl, rfl⟩

end Bitvoting

namespace Bitvoting

set_option maxRecDepth 100000 in
theorem mineTransactions_safe_witness :
    Miner.mineTransactions toyP toyDB1 ⟨[toyVoteTx], hashTarget, 4, 5, false⟩ toyMiningKeys 0 1
      = some (toyBlock 5 2 100 [toyVoteTx]) ∧
    (BlocksProtocol.Publish toyP (toyBlock 5 2 100 [toyVoteTx]) toyMiningKeys).isSome = true ∧
    (toyBlock 5 2 100 [toyVoteTx]).getHash toyP ≤ hashTarget :=
  have h := mineTransactions_safe toyP toyDB1 ⟨[toyVoteTx], hashTarget, 4, 5, false⟩
    toyMiningKeys 0 1 (toyBlock 5 2 100 [toyVoteTx]) rfl (by decide)
  ⟨by decide, by decide, h.1⟩

end Bitvoting
namespace Bitvoting

/-! ## The theorems at concrete inputs -/

set_option maxRecDepth 100000

theorem addBlock_chain_append_witness :
    toyDB1.getLatestBlockHash = toyB1.getHash toyP ∧
    toyDB1.containsBlock (toyB1.getHash toyP) = true :=
  have h := addBlock_chain_append toyP BlockChainDB.empty toyDB1 toyB1 (by decide)
    (Prod.ext (by decide) rfl)
  ⟨h.1, h.2.1⟩

theorem addBlock_unlinked_witness :
    BlockChainDB.empty.addBlock toyP toyB2 = (.BC_INVALID_BLOCK, BlockChainDB.empty) :=
  addBlock_unlinked toyP BlockChainDB.empty toyB2 (by decide)

theorem getAllBlocks_range_witness :
    toyDB3.getAllBlocks toyP 3 (toyB2.getHash toyP) (toyB3.getHash toyP)
      = some (.BC_OK, [toyB2, toyB3]) ∧
    toyDB3.getAllBlocks toyP 3 toyDB3.genesisBlock (toyB3.getHash toyP)
      = some (.BC_OK, [toyB1, toyB2, toyB3]) :=
  have h := getAllBlocks_range toyP BlockChainDB.empty toyDB3 [toyB1, toyB2, toyB3]
    rfl rfl (by decide) (by decide)
    (fun x hx rest => toy_roundtrip x
      (by simp only [toyBlocks, List.mem_cons] at hx ⊢; tauto) rest)
    3 (le_refl 3) 2 3 (by decide) (by decide) (le_refl 3) toyB2 toyB3 rfl rfl
  ⟨h.1, h.2.1⟩

/-- C8, evaluated on a failing input: after `addBlock(b1); addBlock(b2)` the
cut `cutOffAfter(hash(b1))` returns `BC_OK`, but it leaves `currentLocation` at
position 0 of block file 0, the start of the archive of `b1`, while the file
still holds the four bytes of that archive; `addBlock(b2)` on this store then
returns `BC_FILE_CORRUPT` instead of `BC_OK`. -/
theorem cutOffAfter_readd_corrupt :
    ((BlockChainDB.empty.addBlocks toyP [toyB1, toyB2]).bind
        (fun db => db.cutOffAfter toyP 2 (toyB1.getHash toyP))).map
      (fun r => (r.1, (r.2.addBlock toyP toyB2).1, r.2.currentLocation, r.2.files 0))
      = some (.BC_OK, .BC_FILE_CORRUPT, ⟨0, 0⟩, some [1, 0, 0, 0]) := by
  decide

theorem paillier_combining_correct_witness :
    paillier_combining toyPub [⟨2, 1031, 0, 0, 0, 0⟩, ⟨1, 711, 0, 0, 0, 0⟩] = some 1 :=
  paillier_combining_correct toyPub 5 7 2 3 36 [36, 193] 1 2 [⟨2, 2⟩, ⟨1, 19⟩]
    [⟨2, 1031, 0, 0, 0, 0⟩, ⟨1, 711, 0, 0, 0, 0⟩]
    (by norm_num) (by norm_num) (by decide) (by decide) (by decide) (by decide) (by decide)
    (by decide) (by decide) (by decide) (by decide) (by decide) (by decide) (by decide)
    (by decide) (by decide) (by decide) (by decide)
    (List.Forall₂.cons (by decide) (List.Forall₂.cons (by decide) List.Forall₂.nil))

end Bitvoting

namespace Bitvoting

/-! ## Gossip duplicate suppression -/

theorem checkLoop_tick (clock : Nat → Int) (validity : Int) (id : Nat) (l : id_memory) :
    ∀ tick, tick ≤ (DuplicateProtocol.checkLoop clock validity id l tick).2.2 ∧
      (DuplicateProtocol.checkLoop clock validity id l tick).2.2 ≤ tick + l.length := by
  induction l with
  | nil => intro tick; simp [DuplicateProtocol.checkLoop]
  | cons cur rest ih =>
    intro tick
    have := ih (tick + 1)
    simp only [DuplicateProtocol.checkLoop, List.length_cons]
    split_ifs <;> (try simp only) <;> omega

theorem checkLoop_sublist (clock : Nat → Int) (validity : Int) (id : Nat) (l : id_memory) :
    ∀ tick, (DuplicateProtocol.checkLoop clock validity id l tick).2.1.Sublist l := by
  induction l with
  | nil => intro tick; simp [DuplicateProtocol.checkLoop]
  | cons cur rest ih =>
    intro tick
    simp only [DuplicateProtocol.checkLoop]
    split_ifs
    · exact (ih (tick + 1)).trans (List.sublist_cons_self cur rest)
    · exact List.Sublist.refl _
    · exact (ih (tick + 1)).cons₂ cur

/-- A remembered entry that is younger than `validity` at every clock reading
of the loop is still remembered afterwards. -/
theorem checkLoop_keeps (clock : Nat → Int) (validity : Int) (id : Nat) (e : id_pair)
    (l : id_memory) :
    ∀ tick, e ∈ l →
      (∀ t, tick ≤ t → t < tick + l.length → clock t - e.2 < validity) →
      e ∈ (DuplicateProtocol.checkLoop clock validity id l tick).2.1 := by
  induction l with
  | nil => intro tick h; simp at h
  | cons cur rest ih =>
    intro tick hmem hwin
    simp only [DuplicateProtocol.checkLoop]
    have hrest : ∀ t, tick + 1 ≤ t → t < tick + 1 + rest.length → clock t - e.2 < validity := by
      intro t h1 h2
      exact hwin t (by omega) (by simp only [List.length_cons]; omega)
    rcases List.mem_cons.mp hmem with rfl | hmem'
    · have h0 := hwin tick (le_refl _) (by simp)
      rw [if_neg (not_le.mpr h0)]
      split_ifs <;> simp
    · split_ifs
      · exact ih (tick + 1) hmem' hrest
      · exact hmem
      · exact List.mem_cons_of_mem _ (ih (tick + 1) hmem' hrest)

/-- The loop returns `true` on an entry with the id that is younger than
`validity` at every clock reading of the loop. -/
theorem checkLoop_found (clock : Nat → Int) (validity : Int) (id : Nat) (ts : Int)
    (l : id_memory) :
    ∀ tick, (id, ts) ∈ l →
      (∀ t, tick ≤ t → t < tick + l.length → clock t - ts < validity) →
      (DuplicateProtocol.checkLoop clock validity id l tick).1 = true := by
  induction l with
  | nil => intro tick h; simp at h
  | cons cur rest ih =>
    intro tick hmem hwin
    simp only [DuplicateProtocol.checkLoop]
    have hrest : ∀ t, tick + 1 ≤ t → t < tick + 1 + rest.length → clock t - ts < validity := by
      intro t h1 h2
      exact hwin t (by omega) (by simp only [List.length_cons]; omega)
    rcases List.mem_cons.mp hmem with h | hmem'
    · have h0 := hwin tick (le_refl _) (by simp)
      rw [← h, if_neg (not_le.mpr h0)]
      simp
    · split_ifs
      · exact ih (tick + 1) hmem' hrest
      · rfl
      · exact ih (tick + 1) hmem' hrest

/-- When every remembered entry with the id is at least `validity` old at the
first clock reading, the loop returns `false`, and what it keeps are entries
with other ids that were younger than `validity` at that reading. -/
theorem checkLoop_expired (clock : Nat → Int) (hclock : Monotone clock) (validity : Int)
    (id : Nat) (l : id_memory) :
    ∀ tick, (∀ e ∈ l, e.1 = id → clock tick - e.2 ≥ validity) →
      (DuplicateProtocol.checkLoop clock validity id l tick).1 = false ∧
      ∀ e ∈ (DuplicateProtocol.checkLoop clock validity id l tick).2.1,
        e.1 ≠ id ∧ clock tick - e.2 < validity := by
  induction l with
  | nil => intro tick _; simp [DuplicateProtocol.checkLoop]
  | cons cur rest ih =>
    intro tick hexp
    have hmono : clock tick ≤ clock (tick + 1) := hclock (Nat.le_succ tick)
    have hrest : ∀ e ∈ rest, e.1 = id → clock (tick + 1) - e.2 ≥ validity := by
      intro e he hid
      have := hexp e (List.mem_cons_of_mem _ he) hid
      omega
    obtain ⟨ih1, ih2⟩ := ih (tick + 1) hrest
    have ih2' : ∀ e ∈ (DuplicateProtocol.checkLoop clock validity id rest (tick + 1)).2.1,
        e.1 ≠ id ∧ clock tick - e.2 < validity := by
      intro e he
      have := ih2 e he
      exact ⟨this.1, by omega⟩
    simp only [DuplicateProtocol.checkLoop]
    by_cases h1 : clock tick - cur.2 ≥ validity
    · rw [if_pos h1]
      exact ⟨ih1, ih2'⟩
    · rw [if_neg h1]
      have hne : ¬ id = cur.1 := by
        intro h
        exact h1 (hexp cur (List.mem_cons_self _ _) h.symm)
      rw [if_neg hne]
      refine ⟨ih1, ?_⟩
      intro e he
      rcases List.mem_cons.mp he with rfl | he'
      · exact ⟨fun h => hne h.symm, lt_of_not_ge h1⟩
      · exact ih2' e he'

/-- C20 (gossip duplicate suppression), for a non-decreasing clock: a
`checkDuplicate` call for an id that is not remembered returns `false` and
remembers the id with the time read then; a call for an id remembered at `ts`
returns `true` when every clock reading of the call is less than `validity`
after `ts`; an entry that is younger than `validity` at every reading of a call
is still remembered after the call; and when every remembered entry with the
id is at least `validity` old when the call starts, the call returns `false`,
those entries are pruned, and what stays besides the new entry are entries of
the old memory, in their order, that were younger than `validity`. -/
theorem checkDuplicate_spec (clock : Nat → Int) (hclock : Monotone clock) (validity : Int)
    (p : DuplicateProtocol) (tick id : Nat) :
    ((∀ e ∈ p.lastSeen, e.1 ≠ id) →
      (DuplicateProtocol.checkDuplicate clock validity p tick id).1 = false ∧
      ∃ t, tick ≤ t ∧
        (id, clock t) ∈ (DuplicateProtocol.checkDuplicate clock validity p tick id).2.1.lastSeen) ∧
    (∀ ts, (id, ts) ∈ p.lastSeen →
      (∀ t, tick ≤ t → t < tick + p.lastSeen.length → clock t - ts < validity) →
      (DuplicateProtocol.checkDuplicate clock validity p tick id).1 = true) ∧
    (∀ e, e ∈ p.lastSeen →
      (∀ t, tick ≤ t → t < tick + p.lastSeen.length → clock t - e.2 < validity) →
      e ∈ (DuplicateProtocol.checkDuplicate clock validity p tick id).2.1.lastSeen) ∧
    ((∀ e ∈ p.lastSeen, e.1 = id → clock tick - e.2 ≥ validity) →
      (DuplicateProtocol.checkDuplicate clock validity p tick id).1 = false ∧
      ∃ kept t, tick ≤ t ∧
        (DuplicateProtocol.checkDuplicate clock validity p tick id).2.1.lastSeen
          = kept ++ [(id, clock t)] ∧
        kept.Sublist p.lastSeen ∧
        ∀ e ∈ kept, e.1 ≠ id ∧ clock tick - e.2 < validity) := by
  have hD : (∀ e ∈ p.lastSeen, e.1 = id → clock tick - e.2 ≥ validity) →
      (DuplicateProtocol.checkDuplicate clock validity p tick id).1 = false ∧
      ∃ kept t, tick ≤ t ∧
        (DuplicateProtocol.checkDuplicate clock validity p tick id).2.1.lastSeen
          = kept ++ [(id, clock t)] ∧
        kept.Sublist p.lastSeen ∧
        ∀ e ∈ kept, e.1 ≠ id ∧ clock tick - e.2 < validity := by
    intro hexp
    obtain ⟨h1, h2⟩ := checkLoop_expired clock hclock validity id p.lastSeen tick hexp
    simp only [DuplicateProtocol.checkDuplicate, h1, Bool.false_eq_true, if_false,
      DuplicateProtocol.seenMessage, true_and]
    exact ⟨_, _, (checkLoop_tick clock validity id p.lastSeen tick).1, rfl,
      checkLoop_sublist clock validity id p.lastSeen tick, h2⟩
  refine ⟨?_, ?_, ?_, hD⟩
  · intro hnew
    obtain ⟨h1, kept, t, ht, hl, _, _⟩ := hD (fun e he hid => absurd hid (hnew e he))
    exact ⟨h1, t, ht, by rw [hl]; simp⟩
  · intro ts hmem hwin
    have := checkLoop_found clock validity id ts p.lastSeen tick hmem hwin
    simp only [DuplicateProtocol.checkDuplicate, this, if_true]
  · intro e hmem hwin
    have := checkLoop_keeps clock validity id e p.lastSeen tick hmem hwin
    simp only [DuplicateProtocol.checkDuplicate, DuplicateProtocol.seenMessage]
    split_ifs
    · exact this
    · exact List.mem_append_left _ this

theorem checkDuplicate_spec_witness :
    (DuplicateProtocol.checkDuplicate (fun t => (t : Int)) 10 ⟨[(7, 0)]⟩ 3 8).1 = false ∧
    (DuplicateProtocol.checkDuplicate (fun t => (t : Int)) 10 ⟨[(7, 0)]⟩ 3 7).1 = true :=
  ⟨((checkDuplicate_spec (fun t => (t : Int)) (fun _ _ h => Int.ofNat_le.mpr h) 10
      ⟨[(7, 0)]⟩ 3 8).1 (by decide)).1,
    (checkDuplicate_spec (fun t => (t : Int)) (fun _ _ h => Int.ofNat_le.mpr h) 10
      ⟨[(7, 0)]⟩ 3 7).2.1 0 (by decide) (by decide)⟩

end Bitvoting

namespace Bitvoting

/-! ## Tally requests, roles and the preemption of a mining round -/

theorem TxTally_anyVote_iff (election : Nat) (txs : List Transaction) :
    (txs.any (fun t' =>
        if t'.getType ≠ TxType.TX_VOTE then false
        else
          match t'.body with
          | .vote election' _ => decide (election' = election)
          | _ => false)) = true ↔
      ∃ t' ∈ txs, t'.getType = TxType.TX_VOTE ∧ ∃ bs, t'.body = .vote election bs := by
  rw [List.any_eq_true]
  constructor
  · rintro ⟨t', ht', h⟩
    refine ⟨t', ht', ?_⟩
    by_cases hty : t'.getType = TxType.TX_VOTE
    · refine ⟨hty, ?_⟩
      rw [if_neg (not_not.mpr hty)] at h
      split at h
      · rename_i el bs hb
        exact ⟨bs, by rw [hb, of_decide_eq_true h]⟩
      · exact absurd h (by simp)
    · rw [if_pos hty] at h
      exact absurd h (by simp)
  · rintro ⟨t', ht', hty, bs, hb⟩
    exact ⟨t', ht', by rw [if_neg (not_not.mpr hty), hb]; simp⟩

theorem TxTally_verify_found (P : Primitives) (db : BlockChainDB) (t : Transaction)
    (election lastBlock : Nat) (tx : Transaction) (e : Election)
    (hsig : t.verifySignature P = true)
    (hget : db.getTransaction P election = (.BC_OK, some tx)) (hbody : tx.body = .election e) :
    ((∃ lb, db.getBlock P lastBlock = (.BC_OK, some lb) ∧
        ∃ t' ∈ lb.transactions, t'.getType = TxType.TX_VOTE ∧
          ∃ bs, t'.body = .vote election bs) →
      TxTally.verify P db t election lastBlock =
        if tx.verificationKey = t.verificationKey then .VR_OK else .VR_PK_MISMATCH) ∧
    ((¬ ∃ lb, db.getBlock P lastBlock = (.BC_OK, some lb) ∧
        ∃ t' ∈ lb.transactions, t'.getType = TxType.TX_VOTE ∧
          ∃ bs, t'.body = .vote election bs) →
      TxTally.verify P db t election lastBlock = .VR_LAST_VOTES) := by
  simp only [TxTally.verify, hsig, Bool.not_true, Bool.false_eq_true, if_false, hget, hbody]
  split
  · rename_i lb hlb
    have hany := TxTally_anyVote_iff election lb.transactions
    constructor
    · rintro ⟨lb', h1, hv⟩
      have h1' : lb = lb' := by
        have := hlb.symm.trans h1
        simpa using this
      subst h1'
      have hA := hany.mpr hv
      by_cases hk : tx.verificationKey = t.verificationKey
      · rw [if_pos hk]
        split_ifs with c1 c2
        · rw [Bool.not_eq_true'] at c1
          exact Bool.noConfusion (c1.symm.trans hA)
        · exact absurd hk c2
        · rfl
      · rw [if_neg hk]
        split_ifs with c1
        · rw [Bool.not_eq_true'] at c1
          exact Bool.noConfusion (c1.symm.trans hA)
        · rfl
    · intro hno
      split_ifs with c1 c2
      · rfl
      · rw [Bool.not_eq_true', Bool.not_eq_false] at c1
        exact absurd ⟨lb, hlb, hany.mp c1⟩ hno
      · rw [Bool.not_eq_true', Bool.not_eq_false] at c1
        exact absurd ⟨lb, hlb, hany.mp c1⟩ hno
  · rename_i hno
    constructor
    · rintro ⟨lb, hlb, _⟩
      exact absurd hlb (hno lb)
    · intro _; rfl

theorem TxTally_verify_missing (P : Primitives) (db : BlockChainDB) (t : Transaction)
    (election lastBlock : Nat) (hsig : t.verifySignature P = true)
    (hno : ¬ ∃ tx e, db.getTransaction P election = (.BC_OK, some tx) ∧ tx.body = .election e) :
    TxTally.verify P db t election lastBlock = .VR_TX_MISSING := by
  simp only [TxTally.verify, hsig, Bool.not_true, Bool.false_eq_true, if_false]
  split
  · rename_i tx hget
    split
    · rename_i e hbody
      exact absurd ⟨tx, e, hget, hbody⟩ hno
    · rfl
  · rfl

/-- What `TxTally::verify` decides. It returns `VR_OK` exactly when the
signature verifies, the election hash resolves in the chain to a `TxElection`,
`getBlock(lastBlock)` returns `BC_OK` with a block that holds an object of class
`TxVote` which carries the tag `TX_VOTE` and names the election of the tally,
and the verification key of the tally equals that of the `TxElection`. It
returns `VR_SIGN_ERROR` when the signature fails; otherwise `VR_TX_MISSING` when
the hash does not resolve to a `TxElection`; otherwise `VR_LAST_VOTES` when
`lastBlock` is not stored or holds no such object; otherwise `VR_PK_MISMATCH`
when the keys differ. -/
theorem TxTally_verify_spec (P : Primitives) (db : BlockChainDB) (t : Transaction)
    (election lastBlock : Nat) :
    (TxTally.verify P db t election lastBlock = .VR_OK ↔
      t.verifySignature P = true ∧
      ∃ tx e, db.getTransaction P election = (.BC_OK, some tx) ∧ tx.body = .election e ∧
        (∃ lb, db.getBlock P lastBlock = (.BC_OK, some lb) ∧
          ∃ t' ∈ lb.transactions, t'.getType = TxType.TX_VOTE ∧
          ∃ bs, t'.body = .vote election bs) ∧
        tx.verificationKey = t.verificationKey) ∧
    (t.verifySignature P = false →
      TxTally.verify P db t election lastBlock = .VR_SIGN_ERROR) ∧
    (t.verifySignature P = true →
      (¬ ∃ tx e, db.getTransaction P election = (.BC_OK, some tx) ∧ tx.body = .election e) →
      TxTally.verify P db t election lastBlock = .VR_TX_MISSING) ∧
    (∀ tx e, t.verifySignature P = true →
      db.getTransaction P election = (.BC_OK, some tx) → tx.body = .election e →
      (¬ ∃ lb, db.getBlock P lastBlock = (.BC_OK, some lb) ∧
          ∃ t' ∈ lb.transactions, t'.getType = TxType.TX_VOTE ∧
          ∃ bs, t'.body = .vote election bs) →
      TxTally.verify P db t election lastBlock = .VR_LAST_VOTES) ∧
    (∀ tx e, t.verifySignature P = true →
      db.getTransaction P election = (.BC_OK, some tx) → tx.body = .election e →
      (∃ lb, db.getBlock P lastBlock = (.BC_OK, some lb) ∧
          ∃ t' ∈ lb.transactions, t'.getType = TxType.TX_VOTE ∧
          ∃ bs, t'.body = .vote election bs) →
      tx.verificationKey ≠ t.verificationKey →
      TxTally.verify P db t election lastBlock = .VR_PK_MISMATCH) := by
  have hsigerr : t.verifySignature P = false →
      TxTally.verify P db t election lastBlock = .VR_SIGN_ERROR := by
    intro h
    simp only [TxTally.verify, h, Bool.not_false, if_true]
  refine ⟨?_, hsigerr, TxTally_verify_missing P db t election lastBlock, ?_, ?_⟩
  · constructor
    · intro hok
      cases hsig : t.verifySignature P with
      | false => rw [hsigerr hsig] at hok; exact absurd hok (by decide)
      | true =>
        refine ⟨rfl, ?_⟩
        by_cases hex : ∃ tx e, db.getTransaction P election = (.BC_OK, some tx) ∧
            tx.body = .election e
        · obtain ⟨tx, e, hget, hbody⟩ := hex
          refine ⟨tx, e, hget, hbody, ?_⟩
          have hf := TxTally_verify_found P db t election lastBlock tx e hsig hget hbody
          by_cases h1 : ∃ lb, db.getBlock P lastBlock = (.BC_OK, some lb) ∧
              ∃ t' ∈ lb.transactions, t'.getType = TxType.TX_VOTE ∧
          ∃ bs, t'.body = .vote election bs
          · rw [hf.1 h1] at hok
            split_ifs at hok with h2
            exact ⟨h1, h2⟩
          · rw [hf.2 h1] at hok
            exact absurd hok (by decide)
        · rw [TxTally_verify_missing P db t election lastBlock hsig hex] at hok
          exact absurd hok (by decide)
    · rintro ⟨hsig, tx, e, hget, hbody, h1, h2⟩
      rw [(TxTally_verify_found P db t election lastBlock tx e hsig hget hbody).1 h1,
        if_pos h2]
  · intro tx e hsig hget hbody hno
    exact (TxTally_verify_found P db t election lastBlock tx e hsig hget hbody).2 hno
  · intro tx e hsig hget hbody hyes hne
    rw [(TxTally_verify_found P db t election lastBlock tx e hsig hget hbody).1 hyes,
      if_neg hne]

set_option maxRecDepth 100000 in
/-- C19, evaluated on failing inputs: a correctly signed vote of voter 5 whose
verification key carries the mining role verifies with `VR_OK`, and
`Controller::receiveBlock` accepts a block whose verification key carries the
vote role. -/
theorem verify_ignores_role :
    toyWrongRoleVoteTx.verificationKey.role = Role.KEY_MINING ∧
    toyWrongRoleVoteTx.getType = TxType.TX_VOTE ∧
    toyWrongRoleVoteTx.verify toyP toyDB1 toyElections = .VR_OK ∧
    toyWrongRoleBlock.verificationKey.role = Role.KEY_VOTE ∧
    (Controller.receiveBlock toyP toyDB1 toyElections 10 toyWrongRoleBlock).accepted = true := by
  refine ⟨rfl, rfl, by decide, rfl, by decide⟩

theorem std_set_difference_disjoint (xs : List Nat) :
    ∀ ys : List Nat, (∀ x ∈ xs, x ∉ ys) →
      std_set_difference (fun a b => decide (a < b)) xs ys = xs := by
  induction xs with
  | nil => intro ys _; cases ys <;> simp [std_set_difference]
  | cons x xs ihx =>
    intro ys
    induction ys with
    | nil => intro _; simp [std_set_difference]
    | cons y ys ihy =>
      intro h
      have hxy : x ≠ y := fun e => h x (List.mem_cons_self _ _) (by rw [e]; exact List.mem_cons_self _ _)
      simp only [std_set_difference, decide_eq_true_eq]
      by_cases h1 : x < y
      · rw [if_pos h1, ihx (y :: ys) (fun z hz => h z (List.mem_cons_of_mem _ hz))]
      · have h2 : y < x := by omega
        rw [if_neg h1, if_pos h2]
        exact ihy (fun z hz hz' => h z hz (List.mem_cons_of_mem _ hz'))

set_option maxRecDepth 100000 in
/-- C17, evaluated on a failing input. On the store `toyDB1` the second
election `T1` (object 1) and the vote `T2` (object 2) pass `verify`, are queued
by `addTransaction` and are selected by `getTransactionsForBlock`, so the round
mines `S = {T1, T2}`. The network block `toyB2`, which holds the vote as an
object of its own (object 3, same hash as object 2), is accepted by
`receiveBlock`. `onNewBlockFromNetwork` then puts both `T1` and the vote `T2`
back into the queue, although `T2` is sealed in the block. -/
theorem onNewBlockFromNetwork_requeues_sealed :
    (toyHeap2 1).verify toyP toyDB1 toyElections = .VR_OK ∧
    (toyHeap2 2).verify toyP toyDB1 toyElections = .VR_OK ∧
    MiningManager.addTransaction toyP toyDB1 toyElections toyHeap2 [] 1 true
      = (.MINING_OK, [1]) ∧
    MiningManager.addTransaction toyP toyDB1 toyElections toyHeap2 [1] 2 true
      = (.MINING_OK, [1, 2]) ∧
    MiningManager.getTransactionsForBlock toyP toyHeap2 [1, 2] [] = some (true, [], [1, 2]) ∧
    toyB2.transactions = [toyHeap2 3] ∧
    (toyHeap2 2).getHash toyP = (toyHeap2 3).getHash toyP ∧
    (toyHeap2 1).getHash toyP ≠ (toyHeap2 3).getHash toyP ∧
    (Controller.receiveBlock toyP toyDB1 toyElections 10 toyB2).accepted = true ∧
    (Controller.receiveBlock toyP toyDB1 toyElections 10 toyB2).db
      = (toyDB1.addBlock toyP toyB2).2 ∧
    Miner.onNewBlockFromNetwork toyP (toyDB1.addBlock toyP toyB2).2 toyElections toyHeap2 false
      [1, 2] [3] [] = [2, 1] := by
  have h1 : std_set_difference (fun a b => decide (a < b)) [1, 2] [3] = [1, 2] :=
    std_set_difference_disjoint _ _ (by decide)
  refine ⟨by decide, by decide, by decide, by decide, by decide, rfl, by decide, by decide,
    by decide, by rfl, ?_⟩
  simp only [Miner.onNewBlockFromNetwork, h1]
  decide

end Bitvoting

namespace Bitvoting

/-! ## Duplicate-vote filter of the mining manager -/

theorem mem_stdSetInsert {α : Type} (lt : α → α → Bool) (a x : α) (s : List α)
    (h : x ∈ stdSetInsert lt a s) : x = a ∨ x ∈ s := by
  induction s with
  | nil => simp only [stdSetInsert, List.mem_singleton] at h; exact Or.inl h
  | cons y ys ih =>
    simp only [stdSetInsert] at h
    split_ifs at h
    · rcases List.mem_cons.mp h with h | h
      · exact Or.inl h
      · exact Or.inr h
    · rcases List.mem_cons.mp h with h | h
      · exact Or.inr (by rw [h]; exact List.mem_cons_self _ _)
      · rcases ih h with h | h
        · exact Or.inl h
        · exact Or.inr (List.mem_cons_of_mem _ h)
    · exact Or.inr h

theorem mem_stdSetInsert_of_mem {α : Type} (lt : α → α → Bool) (a x : α) (s : List α)
    (h : x ∈ s) : x ∈ stdSetInsert lt a s := by
  induction s with
  | nil => simp at h
  | cons y ys ih =>
    simp only [stdSetInsert]
    split_ifs
    · exact List.mem_cons_of_mem _ h
    · rcases List.mem_cons.mp h with h | h
      · rw [h]; exact List.mem_cons_self _ _
      · exact List.mem_cons_of_mem _ (ih h)
    · exact h

theorem mem_stdSetInsert_self {α : Type} (lt : α → α → Bool) (a : α) (s : List α)
    (h : ∀ y ∈ s, lt a y = true ∨ lt y a = true) : a ∈ stdSetInsert lt a s := by
  induction s with
  | nil => simp [stdSetInsert]
  | cons y ys ih =>
    simp only [stdSetInsert]
    split_ifs with h1 h2
    · exact List.mem_cons_self _ _
    · exact List.mem_cons_of_mem _ (ih (fun z hz => h z (List.mem_cons_of_mem _ hz)))
    · rcases h y (List.mem_cons_self _ _) with h' | h'
      · exact absurd h' h1
      · exact absurd h' h2

theorem foldl_filter_ne (out : List Nat) :
    ∀ queue : List Nat,
      out.foldl (fun q t => q.filter (fun x => decide (x ≠ t))) queue
        = queue.filter (fun x => decide (x ∉ out)) := by
  induction out with
  | nil => intro queue; simp
  | cons t rest ih =>
    intro queue
    rw [List.foldl_cons, ih, List.filter_filter]
    congr 1
    funext x
    simp only [List.mem_cons, not_or, ne_eq, decide_not, Bool.and_eq_true, Bool.not_eq_true',
      decide_eq_false_iff_not]
    by_cases h1 : x = t <;> by_cases h2 : x ∈ rest <;> simp [h1, h2]

end Bitvoting

namespace Bitvoting

/-- When `checkForDuplicateVoteTransaction` answers true: both objects carry
the tag `TX_VOTE`, both are votes, for the same election, with the same
verification key. -/
theorem checkForDuplicateVoteTransaction_iff (heap : Nat → Transaction) (t1 t2 : Nat) :
    (MiningManager.checkForDuplicateVoteTransaction heap t1 t2 == some true) = true ↔
      (heap t1).getType = TxType.TX_VOTE ∧ (heap t2).getType = TxType.TX_VOTE ∧
      ∃ e bs1 bs2, (heap t1).body = .vote e bs1 ∧ (heap t2).body = .vote e bs2 ∧
        (heap t1).verificationKey = (heap t2).verificationKey := by
  unfold MiningManager.checkForDuplicateVoteTransaction
  by_cases h1 : (heap t1).getType = TxType.TX_VOTE
  · by_cases h2 : (heap t2).getType = TxType.TX_VOTE
    · rw [if_neg (not_not.mpr h1), if_neg (by rw [h1, h2]; simp)]
      cases hb1 : (heap t1).body <;> cases hb2 : (heap t2).body <;> simp [h1, h2]
      constructor
      · intro h
        split_ifs at h with c1 c2
        · exact ⟨c1.symm, c2⟩
        · exact absurd h (by simp)
        · exact absurd h (by simp)
      · rintro ⟨c1, c2⟩
        rw [if_pos c1.symm, if_pos c2]
    · rw [if_neg (not_not.mpr h1), if_pos (by rw [h1]; exact fun h => h2 h.symm)]
      simp [h2]
  · rw [if_pos h1]
    simp [h1]

/-- With the tags of the constructors `checkForDuplicateVoteTransaction`
dereferences no null pointer. -/
theorem checkForDuplicateVoteTransaction_isSome (heap : Nat → Transaction) (t1 t2 : Nat)
    (h1 : (heap t1).getType = (heap t1).body.constructorType)
    (h2 : (heap t2).getType = (heap t2).body.constructorType) :
    MiningManager.checkForDuplicateVoteTransaction heap t1 t2 ≠ none := by
  unfold MiningManager.checkForDuplicateVoteTransaction
  rw [h1, h2]
  cases hb1 : (heap t1).body <;> cases hb2 : (heap t2).body <;>
    simp [TxBody.constructorType]
  split_ifs <;> simp

theorem foundDuplicate_eq (heap : Nat → Transaction) (t1 : Nat) (out : List Nat)
    (h : ∀ t2 ∈ out, MiningManager.checkForDuplicateVoteTransaction heap t1 t2 ≠ none) :
    MiningManager.foundDuplicate heap t1 out
      = some (out.any (fun t2 =>
          MiningManager.checkForDuplicateVoteTransaction heap t1 t2 == some true)) := by
  induction out with
  | nil => rfl
  | cons t2 rest ih =>
    have h2 := h t2 (List.mem_cons_self _ _)
    have ih' := ih (fun x hx => h x (List.mem_cons_of_mem _ hx))
    simp only [MiningManager.foundDuplicate, List.any_cons]
    cases hc : MiningManager.checkForDuplicateVoteTransaction heap t1 t2 with
    | none => exact absurd hc h2
    | some b =>
      cases b with
      | true => simp
      | false => simp [ih']

/-- The selection loop of `getTransactionsForBlock`. -/
theorem getTransactionsForBlock_loop (P : Primitives) (heap : Nat → Transaction)
    (queue : List Nat) :
    (queue.map (fun t => (heap t).getHash P)).Nodup →
    (∀ s ∈ queue.foldl
        (fun out t1 =>
          if !(out.any (fun t2 => (MiningManager.checkForDuplicateVoteTransaction heap t1 t2 == some true)))
          then stdSetInsert (pt_cmp P heap) t1 out else out) [], s ∈ queue) ∧
    (∀ t' ∈ queue, ∃ s ∈ queue.foldl
        (fun out t1 =>
          if !(out.any (fun t2 => (MiningManager.checkForDuplicateVoteTransaction heap t1 t2 == some true)))
          then stdSetInsert (pt_cmp P heap) t1 out else out) [],
        s = t' ∨ (MiningManager.checkForDuplicateVoteTransaction heap t' s == some true) = true) ∧
    (∀ pre t post, queue = pre ++ t :: post →
      (t ∈ queue.foldl
        (fun out t1 =>
          if !(out.any (fun t2 => (MiningManager.checkForDuplicateVoteTransaction heap t1 t2 == some true)))
          then stdSetInsert (pt_cmp P heap) t1 out else out) [] ↔
        ∀ t' ∈ pre, (MiningManager.checkForDuplicateVoteTransaction heap t t' == some true) = false)) := by
  induction queue using List.reverseRecOn with
  | nil =>
    intro _
    refine ⟨by simp, by simp, ?_⟩
    intro pre t post h
    exact absurd h (by simp)
  | append_singleton q t ih =>
    intro hnd
    rw [List.map_append, List.nodup_append] at hnd
    obtain ⟨hndq, _, hdisj⟩ := hnd
    obtain ⟨ia, ib, ic⟩ := ih hndq
    have htq : ∀ y ∈ q, (heap t).getHash P ≠ (heap y).getHash P := by
      intro y hy e
      exact hdisj (List.mem_map_of_mem _ hy) (by rw [← e]; simp)
    have htq' : t ∉ q := fun h => htq t h rfl
    rw [List.foldl_append]
    simp only [List.foldl_cons, List.foldl_nil]
    generalize hout : q.foldl
        (fun out t1 =>
          if !(out.any (fun t2 => (MiningManager.checkForDuplicateVoteTransaction heap t1 t2 == some true)))
          then stdSetInsert (pt_cmp P heap) t1 out else out) [] = out at ia ib ic ⊢
    have hsym : ∀ a b, (MiningManager.checkForDuplicateVoteTransaction heap a b == some true) = true →
        (MiningManager.checkForDuplicateVoteTransaction heap b a == some true) = true := by
      intro a b h
      rw [checkForDuplicateVoteTransaction_iff] at h ⊢
      obtain ⟨ha, hb, e, b1, b2, h1, h2, h3⟩ := h
      exact ⟨hb, ha, e, b2, b1, h2, h1, h3.symm⟩
    have htrans : ∀ a b c, (MiningManager.checkForDuplicateVoteTransaction heap a b == some true) = true →
        (MiningManager.checkForDuplicateVoteTransaction heap b c == some true) = true →
        (MiningManager.checkForDuplicateVoteTransaction heap a c == some true) = true := by
      intro a b c h h'
      rw [checkForDuplicateVoteTransaction_iff] at h h' ⊢
      obtain ⟨ha, _, e, b1, b2, h1, h2, h3⟩ := h
      obtain ⟨_, hc, e', b1', b2', h1', h2', h3'⟩ := h'
      rw [h2] at h1'
      simp only [TxBody.vote.injEq] at h1'
      exact ⟨ha, hc, e, b1, b2', h1, by rw [h2', h1'.1], h3.trans h3'⟩
    -- the duplicate test against the selected set is the test against the prefix
    have hany : (out.any (fun t2 => (MiningManager.checkForDuplicateVoteTransaction heap t t2 == some true)))
        = true ↔ ∃ t' ∈ q, (MiningManager.checkForDuplicateVoteTransaction heap t t' == some true) = true := by
      rw [List.any_eq_true]
      constructor
      · rintro ⟨s, hs, hd⟩
        exact ⟨s, ia s hs, hd⟩
      · rintro ⟨t', ht', hd⟩
        obtain ⟨s, hs, h | h⟩ := ib t' ht'
        · exact ⟨s, hs, by rw [h]; exact hd⟩
        · exact ⟨s, hs, htrans _ _ _ hd h⟩
    have hins : ∀ y ∈ out, pt_cmp P heap t y = true ∨ pt_cmp P heap y t = true := by
      intro y hy
      have := htq y (ia y hy)
      simp only [pt_cmp, decide_eq_true_eq]
      omega
    by_cases hd : (out.any
        (fun t2 => (MiningManager.checkForDuplicateVoteTransaction heap t t2 == some true))) = true
    · -- a duplicate: not selected
      simp only [hd, Bool.not_true, Bool.false_eq_true, if_false]
      refine ⟨fun s hs => List.mem_append_left _ (ia s hs), ?_, ?_⟩
      · intro t' ht'
        rcases List.mem_append.mp ht' with h | h
        · exact ib t' h
        · simp only [List.mem_singleton] at h
          subst h
          obtain ⟨s, hs, hds⟩ := List.any_eq_true.mp hd
          exact ⟨s, hs, Or.inr hds⟩
      · intro pre x post hdec
        rcases List.eq_nil_or_concat post with hp | ⟨post', z, hp⟩
        · subst hp
          have := List.append_inj' hdec rfl
          obtain ⟨h1, h2⟩ := this
          simp only [List.cons.injEq, and_true] at h2
          subst h1; subst h2
          constructor
          · intro hx; exact absurd (ia _ hx) htq'
          · intro hall
            obtain ⟨t', ht', hdt⟩ := hany.mp hd
            rw [hall t' ht'] at hdt
            exact absurd hdt (by simp)
        · subst hp
          have hdec' : q ++ [t] = (pre ++ x :: post') ++ [z] := by
            rw [hdec]; simp
          obtain ⟨h1, _⟩ := List.append_inj' hdec' rfl
          exact ic pre x post' h1
    · -- no duplicate: selected
      simp only [hd, Bool.not_false, if_true]
      refine ⟨?_, ?_, ?_⟩
      · intro s hs
        rcases mem_stdSetInsert _ _ _ _ hs with h | h
        · rw [h]; simp
        · exact List.mem_append_left _ (ia s h)
      · intro t' ht'
        rcases List.mem_append.mp ht' with h | h
        · obtain ⟨s, hs, hh⟩ := ib t' h
          exact ⟨s, mem_stdSetInsert_of_mem _ _ _ _ hs, hh⟩
        · simp only [List.mem_singleton] at h
          subst h
          exact ⟨t', mem_stdSetInsert_self _ _ _ hins, Or.inl rfl⟩
      · intro pre x post hdec
        rcases List.eq_nil_or_concat post with hp | ⟨post', z, hp⟩
        · subst hp
          obtain ⟨h1, h2⟩ := List.append_inj' hdec rfl
          simp only [List.cons.injEq, and_true] at h2
          subst h1; subst h2
          constructor
          · intro _ t' ht'
            by_contra hc
            rw [Bool.not_eq_false] at hc
            exact hd (hany.mpr ⟨t', ht', hc⟩)
          · intro _
            exact mem_stdSetInsert_self _ _ _ hins
        · subst hp
          have hdec' : q ++ [t] = (pre ++ x :: post') ++ [z] := by
            rw [hdec]; simp
          obtain ⟨h1, h2⟩ := List.append_inj' hdec' rfl
          have hxq : x ∈ q := by rw [h1]; simp
          have hxt : x ≠ t := fun e => htq' (e ▸ hxq)
          rw [← ic pre x post' h1]
          constructor
          · intro hx
            rcases mem_stdSetInsert _ _ _ _ hx with h | h
            · exact absurd h hxt
            · exact h
          · intro hx
            exact mem_stdSetInsert_of_mem _ _ _ _ hx


theorem getTransactionsForBlock_distinct (heap : Nat → Transaction) (transQueue sel : List Nat)
    (ia : ∀ s ∈ sel, s ∈ transQueue)
    (hsel : ∀ pre t post, transQueue = pre ++ t :: post →
      (t ∈ sel ↔
        ¬ ∃ e bs, (heap t).body = .vote e bs ∧
          ∃ t' ∈ pre, ∃ bs', (heap t').body = .vote e bs' ∧
            (heap t').verificationKey = (heap t).verificationKey)) :
    ∀ s ∈ sel, ∀ s' ∈ sel, s ≠ s' →
      ¬ ∃ e bs bs', (heap s).body = .vote e bs ∧ (heap s').body = .vote e bs' ∧
        (heap s).verificationKey = (heap s').verificationKey := by
  -- two different selected entries: one of them comes first in the queue
  have key : ∀ s ∈ sel, ∀ s' ∈ sel,
      ∀ pre post, transQueue = pre ++ s' :: post → s ∈ pre →
      ¬ ∃ e bs bs', (heap s).body = .vote e bs ∧ (heap s').body = .vote e bs' ∧
        (heap s).verificationKey = (heap s').verificationKey := by
    rintro s _ s' hs' pre post hdec hpre ⟨e, bs, bs', hb, hb', hk⟩
    exact (hsel pre s' post hdec).mp hs' ⟨e, bs', hb', s, hpre, bs, hb, hk⟩
  intro s hs s' hs' hne
  obtain ⟨pre, post, hdec⟩ := List.append_of_mem (ia s' hs')
  have hsq := ia s hs
  rw [hdec] at hsq
  rcases List.mem_append.mp hsq with h | h
  · exact key s hs s' hs' pre post hdec h
  · rcases List.mem_cons.mp h with h | h
    · exact absurd h hne
    · -- `s` comes after `s'`
      obtain ⟨pre2, post2, hdec2⟩ := List.append_of_mem h
      have hdec' : transQueue = (pre ++ s' :: pre2) ++ s :: post2 := by
        rw [hdec, hdec2]; simp
      have := key s' hs' s hs _ post2 hdec' (by simp)
      rintro ⟨e, bs, bs', hb, hb', hk⟩
      exact this ⟨e, bs', bs, hb', hb, hk.symm⟩

theorem selectTransaction_eq (P : Primitives) (heap : Nat → Transaction) (out : List Nat)
    (t1 : Nat)
    (h : ∀ t2 ∈ out, MiningManager.checkForDuplicateVoteTransaction heap t1 t2 ≠ none) :
    MiningManager.selectTransaction P heap out t1
      = some (if !(out.any (fun t2 =>
          (MiningManager.checkForDuplicateVoteTransaction heap t1 t2 == some true)))
        then stdSetInsert (pt_cmp P heap) t1 out else out) := by
  unfold MiningManager.selectTransaction
  rw [foundDuplicate_eq heap t1 out h]
  cases out.any (fun t2 =>
    (MiningManager.checkForDuplicateVoteTransaction heap t1 t2 == some true)) <;> rfl

/-- With the tags of the constructors the outer loop of
`getTransactionsForBlock` returns. -/
theorem selectTransaction_loop (P : Primitives) (heap : Nat → Transaction) (queue : List Nat)
    (htag : ∀ t ∈ queue, (heap t).getType = (heap t).body.constructorType) :
    ∀ out0, (∀ x ∈ out0, (heap x).getType = (heap x).body.constructorType) →
      queue.foldlM (MiningManager.selectTransaction P heap) out0
        = some (queue.foldl
          (fun out t1 =>
            if !(out.any (fun t2 =>
              (MiningManager.checkForDuplicateVoteTransaction heap t1 t2 == some true)))
            then stdSetInsert (pt_cmp P heap) t1 out else out) out0) := by
  induction queue with
  | nil => intro out0 _; rfl
  | cons t rest ih =>
    intro out0 h0
    have ht := htag t (List.mem_cons_self _ _)
    rw [List.foldlM_cons, selectTransaction_eq P heap out0 t
      (fun t2 h2 => checkForDuplicateVoteTransaction_isSome heap t t2 ht (h0 t2 h2))]
    simp only [Option.bind_eq_bind, Option.some_bind, List.foldl_cons]
    apply ih (fun x hx => htag x (List.mem_cons_of_mem _ hx))
    intro x hx
    split_ifs at hx
    · rcases mem_stdSetInsert _ _ _ _ hx with h | h
      · rw [h]; exact ht
      · exact h0 x h
    · exact h0 x hx

/-- The duplicate-vote filter on a queue whose objects carry the tags of their
constructors and have pairwise distinct hashes: `getTransactionsForBlock`
(started with an empty set) returns; it selects exactly the queue entries `t`
for which it is not the case that `t` is a vote and an earlier queue entry is a
vote with the same election hash and the same verification key; no two
different selected entries are votes with the same election and key; it
returns `true` exactly when at least `MINING_MIN_TRANSACTIONS` entries were
selected, then the remaining queue is the original queue without the selected
entries, in unchanged order, and otherwise the queue is unchanged. -/
theorem getTransactionsForBlock_tagged (P : Primitives) (heap : Nat → Transaction)
    (transQueue : List Nat)
    (hnd : (transQueue.map (fun t => (heap t).getHash P)).Nodup)
    (htag : ∀ t ∈ transQueue, (heap t).getType = (heap t).body.constructorType) :
    ∃ ok rest sel, MiningManager.getTransactionsForBlock P heap transQueue []
        = some (ok, rest, sel) ∧
    (∀ pre t post, transQueue = pre ++ t :: post →
      (t ∈ sel ↔
        ¬ ∃ e bs, (heap t).body = .vote e bs ∧
          ∃ t' ∈ pre, ∃ bs', (heap t').body = .vote e bs' ∧
            (heap t').verificationKey = (heap t).verificationKey)) ∧
    (∀ t ∈ sel, t ∈ transQueue) ∧
    (∀ s ∈ sel, ∀ s' ∈ sel, s ≠ s' →
      ¬ ∃ e bs bs', (heap s).body = .vote e bs ∧ (heap s').body = .vote e bs' ∧
        (heap s).verificationKey = (heap s').verificationKey) ∧
    (ok = true ↔ MINING_MIN_TRANSACTIONS ≤ sel.length) ∧
    (ok = true → rest = transQueue.filter (fun t => decide (t ∉ sel))) ∧
    (ok = false → rest = transQueue) := by
  obtain ⟨ia, _, ic⟩ := getTransactionsForBlock_loop P heap transQueue hnd
  have hloop := selectTransaction_loop P heap transQueue htag [] (by simp)
  generalize hsel0 : transQueue.foldl
      (fun out t1 =>
        if !(out.any (fun t2 =>
          (MiningManager.checkForDuplicateVoteTransaction heap t1 t2 == some true)))
        then stdSetInsert (pt_cmp P heap) t1 out else out) [] = sel at ia ic hloop
  have hvote : ∀ t ∈ transQueue, ∀ e bs, (heap t).body = .vote e bs →
      (heap t).getType = TxType.TX_VOTE := by
    intro t ht e bs hb
    rw [htag t ht, hb]; rfl
  have hsel : ∀ pre t post, transQueue = pre ++ t :: post →
      (t ∈ sel ↔
        ¬ ∃ e bs, (heap t).body = .vote e bs ∧
          ∃ t' ∈ pre, ∃ bs', (heap t').body = .vote e bs' ∧
            (heap t').verificationKey = (heap t).verificationKey) := by
    intro pre t post hdec
    have htq : t ∈ transQueue := by rw [hdec]; simp
    have hpq : ∀ t' ∈ pre, t' ∈ transQueue := by
      intro t' ht'; rw [hdec]; exact List.mem_append_left _ ht'
    rw [ic pre t post hdec]
    constructor
    · rintro hall ⟨e, bs, hb, t', ht', bs', hb', hk⟩
      have : (MiningManager.checkForDuplicateVoteTransaction heap t t' == some true) = true :=
        (checkForDuplicateVoteTransaction_iff heap t t').mpr
          ⟨hvote t htq e bs hb, hvote t' (hpq t' ht') e bs' hb', e, bs, bs', hb, hb', hk.symm⟩
      rw [hall t' ht'] at this
      exact absurd this (by simp)
    · intro hno t' ht'
      by_contra hc
      rw [Bool.not_eq_false, checkForDuplicateVoteTransaction_iff] at hc
      obtain ⟨_, _, e, bs, bs', hb, hb', hk⟩ := hc
      exact hno ⟨e, bs, hb, t', ht', bs', hb', hk.symm⟩
  have hres : MiningManager.getTransactionsForBlock P heap transQueue []
      = if sel.length < MINING_MIN_TRANSACTIONS then some (false, transQueue, sel)
        else some (true, transQueue.filter (fun t => decide (t ∉ sel)), sel) := by
    unfold MiningManager.getTransactionsForBlock
    rw [hloop]
    simp only [foldl_filter_ne]
  by_cases hlen : sel.length < MINING_MIN_TRANSACTIONS
  · rw [if_pos hlen] at hres
    refine ⟨false, transQueue, sel, hres, hsel, ia, ?_, ?_, ?_, ?_⟩
    · exact getTransactionsForBlock_distinct heap transQueue sel ia hsel
    · simp only [Bool.false_eq_true, false_iff, not_le]; exact hlen
    · intro h; exact absurd h (by simp)
    · intro _; rfl
  · rw [if_neg hlen] at hres
    refine ⟨true, _, sel, hres, hsel, ia, ?_, ?_, ?_, ?_⟩
    · exact getTransactionsForBlock_distinct heap transQueue sel ia hsel
    · simp only [true_iff]; omega
    · intro _; rfl
    · intro h; exact absurd h (by simp)

set_option maxRecDepth 100000 in
theorem getTransactionsForBlock_tagged_witness :
    ∃ ok rest sel, MiningManager.getTransactionsForBlock toyP toyHeap [2, 4, 1] []
        = some (ok, rest, sel) ∧
      (2 ∈ sel ↔
        ¬ ∃ e bs, (toyHeap 2).body = .vote e bs ∧
          ∃ t' ∈ ([] : List Nat), ∃ bs', (toyHeap t').body = .vote e bs' ∧
            (toyHeap t').verificationKey = (toyHeap 2).verificationKey) := by
  obtain ⟨ok, rest, sel, h, hsel, _⟩ :=
    getTransactionsForBlock_tagged toyP toyHeap [2, 4, 1] (by decide) (by decide)
  exact ⟨ok, rest, sel, h, hsel [] 2 [4, 1] rfl⟩

end Bitvoting

namespace Bitvoting

/-! ## Proofs of knowledge and the homomorphic product -/

theorem mpz_powm_of_nonneg (a e N : Int) (hN : N ≠ 0) (he : 0 ≤ e) :
    mpz_powm a e N = some (a ^ e.toNat % N) := by
  simp [mpz_powm, he, hN]

theorem mpz_invert_spec (a N : Int) (h : Int.gcd a N = 1) :
    ∃ i, mpz_invert a N = some i ∧ a * i ≡ 1 [ZMOD N] := by
  refine ⟨Int.gcdA a N % N, by simp [mpz_invert, h], ?_⟩
  have hb := Int.gcd_eq_gcd_ab a N
  rw [h] at hb
  have h1 : a * (Int.gcdA a N % N) ≡ a * Int.gcdA a N [ZMOD N] :=
    Int.ModEq.mul_left _ (Int.mod_modEq _ _)
  have h2 : a * Int.gcdA a N ≡ 1 [ZMOD N] := by
    rw [Int.modEq_iff_dvd]
    exact ⟨Int.gcdB a N, by push_cast at hb; linarith⟩
  exact h1.trans h2

/-- The value `mpz_powm` gives for the exponent `-e` is an inverse of `a^e`. -/
theorem mpz_powm_neg_spec (a e N : Int) (hN : N ≠ 0) (he : 0 ≤ e) (h : Int.gcd a N = 1) :
    ∃ x, mpz_powm a (0 - e) N = some x ∧ x * a ^ e.toNat ≡ 1 [ZMOD N] := by
  by_cases h0 : e = 0
  · subst h0
    refine ⟨1 % N, by unfold mpz_powm; rw [if_neg hN, if_pos (by norm_num)]; simp, ?_⟩
    simp only [Int.toNat_zero, pow_zero, mul_one]
    exact Int.mod_modEq _ _
  · have hneg : ¬ (0 ≤ 0 - e) := by omega
    obtain ⟨i, hi, hai⟩ := mpz_invert_spec a N h
    refine ⟨i ^ (-(0 - e)).toNat % N,
      by unfold mpz_powm; rw [if_neg hN, if_neg hneg, hi]; rfl, ?_⟩
    have he' : (-(0 - e)).toNat = e.toNat := by congr 1; omega
    rw [he']
    have h1 : i ^ e.toNat % N * a ^ e.toNat ≡ i ^ e.toNat * a ^ e.toNat [ZMOD N] :=
      Int.ModEq.mul_right _ (Int.mod_modEq _ _)
    have h2 : i ^ e.toNat * a ^ e.toNat ≡ 1 [ZMOD N] := by
      rw [← mul_pow]
      have : i * a ≡ 1 [ZMOD N] := by rw [mul_comm]; exact hai
      simpa using this.pow e.toNat
    exact h1.trans h2

theorem pow_modEq_sq (a b n : Int) (hn : 0 ≤ n) (h : a ≡ b [ZMOD n]) :
    a ^ n.toNat ≡ b ^ n.toNat [ZMOD n * n] := by
  have hp : ((n.toNat : ℕ) : ℤ) = n := Int.toNat_of_nonneg hn
  have hd : ((n.toNat : ℕ) : ℤ) ∣ b - a := by rw [hp]; exact Int.modEq_iff_dvd.mp h
  have := dvd_sub_pow_of_dvd_sub hd 1
  rw [Int.modEq_iff_dvd]
  simpa [hp, pow_succ] using this

theorem gcd_emod_eq_one (a N : Int) (h : Int.gcd a N = 1) : Int.gcd (a % N) N = 1 := by
  rw [← Int.isCoprime_iff_gcd_eq_one] at h ⊢
  have : a % N = a + N * (-(a / N)) := by
    have := Int.emod_add_ediv a N
    linarith
  rw [this]
  exact h.add_mul_left_left _

theorem gcd_mul_eq_one (a b N : Int) (ha : Int.gcd a N = 1) (hb : Int.gcd b N = 1) :
    Int.gcd (a * b) N = 1 := by
  rw [← Int.isCoprime_iff_gcd_eq_one] at ha hb ⊢
  exact ha.mul_left hb

theorem gcd_pow_eq_one (a N : Int) (k : Nat) (ha : Int.gcd a N = 1) :
    Int.gcd (a ^ k) N = 1 := by
  rw [← Int.isCoprime_iff_gcd_eq_one] at ha ⊢
  exact ha.pow_left

theorem gcd_sq_eq_one (a n : Int) (ha : Int.gcd a n = 1) : Int.gcd a (n * n) = 1 := by
  rw [← Int.isCoprime_iff_gcd_eq_one] at ha ⊢
  exact ha.mul_right ha

theorem gcd_succ_self (n : Int) : Int.gcd (n + 1) n = 1 := by
  rw [← Int.isCoprime_iff_gcd_eq_one]
  exact ⟨1, -1, by ring⟩

/-- The power of `n + 1` modulo `n` that `paillier_enc_proof` multiplies into
`v1` is 1 modulo `n`. -/
theorem mpz_powm_nplusone (n q : Int) (hn : n ≠ 0) :
    ∃ g, mpz_powm (n + 1) q n = some g ∧ g ≡ 1 [ZMOD n] := by
  have hb : n + 1 ≡ 1 [ZMOD n] := by
    rw [Int.modEq_iff_dvd]; exact ⟨-1, by ring⟩
  by_cases hq : 0 ≤ q
  · refine ⟨_, mpz_powm_of_nonneg _ _ _ hn hq, ?_⟩
    have := hb.pow q.toNat
    rw [one_pow] at this
    exact (Int.mod_modEq _ _).trans this
  · obtain ⟨i, hi, hai⟩ := mpz_invert_spec (n + 1) n (gcd_succ_self n)
    refine ⟨i ^ (-q).toNat % n, by unfold mpz_powm; rw [if_neg hn, if_neg hq, hi]; rfl, ?_⟩
    have h1 : i ≡ 1 [ZMOD n] := by
      have := (hb.mul_right i).symm.trans hai
      simpa using this
    have := h1.pow (-q).toNat
    rw [one_pow] at this
    exact (Int.mod_modEq _ _).trans this

end Bitvoting

namespace Bitvoting

/-- The slot of the chosen plaintext: what `paillier_verify_enc` recomputes
from `v1 = rho * r^e1 mod n` is `rho^n mod n^2`. -/
theorem enc_proof_chosen_slot (n r rho m e1 g1 c x : Int) (hn : 0 ≤ n) (hm : 0 ≤ m)
    (he1 : 0 ≤ e1) (hg1 : g1 ≡ 1 [ZMOD n])
    (hc : c ≡ (n + 1) ^ m.toNat * r ^ n.toNat [ZMOD n * n])
    (hx : x * c ^ e1.toNat ≡ 1 [ZMOD n * n]) :
    (((((g1 * (r ^ e1.toNat % n) * rho) % n)) ^ n.toNat % (n * n)
      * ((n + 1) ^ (m * e1).toNat % (n * n)) * x) % (n * n)) = rho ^ n.toNat % (n * n) := by
  lift m to ℕ using hm
  lift e1 to ℕ using he1
  have hme : ((m : ℤ) * (e1 : ℤ)).toNat = m * e1 := by
    rw [← Nat.cast_mul, Int.toNat_natCast]
  rw [hme]
  simp only [Int.toNat_natCast] at hc hx ⊢
  have hv : ((g1 * (r ^ e1 % n) * rho) % n) ≡ r ^ e1 * rho [ZMOD n] := by
    refine (Int.mod_modEq _ _).trans ?_
    have h1 : g1 * (r ^ e1 % n) ≡ 1 * r ^ e1 [ZMOD n] := hg1.mul (Int.mod_modEq _ _)
    rw [one_mul] at h1
    exact h1.mul_right rho
  have hvn := pow_modEq_sq _ _ n hn hv
  have h1 : (((g1 * (r ^ e1 % n) * rho) % n)) ^ n.toNat % (n * n)
      * ((n + 1) ^ (m * e1) % (n * n)) * x
      ≡ (r ^ e1 * rho) ^ n.toNat * (n + 1) ^ (m * e1) * x [ZMOD n * n] :=
    (((Int.mod_modEq _ _).trans hvn).mul (Int.mod_modEq _ _)).mul_right x
  have h2 : (r ^ e1 * rho) ^ n.toNat * (n + 1) ^ (m * e1) * x
      = rho ^ n.toNat * (x * ((n + 1) ^ m * r ^ n.toNat) ^ e1) := by ring
  have h3 : x * ((n + 1) ^ m * r ^ n.toNat) ^ e1 ≡ 1 [ZMOD n * n] :=
    ((hc.symm.pow e1).mul_left x).trans hx
  have h4 : rho ^ n.toNat * (x * ((n + 1) ^ m * r ^ n.toNat) ^ e1) ≡ rho ^ n.toNat [ZMOD n * n] := by
    simpa using h3.mul_left (rho ^ n.toNat)
  rw [h2] at h1
  exact h1.trans h4

/-- The ciphertext `(n+1)^m * r^n mod n^2` of `paillier_enc`. -/
theorem paillier_enc_spec (pub : paillier_pubkey_t) (m r : Int) (hN : pub.n_squared ≠ 0)
    (hn : 0 ≤ pub.n) (hm : 0 ≤ m) :
    paillier_enc pub m r = some ⟨((pub.n_plusone ^ m.toNat % pub.n_squared
      * (r ^ pub.n.toNat % pub.n_squared)) % pub.n_squared)⟩ := by
  simp only [paillier_enc, mpz_powm_of_nonneg _ _ _ hN hm, mpz_powm_of_nonneg _ _ _ hN hn,
    mpz_mod_of_ne _ _ hN,
    Option.bind_eq_bind, Option.some_bind]

theorem enc_modEq (n r : Int) (m : Nat) :
    (((n + 1) ^ m % (n * n) * (r ^ n.toNat % (n * n))) % (n * n))
      ≡ (n + 1) ^ m * r ^ n.toNat [ZMOD n * n] := by
  exact (Int.mod_modEq _ _).trans ((Int.mod_modEq _ _).mul (Int.mod_modEq _ _))

theorem enc_gcd (n r : Int) (m : Nat) (hr : Int.gcd r n = 1) :
    Int.gcd ((((n + 1) ^ m % (n * n) * (r ^ n.toNat % (n * n))) % (n * n))) (n * n) = 1 := by
  apply gcd_emod_eq_one
  apply gcd_mul_eq_one
  · exact gcd_emod_eq_one _ _ (gcd_pow_eq_one _ _ _ (gcd_sq_eq_one _ _ (gcd_succ_self n)))
  · exact gcd_emod_eq_one _ _ (gcd_pow_eq_one _ _ _ (gcd_sq_eq_one _ _ hr))

end Bitvoting

namespace Bitvoting

theorem paillier_enc_proof_complete_first (H : List Int → Nat) (pub : paillier_pubkey_t)
    (r rho e2 v2 : Int)
    (hn : 0 < pub.n) (hnsq : pub.n_squared = pub.n * pub.n) (hnp : pub.n_plusone = pub.n + 1)
    (hr : Int.gcd r pub.n = 1) (he2 : 0 ≤ e2) :
    ∃ proof, paillier_enc_proof H pub .FIRST r rho e2 v2 = some proof ∧
      paillier_verify_enc H pub proof = some true := by
  have hn0 : 0 ≤ pub.n := hn.le
  have hne : pub.n ≠ 0 := ne_of_gt hn
  have hNsq : pub.n_squared ≠ 0 := by rw [hnsq]; exact mul_ne_zero hne hne
  -- the ciphertext
  have hc := paillier_enc_spec pub 0 r hNsq hn0 (le_refl 0)
  have hcm := enc_modEq pub.n r 0
  have hcg := enc_gcd pub.n r 0 hr
  rw [← hnsq, ← hnp] at hcm hcg
  simp only [Int.toNat_zero] at hc
  generalize (pub.n_plusone ^ 0 % pub.n_squared * (r ^ pub.n.toNat % pub.n_squared))
    % pub.n_squared = c at hc hcm hcg
  -- the slot of the other plaintext
  obtain ⟨x2, hx2, _⟩ := mpz_powm_neg_spec c e2 pub.n_squared hNsq he2 hcg
  have hg2 := mpz_powm_of_nonneg pub.n_plusone (1 * e2) pub.n_squared hNsq (by omega)
  have hv2 := mpz_powm_of_nonneg v2 pub.n pub.n_squared hNsq hn0
  have hrho := mpz_powm_of_nonneg rho pub.n pub.n_squared hNsq hn0
  simp only [paillier_enc_proof, paillier_enc_proof_pt, reduceCtorEq, if_false, hc,
    mpz_mod_of_ne _ _ hNsq, mpz_mod_of_ne _ _ hne,
    Option.bind_eq_bind, Option.some_bind, hx2, hg2, hv2, hrho]
  generalize hu2 :
    (v2 ^ pub.n.toNat % pub.n_squared * (pub.n_plusone ^ (1 * e2).toNat % pub.n_squared) * x2)
      % pub.n_squared = u2
  generalize he : hashToMpz H [rho ^ pub.n.toNat % pub.n_squared, u2, c, 0, 1] = e
  have htd : mpz_tdiv_q (e - e2) pub.n = some ((e - e2).tdiv pub.n) := by
    simp [mpz_tdiv_q, hne]
  obtain ⟨g1, hg1, hg1'⟩ := mpz_powm_nplusone pub.n ((e - e2).tdiv pub.n) hne
  rw [← hnp] at hg1
  have he1 : 0 ≤ ((e - e2) % pub.n) := Int.emod_nonneg _ hne
  have hr1 := mpz_powm_of_nonneg r (((e - e2) % pub.n)) pub.n hne he1
  simp only [htd, hg1, hr1, Option.some_bind, mpz_mod_of_ne _ _ hne]
  refine ⟨_, rfl, ?_⟩
  -- verification
  obtain ⟨x1, hx1, hx1'⟩ := mpz_powm_neg_spec c (((e - e2) % pub.n)) pub.n_squared hNsq he1 hcg
  have hg1v := mpz_powm_of_nonneg pub.n_plusone (0 * ((e - e2) % pub.n)) pub.n_squared
    hNsq (by simp)
  have hv1 := mpz_powm_of_nonneg
    (((g1 * (r ^ (((e - e2) % pub.n)).toNat % pub.n) * rho) % pub.n)) pub.n
    pub.n_squared hNsq hn0
  have hslot := enc_proof_chosen_slot pub.n r rho 0 (((e - e2) % pub.n)) g1 c x1 hn0
    (le_refl 0) he1 hg1' (by rw [← hnsq, ← hnp]; exact hcm) (by rw [← hnsq]; exact hx1')
  rw [← hnsq, ← hnp] at hslot
  simp only [paillier_verify_enc, paillier_verify_enc_pt, hv1, hg1v, hx1, hv2, hg2, hx2,
    mpz_mod_of_ne _ _ hNsq, mpz_mod_of_ne _ _ hne,
    Option.bind_eq_bind, Option.some_bind, hslot, hu2, he]
  have hfin : (e % pub.n) = ((((e - e2) % pub.n) + e2) % pub.n) := by
    rw [Int.emod_add_emod, sub_add_cancel]
  rw [decide_eq_true hfin]
  rfl

theorem paillier_enc_proof_complete_second (H : List Int → Nat) (pub : paillier_pubkey_t)
    (r rho e2 v2 : Int)
    (hn : 0 < pub.n) (hnsq : pub.n_squared = pub.n * pub.n) (hnp : pub.n_plusone = pub.n + 1)
    (hr : Int.gcd r pub.n = 1) (he2 : 0 ≤ e2) :
    ∃ proof, paillier_enc_proof H pub .SECOND r rho e2 v2 = some proof ∧
      paillier_verify_enc H pub proof = some true := by
  have hn0 : 0 ≤ pub.n := hn.le
  have hne : pub.n ≠ 0 := ne_of_gt hn
  have hNsq : pub.n_squared ≠ 0 := by rw [hnsq]; exact mul_ne_zero hne hne
  -- the ciphertext
  have hc := paillier_enc_spec pub 1 r hNsq hn0 (by norm_num)
  have hcm := enc_modEq pub.n r 1
  have hcg := enc_gcd pub.n r 1 hr
  rw [← hnsq, ← hnp] at hcm hcg
  simp only [Int.toNat_one] at hc
  generalize (pub.n_plusone ^ 1 % pub.n_squared * (r ^ pub.n.toNat % pub.n_squared))
    % pub.n_squared = c at hc hcm hcg
  -- the slot of the other plaintext
  obtain ⟨x2, hx2, _⟩ := mpz_powm_neg_spec c e2 pub.n_squared hNsq he2 hcg
  have hg2 := mpz_powm_of_nonneg pub.n_plusone (0 * e2) pub.n_squared hNsq (by omega)
  have hv2 := mpz_powm_of_nonneg v2 pub.n pub.n_squared hNsq hn0
  have hrho := mpz_powm_of_nonneg rho pub.n pub.n_squared hNsq hn0
  simp only [paillier_enc_proof, paillier_enc_proof_pt, if_true, hc,
    mpz_mod_of_ne _ _ hNsq, mpz_mod_of_ne _ _ hne,
    Option.bind_eq_bind, Option.some_bind, hx2, hg2, hv2, hrho]
  generalize hu2 :
    (v2 ^ pub.n.toNat % pub.n_squared * (pub.n_plusone ^ (0 * e2).toNat % pub.n_squared) * x2)
      % pub.n_squared = u2
  generalize he : hashToMpz H [u2, rho ^ pub.n.toNat % pub.n_squared, c, 0, 1] = e
  have htd : mpz_tdiv_q (e - e2) pub.n = some ((e - e2).tdiv pub.n) := by
    simp [mpz_tdiv_q, hne]
  obtain ⟨g1, hg1, hg1'⟩ := mpz_powm_nplusone pub.n ((e - e2).tdiv pub.n) hne
  rw [← hnp] at hg1
  have he1 : 0 ≤ ((e - e2) % pub.n) := Int.emod_nonneg _ hne
  have hr1 := mpz_powm_of_nonneg r (((e - e2) % pub.n)) pub.n hne he1
  simp only [htd, hg1, hr1, Option.some_bind, mpz_mod_of_ne _ _ hne]
  refine ⟨_, rfl, ?_⟩
  -- verification
  obtain ⟨x1, hx1, hx1'⟩ := mpz_powm_neg_spec c (((e - e2) % pub.n)) pub.n_squared hNsq he1 hcg
  have hg1v := mpz_powm_of_nonneg pub.n_plusone (1 * ((e - e2) % pub.n)) pub.n_squared
    hNsq (by omega)
  have hv1 := mpz_powm_of_nonneg
    (((g1 * (r ^ (((e - e2) % pub.n)).toNat % pub.n) * rho) % pub.n)) pub.n
    pub.n_squared hNsq hn0
  have hslot := enc_proof_chosen_slot pub.n r rho 1 (((e - e2) % pub.n)) g1 c x1 hn0
    (by norm_num) he1 hg1' (by rw [← hnsq, ← hnp]; exact hcm) (by rw [← hnsq]; exact hx1')
  rw [← hnsq, ← hnp] at hslot
  simp only [paillier_verify_enc, paillier_verify_enc_pt, hv1, hg1v, hx1, hv2, hg2, hx2,
    mpz_mod_of_ne _ _ hNsq, mpz_mod_of_ne _ _ hne,
    Option.bind_eq_bind, Option.some_bind, hslot, hu2, he]
  have hfin : (e % pub.n) = ((e2 + ((e - e2) % pub.n)) % pub.n) := by
    rw [Int.add_emod_emod, add_sub_cancel]
  rw [decide_eq_true hfin]
  rfl


/-- C11 (encryption-proof completeness): for a public key with `n > 0`,
`n_squared = n^2` and `n_plusone = n + 1`, either choice, a blinding `r`
invertible modulo `n`, any `rho` and `v2`, any `e2 ≥ 0` and any hash function,
`paillier_enc_proof` returns a ciphertext with proof, and `paillier_verify_enc`
accepts it. -/
theorem paillier_enc_proof_complete (H : List Int → Nat) (pub : paillier_pubkey_t)
    (choice : PLAINTEXT_SELECTION) (r rho e2 v2 : Int)
    (hn : 0 < pub.n) (hnsq : pub.n_squared = pub.n * pub.n) (hnp : pub.n_plusone = pub.n + 1)
    (hr : Int.gcd r pub.n = 1) (he2 : 0 ≤ e2) :
    ∃ proof, paillier_enc_proof H pub choice r rho e2 v2 = some proof ∧
      paillier_verify_enc H pub proof = some true := by
  cases choice
  · exact paillier_enc_proof_complete_first H pub r rho e2 v2 hn hnsq hnp hr he2
  · exact paillier_enc_proof_complete_second H pub r rho e2 v2 hn hnsq hnp hr he2

theorem paillier_enc_proof_complete_witness :
    ∃ proof, paillier_enc_proof (fun _ => 9) toyPub .SECOND 2 3 4 6 = some proof ∧
      paillier_verify_enc (fun _ => 9) toyPub proof = some true :=
  paillier_enc_proof_complete (fun _ => 9) toyPub .SECOND 2 3 4 6 (by decide) (by decide)
    (by decide) (by decide) (by decide)

end Bitvoting

namespace Bitvoting

/-- The values `paillier_verify_decryption` recomputes: with `w = base^k` and
`x` an inverse of `w^e`, `base^(r + k*e) * x = base^r` modulo `N`. -/
theorem dec_proof_slot (base w x N : Int) (r k e : Nat) (hw : w ≡ base ^ k [ZMOD N])
    (hx : x * w ^ e ≡ 1 [ZMOD N]) :
    ((base ^ (r + k * e) % N * x) % N) = base ^ r % N := by
  have h1 : base ^ (r + k * e) % N * x ≡ base ^ (r + k * e) * x [ZMOD N] :=
    (Int.mod_modEq _ _).mul_right x
  have h2 : base ^ (r + k * e) * x = base ^ r * (x * (base ^ k) ^ e) := by ring
  have h3 : x * (base ^ k) ^ e ≡ 1 [ZMOD N] := ((hw.symm.pow e).mul_left x).trans hx
  have h4 : base ^ r * (x * (base ^ k) ^ e) ≡ base ^ r [ZMOD N] := by
    simpa using h3.mul_left (base ^ r)
  rw [h2] at h1
  exact h1.trans h4

theorem paillier_dec_proof_complete_aux (H : List Int → Nat) (pub : paillier_pubkey_t)
    (prv : paillier_partialkey_t) (ct : paillier_ciphertext_pure_t) (r : Int)
    (vk : paillier_verificationkey_t)
    (hN : pub.n_squared ≠ 0)
    (hr : 0 ≤ r) (hs : 0 ≤ prv.s) (hd : 0 ≤ pub.delta)
    (hc : Int.gcd ct.c pub.n_squared = 1) (hv : Int.gcd pub.v pub.n_squared = 1)
    (hid : 1 ≤ prv.id) (hvk : pub.verificationKeys[(prv.id - 1).toNat]? = some vk)
    (hvi : vk.v = pub.v ^ (pub.delta * prv.s).toNat % pub.n_squared) :
    ∃ proof, paillier_dec_proof H pub prv ct r = some proof ∧
      paillier_verify_decryption H pub proof = some true := by
  obtain ⟨rN, rfl⟩ := Int.eq_ofNat_of_zero_le hr
  obtain ⟨sN, hsN⟩ := Int.eq_ofNat_of_zero_le hs
  obtain ⟨dN, hdN⟩ := Int.eq_ofNat_of_zero_le hd
  have hex2 : (pub.delta * prv.s * 2).toNat = dN * sN * 2 := by
    rw [hsN, hdN, show ((dN : ℤ) * (sN : ℤ) * 2) = ((dN * sN * 2 : ℕ) : ℤ) by push_cast; ring,
      Int.toNat_natCast]
  have hex1 : (pub.delta * prv.s).toNat = dN * sN := by
    rw [hsN, hdN, ← Nat.cast_mul, Int.toNat_natCast]
  have h4 := mpz_powm_of_nonneg ct.c 4 pub.n_squared hN (by norm_num)
  have ha := mpz_powm_of_nonneg (ct.c ^ (4 : Int).toNat % pub.n_squared) (rN : ℤ) pub.n_squared
    hN hr
  have hb := mpz_powm_of_nonneg pub.v (rN : ℤ) pub.n_squared hN hr
  have hci := mpz_powm_of_nonneg ct.c (pub.delta * prv.s * 2) pub.n_squared
    hN (by positivity)
  have hci2 := mpz_powm_of_nonneg (ct.c ^ (pub.delta * prv.s * 2).toNat % pub.n_squared) 2
    pub.n_squared hN (by norm_num)
  simp only [paillier_dec_proof, paillier_dec, h4, ha, hb, hci, hci2, Option.bind_eq_bind,
    Option.some_bind, Option.map_some', Option.getD_some]
  -- the values of the proof
  have hc4m : ct.c ^ (4 : Int).toNat % pub.n_squared ≡ ct.c ^ 4 [ZMOD pub.n_squared] :=
    Int.mod_modEq _ _
  have hc4g : Int.gcd (ct.c ^ (4 : Int).toNat % pub.n_squared) pub.n_squared = 1 :=
    gcd_emod_eq_one _ _ (gcd_pow_eq_one _ _ _ hc)
  have hci2m : (ct.c ^ (pub.delta * prv.s * 2).toNat % pub.n_squared) ^ (2 : Int).toNat
      % pub.n_squared ≡ (ct.c ^ (4 : Int).toNat % pub.n_squared) ^ (dN * sN)
      [ZMOD pub.n_squared] := by
    rw [hex2]
    have h1 : (ct.c ^ (dN * sN * 2) % pub.n_squared) ^ (2 : Int).toNat % pub.n_squared
        ≡ (ct.c ^ (dN * sN * 2)) ^ 2 [ZMOD pub.n_squared] :=
      (Int.mod_modEq _ _).trans ((Int.mod_modEq _ _).pow 2)
    have h2 : (ct.c ^ (4 : Int).toNat % pub.n_squared) ^ (dN * sN)
        ≡ (ct.c ^ 4) ^ (dN * sN) [ZMOD pub.n_squared] := hc4m.pow _
    have h3 : (ct.c ^ (dN * sN * 2)) ^ 2 = (ct.c ^ 4) ^ (dN * sN) := by ring
    rw [h3] at h1
    exact h1.trans h2.symm
  have hci2g : Int.gcd ((ct.c ^ (pub.delta * prv.s * 2).toNat % pub.n_squared)
      ^ (2 : Int).toNat % pub.n_squared) pub.n_squared = 1 :=
    gcd_emod_eq_one _ _ (gcd_pow_eq_one _ _ _
      (gcd_emod_eq_one _ _ (gcd_pow_eq_one _ _ _ hc)))
  have hvkm : vk.v ≡ pub.v ^ (dN * sN) [ZMOD pub.n_squared] := by
    rw [hvi, hex1]; exact Int.mod_modEq _ _
  have hvkg : Int.gcd vk.v pub.n_squared = 1 := by
    rw [hvi]; exact gcd_emod_eq_one _ _ (gcd_pow_eq_one _ _ _ hv)
  generalize ct.c ^ (4 : Int).toNat % pub.n_squared = c4 at hc4m hc4g hci2m ⊢
  generalize (ct.c ^ (pub.delta * prv.s * 2).toNat % pub.n_squared) ^ (2 : Int).toNat
    % pub.n_squared = ci2 at hci2m hci2g ⊢
  generalize ct.c ^ (pub.delta * prv.s * 2).toNat % pub.n_squared = ci
  unfold hashToMpz
  generalize heN : H [c4 ^ (rN : ℤ).toNat % pub.n_squared,
    pub.v ^ (rN : ℤ).toNat % pub.n_squared, c4, ci2] % 2 ^ 256 = eN
  refine ⟨_, rfl, ?_⟩
  -- verification
  have hz : ((rN : ℤ) + prv.s * (eN : ℤ) * pub.delta).toNat = rN + dN * sN * eN := by
    rw [hsN, hdN, show ((rN : ℤ) + (sN : ℤ) * (eN : ℤ) * (dN : ℤ))
      = ((rN + dN * sN * eN : ℕ) : ℤ) by push_cast; ring, Int.toNat_natCast]
  have hz0 : 0 ≤ (rN : ℤ) + prv.s * (eN : ℤ) * pub.delta := by positivity
  have hpa := mpz_powm_of_nonneg c4 ((rN : ℤ) + prv.s * (eN : ℤ) * pub.delta) pub.n_squared hN hz0
  have hpb := mpz_powm_of_nonneg pub.v ((rN : ℤ) + prv.s * (eN : ℤ) * pub.delta) pub.n_squared
    hN hz0
  obtain ⟨xa, hxa, hxa'⟩ := mpz_powm_neg_spec ci2 (eN : ℤ) pub.n_squared hN (by positivity) hci2g
  obtain ⟨xb, hxb, hxb'⟩ := mpz_powm_neg_spec vk.v (eN : ℤ) pub.n_squared hN (by positivity) hvkg
  rw [Int.toNat_natCast] at hxa' hxb'
  rw [hz] at hpa hpb
  have hsa := dec_proof_slot c4 ci2 xa pub.n_squared rN (dN * sN) eN hci2m hxa'
  have hsb := dec_proof_slot pub.v vk.v xb pub.n_squared rN (dN * sN) eN hvkm hxb'
  have hidn : ¬ (prv.id - 1 < 0) := by omega
  simp only [paillier_verify_decryption, hpa, hpb, hxa, hxb, hidn, if_false, hvk,
    mpz_mod_of_ne _ _ hN, Option.bind_eq_bind, Option.some_bind, hsa, hsb, hashToMpz]
  rw [Int.toNat_natCast] at heN
  simp only [Option.some.injEq, decide_eq_true_eq]
  exact_mod_cast heN

/-- C12 (as stated, refuted for a key with `v = 0`): the verification value
of server 1 is `0 = v^(delta*s_1) mod n^2` and the ciphertext 1 is invertible,
`paillier_dec_proof` returns a partial decryption, but
`paillier_verify_decryption` has to invert `v_1 = 0` modulo `n^2` and does not
return `true`. -/
theorem paillier_dec_proof_rejected :
    Int.gcd (1 : Int) toyZeroPub.n_squared = 1 ∧
    toyZeroPub.verificationKeys[0]? =
      some ⟨1, toyZeroPub.v ^ (toyZeroPub.delta * 1).toNat % toyZeroPub.n_squared⟩ ∧
    (paillier_dec_proof (fun _ => 1) toyZeroPub ⟨1, 1⟩ ⟨1⟩ 0).isSome = true ∧
    (paillier_dec_proof (fun _ => 1) toyZeroPub ⟨1, 1⟩ ⟨1⟩ 0).bind
      (paillier_verify_decryption (fun _ => 1) toyZeroPub) = none := by
  refine ⟨by decide, by decide, by decide, by decide⟩

/-- C12 (amended): for a public key with `n_squared ≠ 0` and `delta ≥ 0` whose
`v` is invertible modulo `n_squared` and whose verification value for server
`i ≥ 1`, stored as entry `i - 1` of `verificationKeys`, is
`v_i = v^(delta*s_i) mod n_squared`, a share `s_i ≥ 0`, a ciphertext `c`
invertible modulo `n_squared`, proof randomness `r ≥ 0` and any hash function,
`paillier_dec_proof` returns a partial decryption and
`paillier_verify_decryption` accepts it. -/
theorem paillier_dec_proof_complete (H : List Int → Nat) (pub : paillier_pubkey_t)
    (prv : paillier_partialkey_t) (ct : paillier_ciphertext_pure_t) (r : Int)
    (vk : paillier_verificationkey_t)
    (hN : pub.n_squared ≠ 0)
    (hr : 0 ≤ r) (hs : 0 ≤ prv.s) (hd : 0 ≤ pub.delta)
    (hc : Int.gcd ct.c pub.n_squared = 1) (hv : Int.gcd pub.v pub.n_squared = 1)
    (hid : 1 ≤ prv.id) (hvk : pub.verificationKeys[(prv.id - 1).toNat]? = some vk)
    (hvi : vk.v = pub.v ^ (pub.delta * prv.s).toNat % pub.n_squared) :
    ∃ proof, paillier_dec_proof H pub prv ct r = some proof ∧
      paillier_verify_decryption H pub proof = some true :=
  paillier_dec_proof_complete_aux H pub prv ct r vk hN hr hs hd hc hv hid hvk hvi

end Bitvoting

namespace Bitvoting

theorem emod_eq_of_modEq (X Y N : Int) (h : (X % N) ≡ Y [ZMOD N]) :
    (X % N) = Y % N := by
  unfold Int.ModEq at *
  rwa [Int.emod_emod_of_dvd _ (dvd_refl _)] at h

theorem nplusone_pow_emod (n : Int) (hn : 0 < n) (k : Nat) :
    (n + 1) ^ k ≡ (n + 1) ^ ((k : Int) % n).toNat [ZMOD n * n] := by
  have hb : n + 1 ≡ 1 [ZMOD n] := by
    rw [Int.modEq_iff_dvd]; exact ⟨-1, by ring⟩
  have h1 : (n + 1) ^ n.toNat ≡ 1 [ZMOD n * n] := by
    have := pow_modEq_sq _ _ n hn.le hb
    rwa [one_pow] at this
  obtain ⟨nN, rfl⟩ := Int.eq_ofNat_of_zero_le hn.le
  have hk : k = nN * (k / nN) + k % nN := (Nat.div_add_mod k nN).symm
  have hmod : ((k : Int) % (nN : Int)).toNat = k % nN := by
    rw [← Int.natCast_mod, Int.toNat_natCast]
  rw [hmod]
  rw [Int.toNat_natCast] at h1
  have h2 : ((nN : Int) + 1) ^ (nN * (k / nN) + k % nN)
      = (((nN : Int) + 1) ^ nN) ^ (k / nN) * ((nN : Int) + 1) ^ (k % nN) := by
    rw [pow_add, pow_mul]
  have h3 : (((nN : Int) + 1) ^ nN) ^ (k / nN) * ((nN : Int) + 1) ^ (k % nN)
      ≡ 1 ^ (k / nN) * ((nN : Int) + 1) ^ (k % nN) [ZMOD (nN : Int) * nN] :=
    (h1.pow _).mul_right _
  rw [one_pow, one_mul, ← h2, ← hk] at h3
  exact h3

theorem paillier_mul_eq (pub : paillier_pubkey_t) (x y : paillier_ciphertext_pure_t)
    (hN : pub.n_squared ≠ 0) :
    paillier_mul pub x y = some ⟨(x.c * y.c) % pub.n_squared⟩ := by
  simp only [paillier_mul, mpz_mod_of_ne _ _ hN, Option.bind_eq_bind, Option.some_bind]

/-- C13 (homomorphic sum): for a public key with `n > 0`, `n_squared = n^2`
and `n_plusone = n + 1`, plaintexts `a`, `b` and blindings `r1`, `r2`,
`paillier_enc` returns `(n+1)^a * r1^n mod n^2` and `(n+1)^b * r2^n mod n^2`,
`paillier_mul` of the two returns `(n+1)^(a+b) * (r1*r2)^n mod n^2`, which is
the ciphertext `paillier_enc` returns for the plaintext `(a+b) mod n` with the
blinding `r1*r2`; and the ciphertext 1 of `paillier_create_enc_zero` is neutral
for `paillier_mul` on ciphertexts in `[0, n_squared)`. -/
theorem paillier_mul_homomorphic (pub : paillier_pubkey_t) (a b : Nat) (r1 r2 : Int)
    (hn : 0 < pub.n) (hnsq : pub.n_squared = pub.n * pub.n)
    (hnp : pub.n_plusone = pub.n + 1) :
    (∃ c1 c2 c3, paillier_enc pub a r1 = some c1 ∧ paillier_enc pub b r2 = some c2 ∧
      c1.c = ((pub.n + 1) ^ a * r1 ^ pub.n.toNat) % (pub.n * pub.n) ∧
      c2.c = ((pub.n + 1) ^ b * r2 ^ pub.n.toNat) % (pub.n * pub.n) ∧
      paillier_mul pub c1 c2 = some c3 ∧
      c3.c = ((pub.n + 1) ^ (a + b) * (r1 * r2) ^ pub.n.toNat) % (pub.n * pub.n) ∧
      paillier_enc pub (((a + b : Nat) : Int) % pub.n) (r1 * r2) = some c3) ∧
    (∀ c : paillier_ciphertext_pure_t, 0 ≤ c.c → c.c < pub.n_squared →
      paillier_mul pub paillier_create_enc_zero c = some c ∧
      paillier_mul pub c paillier_create_enc_zero = some c) := by
  have hNsq : pub.n_squared ≠ 0 := by
    rw [hnsq]; exact mul_ne_zero (ne_of_gt hn) (ne_of_gt hn)
  constructor
  · have h1 := paillier_enc_spec pub (a : Int) r1 hNsq hn.le (by positivity)
    have h2 := paillier_enc_spec pub (b : Int) r2 hNsq hn.le (by positivity)
    have h3 := paillier_enc_spec pub (((a + b : Nat) : Int) % pub.n) (r1 * r2) hNsq hn.le
      (Int.emod_nonneg _ (ne_of_gt hn))
    rw [Int.toNat_natCast] at h1 h2
    rw [hnp, hnsq] at h1 h2 h3
    have e1 := enc_modEq pub.n r1 a
    have e2 := enc_modEq pub.n r2 b
    have e3 := enc_modEq pub.n (r1 * r2) (((a + b : Nat) : Int) % pub.n).toNat
    have hmul :
        (((pub.n + 1) ^ a % (pub.n * pub.n) * (r1 ^ pub.n.toNat % (pub.n * pub.n)))
            % (pub.n * pub.n) *
          (((pub.n + 1) ^ b % (pub.n * pub.n) * (r2 ^ pub.n.toNat % (pub.n * pub.n)))
            % (pub.n * pub.n))) % (pub.n * pub.n)
        ≡ (pub.n + 1) ^ (a + b) * (r1 * r2) ^ pub.n.toNat [ZMOD pub.n * pub.n] := by
      have := (Int.mod_modEq _ (pub.n * pub.n)).trans (e1.mul e2)
      have h : (pub.n + 1) ^ a * r1 ^ pub.n.toNat * ((pub.n + 1) ^ b * r2 ^ pub.n.toNat)
          = (pub.n + 1) ^ (a + b) * (r1 * r2) ^ pub.n.toNat := by ring
      rw [h] at this
      exact this
    refine ⟨_, _, _, h1, h2, emod_eq_of_modEq _ _ _ e1, emod_eq_of_modEq _ _ _ e2,
      paillier_mul_eq pub _ _ hNsq, ?_, ?_⟩
    · show (_ % pub.n_squared) = _
      rw [hnsq]
      exact emod_eq_of_modEq _ _ _ hmul
    · rw [h3]
      congr 1
      show _ = paillier_ciphertext_pure_t.mk ((_ % pub.n_squared))
      rw [hnsq]
      congr 1
      have hk := nplusone_pow_emod pub.n hn (a + b)
      have := e3.trans ((hk.symm.mul_right _).trans hmul.symm)
      rw [emod_eq_of_modEq _ _ _ this]
      exact Int.emod_emod_of_dvd _ (dvd_refl _)
  · intro c h0 h1
    have hmod : c.c % pub.n_squared = c.c := Int.emod_eq_of_lt h0 h1
    constructor
    · rw [paillier_mul_eq pub _ _ hNsq]
      simp only [paillier_create_enc_zero, one_mul, hmod]
    · rw [paillier_mul_eq pub _ _ hNsq]
      simp only [paillier_create_enc_zero, mul_one, hmod]

theorem paillier_mul_homomorphic_witness :
    (∃ c1 c2 c3, paillier_enc toyPub (1 : Nat) 2 = some c1 ∧
      paillier_enc toyPub (0 : Nat) 3 = some c2 ∧
      c1.c = ((toyPub.n + 1) ^ 1 * 2 ^ toyPub.n.toNat) % (toyPub.n * toyPub.n) ∧
      c2.c = ((toyPub.n + 1) ^ 0 * 3 ^ toyPub.n.toNat) % (toyPub.n * toyPub.n) ∧
      paillier_mul toyPub c1 c2 = some c3 ∧
      c3.c = ((toyPub.n + 1) ^ (1 + 0) * (2 * 3) ^ toyPub.n.toNat) % (toyPub.n * toyPub.n) ∧
      paillier_enc toyPub (((1 + 0 : Nat) : Int) % toyPub.n) (2 * 3) = some c3) ∧
    paillier_mul toyPub paillier_create_enc_zero ⟨36⟩ = some ⟨36⟩ ∧
    paillier_mul toyPub ⟨36⟩ paillier_create_enc_zero = some ⟨36⟩ :=
  ⟨(paillier_mul_homomorphic toyPub 1 0 2 3 (by decide) (by decide) (by decide)).1,
    (paillier_mul_homomorphic toyPub 1 0 2 3 (by decide) (by decide) (by decide)).2 ⟨36⟩
      (by decide) (by decide)⟩

theorem paillier_dec_proof_complete_witness :
    ∃ proof, paillier_dec_proof (fun _ => 5) toyPub ⟨2, 1⟩ ⟨36⟩ 3 = some proof ∧
      paillier_verify_decryption (fun _ => 5) toyPub proof = some true :=
  paillier_dec_proof_complete (fun _ => 5) toyPub ⟨2, 1⟩ ⟨36⟩ 3 ⟨2, 16⟩ (by decide) (by decide)
    (by decide) (by decide) (by decide) (by decide) (by decide) (by decide) (by decide)

end Bitvoting

namespace Bitvoting

/-! ## The last-vote rule of `getAllVotes` -/

theorem mem_stdSetInsert_iff {α : Type} (lt : α → α → Bool) (a x : α) (s : List α)
    (htri : ∀ y ∈ s, lt a y = false → lt y a = false → a = y) :
    x ∈ stdSetInsert lt a s ↔ x = a ∨ x ∈ s := by
  constructor
  · exact mem_stdSetInsert lt a x s
  · rintro (h | h)
    · subst h
      induction s with
      | nil => simp [stdSetInsert]
      | cons y ys ih =>
        simp only [stdSetInsert]
        split_ifs with h1 h2
        · exact List.mem_cons_self _ _
        · exact List.mem_cons_of_mem _ (ih (fun z hz => htri z (List.mem_cons_of_mem _ hz)))
        · have := htri y (List.mem_cons_self _ _) (by simpa using h1) (by simpa using h2)
          rw [this]; exact List.mem_cons_self _ _
    · exact mem_stdSetInsert_of_mem lt a x s h

theorem paillier_ciphertext_proof_t_lt_tri (x y : paillier_ciphertext_proof_t)
    (h1 : x.lt y = false) (h2 : y.lt x = false) : x = y := by
  unfold paillier_ciphertext_proof_t.lt at h1 h2
  obtain ⟨xc, xe, xe1, xv1, xe2, xv2⟩ := x
  obtain ⟨yc, ye, ye1, yv1, ye2, yv2⟩ := y
  simp only at h1 h2
  have e1 : xc = yc := by
    by_contra hne
    rcases lt_or_gt_of_ne hne with h | h
    · rw [if_pos h] at h1; exact absurd h1 (by simp)
    · rw [if_pos h] at h2; exact absurd h2 (by simp)
  subst e1
  simp only [lt_self_iff_false, if_false] at h1 h2
  have e2 : xe = ye := by
    by_contra hne
    rcases lt_or_gt_of_ne hne with h | h
    · rw [if_pos h] at h1; exact absurd h1 (by simp)
    · rw [if_pos h] at h2; exact absurd h2 (by simp)
  subst e2
  simp only [lt_self_iff_false, if_false] at h1 h2
  have e3 : xe1 = ye1 := by
    by_contra hne
    rcases lt_or_gt_of_ne hne with h | h
    · rw [if_pos h] at h1; exact absurd h1 (by simp)
    · rw [if_pos h] at h2; exact absurd h2 (by simp)
  subst e3
  simp only [lt_self_iff_false, if_false] at h1 h2
  have e4 : xe2 = ye2 := by
    by_contra hne
    rcases lt_or_gt_of_ne hne with h | h
    · rw [if_pos h] at h1; exact absurd h1 (by simp)
    · rw [if_pos h] at h2; exact absurd h2 (by simp)
  subst e4
  simp only [lt_self_iff_false, if_false] at h1 h2
  have e5 : xv1 = yv1 := by
    by_contra hne
    rcases lt_or_gt_of_ne hne with h | h
    · rw [if_pos h] at h1; exact absurd h1 (by simp)
    · rw [if_pos h] at h2; exact absurd h2 (by simp)
  subst e5
  simp only [lt_self_iff_false, if_false] at h1 h2
  have e6 : xv2 = yv2 := by
    by_contra hne
    rcases lt_or_gt_of_ne hne with h | h
    · rw [if_pos h] at h1; exact absurd h1 (by simp)
    · rw [if_pos h] at h2; exact absurd h2 (by simp)
  subst e6
  rfl

theorem EncryptedBallot_lt_tri (a b : EncryptedBallot) (ha : a.answer.isSome = true)
    (hb : b.answer.isSome = true) (h1 : a.lt b = false) (h2 : b.lt a = false) : a = b := by
  obtain ⟨qa, aa⟩ := a
  obtain ⟨qb, ab⟩ := b
  cases aa with
  | none => simp at ha
  | some x =>
    cases ab with
    | none => simp at hb
    | some y =>
      simp only [EncryptedBallot.lt, Bool.or_eq_false_iff, decide_eq_false_iff_not,
        Bool.and_eq_false_imp, Bool.not_eq_true', not_lt] at h1 h2
      have hq : qa = qb := by omega
      subst hq
      have := paillier_ciphertext_proof_t_lt_tri x y (h1.2 (by simp)) (h2.2 (by simp))
      rw [this]

theorem insertEncryptedBallots_spec (ballots : List EncryptedBallot) :
    ∀ result : List EncryptedBallot,
      (∀ x ∈ ballots, x.answer.isSome = true) → (∀ x ∈ result, x.answer.isSome = true) →
      ∃ result', insertEncryptedBallots ballots result = some result' ∧
        (∀ x ∈ result', x.answer.isSome = true) ∧
        ∀ x, x ∈ result' ↔ x ∈ result ∨ x ∈ ballots := by
  induction ballots with
  | nil =>
    intro result _ hr
    exact ⟨result, rfl, hr, by simp⟩
  | cons b rest ih =>
    intro result hb hr
    have hbs : b.answer.isSome = true := hb b (List.mem_cons_self _ _)
    have hbn : b.answer.isNone = false := by
      cases h : b.answer <;> simp [h] at hbs ⊢
    have hmem : ∀ x, x ∈ stdSetInsert EncryptedBallot.lt b result ↔ x = b ∨ x ∈ result :=
      fun x => mem_stdSetInsert_iff _ _ _ _
        (fun y hy h1 h2 => EncryptedBallot_lt_tri b y hbs (hr y hy) h1 h2)
    obtain ⟨r', hr', hn', hm'⟩ := ih (stdSetInsert EncryptedBallot.lt b result)
      (fun x hx => hb x (List.mem_cons_of_mem _ hx))
      (fun x hx => by
        rcases (hmem x).mp hx with h | h
        · rw [h]; exact hbs
        · exact hr x h)
    refine ⟨r', ?_, hn', ?_⟩
    · unfold insertEncryptedBallots at hr' ⊢
      rw [List.foldlM_cons]
      simp only [hbn, Bool.false_eq_true, if_false]
      exact hr'
    · intro x
      rw [hm' x, hmem x, List.mem_cons]
      tauto

end Bitvoting

namespace Bitvoting

theorem mem_setInsert (k v : Nat) (s : List Nat) : v ∈ setInsert k s ↔ v = k ∨ v ∈ s := by
  unfold setInsert
  split_ifs with h
  · constructor
    · exact Or.inr
    · rintro (h' | h')
      · rw [h']; exact h
      · exact h'
  · simp only [List.mem_append, List.mem_singleton]
    tauto

/-- The transactions of one block in `getAllVotes`: a vote for the election is
taken when its voter is not yet in `voters`. -/
theorem getAllVotes_block (P : Primitives) (hash : Nat) (txs : List Transaction) :
    ∀ (voters : List Nat) (result : List EncryptedBallot),
      (∀ t ∈ txs, t.getType = t.body.constructorType) →
      (∀ t ∈ txs, ∀ bs, t.body = .vote hash bs → ∀ x ∈ bs, x.answer.isSome = true) →
      (∀ x ∈ result, x.answer.isSome = true) →
      txs.Pairwise (fun t t' => (∃ bs, t.body = .vote hash bs) →
        (∃ bs', t'.body = .vote hash bs') →
        t.verificationKey.GetID P ≠ t'.verificationKey.GetID P) →
      ∃ voters' result',
        txs.foldlM (ElectionManager.getAllVotesTx P hash) (voters, result)
          = some (voters', result') ∧
        (∀ x ∈ result', x.answer.isSome = true) ∧
        (∀ v, v ∈ voters' ↔ v ∈ voters ∨ ∃ t ∈ txs, (∃ bs, t.body = .vote hash bs) ∧
          t.verificationKey.GetID P = v) ∧
        (∀ x, x ∈ result' ↔ x ∈ result ∨ ∃ t ∈ txs, ∃ bs, t.body = .vote hash bs ∧ x ∈ bs ∧
          t.verificationKey.GetID P ∉ voters) := by
  induction txs with
  | nil =>
    intro voters result _ _ hr _
    exact ⟨voters, result, rfl, hr, by simp, by simp⟩
  | cons t rest ih =>
    intro voters result htag hnn hr hpw
    have htag' : ∀ t' ∈ rest, t'.getType = t'.body.constructorType :=
      fun t' ht' => htag t' (List.mem_cons_of_mem _ ht')
    have hty := htag t (List.mem_cons_self _ _)
    rw [List.pairwise_cons] at hpw
    obtain ⟨hpt, hprest⟩ := hpw
    have hnn' : ∀ t' ∈ rest, ∀ bs, t'.body = .vote hash bs → ∀ x ∈ bs, x.answer.isSome = true :=
      fun t' ht' => hnn t' (List.mem_cons_of_mem _ ht')
    rw [List.foldlM_cons]
    by_cases hv : ∃ bs, t.body = .vote hash bs
    · obtain ⟨bs, hbs⟩ := hv
      have hty' : t.getType = TxType.TX_VOTE := by rw [hty, hbs]; rfl
      by_cases hk : t.verificationKey.GetID P ∈ voters
      · -- an old vote: skipped
        have hstep : ElectionManager.getAllVotesTx P hash (voters, result) t
            = some (voters, result) := by
          simp [ElectionManager.getAllVotesTx, hbs, hk, hty']
        rw [hstep]
        obtain ⟨v', r', hf, hn, hV, hR⟩ := ih voters result htag' hnn' hr hprest
        refine ⟨v', r', hf, hn, ?_, ?_⟩
        · intro v
          rw [hV v]
          constructor
          · rintro (h | ⟨t', ht', h1, h2⟩)
            · exact Or.inl h
            · exact Or.inr ⟨t', List.mem_cons_of_mem _ ht', h1, h2⟩
          · rintro (h | ⟨t', ht', h1, h2⟩)
            · exact Or.inl h
            · rcases List.mem_cons.mp ht' with h | h
              · subst h; exact Or.inl (h2 ▸ hk)
              · exact Or.inr ⟨t', h, h1, h2⟩
        · intro x
          rw [hR x]
          constructor
          · rintro (h | ⟨t', ht', bs', h1, h2, h3⟩)
            · exact Or.inl h
            · exact Or.inr ⟨t', List.mem_cons_of_mem _ ht', bs', h1, h2, h3⟩
          · rintro (h | ⟨t', ht', bs', h1, h2, h3⟩)
            · exact Or.inl h
            · rcases List.mem_cons.mp ht' with h | h
              · subst h; exact absurd hk h3
              · exact Or.inr ⟨t', h, bs', h1, h2, h3⟩
      · -- the vote is taken
        obtain ⟨r1, hr1, hn1, hm1⟩ := insertEncryptedBallots_spec bs result
          (hnn t (List.mem_cons_self _ _) bs hbs) hr
        have hstep : ElectionManager.getAllVotesTx P hash (voters, result) t
            = some (setInsert (t.verificationKey.GetID P) voters, r1) := by
          simp [ElectionManager.getAllVotesTx, hbs, hk, hr1, hty']
        rw [hstep]
        obtain ⟨v', r', hf, hn, hV, hR⟩ :=
          ih (setInsert (t.verificationKey.GetID P) voters) r1 htag' hnn' hn1 hprest
        refine ⟨v', r', hf, hn, ?_, ?_⟩
        · intro v
          rw [hV v, mem_setInsert]
          constructor
          · rintro ((h | h) | ⟨t', ht', h1, h2⟩)
            · exact Or.inr ⟨t, List.mem_cons_self _ _, ⟨bs, hbs⟩, h.symm⟩
            · exact Or.inl h
            · exact Or.inr ⟨t', List.mem_cons_of_mem _ ht', h1, h2⟩
          · rintro (h | ⟨t', ht', h1, h2⟩)
            · exact Or.inl (Or.inr h)
            · rcases List.mem_cons.mp ht' with h | h
              · subst h; exact Or.inl (Or.inl h2.symm)
              · exact Or.inr ⟨t', h, h1, h2⟩
        · intro x
          rw [hR x, hm1 x]
          constructor
          · rintro ((h | h) | ⟨t', ht', bs', h1, h2, h3⟩)
            · exact Or.inl h
            · exact Or.inr ⟨t, List.mem_cons_self _ _, bs, hbs, h, hk⟩
            · refine Or.inr ⟨t', List.mem_cons_of_mem _ ht', bs', h1, h2, ?_⟩
              intro hc
              exact h3 ((mem_setInsert _ _ _).mpr (Or.inr hc))
          · rintro (h | ⟨t', ht', bs', h1, h2, h3⟩)
            · exact Or.inl (Or.inl h)
            · rcases List.mem_cons.mp ht' with h | h
              · subst h
                rw [hbs] at h1
                simp only [TxBody.vote.injEq, true_and] at h1
                subst h1
                exact Or.inl (Or.inr h2)
              · refine Or.inr ⟨t', h, bs', h1, h2, ?_⟩
                intro hc
                rcases (mem_setInsert _ _ _).mp hc with hc | hc
                · exact hpt t' h ⟨bs, hbs⟩ ⟨bs', h1⟩ hc.symm
                · exact h3 hc
    · -- not a vote for this election
      have hstep : ElectionManager.getAllVotesTx P hash (voters, result) t
          = some (voters, result) := by
        unfold ElectionManager.getAllVotesTx
        by_cases h1 : t.getType = TxType.TX_VOTE
        · rw [if_neg (not_not.mpr h1)]
          split
          · rename_i election ballots hb
            by_cases he : hash = election
            · subst he; exact absurd ⟨ballots, hb⟩ hv
            · simp [he]
          · rename_i hnv
            rw [hty] at h1
            cases hb : t.body with
            | vote e bs => exact absurd hb (hnv e bs)
            | election e => rw [hb] at h1; exact absurd h1 (by simp [TxBody.constructorType])
            | tally e l f => rw [hb] at h1; exact absurd h1 (by simp [TxBody.constructorType])
            | trusteeTally tl pd => rw [hb] at h1; exact absurd h1 (by simp [TxBody.constructorType])
        · rw [if_pos h1]
      rw [hstep]
      obtain ⟨v', r', hf, hn, hV, hR⟩ := ih voters result htag' hnn' hr hprest
      refine ⟨v', r', hf, hn, ?_, ?_⟩
      · intro v
        rw [hV v]
        constructor
        · rintro (h | ⟨t', ht', h1, h2⟩)
          · exact Or.inl h
          · exact Or.inr ⟨t', List.mem_cons_of_mem _ ht', h1, h2⟩
        · rintro (h | ⟨t', ht', h1, h2⟩)
          · exact Or.inl h
          · rcases List.mem_cons.mp ht' with h | h
            · subst h; exact absurd h1 hv
            · exact Or.inr ⟨t', h, h1, h2⟩
      · intro x
        rw [hR x]
        constructor
        · rintro (h | ⟨t', ht', bs', h1, h2, h3⟩)
          · exact Or.inl h
          · exact Or.inr ⟨t', List.mem_cons_of_mem _ ht', bs', h1, h2, h3⟩
        · rintro (h | ⟨t', ht', bs', h1, h2, h3⟩)
          · exact Or.inl h
          · rcases List.mem_cons.mp ht' with h | h
            · subst h; exact absurd ⟨bs', h1⟩ hv
            · exact Or.inr ⟨t', h, bs', h1, h2, h3⟩

/-- The block loop of `getAllVotes` over the chain segment `S` (in chain
order; the loop runs from its last block down). -/
theorem getAllVotes_blocks (P : Primitives) (hash : Nat) (S : List Block)
    (htag : ∀ b ∈ S, ∀ t ∈ b.transactions, t.getType = t.body.constructorType)
    (hnn : ∀ b ∈ S, ∀ t ∈ b.transactions, ∀ bs, t.body = .vote hash bs →
      ∀ x ∈ bs, x.answer.isSome = true)
    (honce : ∀ b ∈ S, b.transactions.Pairwise (fun t t' => (∃ bs, t.body = .vote hash bs) →
        (∃ bs', t'.body = .vote hash bs') →
        t.verificationKey.GetID P ≠ t'.verificationKey.GetID P)) :
    ∃ voters result,
      S.reverse.foldlM
        (fun (st : List Nat × List EncryptedBallot) (currentBlock : Block) =>
          currentBlock.transactions.foldlM (ElectionManager.getAllVotesTx P hash) st)
        (([] : List Nat), ([] : List EncryptedBallot)) = some (voters, result) ∧
      (∀ x ∈ result, x.answer.isSome = true) ∧
      (∀ v, v ∈ voters ↔ ∃ b ∈ S, ∃ t ∈ b.transactions, (∃ bs, t.body = .vote hash bs) ∧
        t.verificationKey.GetID P = v) ∧
      (∀ x, x ∈ result ↔ ∃ pre blk post, S = pre ++ blk :: post ∧
        ∃ t ∈ blk.transactions, ∃ bs, t.body = .vote hash bs ∧ x ∈ bs ∧
          ∀ b' ∈ post, ∀ t' ∈ b'.transactions, (∃ bs', t'.body = .vote hash bs') →
            t'.verificationKey.GetID P ≠ t.verificationKey.GetID P) := by
  induction S with
  | nil =>
    refine ⟨[], [], rfl, by simp, by simp, ?_⟩
    intro x
    simp
  | cons blk0 S ih =>
    obtain ⟨voters, result, hf, hn, hV, hR⟩ :=
      ih (fun b hb => htag b (List.mem_cons_of_mem _ hb))
        (fun b hb => hnn b (List.mem_cons_of_mem _ hb))
        (fun b hb => honce b (List.mem_cons_of_mem _ hb))
    obtain ⟨v', r', hf', hn', hV', hR'⟩ := getAllVotes_block P hash blk0.transactions voters result
      (htag blk0 (List.mem_cons_self _ _)) (hnn blk0 (List.mem_cons_self _ _)) hn (honce blk0 (List.mem_cons_self _ _))
    refine ⟨v', r', ?_, hn', ?_, ?_⟩
    · rw [List.reverse_cons, List.foldlM_append, hf]
      simp only [Option.bind_eq_bind, Option.some_bind, List.foldlM_cons, List.foldlM_nil]
      rw [hf']
      rfl
    · intro v
      rw [hV' v, hV v]
      constructor
      · rintro (⟨b, hb, h⟩ | h)
        · exact ⟨b, List.mem_cons_of_mem _ hb, h⟩
        · exact ⟨blk0, List.mem_cons_self _ _, h⟩
      · rintro ⟨b, hb, h⟩
        rcases List.mem_cons.mp hb with hb | hb
        · subst hb; exact Or.inr h
        · exact Or.inl ⟨b, hb, h⟩
    · intro x
      rw [hR' x, hR x]
      constructor
      · rintro (⟨pre, blk, post, hdec, h⟩ | ⟨t, ht, bs, h1, h2, h3⟩)
        · exact ⟨blk0 :: pre, blk, post, by rw [hdec]; rfl, h⟩
        · refine ⟨[], blk0, S, rfl, t, ht, bs, h1, h2, ?_⟩
          intro b' hb' t' ht' hv' hk
          exact h3 ((hV _).mpr ⟨b', hb', t', ht', hv', hk⟩)
      · rintro ⟨pre, blk, post, hdec, t, ht, bs, h1, h2, h3⟩
        cases pre with
        | nil =>
          simp only [List.nil_append, List.cons.injEq] at hdec
          obtain ⟨hb, hp⟩ := hdec
          subst hb; subst hp
          refine Or.inr ⟨t, ht, bs, h1, h2, ?_⟩
          intro hc
          obtain ⟨b', hb', t', ht', hv', hk⟩ := (hV _).mp hc
          exact h3 b' hb' t' ht' hv' hk
        | cons p pre' =>
          simp only [List.cons_append, List.cons.injEq] at hdec
          exact Or.inl ⟨pre', blk, post, hdec.2, t, ht, bs, h1, h2, h3⟩

end Bitvoting

namespace Bitvoting

theorem addBlocks_append (P : Primitives) (l1 l2 : List Block) :
    ∀ db0 : BlockChainDB,
      db0.addBlocks P (l1 ++ l2) = (db0.addBlocks P l1).bind (fun d => d.addBlocks P l2) := by
  induction l1 with
  | nil => intro db0; rfl
  | cons b rest ih =>
    intro db0
    simp only [List.cons_append, BlockChainDB.addBlocks]
    rcases hadd : db0.addBlock P b with ⟨st, db'⟩
    cases st <;> simp [ih]

/-- After a successful `addBlock`, the locator of every transaction of the
block is the locator of the block. -/
theorem located_addBlock (P : Primitives) (db db' : BlockChainDB) (B : Block)
    (h : db.addBlock P B = (.BC_OK, db')) (t : Transaction) (ht : t ∈ B.transactions) :
    ∃ info, db'.blockInfos (B.getHash P) = some info ∧
      db'.locators (t.getHash P) = some info.locator := by
  obtain ⟨_, content, loc, _, _, _, _, hinfos, hlocs, _, _⟩ := addBlock_ok P db db' B h
  refine ⟨⟨loc, B.header.hashPrevBlock⟩, by rw [hinfos, Function.update_same], ?_⟩
  rw [hlocs, if_pos (List.mem_map_of_mem _ ht)]

theorem located_preserved (P : Primitives) (db db' : BlockChainDB) (B b : Block)
    (t : Transaction) (h : db.addBlock P B = (.BC_OK, db'))
    (hne : b.getHash P ≠ B.getHash P)
    (hnt : t.getHash P ∉ B.transactions.map (fun t => t.getHash P))
    (hl : ∃ info, db.blockInfos (b.getHash P) = some info ∧
      db.locators (t.getHash P) = some info.locator) :
    ∃ info, db'.blockInfos (b.getHash P) = some info ∧
      db'.locators (t.getHash P) = some info.locator := by
  obtain ⟨_, content, loc, _, _, _, _, hinfos, hlocs, _, _⟩ := addBlock_ok P db db' B h
  obtain ⟨info, h1, h2⟩ := hl
  refine ⟨info, by rw [hinfos, Function.update_noteq hne]; exact h1, ?_⟩
  rw [hlocs, if_neg hnt]; exact h2

theorem located_preserved_addBlocks (P : Primitives) (post : List Block) (b : Block)
    (t : Transaction) :
    ∀ db0 db : BlockChainDB, db0.addBlocks P post = some db →
      (∀ b' ∈ post, b.getHash P ≠ b'.getHash P ∧
        t.getHash P ∉ b'.transactions.map (fun t => t.getHash P)) →
      (∃ info, db0.blockInfos (b.getHash P) = some info ∧
        db0.locators (t.getHash P) = some info.locator) →
      ∃ info, db.blockInfos (b.getHash P) = some info ∧
        db.locators (t.getHash P) = some info.locator := by
  induction post with
  | nil =>
    intro db0 db h _ hl
    simp only [BlockChainDB.addBlocks, Option.some.injEq] at h
    subst h; exact hl
  | cons c rest ih =>
    intro db0 db h hne hl
    simp only [BlockChainDB.addBlocks] at h
    rcases hadd : db0.addBlock P c with ⟨st, db1⟩
    rw [hadd] at h
    cases st <;> simp only [reduceCtorEq] at h
    exact ih db1 db h (fun b' hb' => hne b' (List.mem_cons_of_mem _ hb'))
      (located_preserved P db0 db1 c b t hadd (hne c (List.mem_cons_self _ _)).1
        (hne c (List.mem_cons_self _ _)).2 hl)

/-- On a chain built by `addBlock` calls, `getBlockByTransaction` finds the
block of a transaction whose hash occurs in no later block. -/
theorem getBlockByTransaction_of_addBlocks (P : Primitives) (db0 db : BlockChainDB)
    (pre post : List Block) (b : Block) (t : Transaction)
    (hadd : db0.addBlocks P (pre ++ b :: post) = some db)
    (hnd : ((pre ++ b :: post).map (fun b => b.getHash P)).Nodup)
    (hrt : ∀ rest, P.deserialize (P.serialize b ++ rest) = some b)
    (ht : t ∈ b.transactions)
    (huniq : ∀ b' ∈ post, t.getHash P ∉ b'.transactions.map (fun t => t.getHash P)) :
    db.getBlockByTransaction P (t.getHash P) = (.BC_OK, some b) := by
  have hget : db.getBlock P (b.getHash P) = (.BC_OK, some b) :=
    getBlock_of_stored P db b (stored_of_addBlocks P _ db0 db hadd hnd b (by simp)) hrt
  have hsplit : pre ++ b :: post = (pre ++ [b]) ++ post := by simp
  rw [hsplit, addBlocks_append] at hadd
  cases h1 : db0.addBlocks P (pre ++ [b]) with
  | none => rw [h1] at hadd; simp at hadd
  | some db1 =>
    rw [h1] at hadd
    simp only [Option.bind_eq_bind, Option.some_bind] at hadd
    rw [addBlocks_append] at h1
    cases h0 : db0.addBlocks P pre with
    | none => rw [h0] at h1; simp at h1
    | some dbp =>
      rw [h0] at h1
      simp only [Option.bind_eq_bind, Option.some_bind, BlockChainDB.addBlocks] at h1
      rcases hb : dbp.addBlock P b with ⟨st, db1'⟩
      rw [hb] at h1
      cases st <;> simp only [reduceCtorEq, Option.some.injEq] at h1
      subst h1
      have hloc := located_addBlock P dbp db1' b hb t ht
      have hne : ∀ b' ∈ post, b.getHash P ≠ b'.getHash P ∧
          t.getHash P ∉ b'.transactions.map (fun t => t.getHash P) := by
        intro b' hb'
        refine ⟨?_, huniq b' hb'⟩
        intro e
        rw [List.map_append, List.map_cons] at hnd
        have h2 := (List.nodup_append.mp hnd).2.1
        rw [List.nodup_cons] at h2
        exact h2.1 (List.mem_map.mpr ⟨b', hb', e.symm⟩)
      obtain ⟨info, hi1, hi2⟩ := located_preserved_addBlocks P post b t db1' db hadd hne hloc
      unfold BlockChainDB.getBlock at hget
      rw [hi1] at hget
      unfold BlockChainDB.getBlockByTransaction
      rw [hi2]
      exact hget

/-- The last-vote rule for chains whose transactions carry the tag their
constructor sets. On a chain `A ++ bE :: Mid ++ C` built by successful
`addBlock` calls (block hashes pairwise distinct and different from the
genesis hash, archives reading back, enough fuel), where `bE` holds the
election transaction and its hash occurs in no later block, every transaction
of `bE :: Mid` has `getType()` equal to the type of its class, every ballot of
a vote for the election has a ciphertext, and each block of `bE :: Mid` holds at
most one vote per voter for the election: `getAllVotes(lastBlock)`, with
`lastBlock` the hash of the last block of `bE :: Mid`, returns exactly the
ballots of those votes for the election in a block of `bE :: Mid` after which
no later block of `bE :: Mid` holds a vote of the same voter for the election.
Votes for other elections, votes of a voter in earlier blocks, and votes in
`A` or `C` contribute nothing. -/
theorem getAllVotes_last_vote_tagged (P : Primitives) (db0 db : BlockChainDB)
    (A Mid C : List Block) (bE : Block) (etx : Transaction) (em : ElectionManager)
    (fuel : Nat)
    (hgen : db0.latestBlock = db0.genesisBlock)
    (hadd : db0.addBlocks P (A ++ bE :: Mid ++ C) = some db)
    (hnd : ((A ++ bE :: Mid ++ C).map (fun b => b.getHash P)).Nodup)
    (hng : ∀ x ∈ A ++ bE :: Mid ++ C, x.getHash P ≠ db0.genesisBlock)
    (hrt : ∀ x ∈ A ++ bE :: Mid ++ C, ∀ rest, P.deserialize (P.serialize x ++ rest) = some x)
    (hfuel : (A ++ bE :: Mid ++ C).length ≤ fuel)
    (hem : em.transaction = some etx) (hetx : etx ∈ bE.transactions)
    (huniq : ∀ b' ∈ Mid ++ C, etx.getHash P ∉ b'.transactions.map (fun t => t.getHash P))
    (htag : ∀ b ∈ bE :: Mid, ∀ t ∈ b.transactions, t.getType = t.body.constructorType)
    (hnn : ∀ b ∈ bE :: Mid, ∀ t ∈ b.transactions, ∀ bs, t.body = .vote (etx.getHash P) bs →
      ∀ x ∈ bs, x.answer.isSome = true)
    (honce : ∀ b ∈ bE :: Mid, b.transactions.Pairwise (fun t t' =>
        (∃ bs, t.body = .vote (etx.getHash P) bs) →
        (∃ bs', t'.body = .vote (etx.getHash P) bs') →
        t.verificationKey.GetID P ≠ t'.verificationKey.GetID P)) :
    ∃ result, em.getAllVotes P db fuel (lastHash P (bE.getHash P) Mid) = some result ∧
      ∀ x, x ∈ result ↔ ∃ pre blk post, bE :: Mid = pre ++ blk :: post ∧
        ∃ t ∈ blk.transactions, ∃ bs, t.body = .vote (etx.getHash P) bs ∧ x ∈ bs ∧
          ∀ b' ∈ post, ∀ t' ∈ b'.transactions, (∃ bs', t'.body = .vote (etx.getHash P) bs') →
            t'.verificationKey.GetID P ≠ t.verificationKey.GetID P := by
  have hsplit : A ++ bE :: Mid ++ C = A ++ bE :: (Mid ++ C) := by simp
  have hstart : db.getBlockByTransaction P (etx.getHash P) = (.BC_OK, some bE) :=
    getBlockByTransaction_of_addBlocks P db0 db A (Mid ++ C) bE etx
      (by rw [← hsplit]; exact hadd) (by rw [← hsplit]; exact hnd)
      (hrt bE (by simp)) hetx huniq
  have hblocks := (getAllBlocks_segment P db0 db A Mid C bE hgen hadd hnd hng hrt fuel hfuel).1
  obtain ⟨voters, result, hf, _, _, hR⟩ :=
    getAllVotes_blocks P (etx.getHash P) (bE :: Mid) htag hnn honce
  refine ⟨result, ?_, hR⟩
  simp only [ElectionManager.getAllVotes, hem, hstart, hblocks, hf, Option.map_some']

end Bitvoting

namespace Bitvoting

/-! ## `ElectionManager::tally` -/

theorem stdMapFind?_stdMapSet {β : Type} (m : List (Nat × β)) (k : Nat) (v : β) (k' : Nat) :
    stdMapFind? (stdMapSet m k v) k' = if k' = k then some v else stdMapFind? m k' := by
  induction m with
  | nil => simp [stdMapSet, stdMapFind?]
  | cons p rest ih =>
    obtain ⟨k0, v0⟩ := p
    simp only [stdMapSet]
    by_cases h1 : k < k0
    · simp only [h1, if_true, stdMapFind?]
    · simp only [h1, if_false]
      by_cases h2 : k = k0
      · subst h2
        simp only [if_true, stdMapFind?]
        by_cases h3 : k' = k <;> simp [h3]
      · simp only [h2, if_false, stdMapFind?, ih]
        by_cases h3 : k' = k0
        · subst h3
          have : ¬ k' = k := fun h => h2 h.symm
          simp [this]
        · simp [h3]

theorem stdMapSet_keys {β : Type} (m : List (Nat × β)) (k : Nat) (v : β) (x : Nat) :
    x ∈ (stdMapSet m k v).map Prod.fst ↔ x = k ∨ x ∈ m.map Prod.fst := by
  induction m with
  | nil => simp [stdMapSet]
  | cons p rest ih =>
    obtain ⟨k0, v0⟩ := p
    simp only [stdMapSet]
    by_cases h1 : k < k0
    · simp [h1]
    · simp only [h1, if_false]
      by_cases h2 : k = k0
      · subst h2
        simp
      · simp only [h2, if_false, List.map_cons, List.mem_cons, ih]
        tauto

theorem stdMapSet_sorted {β : Type} (m : List (Nat × β)) (k : Nat) (v : β)
    (hs : (m.map Prod.fst).Pairwise (fun a b => a < b)) :
    ((stdMapSet m k v).map Prod.fst).Pairwise (fun a b => a < b) := by
  induction m with
  | nil => simp [stdMapSet]
  | cons p rest ih =>
    obtain ⟨k0, v0⟩ := p
    simp only [List.map_cons, List.pairwise_cons] at hs
    simp only [stdMapSet]
    by_cases h1 : k < k0
    · simp only [h1, if_true, List.map_cons, List.pairwise_cons, List.mem_cons]
      refine ⟨?_, hs⟩
      rintro a (rfl | ha)
      · exact h1
      · exact lt_trans h1 (hs.1 a ha)
    · simp only [h1, if_false]
      by_cases h2 : k = k0
      · subst h2
        simp only [if_true, List.map_cons, List.pairwise_cons]
        exact hs
      · simp only [h2, if_false, List.map_cons, List.pairwise_cons]
        refine ⟨?_, ih hs.2⟩
        intro a ha
        rcases (stdMapSet_keys rest k v a).1 ha with rfl | ha
        · omega
        · exact hs.1 a ha

theorem stdMapFind?_of_sorted {β : Type} (m : List (Nat × β)) (k : Nat) (v : β)
    (hs : (m.map Prod.fst).Pairwise (fun a b => a < b)) :
    (k, v) ∈ m ↔ stdMapFind? m k = some v := by
  induction m with
  | nil => simp [stdMapFind?]
  | cons p rest ih =>
    obtain ⟨k0, v0⟩ := p
    simp only [List.map_cons, List.pairwise_cons] at hs
    simp only [stdMapFind?, List.mem_cons, Prod.mk.injEq]
    by_cases h : k = k0
    · subst h
      simp only [true_and, if_true, Option.some.injEq]
      constructor
      · rintro (h | h)
        · exact h.symm
        · exact absurd (hs.1 k (List.mem_map.2 ⟨_, h, rfl⟩)) (lt_irrefl _)
      · intro h
        exact Or.inl h.symm
    · simp only [h, false_and, false_or, if_false]
      exact ih hs.2

theorem stdMapFind?_none {β : Type} (m : List (Nat × β)) (k : Nat) :
    stdMapFind? m k = none ↔ k ∉ m.map Prod.fst := by
  induction m with
  | nil => simp [stdMapFind?]
  | cons p rest ih =>
    obtain ⟨k0, v0⟩ := p
    simp only [stdMapFind?, List.map_cons, List.mem_cons, not_or]
    by_cases h : k = k0
    · simp [h]
    · simp [h, ih]

theorem acceptedPartials_append (H : List Int → Nat) (key : paillier_pubkey_t)
    (pre : List TalliedBallots) (b : TalliedBallots) (q : Nat) :
    ElectionManager.acceptedPartials H key (pre ++ [b]) q =
      ElectionManager.acceptedPartials H key pre q ++
        (b.answers.filter (fun a => decide (b.questionID = q) &&
          decide (paillier_verify_decryption H key a = some true))).toList := by
  simp only [ElectionManager.acceptedPartials, List.filterMap_append]
  congr 1

theorem acceptedPartials_of_not_mem (H : List Int → Nat) (key : paillier_pubkey_t)
    (pre : List TalliedBallots) (q : Nat) (hq : q ∉ pre.map (fun b => b.questionID)) :
    ElectionManager.acceptedPartials H key pre q = [] := by
  simp only [ElectionManager.acceptedPartials, List.filterMap_eq_nil_iff]
  intro b hb
  have hne : b.questionID ≠ q := fun h => hq (List.mem_map.2 ⟨b, hb, h⟩)
  cases hA : b.answers with
  | none => rfl
  | some a => simp [Option.filter, hne]

/-- One round of the sorting loop of `tally` keeps the invariant: the entry of a
question seen so far holds the first `threshold` accepted partial decryptions
for it, and unseen questions have no entry. -/
theorem tallySort_step (H : List Int → Nat) (key : paillier_pubkey_t)
    (pre : List TalliedBallots) (sets : List (Nat × List paillier_partialdecryption_proof_t))
    (b : TalliedBallots) (a : paillier_partialdecryption_proof_t)
    (hs : (sets.map Prod.fst).Pairwise (fun a b => a < b))
    (hinv : ∀ q, stdMapFind? sets q = if q ∈ pre.map (fun b => b.questionID)
      then some ((ElectionManager.acceptedPartials H key pre q).take key.threshold) else none)
    (ha : b.answers = some a) (hv : (paillier_verify_decryption H key a).isSome = true) :
    ∃ sets', ElectionManager.tallySort H key sets b = some sets' ∧
      (sets'.map Prod.fst).Pairwise (fun a b => a < b) ∧
      ∀ q, stdMapFind? sets' q = if q ∈ (pre ++ [b]).map (fun b => b.questionID)
        then some ((ElectionManager.acceptedPartials H key (pre ++ [b]) q).take key.threshold)
        else none := by
  -- the map after the initialisation of the entry
  obtain ⟨sets1, hsets1, hs1, hcur, hother⟩ :
      ∃ sets1, (if (stdMapFind? sets b.questionID).isNone
          then stdMapSet sets b.questionID [] else sets) = sets1 ∧
        (sets1.map Prod.fst).Pairwise (fun a b => a < b) ∧
        stdMapFind? sets1 b.questionID =
          some ((ElectionManager.acceptedPartials H key pre b.questionID).take key.threshold) ∧
        ∀ q, q ≠ b.questionID → stdMapFind? sets1 q = stdMapFind? sets q := by
    refine ⟨_, rfl, ?_, ?_, ?_⟩
    · split_ifs
      · exact stdMapSet_sorted _ _ _ hs
      · exact hs
    · by_cases hq : b.questionID ∈ pre.map (fun b => b.questionID)
      · have := hinv b.questionID
        rw [if_pos hq] at this
        simp [this]
      · have := hinv b.questionID
        rw [if_neg hq] at this
        simp [this, stdMapFind?_stdMapSet, acceptedPartials_of_not_mem H key pre _ hq]
    · intro q hq
      split_ifs
      · rw [stdMapFind?_stdMapSet, if_neg hq]
      · rfl
  have hmem : ∀ q, q ∈ (pre ++ [b]).map (fun b => b.questionID) ↔
      q = b.questionID ∨ q ∈ pre.map (fun b => b.questionID) := by
    intro q
    simp only [List.map_append, List.mem_append, List.map_cons, List.map_nil,
      List.mem_singleton]
    tauto
  have hacc : ∀ q, q ≠ b.questionID →
      ElectionManager.acceptedPartials H key (pre ++ [b]) q =
        ElectionManager.acceptedPartials H key pre q := by
    intro q hq
    rw [acceptedPartials_append, ha]
    have : ¬ b.questionID = q := fun h => hq h.symm
    simp [Option.filter, this]
  have hother2 : ∀ sets', (∀ q, q ≠ b.questionID → stdMapFind? sets' q = stdMapFind? sets q) →
      stdMapFind? sets' b.questionID = some ((ElectionManager.acceptedPartials H key
        (pre ++ [b]) b.questionID).take key.threshold) →
      ∀ q, stdMapFind? sets' q = if q ∈ (pre ++ [b]).map (fun b => b.questionID)
        then some ((ElectionManager.acceptedPartials H key (pre ++ [b]) q).take key.threshold)
        else none := by
    intro sets' h1 h2 q
    by_cases hq : q = b.questionID
    · subst hq
      rw [if_pos ((hmem _).2 (Or.inl rfl))]
      exact h2
    · rw [h1 q hq, hinv q, hacc q hq]
      by_cases hq2 : q ∈ pre.map (fun b => b.questionID)
      · rw [if_pos hq2, if_pos ((hmem q).2 (Or.inr hq2))]
      · rw [if_neg hq2, if_neg]
        rw [hmem]
        tauto
  have hunf : ElectionManager.tallySort H key sets b =
      (if ((stdMapFind? sets1 b.questionID).getD []).length ≥ key.threshold then some sets1
       else match paillier_verify_decryption H key a with
        | none => none
        | some false => some sets1
        | some true => some (stdMapSet sets1 b.questionID
            ((stdMapFind? sets1 b.questionID).getD [] ++ [a]))) := by
    simp only [ElectionManager.tallySort, hsets1, ha]
  rw [hunf, hcur]
  simp only [Option.getD_some]
  set L := ElectionManager.acceptedPartials H key pre b.questionID with hL
  have happ := acceptedPartials_append H key pre b b.questionID
  rw [ha] at happ
  by_cases hfull : (L.take key.threshold).length ≥ key.threshold
  · rw [if_pos hfull]
    refine ⟨sets1, rfl, hs1, hother2 sets1 hother ?_⟩
    rw [hcur, happ]
    have hlen : key.threshold ≤ L.length := by
      rw [List.length_take] at hfull
      omega
    rw [List.take_append_of_le_length hlen]
  · rw [if_neg hfull]
    have hlen : L.length < key.threshold := by
      rw [List.length_take] at hfull
      omega
    have htake : L.take key.threshold = L := List.take_of_length_le (le_of_lt hlen)
    cases hver : paillier_verify_decryption H key a with
    | none => rw [hver] at hv; exact absurd hv (by simp)
    | some r =>
      cases r with
      | false =>
        refine ⟨sets1, rfl, hs1, hother2 sets1 hother ?_⟩
        rw [hcur, happ]
        simp [Option.filter, hver]
      | true =>
        refine ⟨_, rfl, stdMapSet_sorted _ _ _ hs1, hother2 _ ?_ ?_⟩
        · intro q hq
          rw [stdMapFind?_stdMapSet, if_neg hq]
          exact hother q hq
        · rw [stdMapFind?_stdMapSet, if_pos rfl, happ, htake]
          simp only [Option.filter, hver, decide_True, Bool.and_self, if_true,
            Option.toList_some]
          rw [List.take_of_length_le]
          simp only [List.length_append, List.length_singleton]
          exact hlen

/-- The sorting loop of `tally` returns, and its map holds for every question
of the ballots the first `threshold` accepted partial decryptions. -/
theorem tallySort_loop (H : List Int → Nat) (key : paillier_pubkey_t)
    (rest pre : List TalliedBallots) (sets : List (Nat × List paillier_partialdecryption_proof_t))
    (hs : (sets.map Prod.fst).Pairwise (fun a b => a < b))
    (hinv : ∀ q, stdMapFind? sets q = if q ∈ pre.map (fun b => b.questionID)
      then some ((ElectionManager.acceptedPartials H key pre q).take key.threshold) else none)
    (hv : ∀ b ∈ rest, ∃ a, b.answers = some a ∧
      (paillier_verify_decryption H key a).isSome = true) :
    ∃ sets', rest.foldlM (ElectionManager.tallySort H key) sets = some sets' ∧
      (sets'.map Prod.fst).Pairwise (fun a b => a < b) ∧
      ∀ q, stdMapFind? sets' q = if q ∈ (pre ++ rest).map (fun b => b.questionID)
        then some ((ElectionManager.acceptedPartials H key (pre ++ rest) q).take key.threshold)
        else none := by
  induction rest generalizing pre sets with
  | nil => exact ⟨sets, rfl, hs, by simpa using hinv⟩
  | cons b rest ih =>
    obtain ⟨a, ha, hva⟩ := hv b (List.mem_cons_self _ _)
    obtain ⟨sets1, h1, hs1, hinv1⟩ := tallySort_step H key pre sets b a hs hinv ha hva
    obtain ⟨sets', h2, hs2, hinv2⟩ := ih (pre ++ [b]) sets1 hs1 hinv1
      (fun x hx => hv x (List.mem_cons_of_mem _ hx))
    refine ⟨sets', ?_, hs2, ?_⟩
    · rw [List.foldlM_cons, h1]
      exact h2
    · simpa using hinv2

theorem Ballot_lt_tri (a y : Ballot) (h1 : Ballot.lt a y = false) (h2 : Ballot.lt y a = false) :
    a = y := by
  obtain ⟨aq, aa⟩ := a
  obtain ⟨yq, ya⟩ := y
  simp only [Ballot.lt, Bool.or_eq_false_iff, decide_eq_false_iff_not, Bool.and_eq_false_iff,
    Bool.not_eq_false', decide_eq_true_eq] at h1 h2
  have hq : aq = yq := by omega
  subst hq
  have : aa = ya := by
    rcases h1.2 with h | h
    · exact absurd h (lt_irrefl _)
    · rcases h2.2 with h' | h'
      · exact absurd h' (lt_irrefl _)
      · omega
  subst this
  rfl

/-- The decrypting loop of `tally` returns when `paillier_combining` does, and
adds for every entry the ballot of the combined plaintext to the results of
`tallyHash`, which is all it changes. -/
theorem tallyQuestion_loop (key : paillier_pubkey_t) (tallyHash : Nat)
    (entries : List (Nat × List paillier_partialdecryption_proof_t)) (em : ElectionManager)
    (hc : ∀ entry ∈ entries, (paillier_combining key entry.2).isSome = true) :
    ∃ em', entries.foldlM (ElectionManager.tallyQuestion key tallyHash) em = some em' ∧
      em'.transaction = em.transaction ∧ em'.tallies = em.tallies ∧
      (∀ h, h ≠ tallyHash → stdMapFind? em'.results h = stdMapFind? em.results h) ∧
      ∀ x, x ∈ (stdMapFind? em'.results tallyHash).getD [] ↔
        x ∈ (stdMapFind? em.results tallyHash).getD [] ∨
        ∃ entry ∈ entries, ∃ m, paillier_combining key entry.2 = some m ∧
          x = ⟨entry.1, mpz_get_ui_int m⟩ := by
  induction entries generalizing em with
  | nil => exact ⟨em, rfl, rfl, rfl, fun _ _ => rfl, by simp⟩
  | cons entry rest ih =>
    obtain ⟨m, hm⟩ := Option.isSome_iff_exists.1 (hc entry (List.mem_cons_self _ _))
    obtain ⟨em1, hstep, e1, e2, e3⟩ : ∃ em1,
        ElectionManager.tallyQuestion key tallyHash em entry = some em1 ∧
        em1.transaction = em.transaction ∧ em1.tallies = em.tallies ∧
        em1.results = stdMapSet em.results tallyHash
          (stdSetInsert Ballot.lt ⟨entry.1, mpz_get_ui_int m⟩
            ((stdMapFind? em.results tallyHash).getD [])) := by
      simp [ElectionManager.tallyQuestion, hm]
    obtain ⟨em', h1, h2, h3, h4, h5⟩ := ih em1 (fun e he => hc e (List.mem_cons_of_mem _ he))
    rw [e1] at h2
    rw [e2] at h3
    rw [e3] at h4 h5
    refine ⟨em', ?_, h2, h3, ?_, ?_⟩
    · rw [List.foldlM_cons, hstep]
      exact h1
    · intro h hh
      rw [h4 h hh]
      simp only [stdMapFind?_stdMapSet, if_neg hh]
    · intro x
      rw [h5 x]
      simp only [stdMapFind?_stdMapSet, if_true, Option.getD_some]
      rw [mem_stdSetInsert_iff Ballot.lt _ x _ (fun y _ => Ballot_lt_tri _ y)]
      constructor
      · rintro ((h | h) | ⟨e, he, m', hm', hx⟩)
        · exact Or.inr ⟨entry, List.mem_cons_self _ _, m, hm, h⟩
        · exact Or.inl h
        · exact Or.inr ⟨e, List.mem_cons_of_mem _ he, m', hm', hx⟩
      · rintro (h | ⟨e, he, m', hm', hx⟩)
        · exact Or.inl (Or.inr h)
        · rcases List.mem_cons.1 he with rfl | he
          · rw [hm] at hm'
            cases hm'
            exact Or.inl (Or.inl hx)
          · exact Or.inr ⟨e, he, m', hm', hx⟩

end Bitvoting

namespace Bitvoting

/-- The sorting loop and the threshold check of `tally` on the gathered
ballots. -/
theorem tally_sorted (H : List Int → Nat) (key : paillier_pubkey_t)
    (ballots : List TalliedBallots)
    (hv : ∀ b ∈ ballots, ∃ a, b.answers = some a ∧
      (paillier_verify_decryption H key a).isSome = true) :
    ∃ sets, ballots.foldlM (ElectionManager.tallySort H key) [] = some sets ∧
      (∀ entry, entry ∈ sets ↔ ∃ b ∈ ballots, entry = (b.questionID,
        (ElectionManager.acceptedPartials H key ballots b.questionID).take key.threshold)) ∧
      (sets.any (fun entry => decide (entry.2.length < key.threshold)) = true ↔
        ∃ b ∈ ballots,
          (ElectionManager.acceptedPartials H key ballots b.questionID).length < key.threshold) := by
  obtain ⟨sets, h1, hs, hinv⟩ := tallySort_loop H key ballots [] [] (by simp)
    (fun q => by simp [stdMapFind?]) hv
  simp only [List.nil_append] at hinv
  have hmem : ∀ entry, entry ∈ sets ↔ ∃ b ∈ ballots, entry = (b.questionID,
      (ElectionManager.acceptedPartials H key ballots b.questionID).take key.threshold) := by
    rintro ⟨q, v⟩
    rw [stdMapFind?_of_sorted sets q v hs, hinv q]
    constructor
    · intro h
      split_ifs at h with hq
      · obtain ⟨b, hb, rfl⟩ := List.mem_map.1 hq
        exact ⟨b, hb, by rw [Option.some.inj h]⟩
    · rintro ⟨b, hb, h⟩
      cases h
      rw [if_pos (List.mem_map.2 ⟨b, hb, rfl⟩)]
  refine ⟨sets, h1, hmem, ?_⟩
  rw [List.any_eq_true]
  constructor
  · rintro ⟨entry, he, hlt⟩
    obtain ⟨b, hb, rfl⟩ := (hmem entry).1 he
    refine ⟨b, hb, ?_⟩
    simp only [decide_eq_true_eq, List.length_take] at hlt
    omega
  · rintro ⟨b, hb, hlt⟩
    refine ⟨_, (hmem _).2 ⟨b, hb, rfl⟩, ?_⟩
    simp only [decide_eq_true_eq, List.length_take]
    omega

/-- What `tally` does when its calls return. With trustee tallies registered
for `tallyHash` and `ballots` their gathered partial decryptions, each with a
proof on which `paillier_verify_decryption` returns, `tally` looks at the
questions that occur in `ballots`. When one of them has fewer than `threshold` accepted
partial decryptions it returns false and leaves the manager unchanged. When
each has `threshold` or more, and `paillier_combining` returns a plaintext on
the first `threshold` accepted ones of every question, it returns true and the
results of `tallyHash` are the former ones plus, for each such question, the
ballot of that plaintext; rejected partial decryptions only fail to count. -/
theorem tally_spec (P : Primitives) (H : List Int → Nat) (db : BlockChainDB)
    (em : ElectionManager) (tallyHash : Nat) (trusteeTallies : List Nat)
    (ballots : List TalliedBallots) (key : paillier_pubkey_t)
    (hreg : stdMapFind? em.tallies tallyHash = some trusteeTallies)
    (hgather : ElectionManager.tallyGather P db trusteeTallies = some ballots)
    (hkey : em.election.bind (fun e => e.encPubKey) = some key)
    (hv : ∀ b ∈ ballots, ∃ a, b.answers = some a ∧
      (paillier_verify_decryption H key a).isSome = true) :
    ((∃ b ∈ ballots,
        (ElectionManager.acceptedPartials H key ballots b.questionID).length < key.threshold) →
      ElectionManager.tally P H db em tallyHash = some (false, em)) ∧
    ((∀ b ∈ ballots,
        key.threshold ≤ (ElectionManager.acceptedPartials H key ballots b.questionID).length) →
      (∀ b ∈ ballots, (paillier_combining key
        ((ElectionManager.acceptedPartials H key ballots b.questionID).take
          key.threshold)).isSome = true) →
      ∃ em', ElectionManager.tally P H db em tallyHash = some (true, em') ∧
        ∀ x, x ∈ (stdMapFind? em'.results tallyHash).getD [] ↔
          x ∈ (stdMapFind? em.results tallyHash).getD [] ∨
          ∃ b ∈ ballots, ∃ m, paillier_combining key
            ((ElectionManager.acceptedPartials H key ballots b.questionID).take
              key.threshold) = some m ∧ x = ⟨b.questionID, mpz_get_ui_int m⟩) := by
  obtain ⟨sets, h1, hmem, hany⟩ := tally_sorted H key ballots hv
  have hunf : ElectionManager.tally P H db em tallyHash =
      if sets.any (fun entry => decide (entry.2.length < key.threshold))
      then some (false, em)
      else (sets.foldlM (ElectionManager.tallyQuestion key tallyHash) em).map
        (fun em => (true, em)) := by
    simp only [ElectionManager.tally, hreg, hgather, hkey, h1]
  constructor
  · intro hlt
    rw [hunf, if_pos (hany.2 hlt)]
  · intro hge hc
    have hnot : ¬ sets.any (fun entry => decide (entry.2.length < key.threshold)) = true := by
      rw [hany]
      rintro ⟨b, hb, hlt⟩
      exact absurd (hge b hb) (not_le.2 hlt)
    obtain ⟨em', h2, -, -, -, h3⟩ := tallyQuestion_loop key tallyHash sets em (by
      intro entry he
      obtain ⟨b, hb, rfl⟩ := (hmem entry).1 he
      exact hc b hb)
    refine ⟨em', ?_, ?_⟩
    · rw [hunf, if_neg hnot, h2]
      rfl
    · intro x
      rw [h3 x]
      constructor
      · rintro (h | ⟨entry, he, m, hm, hx⟩)
        · exact Or.inl h
        · obtain ⟨b, hb, rfl⟩ := (hmem entry).1 he
          exact Or.inr ⟨b, hb, m, hm, hx⟩
      · rintro (h | ⟨b, hb, m, hm, hx⟩)
        · exact Or.inl h
        · exact Or.inr ⟨_, (hmem _).2 ⟨b, hb, rfl⟩, m, hm, hx⟩

end Bitvoting

namespace Bitvoting

set_option maxRecDepth 100000 in
theorem getAllVotes_last_vote_tagged_witness :
    ∃ result, toyManager.getAllVotes toyP toyDB3 3 (lastHash toyP (toyB1.getHash toyP) [toyB2])
        = some result ∧
      ∀ x, x ∈ result ↔ ∃ pre blk post, toyB1 :: [toyB2] = pre ++ blk :: post ∧
        ∃ t ∈ blk.transactions, ∃ bs, t.body = .vote (toyElectionTx.getHash toyP) bs ∧ x ∈ bs ∧
          ∀ b' ∈ post, ∀ t' ∈ b'.transactions,
            (∃ bs', t'.body = .vote (toyElectionTx.getHash toyP) bs') →
              t'.verificationKey.GetID toyP ≠ t.verificationKey.GetID toyP :=
  getAllVotes_last_vote_tagged toyP BlockChainDB.empty toyDB3 [] [toyB2] [toyB3] toyB1 toyElectionTx
    toyManager 3 (by decide) (by rfl) (by decide) (by decide)
    (fun x hx rest => toy_roundtrip x (by
      simp only [List.nil_append, List.cons_append, List.mem_cons, List.mem_singleton,
        List.not_mem_nil, or_false] at hx
      rcases hx with rfl | rfl | rfl <;> simp [toyBlocks]) rest)
    (by decide) (by rfl) (by decide) (by decide) (by decide)
    (by
      intro b hb t ht bs hbs x hx
      simp only [List.mem_cons, List.mem_singleton, List.not_mem_nil, or_false] at hb
      rcases hb with rfl | rfl
      · simp only [toyB1, toyBlock, List.mem_singleton] at ht
        subst ht
        simp [toyElectionTx] at hbs
      · simp only [toyB2, toyBlock, List.mem_singleton] at ht
        subst ht
        simp only [toyVoteTx, TxBody.vote.injEq] at hbs
        obtain ⟨-, rfl⟩ := hbs
        simp only [List.mem_singleton] at hx
        subst hx
        rfl)
    (by
      intro b hb
      simp only [List.mem_cons, List.mem_singleton, List.not_mem_nil, or_false] at hb
      rcases hb with rfl | rfl <;> simp [toyB1, toyB2, toyBlock])

theorem tally_spec_witness :
    ((∃ b ∈ [(⟨11, some toyPartial⟩ : TalliedBallots)],
        (ElectionManager.acceptedPartials (fun _ => 5) toyPub [⟨11, some toyPartial⟩]
          b.questionID).length < toyPub.threshold) ∧
      ElectionManager.tally toyP5 (fun _ => 5) toyDB5 toyManager5 408
        = some (false, toyManager5)) :=
  have hlt : ∃ b ∈ [(⟨11, some toyPartial⟩ : TalliedBallots)],
      (ElectionManager.acceptedPartials (fun _ => 5) toyPub [⟨11, some toyPartial⟩]
        b.questionID).length < toyPub.threshold :=
    ⟨_, List.mem_singleton.2 rfl, lt_of_le_of_lt (List.length_filterMap_le _ _) (by decide)⟩
  ⟨hlt, (tally_spec toyP5 (fun _ => 5) toyDB5 toyManager5 408 [808] [⟨11, some toyPartial⟩] toyPub
    (by decide) (by rfl) (by rfl)
    (by
      intro b hb
      rw [List.mem_singleton] at hb
      subst hb
      refine ⟨toyPartial, rfl, ?_⟩
      obtain ⟨proof, h1, h2⟩ := paillier_dec_proof_complete_aux (fun _ => 5) toyPub ⟨2, 1⟩ ⟨36⟩ 3
        ⟨2, 16⟩ (by decide) (by decide) (by decide) (by decide) (by decide) (by decide)
        (by decide) (by decide) (by decide)
      have h3 : paillier_dec_proof (fun _ => 5) toyPub ⟨2, 1⟩ ⟨36⟩ 3 = some toyPartial := by
        decide
      rw [h3] at h1
      cases h1
      rw [h2]
      rfl)).1 hlt⟩

end Bitvoting

namespace Bitvoting

/-! ## TTL handling of flooded messages -/

theorem Flood_expired_loop (dataSize : Int) (exclude : Option Nat) (connections : List Connection)
    (sent : List (Nat × MessageHeader)) (message : Message)
    (h1 : message.header.ttl ≠ TTL_NOT_SET) (h2 : message.header.ttl ≠ TTL_INFINITE)
    (h3 : message.header.ttl ≤ 0) :
    connections.foldl
      (fun (st : List (Nat × MessageHeader) × Message) (connection : Connection) =>
        if exclude = some connection.ptr then st
        else if !connection.IsInitialized then st
        else
          match Connection.Write dataSize st.2 with
          | (true, message) => (st.1 ++ [(connection.ptr, message.header)], message)
          | (false, message) => (st.1, message))
      (sent, message) = (sent, message) := by
  induction connections with
  | nil => rfl
  | cons c cs ih =>
    rw [List.foldl_cons]
    have hw : Connection.Write dataSize message = (false, message) := by
      simp only [Connection.Write, if_neg h1, if_pos (And.intro h2 h3)]
    by_cases he : exclude = some c.ptr
    · simp only [if_pos he]
      exact ih
    · by_cases hi : (!c.IsInitialized) = true
      · simp only [if_neg he, if_pos hi]
        exact ih
      · simp only [if_neg he, if_neg hi, hw]
        exact ih

/-- A header received with a TTL other than -64, -63 and -31 whose TTL after the
decrement is at most 0 is sent to no peer by `Network::Flood`. -/
theorem Flood_expired (floodingTTL dataSize : Int) (connections : List Connection)
    (body : Message) (header : MessageHeader) (exclude : Option Nat)
    (hinf : header.ttl ≠ TTL_INFINITE) (h63 : header.ttl ≠ -63) (h31 : header.ttl ≠ -31)
    (hlo : -2 ^ 31 < header.ttl) (hhi : header.ttl < 2 ^ 31)
    (h3 : (Connection.ReadDataCallback header).ttl ≤ 0) :
    (Network.Flood floodingTTL dataSize connections
      { body with header := Connection.ReadDataCallback header } exclude).1 = [] := by
  have httl : (Connection.ReadDataCallback header).ttl = header.ttl - 1 := by
    simp only [Connection.ReadDataCallback, ne_eq, hinf, not_false_eq_true, if_true]
    unfold wrapInt32
    omega
  have h1 : (Connection.ReadDataCallback header).ttl ≠ TTL_NOT_SET := by
    rw [httl]
    unfold TTL_NOT_SET
    omega
  have h2 : (Connection.ReadDataCallback header).ttl ≠ TTL_INFINITE := by
    rw [httl]
    unfold TTL_INFINITE
    omega
  unfold Network.Flood
  simp only [if_neg h1]
  rw [Flood_expired_loop dataSize exclude connections [] _ h1 h2 h3]

/-- The receive side of the TTL handling: the infinite sentinel is kept, any
other TTL is decreased by one, and the hop count is increased by one (both as
`int`, wrapping at 32 bits). -/
theorem ReadDataCallback_header (header : MessageHeader) :
    (header.ttl = TTL_INFINITE → (Connection.ReadDataCallback header).ttl = TTL_INFINITE) ∧
    (header.ttl ≠ TTL_INFINITE →
      (Connection.ReadDataCallback header).ttl = wrapInt32 (header.ttl - 1)) ∧
    (Connection.ReadDataCallback header).hop = wrapInt32 (header.hop + 1) ∧
    (-2 ^ 31 < header.ttl → header.ttl < 2 ^ 31 → wrapInt32 (header.ttl - 1) = header.ttl - 1) ∧
    (-2 ^ 31 ≤ header.hop → header.hop < 2 ^ 31 - 1 → wrapInt32 (header.hop + 1) = header.hop + 1) := by
  refine ⟨?_, ?_, ?_, ?_, ?_⟩
  · intro h
    simp only [Connection.ReadDataCallback, h, ne_eq, not_true_eq_false, if_false]
  · intro h
    simp only [Connection.ReadDataCallback, ne_eq, h, not_false_eq_true, if_true]
  · simp only [Connection.ReadDataCallback]
    split_ifs <;> rfl
  · intro h1 h2
    unfold wrapInt32
    omega
  · intro h1 h2
    unfold wrapInt32
    omega

/-- C21, evaluated on failing inputs: a header received with TTL -31 is not the
infinite sentinel and has TTL -32 after the decrement, which is at most 0; the
following `Flood` takes -32 for "not set", resets the TTL to the flooding TTL
and sends the message to the initialized peer. A header received with TTL -63
has TTL -64 after the decrement, which `Write` takes for the infinite
sentinel, and the message is sent as well. -/
theorem Flood_resends_expired :
    (⟨-31, 0, 0, 16⟩ : MessageHeader).ttl ≠ TTL_INFINITE ∧
    (Connection.ReadDataCallback ⟨-31, 0, 0, 16⟩).ttl = -32 ∧
    (Network.Flood defaultFloodTTL 7 [⟨1, 5⟩]
      ⟨Connection.ReadDataCallback ⟨-31, 0, 0, 16⟩, 9⟩ none).1 = [(1, ⟨3, 1, 7, 16⟩)] ∧
    (⟨-63, 0, 0, 16⟩ : MessageHeader).ttl ≠ TTL_INFINITE ∧
    (Connection.ReadDataCallback ⟨-63, 0, 0, 16⟩).ttl = -64 ∧
    (Network.Flood defaultFloodTTL 7 [⟨1, 5⟩]
      ⟨Connection.ReadDataCallback ⟨-63, 0, 0, 16⟩, 9⟩ none).1 = [(1, ⟨-64, 1, 7, 16⟩)] := by
  decide

end Bitvoting

namespace Bitvoting

/-! ## Hash stability of a `Signable` -/

end Bitvoting

namespace Bitvoting

/-! ## The comparison operators of `paillier/comparison.cpp` -/

theorem lex_cons_cons (a b : Int) (as bs : List Int) :
    (a :: as) < (b :: bs) ↔ a < b ∨ (a = b ∧ as < bs) := by
  constructor
  · intro h
    cases h with
    | cons h => exact Or.inr ⟨rfl, h⟩
    | rel h => exact Or.inl h
  · rintro (h | ⟨rfl, h⟩)
    · exact List.Lex.rel h
    · exact List.Lex.cons h

theorem ite_lex (a b : Int) (R : Bool) (Q : Prop) (h : R = true ↔ Q) :
    ((if a < b then true else if b < a then false else R) = true ↔ a < b ∨ (a = b ∧ Q)) := by
  rcases lt_trichotomy a b with h1 | h1 | h1
  · simp [h1]
  · subst h1
    simp [h]
  · have h2 : ¬ a < b := not_lt.2 h1.le
    have h3 : a ≠ b := ne_of_gt h1
    simp [h1, h2, h3]

theorem ite_lex_last (a b : Int) :
    ((if a < b then true else false) = true ↔ a < b ∨ (a = b ∧ ([] : List Int) < [])) := by
  have : ¬ (([] : List Int) < []) := fun h => nomatch h
  simp [this]

theorem paillier_ciphertext_proof_t_lt_iff (first second : paillier_ciphertext_proof_t) :
    first.lt second = true ↔
      [first.c, first.e, first.e1, first.e2, first.v1, first.v2] <
        [second.c, second.e, second.e1, second.e2, second.v1, second.v2] := by
  unfold paillier_ciphertext_proof_t.lt
  simp only [lex_cons_cons]
  exact ite_lex _ _ _ _ (ite_lex _ _ _ _ (ite_lex _ _ _ _ (ite_lex _ _ _ _
    (ite_lex _ _ _ _ (ite_lex_last _ _)))))

theorem paillier_partialdecryption_proof_t_lt_iff
    (first second : paillier_partialdecryption_proof_t) :
    first.lt second = true ↔
      [first.id, first.decryption, first.c4, first.ci2, first.e, first.z] <
        [second.id, second.decryption, second.c4, second.ci2, second.e, second.z] := by
  unfold paillier_partialdecryption_proof_t.lt
  simp only [lex_cons_cons]
  exact ite_lex _ _ _ _ (ite_lex _ _ _ _ (ite_lex _ _ _ _ (ite_lex _ _ _ _
    (ite_lex _ _ _ _ (ite_lex_last _ _)))))

/-- C26, the claim as stated fails for ciphertexts: of two ciphertexts that
differ in `v1` and `e2` only, `operator<` puts the one with the smaller `e2`
first, while the lexicographic order in the declared field order
`(c, e, e1, v1, e2, v2)` puts the one with the smaller `v1` first. -/
theorem ciphertext_lt_not_declared_order :
    paillier_ciphertext_proof_t.lt ⟨0, 0, 0, 1, 0, 0⟩ ⟨0, 0, 0, 0, 1, 0⟩ = true ∧
    ¬ ([(⟨0, 0, 0, 1, 0, 0⟩ : paillier_ciphertext_proof_t).c,
        (⟨0, 0, 0, 1, 0, 0⟩ : paillier_ciphertext_proof_t).e,
        (⟨0, 0, 0, 1, 0, 0⟩ : paillier_ciphertext_proof_t).e1,
        (⟨0, 0, 0, 1, 0, 0⟩ : paillier_ciphertext_proof_t).v1,
        (⟨0, 0, 0, 1, 0, 0⟩ : paillier_ciphertext_proof_t).e2,
        (⟨0, 0, 0, 1, 0, 0⟩ : paillier_ciphertext_proof_t).v2] <
      [(⟨0, 0, 0, 0, 1, 0⟩ : paillier_ciphertext_proof_t).c,
        (⟨0, 0, 0, 0, 1, 0⟩ : paillier_ciphertext_proof_t).e,
        (⟨0, 0, 0, 0, 1, 0⟩ : paillier_ciphertext_proof_t).e1,
        (⟨0, 0, 0, 0, 1, 0⟩ : paillier_ciphertext_proof_t).v1,
        (⟨0, 0, 0, 0, 1, 0⟩ : paillier_ciphertext_proof_t).e2,
        (⟨0, 0, 0, 0, 1, 0⟩ : paillier_ciphertext_proof_t).v2]) := by
  decide

/-- C26, amended: `operator<` on `paillier_ciphertext_proof_t` is the
lexicographic order over the fields in the order `(c, e, e1, e2, v1, v2)`, and
`operator<` on `paillier_partialdecryption_proof_t` is the lexicographic order
over `(id, decryption, c4, ci2, e, z)`. -/
theorem comparators_lexicographic :
    (∀ first second : paillier_ciphertext_proof_t,
      first.lt second = true ↔
        [first.c, first.e, first.e1, first.e2, first.v1, first.v2] <
          [second.c, second.e, second.e1, second.e2, second.v1, second.v2]) ∧
    (∀ first second : paillier_partialdecryption_proof_t,
      first.lt second = true ↔
        [first.id, first.decryption, first.c4, first.ci2, first.e, first.z] <
          [second.id, second.decryption, second.c4, second.ci2, second.e, second.z]) :=
  ⟨paillier_ciphertext_proof_t_lt_iff, paillier_partialdecryption_proof_t_lt_iff⟩

end Bitvoting

namespace Bitvoting

/-! ## Sets of ballots do not depend on the insertion order -/

/-- Inserting into a set that is sorted by `key` keeps it sorted, when `lt`
compares the keys. -/
theorem stdSetInsert_sorted {α : Type} (lt : α → α → Bool) (key : α → List Int)
    (hlt : ∀ a b, lt a b = true → key a < key b)
    (a : α) (s : List α)
    (hcmp : ∀ y ∈ s, lt a y = false → lt y a = false → key a = key y)
    (hpos : ∀ y ∈ s, key y < key a → lt y a = true)
    (hs : s.Pairwise (fun x y => key x < key y)) :
    (stdSetInsert lt a s).Pairwise (fun x y => key x < key y) := by
  induction s with
  | nil => simp [stdSetInsert]
  | cons y ys ih =>
    rw [List.pairwise_cons] at hs
    simp only [stdSetInsert]
    split_ifs with h1 h2
    · rw [List.pairwise_cons]
      refine ⟨?_, List.pairwise_cons.2 hs⟩
      intro z hz
      rcases List.mem_cons.1 hz with rfl | hz
      · exact hlt _ _ h1
      · exact lt_trans (hlt _ _ h1) (hs.1 z hz)
    · rw [List.pairwise_cons]
      refine ⟨?_, ih (fun z hz => hcmp z (List.mem_cons_of_mem _ hz))
        (fun z hz => hpos z (List.mem_cons_of_mem _ hz)) hs.2⟩
      intro z hz
      rcases mem_stdSetInsert lt a z ys hz with rfl | hz
      · exact hlt _ _ h2
      · exact hs.1 z hz
    · exact List.pairwise_cons.2 hs

/-- A range of elements on which `lt` compares injective keys builds a set that
is sorted by the keys and holds exactly the elements of the range. -/
theorem stdSetOfRange_spec {α : Type} (lt : α → α → Bool) (key : α → List Int) (ok : α → Prop)
    (hlt : ∀ a b, lt a b = true → key a < key b)
    (hok : ∀ a b, ok a → ok b → key a < key b → lt a b = true)
    (hinj : ∀ a b, ok a → ok b → key a = key b → a = b)
    (xs : List α) (hxs : ∀ x ∈ xs, ok x) :
    (stdSetOfRange lt xs).Pairwise (fun x y => key x < key y) ∧
      ∀ x, x ∈ stdSetOfRange lt xs ↔ x ∈ xs := by
  unfold stdSetOfRange
  suffices h : ∀ (s : List α), s.Pairwise (fun x y => key x < key y) → (∀ x ∈ s, ok x) →
      (xs.foldl (fun s x => stdSetInsert lt x s) s).Pairwise (fun x y => key x < key y) ∧
      ∀ x, x ∈ xs.foldl (fun s x => stdSetInsert lt x s) s ↔ x ∈ s ∨ x ∈ xs by
    have := h [] List.Pairwise.nil (by simp)
    simpa using this
  induction xs with
  | nil => intro s hs _; simpa using hs
  | cons a as ih =>
    intro s hs hsok
    have haok : ok a := hxs a (List.mem_cons_self _ _)
    have hcmp : ∀ y ∈ s, lt a y = false → lt y a = false → key a = key y := by
      intro y hy h1 h2
      rcases lt_trichotomy (key a) (key y) with h | h | h
      · rw [hok a y haok (hsok y hy) h] at h1
        exact absurd h1 (by simp)
      · exact h
      · rw [hok y a (hsok y hy) haok h] at h2
        exact absurd h2 (by simp)
    have hmem : ∀ x, x ∈ stdSetInsert lt a s ↔ x = a ∨ x ∈ s :=
      fun x => mem_stdSetInsert_iff lt a x s
        (fun y hy h1 h2 => hinj a y haok (hsok y hy) (hcmp y hy h1 h2))
    have hs1 := stdSetInsert_sorted lt key hlt a s hcmp
      (fun y hy h => hok y a (hsok y hy) haok h) hs
    have hok1 : ∀ x ∈ stdSetInsert lt a s, ok x := by
      intro x hx
      rcases (hmem x).1 hx with rfl | hx
      · exact haok
      · exact hsok x hx
    obtain ⟨h1, h2⟩ := ih (fun x hx => hxs x (List.mem_cons_of_mem _ hx))
      (stdSetInsert lt a s) hs1 hok1
    refine ⟨h1, ?_⟩
    intro x
    rw [List.foldl_cons, h2 x, hmem x, List.mem_cons]
    tauto

/-- Two lists sorted by the keys with the same elements are equal. -/
theorem sorted_ext {α : Type} (key : α → List Int) (l1 l2 : List α)
    (h1 : l1.Pairwise (fun x y => key x < key y)) (h2 : l2.Pairwise (fun x y => key x < key y))
    (hmem : ∀ x, x ∈ l1 ↔ x ∈ l2) : l1 = l2 := by
  have hn : ∀ l : List α, l.Pairwise (fun x y => key x < key y) → l.Nodup := by
    intro l hl
    exact hl.imp (fun hxy hEq => by rw [hEq] at hxy; exact lt_irrefl _ hxy)
  have hp : l1.Perm l2 := (List.perm_ext_iff_of_nodup (hn l1 h1) (hn l2 h2)).2 hmem
  haveI : IsAntisymm α (fun x y => key x < key y) :=
    ⟨fun a b hab hba => absurd hab (lt_asymm hba)⟩
  exact List.eq_of_perm_of_sorted hp h1 h2

/-- A set rebuilt from its elements in any order is the same set. -/
theorem stdSetOfRange_perm {α : Type} (lt : α → α → Bool) (key : α → List Int) (ok : α → Prop)
    (hlt : ∀ a b, lt a b = true → key a < key b)
    (hok : ∀ a b, ok a → ok b → key a < key b → lt a b = true)
    (hinj : ∀ a b, ok a → ok b → key a = key b → a = b)
    (xs vdata : List α) (hxs : ∀ x ∈ xs, ok x) (hp : vdata.Perm (stdSetOfRange lt xs)) :
    stdSetOfRange lt vdata = stdSetOfRange lt xs := by
  obtain ⟨hs, hm⟩ := stdSetOfRange_spec lt key ok hlt hok hinj xs hxs
  have hv : ∀ x ∈ vdata, ok x := fun x hx => hxs x ((hm x).1 (hp.mem_iff.1 hx))
  obtain ⟨hs', hm'⟩ := stdSetOfRange_spec lt key ok hlt hok hinj vdata hv
  exact sorted_ext key _ _ hs' hs (fun x => (hm' x).trans hp.mem_iff)

theorem stdSetEq_refl {α : Type} (eq : α → α → Bool) (s : List α)
    (h : ∀ x ∈ s, eq x x = true) : stdSetEq eq s s = true := by
  simp only [stdSetEq, decide_True, Bool.true_and, List.all_eq_true]
  intro p hp
  have : p.1 = p.2 := by
    clear h
    induction s with
    | nil => simp at hp
    | cons y ys ih =>
      simp only [List.zip_cons_cons, List.mem_cons] at hp
      rcases hp with rfl | hp
      · rfl
      · exact ih hp
  rw [← this]
  exact h _ (List.of_mem_zip hp).1

/-- The key of an encrypted ballot: the question id and the compared fields of
the ciphertext. -/
theorem EncryptedBallot_lt_iff (a b : EncryptedBallot) (x y : paillier_ciphertext_proof_t)
    (ha : a.answer = some x) (hb : b.answer = some y) :
    a.lt b = true ↔
      ((a.questionID : Int) :: [x.c, x.e, x.e1, x.e2, x.v1, x.v2]) <
        ((b.questionID : Int) :: [y.c, y.e, y.e1, y.e2, y.v1, y.v2]) := by
  rw [lex_cons_cons, ← paillier_ciphertext_proof_t_lt_iff]
  simp only [EncryptedBallot.lt, ha, hb, Bool.or_eq_true, decide_eq_true_eq, Bool.and_eq_true,
    Bool.not_eq_true', decide_eq_false_iff_not, Nat.cast_lt, Nat.cast_inj]
  constructor
  · rintro (h | ⟨h1, h2⟩)
    · exact Or.inl h
    · by_cases h3 : a.questionID < b.questionID
      · exact Or.inl h3
      · exact Or.inr ⟨by omega, h2⟩
  · rintro (h | ⟨h1, h2⟩)
    · exact Or.inl h
    · exact Or.inr ⟨by omega, h2⟩

theorem TalliedBallots_lt_iff (a b : TalliedBallots) (x y : paillier_partialdecryption_proof_t)
    (ha : a.answers = some x) (hb : b.answers = some y) :
    a.lt b = true ↔
      ((a.questionID : Int) :: [x.id, x.decryption, x.c4, x.ci2, x.e, x.z]) <
        ((b.questionID : Int) :: [y.id, y.decryption, y.c4, y.ci2, y.e, y.z]) := by
  rw [lex_cons_cons, ← paillier_partialdecryption_proof_t_lt_iff]
  simp only [TalliedBallots.lt, ha, hb, Bool.or_eq_true, decide_eq_true_eq, Bool.and_eq_true,
    Bool.not_eq_true', decide_eq_false_iff_not, Nat.cast_lt, Nat.cast_inj]
  constructor
  · rintro (h | ⟨h1, h2⟩)
    · exact Or.inl h
    · by_cases h3 : a.questionID < b.questionID
      · exact Or.inl h3
      · exact Or.inr ⟨by omega, h2⟩
  · rintro (h | ⟨h1, h2⟩)
    · exact Or.inl h
    · exact Or.inr ⟨by omega, h2⟩

end Bitvoting

namespace Bitvoting

/-- An order that compares injective keys is irreflexive and transitive, and
of `a < b`, `b < a`, `a == b` exactly one holds. -/
theorem strict_total_of_key {α : Type} (lt eq : α → α → Bool) (key : α → List Int)
    (ok : α → Prop)
    (hlt : ∀ a b, lt a b = true → key a < key b)
    (hok : ∀ a b, ok a → ok b → key a < key b → lt a b = true)
    (hinj : ∀ a b, ok a → ok b → key a = key b → a = b)
    (heq : ∀ a b, ok a → ok b → (eq a b = true ↔ a = b))
    (a b c : α) (ha : ok a) (hb : ok b) (hc : ok c) :
    lt a a = false ∧ (lt a b = true → lt b c = true → lt a c = true) ∧
      (lt a b = true ∨ lt b a = true ∨ eq a b = true) ∧
      ¬ (lt a b = true ∧ lt b a = true) ∧ ¬ (lt a b = true ∧ eq a b = true) ∧
      ¬ (lt b a = true ∧ eq a b = true) := by
  refine ⟨?_, ?_, ?_, ?_, ?_, ?_⟩
  · cases h : lt a a with
    | false => rfl
    | true => exact absurd (hlt a a h) (lt_irrefl _)
  · intro h1 h2
    exact hok a c ha hc (lt_trans (hlt a b h1) (hlt b c h2))
  · rcases lt_trichotomy (key a) (key b) with h | h | h
    · exact Or.inl (hok a b ha hb h)
    · exact Or.inr (Or.inr ((heq a b ha hb).2 (hinj a b ha hb h)))
    · exact Or.inr (Or.inl (hok b a hb ha h))
  · rintro ⟨h1, h2⟩
    exact lt_asymm (hlt a b h1) (hlt b a h2)
  · rintro ⟨h1, h2⟩
    have := (heq a b ha hb).1 h2
    subst this
    exact lt_irrefl _ (hlt a a h1)
  · rintro ⟨h1, h2⟩
    have := (heq a b ha hb).1 h2
    subst this
    exact lt_irrefl _ (hlt a a h1)

/-- The compared key of an encrypted ballot with a ciphertext. -/
theorem EncryptedBallot_key :
    ∃ key : EncryptedBallot → List Int,
      (∀ a b : EncryptedBallot, a.lt b = true → key a < key b) ∧
      (∀ a b : EncryptedBallot, a.answer.isSome = true → b.answer.isSome = true → key a < key b →
        a.lt b = true) ∧
      (∀ a b : EncryptedBallot, a.answer.isSome = true → b.answer.isSome = true → key a = key b → a = b) ∧
      (∀ a b : EncryptedBallot, a.answer.isSome = true → b.answer.isSome = true → (a.eq b = true ↔ a = b)) := by
  refine ⟨fun a => match a.answer with
    | some x => (a.questionID : Int) :: [x.c, x.e, x.e1, x.e2, x.v1, x.v2]
    | none => [], ?_, ?_, ?_, ?_⟩
  · rintro ⟨qa, aa⟩ ⟨qb, ab⟩ h
    cases aa with
    | none => simp [EncryptedBallot.lt] at h
    | some x =>
      cases ab with
      | none => simp [EncryptedBallot.lt] at h
      | some y => exact (EncryptedBallot_lt_iff ⟨qa, some x⟩ ⟨qb, some y⟩ x y rfl rfl).1 h
  · rintro ⟨qa, aa⟩ ⟨qb, ab⟩ ha hb h
    cases aa with
    | none => simp at ha
    | some x =>
      cases ab with
      | none => simp at hb
      | some y => exact (EncryptedBallot_lt_iff ⟨qa, some x⟩ ⟨qb, some y⟩ x y rfl rfl).2 h
  · rintro ⟨qa, aa⟩ ⟨qb, ab⟩ ha hb h
    cases aa with
    | none => simp at ha
    | some x =>
      cases ab with
      | none => simp at hb
      | some y =>
        obtain ⟨xc, xe, xe1, xv1, xe2, xv2⟩ := x
        obtain ⟨yc, ye, ye1, yv1, ye2, yv2⟩ := y
        simp only [List.cons.injEq, Nat.cast_inj, and_true] at h
        obtain ⟨h0, h1, h2, h3, h4, h5, h6⟩ := h
        subst h0 h1 h2 h3 h4 h5 h6
        rfl
  · rintro ⟨qa, aa⟩ ⟨qb, ab⟩ ha hb
    cases aa with
    | none => simp at ha
    | some x =>
      cases ab with
      | none => simp at hb
      | some y =>
        obtain ⟨xc, xe, xe1, xv1, xe2, xv2⟩ := x
        obtain ⟨yc, ye, ye1, yv1, ye2, yv2⟩ := y
        simp only [EncryptedBallot.eq, paillier_ciphertext_proof_t.eq, Bool.and_eq_true,
          decide_eq_true_eq, EncryptedBallot.mk.injEq, Option.some.injEq,
          paillier_ciphertext_proof_t.mk.injEq]
        tauto

/-- The compared key of tallied ballots with a partial decryption. -/
theorem TalliedBallots_key :
    ∃ key : TalliedBallots → List Int,
      (∀ a b : TalliedBallots, a.lt b = true → key a < key b) ∧
      (∀ a b : TalliedBallots, a.answers.isSome = true → b.answers.isSome = true → key a < key b →
        a.lt b = true) ∧
      (∀ a b : TalliedBallots, a.answers.isSome = true → b.answers.isSome = true → key a = key b → a = b) ∧
      (∀ a b : TalliedBallots, a.answers.isSome = true → b.answers.isSome = true → (a.eq b = true ↔ a = b)) := by
  refine ⟨fun a => match a.answers with
    | some x => (a.questionID : Int) :: [x.id, x.decryption, x.c4, x.ci2, x.e, x.z]
    | none => [], ?_, ?_, ?_, ?_⟩
  · rintro ⟨qa, aa⟩ ⟨qb, ab⟩ h
    cases aa with
    | none => simp [TalliedBallots.lt] at h
    | some x =>
      cases ab with
      | none => simp [TalliedBallots.lt] at h
      | some y => exact (TalliedBallots_lt_iff ⟨qa, some x⟩ ⟨qb, some y⟩ x y rfl rfl).1 h
  · rintro ⟨qa, aa⟩ ⟨qb, ab⟩ ha hb h
    cases aa with
    | none => simp at ha
    | some x =>
      cases ab with
      | none => simp at hb
      | some y => exact (TalliedBallots_lt_iff ⟨qa, some x⟩ ⟨qb, some y⟩ x y rfl rfl).2 h
  · rintro ⟨qa, aa⟩ ⟨qb, ab⟩ ha hb h
    cases aa with
    | none => simp at ha
    | some x =>
      cases ab with
      | none => simp at hb
      | some y =>
        obtain ⟨xc, xe, xe1, xv1, xe2, xv2⟩ := x
        obtain ⟨yc, ye, ye1, yv1, ye2, yv2⟩ := y
        simp only [List.cons.injEq, Nat.cast_inj, and_true] at h
        obtain ⟨h0, h1, h2, h3, h4, h5, h6⟩ := h
        subst h0 h1 h2 h3 h4 h5 h6
        rfl
  · rintro ⟨qa, aa⟩ ⟨qb, ab⟩ ha hb
    cases aa with
    | none => simp at ha
    | some x =>
      cases ab with
      | none => simp at hb
      | some y =>
        obtain ⟨xc, xe, xe1, xv1, xe2, xv2⟩ := x
        obtain ⟨yc, ye, ye1, yv1, ye2, yv2⟩ := y
        simp only [TalliedBallots.eq, paillier_partialdecryption_proof_t.eq, Bool.and_eq_true,
          decide_eq_true_eq, TalliedBallots.mk.injEq, Option.some.injEq,
          paillier_partialdecryption_proof_t.mk.injEq]
        tauto

/-- The order facts and the rebuilt set for an order that compares injective
keys. -/
theorem set_order_facts {α : Type} (lt eq : α → α → Bool) (ok : α → Prop)
    (hkey : ∃ key : α → List Int,
      (∀ a b, lt a b = true → key a < key b) ∧
      (∀ a b, ok a → ok b → key a < key b → lt a b = true) ∧
      (∀ a b, ok a → ok b → key a = key b → a = b) ∧
      (∀ a b, ok a → ok b → (eq a b = true ↔ a = b)))
    (a b c : α) (xs vdata : List α) (ha : ok a) (hb : ok b) (hc : ok c)
    (hxs : ∀ x ∈ xs, ok x) (hp : vdata.Perm (stdSetOfRange lt xs)) :
    lt a a = false ∧ (lt a b = true → lt b c = true → lt a c = true) ∧
      (lt a b = true ∨ lt b a = true ∨ eq a b = true) ∧
      ¬ (lt a b = true ∧ lt b a = true) ∧ ¬ (lt a b = true ∧ eq a b = true) ∧
      ¬ (lt b a = true ∧ eq a b = true) ∧
      stdSetOfRange lt vdata = stdSetOfRange lt xs ∧
      stdSetEq eq (stdSetOfRange lt xs) (stdSetOfRange lt vdata) = true := by
  obtain ⟨key, hlt, hok, hinj, heq⟩ := hkey
  obtain ⟨h1, h2, h3, h4, h5, h6⟩ := strict_total_of_key lt eq key ok hlt hok hinj heq a b c ha hb hc
  have h7 := stdSetOfRange_perm lt key ok hlt hok hinj xs vdata hxs hp
  refine ⟨h1, h2, h3, h4, h5, h6, h7, ?_⟩
  rw [h7]
  apply stdSetEq_refl
  intro x hx
  have hx' := ((stdSetOfRange_spec lt key ok hlt hok hinj xs hxs).2 x).1 hx
  exact (heq x x (hxs x hx') (hxs x hx')).2 rfl

/-- C23 (set order is insertion-independent): on encrypted ballots with a
ciphertext, and on tallied ballots with a partial decryption, `operator<` is
irreflexive and transitive, and of `a < b`, `b < a`, `a == b` exactly one
holds; a `std::set` built from the elements of a set `data` in any order
(`vdata` is a permutation of `data`) is the list `data` again, and
`data == sdata` holds. -/
theorem ballot_set_order (a b c : EncryptedBallot) (xs vdata : List EncryptedBallot)
    (ta tb tc : TalliedBallots) (txs tvdata : List TalliedBallots)
    (ha : a.answer.isSome = true) (hb : b.answer.isSome = true) (hc : c.answer.isSome = true)
    (hxs : ∀ x ∈ xs, x.answer.isSome = true)
    (hp : vdata.Perm (stdSetOfRange EncryptedBallot.lt xs))
    (hta : ta.answers.isSome = true) (htb : tb.answers.isSome = true)
    (htc : tc.answers.isSome = true)
    (htxs : ∀ x ∈ txs, x.answers.isSome = true)
    (htp : tvdata.Perm (stdSetOfRange TalliedBallots.lt txs)) :
    (a.lt a = false ∧ (a.lt b = true → b.lt c = true → a.lt c = true) ∧
      (a.lt b = true ∨ b.lt a = true ∨ a.eq b = true) ∧
      ¬ (a.lt b = true ∧ b.lt a = true) ∧ ¬ (a.lt b = true ∧ a.eq b = true) ∧
      ¬ (b.lt a = true ∧ a.eq b = true) ∧
      stdSetOfRange EncryptedBallot.lt vdata = stdSetOfRange EncryptedBallot.lt xs ∧
      stdSetEq EncryptedBallot.eq (stdSetOfRange EncryptedBallot.lt xs)
        (stdSetOfRange EncryptedBallot.lt vdata) = true) ∧
    (ta.lt ta = false ∧ (ta.lt tb = true → tb.lt tc = true → ta.lt tc = true) ∧
      (ta.lt tb = true ∨ tb.lt ta = true ∨ ta.eq tb = true) ∧
      ¬ (ta.lt tb = true ∧ tb.lt ta = true) ∧ ¬ (ta.lt tb = true ∧ ta.eq tb = true) ∧
      ¬ (tb.lt ta = true ∧ ta.eq tb = true) ∧
      stdSetOfRange TalliedBallots.lt tvdata = stdSetOfRange TalliedBallots.lt txs ∧
      stdSetEq TalliedBallots.eq (stdSetOfRange TalliedBallots.lt txs)
        (stdSetOfRange TalliedBallots.lt tvdata) = true) :=
  ⟨set_order_facts EncryptedBallot.lt EncryptedBallot.eq (fun x => x.answer.isSome = true)
      EncryptedBallot_key a b c xs vdata ha hb hc hxs hp,
    set_order_facts TalliedBallots.lt TalliedBallots.eq (fun x => x.answers.isSome = true)
      TalliedBallots_key ta tb tc txs tvdata hta htb htc htxs htp⟩

end Bitvoting

namespace Bitvoting

/-! ## The nonce cursor at the wrap-around -/

theorem afterBatches_startNonce (m : Miner) (n : Nat) :
    (m.afterBatches n).startNonce = m.startNonce := by
  induction n with
  | zero => rfl
  | succ n ih =>
    simp only [Miner.afterBatches, Miner.consumeNextNonces]
    split_ifs <;> exact ih

/-- Up to the wrap-around the cursor advances by full batches: while
`startNonce + 1 + 1000 * (n + 1)` is below `2^32` (for the start nonce
`2^32 - 1` the cursor starts at 0), the call number `n + 1` returns the batch of
the next 1000 nonces. -/
theorem consumeNextNonces_before_wrap (m0 : Miner) (s : Nat) (hs : s < 2 ^ 32) (n : Nat)
    (hn : (s + 1) % 2 ^ 32 + 1000 * n < 2 ^ 32) :
    ((m0.initNonces s).afterBatches n).currentNonce = (s + 1) % 2 ^ 32 + 1000 * n ∧
    ∀ k < n, (((m0.initNonces s).afterBatches k).consumeNextNonces MINING_NONCES_AT_ONCE).1 =
      ((s + 1) % 2 ^ 32 + 1000 * k, (s + 1) % 2 ^ 32 + 1000 * (k + 1)) := by
  induction n with
  | zero => exact ⟨rfl, fun k hk => absurd hk (Nat.not_lt_zero k)⟩
  | succ n ih =>
    obtain ⟨hcur, hprev⟩ := ih (by omega)
    have hstart := afterBatches_startNonce (m0.initNonces s) n
    have hs0 : (m0.initNonces s).startNonce = s := rfl
    have hstep : (((m0.initNonces s).afterBatches n).consumeNextNonces MINING_NONCES_AT_ONCE) =
        (((s + 1) % 2 ^ 32 + 1000 * n, (s + 1) % 2 ^ 32 + 1000 * (n + 1)),
          { ((m0.initNonces s).afterBatches n) with
            currentNonce := (s + 1) % 2 ^ 32 + 1000 * (n + 1) }) := by
      have hmod : ((s + 1) % 2 ^ 32 + 1000 * n + 1000) % 2 ^ 32
          = (s + 1) % 2 ^ 32 + 1000 * (n + 1) := by
        rw [Nat.mod_eq_of_lt (by omega)]
        ring
      have hcond : ¬ (s ≥ (s + 1) % 2 ^ 32 + 1000 * n ∧
          s < (s + 1) % 2 ^ 32 + 1000 * (n + 1)) := by
        rintro ⟨h1, h2⟩
        by_cases hmax : s + 1 < 2 ^ 32
        · rw [Nat.mod_eq_of_lt hmax] at h1
          omega
        · have : s + 1 = 2 ^ 32 := by omega
          rw [this, Nat.mod_self] at h2 hn
          omega
      simp only [Miner.consumeNextNonces, MINING_NONCES_AT_ONCE, hcur, hstart, hs0, hmod,
        if_neg hcond]
    refine ⟨?_, ?_⟩
    · simp only [Miner.afterBatches, hstep]
    · intro k hk
      rcases Nat.lt_succ_iff_lt_or_eq.1 hk with hk | rfl
      · exact hprev k hk
      · rw [hstep]

/-- For every start nonce the batch that crosses `2^32` comes back with
`upperBound < lowerBound`: after the full batches below `2^32`, the next call
is no exhaustion call, and the loop over its nonces is empty. -/
theorem consumeNextNonces_wrap_batch (m0 : Miner) (s : Nat) (hs : s < 2 ^ 32) :
    ∃ n lower upper,
      (∀ k < n, (((m0.initNonces s).afterBatches k).consumeNextNonces MINING_NONCES_AT_ONCE).1 =
        ((s + 1) % 2 ^ 32 + 1000 * k, (s + 1) % 2 ^ 32 + 1000 * (k + 1))) ∧
      (((m0.initNonces s).afterBatches n).consumeNextNonces MINING_NONCES_AT_ONCE).1
        = (lower, upper) ∧
      upper < lower ∧ Miner.batchNonces (lower, upper) = [] := by
  have hc0 : (s + 1) % 2 ^ 32 < 2 ^ 32 := Nat.mod_lt _ (by norm_num)
  -- the number of full batches below `2^32`
  obtain ⟨n, hn1, hn2⟩ : ∃ n, (s + 1) % 2 ^ 32 + 1000 * n < 2 ^ 32 ∧
      2 ^ 32 ≤ (s + 1) % 2 ^ 32 + 1000 * (n + 1) := by
    refine ⟨(2 ^ 32 - 1 - (s + 1) % 2 ^ 32) / 1000, ?_, ?_⟩
    · have := Nat.div_mul_le_self (2 ^ 32 - 1 - (s + 1) % 2 ^ 32) 1000
      omega
    · have := Nat.lt_div_mul_add (a := 2 ^ 32 - 1 - (s + 1) % 2 ^ 32) (b := 1000) (by norm_num)
      omega
  obtain ⟨hcur, hprev⟩ := consumeNextNonces_before_wrap m0 s hs n hn1
  have hstart := afterBatches_startNonce (m0.initNonces s) n
  have hs0 : (m0.initNonces s).startNonce = s := rfl
  have hmod : ((s + 1) % 2 ^ 32 + 1000 * n + 1000) % 2 ^ 32
      = (s + 1) % 2 ^ 32 + 1000 * n + 1000 - 2 ^ 32 := by
    rw [Nat.mod_eq_sub_mod (by omega), Nat.mod_eq_of_lt (by omega)]
  have hcond : ¬ (s ≥ (s + 1) % 2 ^ 32 + 1000 * n ∧
      s < (s + 1) % 2 ^ 32 + 1000 * n + 1000 - 2 ^ 32) := by
    rintro ⟨h1, h2⟩
    omega
  refine ⟨n, (s + 1) % 2 ^ 32 + 1000 * n, (s + 1) % 2 ^ 32 + 1000 * n + 1000 - 2 ^ 32,
    hprev, ?_, by omega, ?_⟩
  · simp only [Miner.consumeNextNonces, MINING_NONCES_AT_ONCE, hcur, hstart, hs0, hmod,
      if_neg hcond]
  · simp only [Miner.batchNonces]
    rw [show (s + 1) % 2 ^ 32 + 1000 * n + 1000 - 2 ^ 32 - ((s + 1) % 2 ^ 32 + 1000 * n) = 0
      by omega]
    rfl

/-- C24, evaluated on a failing input: with the start nonce `2^32 - 2` the
cursor starts at `2^32 - 1`, and the first call returns `lowerBound = 2^32 - 1`
and `upperBound = 999`. The call is no exhaustion call, `lowerBound <
upperBound` fails, and the mining loop visits none of the nonces `2^32 - 1`,
`0`, ..., `998` of the batch; the next call goes on with `[999, 1999)`. -/
theorem consumeNextNonces_wrap_first :
    (((⟨[], 0, 0, 0, false⟩ : Miner).initNonces 4294967294).consumeNextNonces
      MINING_NONCES_AT_ONCE).1 = (4294967295, 999) ∧
    Miner.batchNonces (4294967295, 999) = [] ∧
    ((((⟨[], 0, 0, 0, false⟩ : Miner).initNonces 4294967294).afterBatches
      1).consumeNextNonces MINING_NONCES_AT_ONCE).1 = (999, 1999) := by
  decide

end Bitvoting

namespace Bitvoting

/-! ## The Lagrange coefficients of `paillier_combining` -/

/-- The product of the divisors of the inner loop of `paillier_combining` is not
zero when the ids are pairwise distinct. -/
theorem lagrange_divisors_ne_zero (partDecr : List paillier_partialdecryption_proof_t)
    (t : ℕ) (hinj : ∀ j < t, ∀ j' < t, idAt partDecr j = idAt partDecr j' → j = j')
    (i : ℕ) (hi : i < t) (k : ℕ) (hk : k ≤ t) :
    ∏ j ∈ (Finset.range k).erase i, (idAt partDecr i - idAt partDecr j) ≠ 0 := by
  rw [Finset.prod_ne_zero_iff]
  intro j hj
  simp only [Finset.mem_erase, Finset.mem_range] at hj
  intro h0
  exact hj.1 (hinj j (by omega) i hi (by omega))

/-- The inner loop of `paillier_combining` returns the exact Lagrange
coefficient, and each of its divisions leaves no remainder. -/
theorem paillier_combining_lambda_exact_aux (pub : paillier_pubkey_t)
    (partDecr : List paillier_partialdecryption_proof_t)
    (hdelta : pub.delta = ((Nat.factorial pub.decryptServers : ℕ) : ℤ))
    (hlen : partDecr.length = pub.threshold)
    (hr : ∀ j < pub.threshold, 1 ≤ idAt partDecr j ∧ idAt partDecr j ≤ pub.decryptServers)
    (hinj : ∀ j < pub.threshold, ∀ j' < pub.threshold,
      idAt partDecr j = idAt partDecr j' → j = j')
    (i : ℕ) (hi : i < pub.threshold) :
    (∃ lam : ℤ, paillier_combining_lambda pub partDecr i = some lam ∧
      (lam : ℚ) = (pub.delta : ℚ) * ∏ j ∈ (Finset.range pub.threshold).erase i,
        ((-(idAt partDecr j) : ℚ) / ((idAt partDecr i : ℚ) - (idAt partDecr j : ℚ)))) ∧
    ∀ k < pub.threshold, k ≠ i →
      ∃ A A' : ℤ, (List.range k).foldlM (paillier_combining_step partDecr i) pub.delta = some A ∧
        paillier_combining_step partDecr i A k = some A' ∧
        A' * (idAt partDecr i - idAt partDecr k) = A * (-(idAt partDecr k)) := by
  constructor
  · obtain ⟨lam, h1, h2⟩ := paillier_combining_lambda_loop pub partDecr hdelta hlen hr hinj i hi
      pub.threshold le_rfl
    refine ⟨lam, h1, ?_⟩
    have hD := lagrange_divisors_ne_zero partDecr pub.threshold hinj i hi pub.threshold le_rfl
    have hDq : (∏ j ∈ (Finset.range pub.threshold).erase i,
        ((idAt partDecr i : ℚ) - (idAt partDecr j : ℚ))) ≠ 0 := by
      have : ((∏ j ∈ (Finset.range pub.threshold).erase i,
          (idAt partDecr i - idAt partDecr j) : ℤ) : ℚ) ≠ 0 := by exact_mod_cast hD
      simpa using this
    have h2q : (lam : ℚ) * ∏ j ∈ (Finset.range pub.threshold).erase i,
        ((idAt partDecr i : ℚ) - (idAt partDecr j : ℚ)) =
        (pub.delta : ℚ) * ∏ j ∈ (Finset.range pub.threshold).erase i,
          (-(idAt partDecr j) : ℚ) := by
      have := congrArg (fun z : ℤ => (z : ℚ)) h2
      simpa using this
    rw [Finset.prod_div_distrib, ← mul_div_assoc, eq_div_iff hDq]
    exact h2q
  · intro k hk hki
    obtain ⟨A, hA, hinvA⟩ := paillier_combining_lambda_loop pub partDecr hdelta hlen hr hinj i hi
      k (by omega)
    obtain ⟨A', hA', hinvA'⟩ := paillier_combining_lambda_loop pub partDecr hdelta hlen hr hinj
      i hi (k + 1) (by omega)
    rw [List.range_succ, List.foldlM_append, hA] at hA'
    have hstep : paillier_combining_step partDecr i A k = some A' := by
      simpa using hA'
    refine ⟨A, A', hA, hstep, ?_⟩
    have hset : (Finset.range (k + 1)).erase i = insert k ((Finset.range k).erase i) := by
      ext j; simp only [Finset.mem_erase, Finset.mem_range, Finset.mem_insert]; omega
    have hknot : k ∉ (Finset.range k).erase i := by simp
    rw [hset, Finset.prod_insert hknot, Finset.prod_insert hknot] at hinvA'
    have hD := lagrange_divisors_ne_zero partDecr pub.threshold hinj i hi k (by omega)
    apply mul_right_cancel₀ hD
    calc A' * (idAt partDecr i - idAt partDecr k) *
          ∏ j ∈ (Finset.range k).erase i, (idAt partDecr i - idAt partDecr j)
        = A' * ((idAt partDecr i - idAt partDecr k) *
          ∏ j ∈ (Finset.range k).erase i, (idAt partDecr i - idAt partDecr j)) := by ring
      _ = pub.delta * (-(idAt partDecr k) *
          ∏ j ∈ (Finset.range k).erase i, (-(idAt partDecr j))) := hinvA'
      _ = (pub.delta * ∏ j ∈ (Finset.range k).erase i, (-(idAt partDecr j))) *
          (-(idAt partDecr k)) := by ring
      _ = (A * ∏ j ∈ (Finset.range k).erase i, (idAt partDecr i - idAt partDecr j)) *
          (-(idAt partDecr k)) := by rw [hinvA]
      _ = A * (-(idAt partDecr k)) *
          ∏ j ∈ (Finset.range k).erase i, (idAt partDecr i - idAt partDecr j) := by ring

/-- C25 (integer Lagrange coefficients): for `delta = l!` and `threshold`
partial decryptions with pairwise distinct ids in `1..l`, the inner loop of
`paillier_combining` for position `i` returns the integer `lambda` that equals
the rational `delta * prod_{j != i} (-id_j)/(id_i - id_j)`; and at every round
`k != i` the truncating division is exact: the new value times `id_i - id_k`
is the old value times `-id_k`. -/
theorem paillier_combining_lambda_exact (pub : paillier_pubkey_t)
    (partDecr : List paillier_partialdecryption_proof_t)
    (hdelta : pub.delta = ((Nat.factorial pub.decryptServers : ℕ) : ℤ))
    (hlen : partDecr.length = pub.threshold)
    (hr : ∀ j < pub.threshold, 1 ≤ idAt partDecr j ∧ idAt partDecr j ≤ pub.decryptServers)
    (hinj : ∀ j < pub.threshold, ∀ j' < pub.threshold,
      idAt partDecr j = idAt partDecr j' → j = j')
    (i : ℕ) (hi : i < pub.threshold) :
    (∃ lam : ℤ, paillier_combining_lambda pub partDecr i = some lam ∧
      (lam : ℚ) = (pub.delta : ℚ) * ∏ j ∈ (Finset.range pub.threshold).erase i,
        ((-(idAt partDecr j) : ℚ) / ((idAt partDecr i : ℚ) - (idAt partDecr j : ℚ)))) ∧
    ∀ k < pub.threshold, k ≠ i →
      ∃ A A' : ℤ, (List.range k).foldlM (paillier_combining_step partDecr i) pub.delta = some A ∧
        paillier_combining_step partDecr i A k = some A' ∧
        A' * (idAt partDecr i - idAt partDecr k) = A * (-(idAt partDecr k)) :=
  paillier_combining_lambda_exact_aux pub partDecr hdelta hlen hr hinj i hi

end Bitvoting

namespace Bitvoting

/-! ## Verification depends on the local election records -/

set_option maxRecDepth 100000 in
/-- C27, evaluated on a failing input: two peers hold the same chain `toyDB1`
with the election 105 and both processed the election transaction; the peer
with the key of voter 5 saved a record for the election, the peer with a mining
key only did not. The vote of voter 5 verifies with `VR_OK` on the first peer
and with `VR_USER_REJECTED` on the second, and the block `toyB2` holding the
vote is accepted by the first peer and rejected by the second. -/
theorem verify_depends_on_peer :
    ((Controller.processTxElection toyP toyVoterStore (fun _ => none) toyElectionTx) 105).isSome
      = true ∧
    ((Controller.processTxElection toyP toyMinerStore (fun _ => none) toyElectionTx) 105).isSome
      = false ∧
    toyVoteTx.verify toyP toyDB1
      (Controller.processTxElection toyP toyVoterStore (fun _ => none) toyElectionTx) = .VR_OK ∧
    toyVoteTx.verify toyP toyDB1
      (Controller.processTxElection toyP toyMinerStore (fun _ => none) toyElectionTx)
        = .VR_USER_REJECTED ∧
    (Controller.receiveBlock toyP toyDB1
      (Controller.processTxElection toyP toyVoterStore (fun _ => none) toyElectionTx)
      10 toyB2).accepted = true ∧
    (Controller.receiveBlock toyP toyDB1
      (Controller.processTxElection toyP toyMinerStore (fun _ => none) toyElectionTx)
      10 toyB2).accepted = false := by
  refine ⟨by decide, by decide, by decide, by decide, by decide, by decide⟩

end Bitvoting

namespace Bitvoting

/-! ## What the proof of a partial decryption covers -/

/-- The verification of a partial decryption does not read its `decryption`
field. -/
theorem paillier_verify_decryption_ignores_decryption (H : List Int → Nat)
    (pub : paillier_pubkey_t) (p : paillier_partialdecryption_proof_t) (d : Int) :
    paillier_verify_decryption H pub { p with decryption := d } =
      paillier_verify_decryption H pub p := rfl

theorem toyPartial_accepted :
    paillier_verify_decryption (fun _ => 5) toyPub toyPartial = some true := by
  obtain ⟨proof, h1, h2⟩ := paillier_dec_proof_complete_aux (fun _ => 5) toyPub ⟨2, 1⟩ ⟨36⟩ 3
    ⟨2, 16⟩ (by decide) (by decide) (by decide) (by decide) (by decide) (by decide)
    (by decide) (by decide) (by decide)
  have h3 : paillier_dec_proof (fun _ => 5) toyPub ⟨2, 1⟩ ⟨36⟩ 3 = some toyPartial := by
    decide
  rw [h3] at h1
  cases h1
  exact h2

/-- C28, evaluated on a failing input: the partial decryption of server 2 with
the `decryption` field replaced by 1 is accepted by
`paillier_verify_decryption`, yet its `ci2 = 281` is not `decryption^2 mod n^2
= 1`; `paillier_combining` raises the `decryption` field, which the proof does
not cover. -/
theorem verify_decryption_unbound :
    paillier_verify_decryption (fun _ => 5) toyPub toyForgedPartial = some true ∧
    toyForgedPartial.ci2 = 281 ∧
    toyForgedPartial.decryption ^ 2 % toyPub.n_squared = 1 ∧
    toyForgedPartial.ci2 ≠ toyForgedPartial.decryption ^ 2 % toyPub.n_squared :=
  ⟨(paillier_verify_decryption_ignores_decryption (fun _ => 5) toyPub toyPartial 1).trans
    toyPartial_accepted, by decide, by decide, by decide⟩

/-! ## Server ids at tally time -/

theorem toyPartialB_accepted :
    paillier_verify_decryption (fun _ => 5) toyPub toyPartialB = some true := by
  obtain ⟨proof, h1, h2⟩ := paillier_dec_proof_complete_aux (fun _ => 5) toyPub ⟨2, 1⟩ ⟨36⟩ 4
    ⟨2, 16⟩ (by decide) (by decide) (by decide) (by decide) (by decide) (by decide)
    (by decide) (by decide) (by decide)
  have h3 : paillier_dec_proof (fun _ => 5) toyPub ⟨2, 1⟩ ⟨36⟩ 4 = some toyPartialB := by
    decide
  rw [h3] at h1
  cases h1
  exact h2

/-- The sorting loop of `tally` on the two partial decryptions of server 2:
both are accepted and kept. -/
theorem toy_tallySort_both :
    [(⟨11, some toyPartial⟩ : TalliedBallots), ⟨11, some toyPartialB⟩].foldlM
      (ElectionManager.tallySort (fun _ => 5) toyPub) []
      = some [(11, [toyPartial, toyPartialB])] := by
  have h1 : ElectionManager.tallySort (fun _ => 5) toyPub [] ⟨11, some toyPartial⟩
      = some [(11, [toyPartial])] := by
    simp only [ElectionManager.tallySort, toyPartial_accepted]
    decide
  have h2 : ElectionManager.tallySort (fun _ => 5) toyPub [(11, [toyPartial])]
      ⟨11, some toyPartialB⟩ = some [(11, [toyPartial, toyPartialB])] := by
    simp only [ElectionManager.tallySort, toyPartialB_accepted]
    decide
  simp only [List.foldlM_cons, List.foldlM_nil, h1, h2, Option.bind_eq_bind, Option.some_bind,
    Option.pure_def]

set_option maxRecDepth 100000 in
/-- C29, evaluated on failing inputs: the two trustee tallies of trustee 9 in
`toyB6` both pass `TxTrusteeTally::verify`; their partial decryptions for
question 11 are those `paillier_dec_proof` builds for server 2 with the random
values 3 and 4, so both carry the server id 2 and both are accepted by
`paillier_verify_decryption`; `tally` hands them to `paillier_combining`,
which divides by `id_0 - id_1 = 0`: no value is returned. The trustee tally in
`toyB7` passes `TxTrusteeTally::verify` with the server id 0, and `tally` calls
`paillier_verify_decryption`, which reads `verificationKeys[-1]`: no value is
returned. -/
theorem tally_ids_unchecked :
    toyTrusteeTallyA.verify toyP6 toyDB6 toyElections = .VR_OK ∧
    toyTrusteeTallyB.verify toyP6 toyDB6 toyElections = .VR_OK ∧
    paillier_dec_proof (fun _ => 5) toyPub ⟨2, 1⟩ ⟨36⟩ 3 = some toyPartial ∧
    paillier_dec_proof (fun _ => 5) toyPub ⟨2, 1⟩ ⟨36⟩ 4 = some toyPartialB ∧
    toyPartial.id = toyPartialB.id ∧
    ElectionManager.tallyGather toyP6 toyDB6 [13808, 14808] =
      some [⟨11, some toyPartial⟩, ⟨11, some toyPartialB⟩] ∧
    paillier_verify_decryption (fun _ => 5) toyPub toyPartial = some true ∧
    paillier_verify_decryption (fun _ => 5) toyPub toyPartialB = some true ∧
    paillier_combining toyPub [toyPartial, toyPartialB] = none ∧
    (ElectionManager.tally toyP6 (fun _ => 5) toyDB6 toyManager6 408).isNone = true ∧
    toyTrusteeTallyC.verify toyP6 toyDB7 toyElections = .VR_OK ∧
    toyPartialC.id = 0 ∧
    ElectionManager.tallyGather toyP6 toyDB7 [808] = some [⟨11, some toyPartialC⟩] ∧
    paillier_verify_decryption (fun _ => 5) toyPub toyPartialC = none ∧
    (ElectionManager.tally toyP6 (fun _ => 5) toyDB7 toyManager7 408).isNone = true := by
  have hreg : stdMapFind? toyManager6.tallies 408 = some [13808, 14808] := by decide
  have hgather : ElectionManager.tallyGather toyP6 toyDB6 [13808, 14808] =
      some [⟨11, some toyPartial⟩, ⟨11, some toyPartialB⟩] := by decide
  have hkey : toyManager6.election.bind (fun e => e.encPubKey) = some toyPub := by decide
  have htally : (ElectionManager.tally toyP6 (fun _ => 5) toyDB6 toyManager6 408).isNone
      = true := by
    simp only [ElectionManager.tally, hreg, hgather, hkey, toy_tallySort_both]
    decide
  refine ⟨by decide, by decide, by decide, by decide, by decide, hgather, toyPartial_accepted,
    toyPartialB_accepted, by decide, htally, by decide, by decide, by decide, by decide,
    by decide⟩

set_option maxRecDepth 100000 in
/-- C14, evaluated on a failing input: `receiveBlock` accepts the block `toyB6`
with the two trustee tallies of trustee 9 for the tally request 408, so two
trustee tallies (the threshold of the key) are registered for 408 and no result
is recorded yet. The election has the one question 11; both partial
decryptions for it pass `paillier_verify_decryption`, so the sorting loop
collects 2 accepted partial decryptions for question 11 and no question has
fewer than the threshold. `tally` neither returns true nor records a result:
`paillier_combining` divides by the difference of the two equal server ids and
no value is returned. -/
theorem tally_no_result_with_threshold_partials :
    toyTrusteeTallyA.verify toyP6 toyDB3 toyElections = .VR_OK ∧
    toyTrusteeTallyB.verify toyP6 toyDB3 toyElections = .VR_OK ∧
    (Controller.receiveBlock toyP6 toyDB3 toyElections 10 toyB6).accepted = true ∧
    (Controller.receiveBlock toyP6 toyDB3 toyElections 10 toyB6).db = toyDB6 ∧
    toyB6.transactions = [toyTrusteeTallyA, toyTrusteeTallyB] ∧
    stdMapFind? toyManager6.tallies 408
      = some [toyTrusteeTallyA.getHash toyP6, toyTrusteeTallyB.getHash toyP6] ∧
    stdMapFind? toyManager6.results 408 = none ∧
    toyManager6.election.map (fun e => (e.questions.map (fun q => q.id),
      e.encPubKey.map (fun k => k.threshold))) = some ([11], some 2) ∧
    toyManager6.election.bind (fun e => e.encPubKey) = some toyPub ∧
    ElectionManager.tallyGather toyP6 toyDB6 [13808, 14808] =
      some [⟨11, some toyPartial⟩, ⟨11, some toyPartialB⟩] ∧
    paillier_verify_decryption (fun _ => 5) toyPub toyPartial = some true ∧
    paillier_verify_decryption (fun _ => 5) toyPub toyPartialB = some true ∧
    [(⟨11, some toyPartial⟩ : TalliedBallots), ⟨11, some toyPartialB⟩].foldlM
      (ElectionManager.tallySort (fun _ => 5) toyPub) []
      = some [(11, [toyPartial, toyPartialB])] ∧
    (ElectionManager.tally toyP6 (fun _ => 5) toyDB6 toyManager6 408).isNone = true := by
  have hreg : stdMapFind? toyManager6.tallies 408 = some [13808, 14808] := by decide
  have hgather : ElectionManager.tallyGather toyP6 toyDB6 [13808, 14808] =
      some [⟨11, some toyPartial⟩, ⟨11, some toyPartialB⟩] := by decide
  have hkey : toyManager6.election.bind (fun e => e.encPubKey) = some toyPub := by decide
  have htally : (ElectionManager.tally toyP6 (fun _ => 5) toyDB6 toyManager6 408).isNone
      = true := by
    simp only [ElectionManager.tally, hreg, hgather, hkey, toy_tallySort_both]
    decide
  refine ⟨by decide, by decide, by decide, by rfl, rfl, by decide, by decide, by decide, hkey,
    hgather, toyPartial_accepted, toyPartialB_accepted, toy_tallySort_both, htally⟩

/-! ## The input of the Fiat-Shamir hash -/

theorem digitChar_inj16 :
    ∀ a < 16, ∀ b < 16, Nat.digitChar a = Nat.digitChar b → a = b := by
  decide

theorem toDigitsCore_eq (n : Nat) : ∀ (fuel : Nat) (ds : List Char), n < fuel →
    Nat.toDigitsCore 16 fuel n ds = Nat.toDigits 16 n ++ ds := by
  induction n using Nat.strong_induction_on with
  | _ n ih =>
    intro fuel ds hf
    obtain ⟨f, rfl⟩ : ∃ f, fuel = f + 1 := ⟨fuel - 1, by omega⟩
    unfold Nat.toDigits
    simp only [Nat.toDigitsCore]
    by_cases h0 : n / 16 = 0
    · simp [h0]
    · simp only [h0, if_false]
      have hlt : n / 16 < n := Nat.div_lt_self (by omega) (by norm_num)
      rw [ih (n / 16) hlt f _ (by omega), ih (n / 16) hlt n _ hlt]
      simp

theorem toDigits_step (n : Nat) :
    Nat.toDigits 16 n = if n / 16 = 0 then [Nat.digitChar (n % 16)]
      else Nat.toDigits 16 (n / 16) ++ [Nat.digitChar (n % 16)] := by
  conv_lhs => unfold Nat.toDigits
  simp only [Nat.toDigitsCore]
  split_ifs with h
  · rfl
  · exact toDigitsCore_eq (n / 16) n _ (Nat.div_lt_self (by omega) (by norm_num))

theorem toDigits_ne_nil (n : Nat) : Nat.toDigits 16 n ≠ [] := by
  rw [toDigits_step]
  split_ifs <;> simp

theorem toDigits_inj : ∀ n m : Nat, Nat.toDigits 16 n = Nat.toDigits 16 m → n = m := by
  intro n
  induction n using Nat.strong_induction_on with
  | _ n ih =>
    intro m h
    rw [toDigits_step n, toDigits_step m] at h
    have hdn := Nat.div_add_mod n 16
    have hdm := Nat.div_add_mod m 16
    by_cases hn : n / 16 = 0 <;> by_cases hm : m / 16 = 0
    · rw [if_pos hn, if_pos hm] at h
      have := digitChar_inj16 _ (Nat.mod_lt n (by norm_num)) _ (Nat.mod_lt m (by norm_num))
        (List.singleton_inj.mp h)
      omega
    · rw [if_pos hn, if_neg hm] at h
      have hl := congrArg List.length h
      have hne := toDigits_ne_nil (m / 16)
      have : 0 < (Nat.toDigits 16 (m / 16)).length := List.length_pos.mpr hne
      simp only [List.length_singleton, List.length_append] at hl
      omega
    · rw [if_neg hn, if_pos hm] at h
      have hl := congrArg List.length h
      have hne := toDigits_ne_nil (n / 16)
      have : 0 < (Nat.toDigits 16 (n / 16)).length := List.length_pos.mpr hne
      simp only [List.length_singleton, List.length_append] at hl
      omega
    · rw [if_neg hn, if_neg hm] at h
      obtain ⟨h1, h2⟩ := List.append_inj' h rfl
      have hlt : n / 16 < n := Nat.div_lt_self (by omega) (by norm_num)
      have hq := ih (n / 16) hlt (m / 16) h1
      have := digitChar_inj16 _ (Nat.mod_lt n (by norm_num)) _ (Nat.mod_lt m (by norm_num))
        (List.singleton_inj.mp h2)
      omega

theorem mpz_get_str16_inj (x y : Int) (hx : 0 ≤ x) (hy : 0 ≤ y)
    (h : mpz_get_str16 x = mpz_get_str16 y) : x = y := by
  unfold mpz_get_str16 at h
  rw [if_neg (not_lt.mpr hx), if_neg (not_lt.mpr hy)] at h
  have := toDigits_inj _ _ h
  omega

theorem foldl_append_eq (l : List (List Char)) :
    ∀ acc : List Char, l.foldl (fun concat c => concat ++ c) acc = acc ++ l.flatten := by
  induction l with
  | nil => intro acc; simp
  | cons a l ih => intro acc; simp [ih]

theorem hashMultiple_concat_eq (vec : List Int) :
    hashMultiple_concat vec = (vec.map mpz_get_str16).flatten ++ [Char.ofNat 0] := by
  simp [hashMultiple_concat, foldl_append_eq]

theorem join_str16_inj : ∀ (xs ys : List Int), (∀ x ∈ xs, 0 ≤ x) → (∀ y ∈ ys, 0 ≤ y) →
    xs.map (fun x => (mpz_get_str16 x).length) = ys.map (fun y => (mpz_get_str16 y).length) →
    (xs.map mpz_get_str16).flatten = (ys.map mpz_get_str16).flatten → xs = ys := by
  intro xs
  induction xs with
  | nil =>
    intro ys _ _ hl _
    cases ys with
    | nil => rfl
    | cons y ys => simp at hl
  | cons x xs ih =>
    intro ys hx hy hl h
    cases ys with
    | nil => simp at hl
    | cons y ys =>
      simp only [List.map_cons, List.cons.injEq] at hl
      simp only [List.map_cons, List.flatten_cons] at h
      obtain ⟨h1, h2⟩ := List.append_inj h hl.1
      have hxy := mpz_get_str16_inj x y (hx x (List.mem_cons_self _ _))
        (hy y (List.mem_cons_self _ _)) h1
      have := ih ys (fun z hz => hx z (List.mem_cons_of_mem _ hz))
        (fun z hz => hy z (List.mem_cons_of_mem _ hz)) hl.2 h2
      rw [hxy, this]

/-- C30 (as stated, refuted): the lists `[0x1, 0x23, 5, 6]` and
`[0x12, 0x3, 5, 6]` of four non-negative integers (the number `hash4` passes)
differ, and so do `[0x1, 0x23, 5, 6, 7]` and `[0x12, 0x3, 5, 6, 7]` of five (the
number the encryption proof passes); `hashMultiple` feeds the same bytes to the
hash for both lists of each pair. -/
theorem hashMultiple_concat_collision :
    ([1, 35, 5, 6] : List Int).length = ([18, 3, 5, 6] : List Int).length ∧
    (∀ x ∈ ([1, 35, 5, 6] : List Int), 0 ≤ x) ∧ (∀ y ∈ ([18, 3, 5, 6] : List Int), 0 ≤ y) ∧
    ([1, 35, 5, 6] : List Int) ≠ [18, 3, 5, 6] ∧
    hashMultiple_concat [1, 35, 5, 6] = hashMultiple_concat [18, 3, 5, 6] ∧
    hashMultiple_concat [1, 35, 5, 6] = ['1', '2', '3', '5', '6', Char.ofNat 0] ∧
    ([1, 35, 5, 6, 7] : List Int).length = ([18, 3, 5, 6, 7] : List Int).length ∧
    (∀ x ∈ ([1, 35, 5, 6, 7] : List Int), 0 ≤ x) ∧
    (∀ y ∈ ([18, 3, 5, 6, 7] : List Int), 0 ≤ y) ∧
    ([1, 35, 5, 6, 7] : List Int) ≠ [18, 3, 5, 6, 7] ∧
    hashMultiple_concat [1, 35, 5, 6, 7] = hashMultiple_concat [18, 3, 5, 6, 7] := by
  refine ⟨by decide, by decide, by decide, by decide, by decide, by decide, by decide,
    by decide, by decide, by decide, by decide⟩

/-- C30 (amended): the bytes `hashMultiple` feeds to the hash are the base-16
renderings one after the other, without a separator, and the terminator. For
lists `xs` and `ys` of non-negative integers of the same length whose entries
at each position have renderings with the same number of digits, equal bytes
give `xs = ys`. -/
theorem hashMultiple_concat_injective (xs ys : List Int)
    (hx : ∀ x ∈ xs, 0 ≤ x) (hy : ∀ y ∈ ys, 0 ≤ y)
    (hlen : xs.map (fun x => (mpz_get_str16 x).length)
      = ys.map (fun y => (mpz_get_str16 y).length))
    (h : hashMultiple_concat xs = hashMultiple_concat ys) : xs = ys := by
  rw [hashMultiple_concat_eq, hashMultiple_concat_eq] at h
  exact join_str16_inj xs ys hx hy hlen (List.append_cancel_right h)

theorem hashMultiple_concat_injective_witness :
    hashMultiple_concat [1, 35, 5, 6] = hashMultiple_concat [1, 35, 5, 6] ∧
    ([1, 35, 5, 6] : List Int) = [1, 35, 5, 6] :=
  ⟨rfl, (hashMultiple_concat_injective [1, 35, 5, 6] [1, 35, 5, 6] (by decide) (by decide)
    (by decide) rfl)⟩

end Bitvoting

namespace Bitvoting

theorem paillier_combining_lambda_exact_witness :
    ∃ lam : ℤ, paillier_combining_lambda toyPub
        [⟨2, 1031, 0, 0, 0, 0⟩, ⟨1, 711, 0, 0, 0, 0⟩] 0 = some lam ∧
      (lam : ℚ) = (toyPub.delta : ℚ) * ∏ j ∈ (Finset.range toyPub.threshold).erase 0,
        ((-(idAt [⟨2, 1031, 0, 0, 0, 0⟩, ⟨1, 711, 0, 0, 0, 0⟩] j) : ℚ) /
          ((idAt [⟨2, 1031, 0, 0, 0, 0⟩, ⟨1, 711, 0, 0, 0, 0⟩] 0 : ℚ) -
            (idAt [⟨2, 1031, 0, 0, 0, 0⟩, ⟨1, 711, 0, 0, 0, 0⟩] j : ℚ))) :=
  (paillier_combining_lambda_exact toyPub [⟨2, 1031, 0, 0, 0, 0⟩, ⟨1, 711, 0, 0, 0, 0⟩]
    (by decide) (by decide) (by decide) (by decide) 0 (by decide)).1

theorem ballot_set_order_witness :
    stdSetOfRange EncryptedBallot.lt [⟨12, some ⟨5, 1, 0, 1, 0, 1⟩⟩, ⟨11, some ⟨5, 1, 0, 1, 1, 1⟩⟩]
      = stdSetOfRange EncryptedBallot.lt
        [⟨11, some ⟨5, 1, 0, 1, 1, 1⟩⟩, ⟨12, some ⟨5, 1, 0, 1, 0, 1⟩⟩] ∧
    stdSetOfRange TalliedBallots.lt [⟨11, some toyPartialB⟩, ⟨11, some toyPartial⟩]
      = stdSetOfRange TalliedBallots.lt [⟨11, some toyPartial⟩, ⟨11, some toyPartialB⟩] :=
  have h := ballot_set_order ⟨11, some ⟨5, 1, 0, 1, 1, 1⟩⟩ ⟨12, some ⟨5, 1, 0, 1, 0, 1⟩⟩
    ⟨12, some ⟨5, 1, 0, 1, 1, 1⟩⟩
    [⟨11, some ⟨5, 1, 0, 1, 1, 1⟩⟩, ⟨12, some ⟨5, 1, 0, 1, 0, 1⟩⟩]
    [⟨12, some ⟨5, 1, 0, 1, 0, 1⟩⟩, ⟨11, some ⟨5, 1, 0, 1, 1, 1⟩⟩]
    ⟨11, some toyPartial⟩ ⟨11, some toyPartialB⟩ ⟨12, some toyPartial⟩
    [⟨11, some toyPartial⟩, ⟨11, some toyPartialB⟩]
    [⟨11, some toyPartialB⟩, ⟨11, some toyPartial⟩]
    (by decide) (by decide) (by decide) (by decide) (by decide)
    (by decide) (by decide) (by decide) (by decide) (by decide)
  ⟨h.1.2.2.2.2.2.2.1, h.2.2.2.2.2.2.2.1⟩

end Bitvoting

namespace Bitvoting

/-! ## Transactions whose archived type differs from their class -/

set_option maxRecDepth 100000 in
/-- C18, evaluated on a failing input: the block `toyB8`, accepted by
`receiveBlock` on `toyDB1`, holds one transaction, a `TxVote` of voter 5 for
the election 105 that passes `TxVote::verify` and whose archived type is
`TX_TALLY`. The tally request `toyTally8Tx` is signed correctly with the key of
the election transaction, its election hash resolves to the `TxElection` and
its `lastBlock` is the stored block `toyB8`; `TxTally::verify` returns
`VR_LAST_VOTES`. -/
theorem TxTally_verify_forged_vote_tag :
    toyForgedVoteTx.verify toyP8 toyDB1 toyElections = .VR_OK ∧
    (Controller.receiveBlock toyP8 toyDB1 toyElections 10 toyB8).accepted = true ∧
    (Controller.receiveBlock toyP8 toyDB1 toyElections 10 toyB8).db = toyDB8 ∧
    toyTally8Tx.body = .tally 105 9 false ∧
    toyTally8Tx.verifySignature toyP8 = true ∧
    toyDB8.getTransaction toyP8 105 = (.BC_OK, some toyElectionTx) ∧
    toyElectionTx.body = .election toyElection ∧
    toyDB8.getBlock toyP8 9 = (.BC_OK, some toyB8) ∧
    toyB8.transactions = [toyForgedVoteTx] ∧
    toyForgedVoteTx.body = .vote 105 [⟨11, some toyOtherCipher⟩] ∧
    toyForgedVoteTx.getType = TxType.TX_TALLY ∧
    toyElectionTx.verificationKey = toyTally8Tx.verificationKey ∧
    toyTally8Tx.verify toyP8 toyDB8 toyElections = .VR_LAST_VOTES := by
  refine ⟨by decide, by decide, by rfl, rfl, by decide, by decide, rfl, by decide, rfl, rfl,
    rfl, rfl, by decide⟩

set_option maxRecDepth 100000 in
/-- C16, evaluated on a failing input: the queue holds the vote `toyVoteTx`
(object 2) and then `toyForgedVoteTx` (object 5). Both are `TxVote` objects of
the same signer for the same election with different hashes, both pass
`verify` and are queued by `addTransaction`; the second carries the archived
type `TX_TALLY`. `getTransactionsForBlock` selects both. -/
theorem getTransactionsForBlock_forged_tag :
    (toyHeap2 2).body = .vote 105 [⟨11, some toyBadCipher⟩] ∧
    (toyHeap2 5).body = .vote 105 [⟨11, some toyOtherCipher⟩] ∧
    (toyHeap2 2).verificationKey = (toyHeap2 5).verificationKey ∧
    (toyHeap2 2).getHash toyP ≠ (toyHeap2 5).getHash toyP ∧
    (toyHeap2 5).getType = TxType.TX_TALLY ∧
    MiningManager.addTransaction toyP toyDB1 toyElections toyHeap2 [] 2 true
      = (.MINING_OK, [2]) ∧
    MiningManager.addTransaction toyP toyDB1 toyElections toyHeap2 [2] 5 true
      = (.MINING_OK, [2, 5]) ∧
    MiningManager.getTransactionsForBlock toyP toyHeap2 [2, 5] []
      = some (true, [], [2, 5]) := by
  refine ⟨rfl, rfl, rfl, by decide, rfl, by decide, by decide, by decide⟩

end Bitvoting
